import Mathlib

/-! Trade-history archive, gap detection and income statistics.

A shallow embedding of the data functions of `poe-trade-history-enhancer.user.js`
(normalisation of raw feed entries, trade keys, the per-league archive with its
merge and gap detection, and the income aggregation), followed by theorems about
them.

Conventions of the embedding.

* JavaScript values are represented by `JVal`.  A finite number is represented
  by its exact rational value.  The arithmetic of the income statistics is the
  arithmetic of IEEE doubles (`Num`): every operation rounds its exact result to
  the nearest double, and a result too large for a double is an infinity.
* Built-in functions of the JavaScript platform whose behaviour depends on the
  engine, the locale or large tables (`Date.parse`, number printing, case
  mapping, `encodeURIComponent`, `atob`, the regular-expression engine, the local
  calendar, `localeCompare`) are fields of an environment `Env`.  Every theorem
  holds for every environment unless it states an assumption on it.
* A thrown `TypeError` is the result `none`.
* `localStorage` holds one slot per league; a slot is represented by the value
  that `JSON.parse` yields for it.
-/

namespace PoeTrade

/-! ## JavaScript values -/

/-- A JavaScript value as far as the code inspects it.  `num` is a finite number,
`inf` is plus or minus infinity, `obj` is any object or array and carries the
text that string conversion gives for it. -/
inductive JVal where
  | undefined
  | null
  | bool (b : Bool)
  | num (q : ℚ)
  | nan
  | inf (negative : Bool)
  | str (s : String)
  | obj (text : String)
  deriving DecidableEq

/-- The platform functions the code calls. -/
structure Env where
  /-- `Date.parse` on a string; `none` stands for `NaN`. -/
  dateParse : String → Option Int
  /-- String conversion of a finite number. -/
  numToString : ℚ → String
  /-- `Number(s)` for a string; `none` when the result is not finite. -/
  stringToNumber : String → Option ℚ
  /-- `encodeURIComponent`. -/
  encodeURIComponent : String → String
  /-- `String.prototype.toLowerCase`. -/
  toLowerCase : String → String
  /-- `String.prototype.toUpperCase`. -/
  toUpperCase : String → String
  /-- Base64 decoding (`atob`, or `Buffer.from` under Node); `none` when it throws. -/
  atob : String → Option String
  /-- First capture group of the first match of `/^Item Class:\s*(.+)\s*$/m`. -/
  matchItemClass : String → Option String
  /-- `getFullYear` of a valid date (time value in ms), in local time. -/
  getFullYear : Int → Int
  /-- `getMonth` of a valid date, in local time (0 to 11). -/
  getMonth : Int → Int
  /-- `getDate` of a valid date, in local time (1 to 31). -/
  getDate : Int → Int
  /-- `getDay` of a valid date, in local time (0 is Sunday). -/
  getDay : Int → Int
  /-- Time value after `setHours(0, 0, 0, 0)`; `none` when it leaves the valid range. -/
  setHoursZero : Int → Option Int
  /-- Time value after `setDate(n)`; `none` when it leaves the valid range. -/
  setDate : Int → Int → Option Int
  /-- `new Date(ms).toLocaleString()` of a valid date. -/
  toLocaleString : Int → String
  /-- `a.localeCompare(b)`. -/
  localeCompare : String → String → Int

namespace JVal

/-- JavaScript truthiness (`!!v`). -/
def truthy : JVal → Bool
  | undefined => false
  | null => false
  | bool b => b
  | num q => decide (q ≠ 0)
  | nan => false
  | inf _ => true
  | str s => decide (s ≠ "")
  | obj _ => true

/-- String conversion (`String(v)`, also used by template literals). -/
def toStr (env : Env) : JVal → String
  | undefined => "undefined"
  | null => "null"
  | bool b => if b then "true" else "false"
  | num q => env.numToString q
  | nan => "NaN"
  | inf negative => if negative then "-Infinity" else "Infinity"
  | str s => s
  | obj text => text

/-- The test `v == null`: true for `null` and `undefined` only. -/
def isNullish : JVal → Bool
  | undefined => true
  | null => true
  | _ => false

/-- The test `typeof v === "string"`. -/
def isString : JVal → Bool
  | str _ => true
  | _ => false

/-- The test `Number.isFinite(v)`: a number that is neither `NaN` nor infinite. -/
def isFiniteNumber : JVal → Bool
  | num _ => true
  | _ => false

/-- The value `v ?? null`. -/
def orNull : JVal → JVal
  | undefined => null
  | v => v

/-- What `JSON.parse(JSON.stringify(v))` gives for a value stored in an object
field: `NaN` and the infinities are written as `null`, an absent field stays
absent, everything else is unchanged. -/
def json : JVal → JVal
  | nan => null
  | inf _ => null
  | v => v

end JVal

/-! ## Numbers

The amounts that the income statistics add, multiply, divide and compare are
IEEE 754 doubles.  A finite double is represented by its exact rational value;
an arithmetic operation computes the exact result and rounds it to the nearest
double, a tie going to the even significand (`fl`), and a rounded magnitude of
`2^1024` or more is an infinity.  The sign of zero is not represented: the code
never divides by an amount and tells `-0` from `0` nowhere else.  The numbers
that the code reads from its input are doubles; the operations are defined for
every rational all the same, an input that is not a double being rounded by the
first operation that uses it. -/

/-- The power `2^e` for an integer exponent. -/
def pow2 (e : ℤ) : ℚ :=
  if 0 ≤ e then ((2 ^ e.toNat : ℕ) : ℚ) else 1 / ((2 ^ (-e).toNat : ℕ) : ℚ)

/-- The binary logarithm of a natural number, rounded down; `fuel` bounds the
number of halvings. -/
def bitLog : Nat → Nat → Nat
  | 0, _ => 0
  | fuel + 1, n => if 2 ≤ n then bitLog fuel (n / 2) + 1 else 0

/-- The binary exponent of a positive rational `a`: the integer `e` with
`2^e ≤ a < 2^(e+1)`.  The difference of the bit lengths of numerator and
denominator is `e` or `e + 1`. -/
def log2Floor (a : ℚ) : ℤ :=
  let e0 : ℤ := (bitLog a.num.natAbs a.num.natAbs : ℤ) - (bitLog a.den a.den : ℤ)
  if pow2 e0 ≤ a then e0 else e0 - 1

/-- Rounding to the nearest integer, a half going to the even neighbour. -/
def roundHalfEven (x : ℚ) : ℤ :=
  if x - ⌊x⌋ < 1 / 2 then ⌊x⌋
  else if 1 / 2 < x - ⌊x⌋ then ⌊x⌋ + 1
  else if ⌊x⌋ % 2 = 0 then ⌊x⌋ else ⌊x⌋ + 1

/-- The exponent of the last place of the doubles around a positive rational `a`:
the significand has 53 bits, and below `2^-1022` the doubles are subnormal, with
the spacing `2^-1074`. -/
def ulpExponent (a : ℚ) : ℤ := max (log2Floor a) (-1022) - 52

/-- The magnitude of the double nearest to a positive rational, before the test
for overflow. -/
def nearestMagnitude (a : ℚ) : ℚ :=
  (roundHalfEven (a / pow2 (ulpExponent a)) : ℚ) * pow2 (ulpExponent a)

/-- A JavaScript number: a finite double given by its value, an infinity, or
`NaN`. -/
inductive Num where
  | fin (q : ℚ)
  | inf (negative : Bool)
  | nan
  deriving DecidableEq

/-- The double that an arithmetic operation returns for the exact result `q`:
the nearest double, or an infinity when that has the magnitude `2^1024` or more. -/
def fl (q : ℚ) : Num :=
  if q = 0 then Num.fin 0
  else if (2 : ℚ) ^ 1024 ≤ nearestMagnitude |q| then Num.inf (decide (q < 0))
  else if q < 0 then Num.fin (-nearestMagnitude |q|)
  else Num.fin (nearestMagnitude |q|)

namespace Num

/-- The number as a JavaScript value. -/
def toJVal : Num → JVal
  | fin q => JVal.num q
  | inf negative => JVal.inf negative
  | nan => JVal.nan

/-- The test `Number.isFinite(v)` on a number. -/
def isFinite : Num → Bool
  | fin _ => true
  | _ => false

/-- The value `v || 0` of a `Map` lookup: 0 for a missing entry, for 0 and for
`NaN`. -/
def orZero : Option Num → Num
  | some (fin q) => fin q
  | some (inf negative) => inf negative
  | some nan => fin 0
  | none => fin 0

/-- The unary minus. -/
def neg : Num → Num
  | fin q => fin (-q)
  | inf negative => inf (!negative)
  | nan => nan

/-- The sum `a + b`. -/
def add : Num → Num → Num
  | fin a, fin b => fl (a + b)
  | fin _, inf n => inf n
  | inf m, fin _ => inf m
  | inf m, inf n => if m = n then inf m else nan
  | nan, _ => nan
  | _, nan => nan

/-- The difference `a - b`. -/
def sub (a b : Num) : Num := a.add b.neg

/-- The product `a * b`. -/
def mul : Num → Num → Num
  | fin a, fin b => fl (a * b)
  | fin a, inf n => if a = 0 then nan else inf (xor n (decide (a < 0)))
  | inf m, fin b => if b = 0 then nan else inf (xor m (decide (b < 0)))
  | inf m, inf n => inf (xor m n)
  | nan, _ => nan
  | _, nan => nan

/-- The quotient `a / b`; a zero divisor is taken as `+0`. -/
def div : Num → Num → Num
  | fin a, fin b =>
    if b = 0 then (if a = 0 then nan else inf (decide (a < 0))) else fl (a / b)
  | fin _, inf _ => fin 0
  | inf m, fin b => inf (xor m (decide (b < 0)))
  | inf _, inf _ => nan
  | nan, _ => nan
  | _, nan => nan

/-- The comparison `a === b` of two numbers: `NaN` equals nothing. -/
def strictEq : Num → Num → Bool
  | fin a, fin b => decide (a = b)
  | inf m, inf n => decide (m = n)
  | _, _ => false

/-- The comparison `a < b`: false when either side is `NaN`. -/
def lt : Num → Num → Bool
  | fin a, fin b => decide (a < b)
  | fin _, inf n => !n
  | inf m, fin _ => m
  | inf m, inf n => m && !n
  | _, _ => false

/-- The comparison `a <= b`: false when either side is `NaN`. -/
def le (a b : Num) : Bool := lt a b || strictEq a b

/-- The result of a comparator does not ask `sort` to put the second argument
first: it is not greater than 0.  `sort` reads the result `NaN` as 0. -/
def notPositive (v : Num) : Bool := !(lt (fin 0) v)

end Num

/-! ## Strings -/

/-- The characters removed by `trim` and matched by `\s`: the `WhiteSpace` and
`LineTerminator` code points of ECMAScript. -/
def isJsSpace (c : Char) : Bool :=
  let n := c.toNat
  n == 0x9 || n == 0xA || n == 0xB || n == 0xC || n == 0xD || n == 0x20 || n == 0xA0
    || n == 0x1680 || (decide (0x2000 ≤ n) && decide (n ≤ 0x200A)) || n == 0x2028
    || n == 0x2029 || n == 0x202F || n == 0x205F || n == 0x3000 || n == 0xFEFF

/-- Characters of a string with leading and trailing white space removed. -/
def trimChars (cs : List Char) : List Char :=
  ((cs.dropWhile isJsSpace).reverse.dropWhile isJsSpace).reverse

/-- `String.prototype.trim`. -/
def jsTrim (s : String) : String := String.mk (trimChars s.data)

/-- Source: `normalizeCurrency(currency)`, that is
`String(currency || "").trim().toLowerCase()`. -/
def normalizeCurrency (env : Env) (currency : JVal) : String :=
  env.toLowerCase (jsTrim (if currency.truthy then currency.toStr env else ""))

/-- The value `(v || "").trim()`: the trimmed string, the empty string for a falsy
value, and a `TypeError` (`none`) for a truthy value that is not a string. -/
def trimOrEmpty (v : JVal) : Option String :=
  if v.truthy then
    match v with
    | JVal.str s => some (jsTrim s)
    | _ => none
  else some ""

/-- The number that the text of `toFixed(2)` denotes: the multiple of 1/100 nearest
to the exact value, a half going away from zero; numbers of magnitude `10^21` or
more are printed as `String` prints them and so stay as they are. -/
def roundFixed2 (q : ℚ) : ℚ :=
  if (10 : ℚ) ^ 21 ≤ |q| then q
  else if 0 ≤ q then (⌊q * 100 + 1 / 2⌋ : ℚ) / 100
  else -((⌊(-q) * 100 + 1 / 2⌋ : ℚ) / 100)

/-- Source: `formatAmount(amount)`.  `Number(amount.toFixed(2))` is the double
nearest to the number that the text of `toFixed(2)` denotes. -/
def formatAmount (env : Env) : JVal → String
  | JVal.num q =>
    if q.den = 1 then env.numToString q else (fl (roundFixed2 q)).toJVal.toStr env
  | _ => ""

/-- Source: `rarityLabel(frameType)`; the `switch` compares with `===`. -/
def rarityLabel : JVal → String
  | JVal.num q =>
    if q = 0 then "Normal" else if q = 1 then "Magic" else if q = 2 then "Rare"
    else if q = 3 then "Unique" else if q = 4 then "Gem" else if q = 5 then "Currency"
    else if q = 6 then "Divination" else if q = 7 then "Quest" else ""
  | _ => ""

/-- Replace every maximal run of characters satisfying `p` by one space
(`replace(/[...]+/g, " ")`); the flag tells whether a run is being skipped. -/
def collapseRuns (p : Char → Bool) : Bool → List Char → List Char
  | _, [] => []
  | inRun, c :: cs =>
    if p c then (if inRun then collapseRuns p true cs else ' ' :: collapseRuns p true cs)
    else c :: collapseRuns p false cs

/-- Split at every space (`split(" ")`); `cur` is the current piece, reversed. -/
def splitSpaces : List Char → List Char → List (List Char)
  | [], cur => [cur.reverse]
  | c :: cs, cur => if c = ' ' then cur.reverse :: splitSpaces cs [] else splitSpaces cs (c :: cur)

/-- The map `w => w.slice(0, 1).toUpperCase() + w.slice(1)`.  `slice(0, 1)` takes
one UTF-16 unit, so a first character outside the basic plane is left as it is. -/
def capitalizeWord (env : Env) : List Char → String
  | [] => ""
  | c :: cs =>
    if c.toNat < 0x10000 then env.toUpperCase (String.singleton c) ++ String.mk cs
    else String.mk (c :: cs)

/-- Source: `humanizeCategoryToken(token)`. -/
def humanizeCategoryToken (env : Env) (token : JVal) : String :=
  let s := if token.truthy then token.toStr env else ""
  let t := collapseRuns isJsSpace false
    (collapseRuns (fun c => c == '_' || c == '-') false (trimChars s.data))
  let words := (splitSpaces t []).filter (fun w => !w.isEmpty)
  String.intercalate " " (words.map (capitalizeWord env))

/-- Replace every `\r\n` by `\n` (`replace(/\r\n/g, "\n")`). -/
def crlfToLf : List Char → List Char
  | [] => []
  | [c] => [c]
  | c :: d :: cs => if c = '\r' ∧ d = '\n' then '\n' :: crlfToLf cs else c :: crlfToLf (d :: cs)

/-- Source: `decodeItemText(b64)`; `none` is the `null` of the `catch` branch. -/
def decodeItemText (env : Env) (b64 : String) : Option String :=
  (env.atob b64).map (fun decoded => String.mk (crlfToLf decoded.data))

/-! ## Raw feed entries and canonical records -/

/-- The item description of a raw feed entry.  A field that is missing is
`undefined`; an item that is missing, `null` or not an object is the item all of
whose fields are missing.  `category` is `none` unless `item.category` is an
object, and then lists its entries in `Object.entries` order, the value being
`some xs` for an array and `none` otherwise.  A mod field is `none` unless it is
an array. -/
structure RawItem where
  typeLine : JVal
  baseType : JVal
  frameType : JVal
  ilvl : JVal
  note : JVal
  icon : JVal
  /-- The field `item.extended.text`. -/
  extendedText : JVal
  /-- The field `item.extended.category`. -/
  extendedCategory : JVal
  category : Option (List (String × Option (List JVal)))
  implicitMods : Option (List JVal)
  explicitMods : Option (List JVal)
  utilityMods : Option (List JVal)
  fracturedMods : Option (List JVal)
  craftedMods : Option (List JVal)
  enchantMods : Option (List JVal)

/-- A raw feed entry; `priceAmount` and `priceCurrency` are `row.price.amount` and
`row.price.currency`. -/
structure RawRow where
  item_id : JVal
  time : JVal
  item : RawItem
  priceAmount : JVal
  priceCurrency : JVal

/-- A record as built by `normalizeRow`, with the `tradeKey` that
`normalizeAndKeyBatch` adds (`undefined` before that), or as read back from the
archive, where any field may hold any value. -/
structure Row where
  tradeKey : JVal
  itemId : JVal
  timeIso : JVal
  timeMs : JVal
  timeLocal : JVal
  timeAgo : JVal
  name : JVal
  baseType : JVal
  rarity : JVal
  category : JVal
  ilvl : JVal
  priceText : JVal
  priceAmount : JVal
  priceCurrency : JVal
  note : JVal
  fracturedMods : List JVal
  mods : List JVal
  itemText : JVal
  icon : JVal
  deriving DecidableEq

/-- The first entry of the category map with a non-empty key decides the label. -/
def categoryFromEntries (env : Env) : List (String × Option (List JVal)) → Option String
  | [] => none
  | (k, v) :: rest =>
    if k = "" then categoryFromEntries env rest
    else
      match v with
      | some (x :: _) =>
        let sub := match x with
          | JVal.str s => s
          | _ => ""
        some (if sub ≠ "" then
            humanizeCategoryToken env (JVal.str k) ++ ": " ++ humanizeCategoryToken env (JVal.str sub)
          else humanizeCategoryToken env (JVal.str k))
      | _ => some (humanizeCategoryToken env (JVal.str k))

/-- Source: `itemCategoryLabel(item, itemText)`. -/
def itemCategoryLabel (env : Env) (item : RawItem) (itemText : Option String) : String :=
  let direct := item.extendedCategory
  let fromText : String :=
    match itemText with
    | some t =>
      if t ≠ "" then
        match env.matchItemClass t with
        | some g => if g ≠ "" then jsTrim g else ""
        | none => ""
      else ""
    | none => ""
  let fromMap : String :=
    match item.category with
    | some entries =>
      match categoryFromEntries env entries with
      | some label => label
      | none => fromText
    | none => fromText
  match direct with
  | JVal.str s => if jsTrim s ≠ "" then humanizeCategoryToken env direct else fromMap
  | _ => fromMap

/-- The date object `new Date(ms)` for a finite number: the time value truncated
to an integer, or `none` (an invalid date) beyond 8.64e15 ms from the epoch. -/
def dateOf (ms : ℚ) : Option Int :=
  if |ms| ≤ 8640000000000000 then some (if 0 ≤ ms then ⌊ms⌋ else ⌈ms⌉) else none

/-- The text `new Date(ms).toLocaleString()`. -/
def localeStringOf (env : Env) (ms : ℚ) : String :=
  match dateOf ms with
  | some t => env.toLocaleString t
  | none => "Invalid Date"

/-- Source: `formatLocalTime(iso)`. -/
def formatLocalTime (env : Env) (iso : JVal) : JVal :=
  match env.dateParse (iso.toStr env) with
  | some t => JVal.str (localeStringOf env t)
  | none => iso

/-- Source: `formatTimeAgo(iso)`; `now` is the reading of `Date.now()`. -/
def formatTimeAgo (env : Env) (now : Int) (iso : JVal) : String :=
  match env.dateParse (iso.toStr env) with
  | none => ""
  | some t =>
    let deltaMs := now - t
    let deltaSec := deltaMs / 1000
    if deltaSec < 0 then "in the future"
    else if deltaSec < 60 then env.numToString deltaSec ++ "s ago"
    else
      let deltaMin := deltaSec / 60
      if deltaMin < 60 then env.numToString deltaMin ++ "m ago"
      else
        let deltaHr := deltaMin / 60
        if deltaHr < 48 then env.numToString deltaHr ++ "h ago"
        else
          let deltaDay := deltaHr / 24
          env.numToString deltaDay ++ "d ago"

/-- The filter `(m) => typeof m === "string" && m.trim().length > 0`. -/
def isModText : JVal → Bool
  | JVal.str s => decide (jsTrim s ≠ "")
  | _ => false

/-- The expression `Array.isArray(x) ? x : []`. -/
def arrayOrEmpty : Option (List JVal) → List JVal
  | some xs => xs
  | none => []

/-- Source: `normalizeRow(row)`; `now` is the reading of `Date.now()` taken by
`formatTimeAgo`.  The outer `none` is the `TypeError` thrown when `typeLine` or
`baseType` is a truthy value without a `trim` method; the inner `none` is the
result `null`. -/
def normalizeRow (env : Env) (now : Int) (row : RawRow) : Option (Option Row) :=
  let itemId := row.item_id
  let timeIso := row.time
  if !itemId.truthy || !timeIso.truthy then some none
  else
    match env.dateParse (timeIso.toStr env) with
    | none => some none
    | some timeMs =>
      let item := row.item
      match trimOrEmpty item.typeLine, trimOrEmpty item.baseType with
      | some typeLine, some baseType =>
        let itemText : Option String :=
          match item.extendedText with
          | JVal.str b64 => decodeItemText env b64
          | _ => none
        let rarity := rarityLabel item.frameType
        let category := itemCategoryLabel env item itemText
        let ilvl := match item.ilvl with
          | JVal.num q => JVal.num q
          | JVal.nan => JVal.nan
          | JVal.inf s => JVal.inf s
          | _ => JVal.null
        let priceAmount := match row.priceAmount with
          | JVal.num q => JVal.num q
          | _ => JVal.null
        let priceCurrency := match row.priceCurrency with
          | JVal.str s => JVal.str (normalizeCurrency env (JVal.str s))
          | _ => JVal.null
        let priceText :=
          if !priceAmount.isNullish && priceCurrency.truthy then
            formatAmount env priceAmount ++ " " ++ priceCurrency.toStr env
          else ""
        let note := match item.note with
          | JVal.str s => s
          | _ => ""
        let fracturedMods := (arrayOrEmpty item.fracturedMods).filter isModText
        let mods := (arrayOrEmpty item.implicitMods ++ arrayOrEmpty item.explicitMods
          ++ arrayOrEmpty item.utilityMods ++ fracturedMods ++ arrayOrEmpty item.craftedMods
          ++ arrayOrEmpty item.enchantMods).filter isModText
        some (some
          { tradeKey := JVal.undefined
            itemId := itemId
            timeIso := timeIso
            timeMs := JVal.num timeMs
            timeLocal := formatLocalTime env timeIso
            timeAgo := JVal.str (formatTimeAgo env now timeIso)
            name := JVal.str (if typeLine ≠ "" then typeLine else if baseType ≠ "" then baseType
              else "(unknown)")
            baseType := JVal.str baseType
            rarity := JVal.str rarity
            category := JVal.str category
            ilvl := ilvl
            priceText := JVal.str priceText
            priceAmount := priceAmount
            priceCurrency := priceCurrency
            note := JVal.str note
            fracturedMods := fracturedMods
            mods := mods
            itemText := match itemText with
              | some t => JVal.str t
              | none => JVal.null
            icon := match item.icon with
              | JVal.str s => JVal.str s
              | _ => JVal.null })
      | _, _ => none

/-! ## Trade keys and the per-batch pass -/

/-- Source: `leagueStorageKey(league)`. -/
def leagueStorageKey (env : Env) (league : JVal) : String :=
  "pthEnhancer.tradeArchive.v1." ++
    env.encodeURIComponent (env.toLowerCase (jsTrim (if league.truthy then league.toStr env else "")))

/-- Source: `makeTradeKey(league, normalizedRow)`; `none` is `null`. -/
def makeTradeKey (env : Env) (league : JVal) (normalizedRow : Option Row) : Option String :=
  match normalizedRow with
  | none => none
  | some norm =>
    if norm.priceAmount.isNullish || !norm.priceCurrency.truthy then none
    else
      some (env.encodeURIComponent
          (env.toLowerCase (jsTrim (if league.truthy then league.toStr env else "")))
        ++ "|" ++ norm.itemId.toStr env ++ "|" ++ norm.timeIso.toStr env ++ "|"
        ++ norm.priceAmount.toStr env ++ "|" ++ norm.priceCurrency.toStr env)

/-- The number compared by the comparator `(a, b) => b.timeMs - a.timeMs`.  Every
record that reaches a sort was built by `normalizeRow` or has passed the
`Number.isFinite(r.timeMs)` test of `sanitizeArchiveRows`, so the second case
is never used. -/
def timeNum (r : Row) : ℚ :=
  match r.timeMs with
  | JVal.num q => q
  | _ => 0

/-- The call `rows.sort((a, b) => b.timeMs - a.timeMs)`: a stable sort, newest first. -/
def sortNewestFirst (rows : List Row) : List Row :=
  rows.insertionSort (fun a b => timeNum b ≤ timeNum a)

/-- The rows and the key set (in insertion order) built by `normalizeAndKeyBatch`. -/
structure Batch where
  rows : List Row
  keySet : List String

/-- One iteration of the loop of `normalizeAndKeyBatch`; `now` is the clock
reading of this iteration. -/
def keyBatchStep (env : Env) (now : Int) (league : JVal) (acc : Batch) (row : RawRow) :
    Option Batch :=
  match normalizeRow env now row with
  | none => none
  | some none => some acc
  | some (some norm) =>
    if norm.priceAmount.isNullish || !norm.priceCurrency.truthy then some acc
    else
      match makeTradeKey env league (some norm) with
      | none => some acc
      | some tradeKey =>
        if tradeKey = "" ∨ tradeKey ∈ acc.keySet then some acc
        else some
          { rows := acc.rows ++ [{ norm with tradeKey := JVal.str tradeKey }]
            keySet := acc.keySet ++ [tradeKey] }

/-- The loop of `normalizeAndKeyBatch`, from the accumulator `acc`; `clock i` is
the reading of `Date.now()` while entry number `i` is normalised, and `i` is the
number of the next entry. -/
def keyBatchLoop (env : Env) (clock : Nat → Int) (league : JVal) :
    Nat → Batch → List RawRow → Option Batch
  | _, acc, [] => some acc
  | i, acc, row :: rest =>
    match keyBatchStep env (clock i) league acc row with
    | none => none
    | some acc1 => keyBatchLoop env clock league (i + 1) acc1 rest

/-- Source: `normalizeAndKeyBatch(league, rawRows)`. -/
def normalizeAndKeyBatch (env : Env) (clock : Nat → Int) (league : JVal)
    (rawRows : List RawRow) : Option Batch :=
  (keyBatchLoop env clock league 0 { rows := [], keySet := [] } rawRows).map
    (fun b => { rows := sortNewestFirst b.rows, keySet := b.keySet })

/-! ## The archive -/

/-- The metadata object of an archive slot.  A field that is missing is
`undefined`; `lastFetchKeys` is `none` unless it is an array.  The empty object
has every field missing. -/
structure Meta where
  lastFetchAtMs : JVal
  lastFetchNewestMs : JVal
  lastFetchOldestMs : JVal
  lastFetchKeys : Option (List JVal)
  gapCount : JVal
  lastGapAtMs : JVal
  lastGapFromMs : JVal
  lastGapToMs : JVal
  deriving DecidableEq

/-- The empty object `{}` used as metadata of a missing or unreadable slot. -/
def Meta.empty : Meta :=
  { lastFetchAtMs := JVal.undefined
    lastFetchNewestMs := JVal.undefined
    lastFetchOldestMs := JVal.undefined
    lastFetchKeys := none
    gapCount := JVal.undefined
    lastGapAtMs := JVal.undefined
    lastGapFromMs := JVal.undefined
    lastGapToMs := JVal.undefined }

/-- The content of one `localStorage` slot as `readArchive` sees it after
`JSON.parse` and its `Array.isArray` and `typeof` fallbacks: the elements of
`rows` (`none` for an element that is `null` or not an object) and the metadata
object.  A slot that is missing, empty, unparsable or of another shape is
`Slot.empty`. -/
structure Slot where
  rows : List (Option Row)
  meta : Meta

/-- The slot read as `{ rows: [], meta: {} }`. -/
def Slot.empty : Slot := { rows := [], meta := Meta.empty }

/-- The state of `localStorage`: the slot stored under each key. -/
abbrev Storage := String → Slot

/-- The result of `readArchive`. -/
structure Archive where
  rows : List Row
  meta : Meta

/-- The tests of one iteration of `sanitizeArchiveRows`, given the keys kept so far. -/
def sanitizeKeeps (keys : List String) (r : Row) : Option String :=
  match r.tradeKey with
  | JVal.str k =>
    if k = "" then none
    else if k ∈ keys then none
    else if !(r.itemId.isString && r.itemId.truthy) then none
    else if !(r.timeIso.isString && r.timeIso.truthy) then none
    else if !r.timeMs.isFiniteNumber then none
    else if !(r.priceCurrency.isString && r.priceCurrency.truthy) then none
    else if !r.priceAmount.isFiniteNumber then none
    else some k
  | _ => none

/-- The loop of `sanitizeArchiveRows`: `out` and `keys` are the accumulators. -/
def sanitizeLoop : List Row → List String → List (Option Row) → List Row
  | out, _, [] => out
  | out, keys, none :: rest => sanitizeLoop out keys rest
  | out, keys, some r :: rest =>
    match sanitizeKeeps keys r with
    | some k => sanitizeLoop (out ++ [r]) (keys ++ [k]) rest
    | none => sanitizeLoop out keys rest

/-- Source: `sanitizeArchiveRows(rows)`. -/
def sanitizeArchiveRows (rows : List (Option Row)) : List Row :=
  sortNewestFirst (sanitizeLoop [] [] rows)

/-- Source: `readArchive(league)`. -/
def readArchive (env : Env) (store : Storage) (league : JVal) : Archive :=
  let slot := store (leagueStorageKey env league)
  { rows := sanitizeArchiveRows slot.rows, meta := slot.meta }

/-- The result of `detectGap`. -/
structure GapInfo where
  detected : Bool
  fromTimeLocal : String
  toTimeLocal : String
  deriving DecidableEq

/-- The value `{ detected: false, fromTimeLocal: "", toTimeLocal: "" }`. -/
def GapInfo.noGap : GapInfo := { detected := false, fromTimeLocal := "", toTimeLocal := "" }

/-- The set `prevKeys` of `detectGap`: the strings among `lastMeta.lastFetchKeys`. -/
def prevKeysOf (lastMeta : Meta) : List String :=
  match lastMeta.lastFetchKeys with
  | some xs => xs.filterMap (fun x => match x with
      | JVal.str s => some s
      | _ => none)
  | none => []

/-- Source: `detectGap(lastMeta, currentRows, currentKeySet)`. -/
def detectGap (env : Env) (lastMeta : Meta) (currentRows : List Row)
    (currentKeySet : List String) : GapInfo :=
  let prevKeys := prevKeysOf lastMeta
  match currentRows.getLast?, lastMeta.lastFetchNewestMs with
  | some oldest, JVal.num prevNewestMs =>
    match oldest.timeMs with
    | JVal.num currentOldestMs =>
      if currentOldestMs ≤ prevNewestMs then GapInfo.noGap
      else
        let hasKeyOverlap :=
          if prevKeys.length ≠ 0 then currentKeySet.any (fun k => decide (k ∈ prevKeys)) else false
        if hasKeyOverlap then GapInfo.noGap
        else
          { detected := true
            fromTimeLocal := localeStringOf env prevNewestMs
            toTimeLocal := localeStringOf env currentOldestMs }
    | _ => GapInfo.noGap
  | _, _ => GapInfo.noGap

/-- The call `map.set(key, value)` on a `Map` kept as the list of its entries in
insertion order: an existing key keeps its place and gets the new value. -/
def mapSet {κ ν : Type} [DecidableEq κ] : List (κ × ν) → κ → ν → List (κ × ν)
  | [], k, v => [(k, v)]
  | (k1, v1) :: rest, k, v => if k1 = k then (k, v) :: rest else (k1, v1) :: mapSet rest k v

/-- The call `map.get(key)`; `none` is `undefined`. -/
def mapGet {κ ν : Type} [DecidableEq κ] : List (κ × ν) → κ → Option ν
  | [], _ => none
  | (k1, v1) :: rest, k => if k1 = k then some v1 else mapGet rest k

/-- The loop `for (const r of rows) merged.set(r.tradeKey, r)`. -/
def setAll (merged : List (JVal × Row)) (rows : List Row) : List (JVal × Row) :=
  rows.foldl (fun m r => mapSet m r.tradeKey r) merged

/-- A record after `JSON.stringify` and `JSON.parse`. -/
def Row.json (r : Row) : Row :=
  { tradeKey := r.tradeKey.json
    itemId := r.itemId.json
    timeIso := r.timeIso.json
    timeMs := r.timeMs.json
    timeLocal := r.timeLocal.json
    timeAgo := r.timeAgo.json
    name := r.name.json
    baseType := r.baseType.json
    rarity := r.rarity.json
    category := r.category.json
    ilvl := r.ilvl.json
    priceText := r.priceText.json
    priceAmount := r.priceAmount.json
    priceCurrency := r.priceCurrency.json
    note := r.note.json
    fracturedMods := r.fracturedMods.map (fun v => v.json.orNull)
    mods := r.mods.map (fun v => v.json.orNull)
    itemText := r.itemText.json
    icon := r.icon.json }

/-- The metadata after `JSON.stringify` and `JSON.parse`. -/
def Meta.json (m : Meta) : Meta :=
  { lastFetchAtMs := m.lastFetchAtMs.json
    lastFetchNewestMs := m.lastFetchNewestMs.json
    lastFetchOldestMs := m.lastFetchOldestMs.json
    lastFetchKeys := m.lastFetchKeys.map (fun xs => xs.map (fun v => v.json.orNull))
    gapCount := m.gapCount.json
    lastGapAtMs := m.lastGapAtMs.json
    lastGapFromMs := m.lastGapFromMs.json
    lastGapToMs := m.lastGapToMs.json }

/-- The loop of `writeArchive`.  `accepts i payload` tells whether the `setItem`
call of attempt number `i` with these rows succeeds.  The result is
`some (some rows)` when `rows` were stored, `some none` when the function gave up
after a rejected empty payload, and `none` when `fuel` attempts were not enough. -/
def writeLoop (accepts : Nat → List Row → Bool) : Nat → Nat → List Row → Option (Option (List Row))
  | 0, _, _ => none
  | fuel + 1, i, payloadRows =>
    if accepts i payloadRows then some (some payloadRows)
    else if payloadRows.length = 0 then some none
    else writeLoop accepts fuel (i + 1) (payloadRows.take (payloadRows.length * 9 / 10))

/-- Source: `writeArchive(league, rows, meta)`: the storage after the call.  Every
rejected attempt shortens a non-empty payload, so `rows.length + 1` attempts
suffice. -/
def writeArchive (env : Env) (accepts : Nat → List Row → Bool) (store : Storage)
    (league : JVal) (rows : List Row) (meta : Meta) : Storage :=
  match writeLoop accepts (rows.length + 1) 0 rows with
  | some (some payloadRows) =>
    Function.update store (leagueStorageKey env league)
      { rows := payloadRows.map (fun r => some r.json), meta := meta.json }
  | _ => store

/-- The value returned by `persistHistoryBatch`. -/
structure Persisted where
  rows : List Row
  gapInfo : GapInfo

/-- The object `nextMeta` of `persistHistoryBatch`; `nowFetch` and `nowGap` are the
two readings of `Date.now()`. -/
def nextMetaOf (nowFetch nowGap : Int) (archiveMeta : Meta) (current : Batch)
    (gapInfo : GapInfo) : Meta :=
  let newestMs := match current.rows.head? with
    | some r => r.timeMs
    | none => JVal.null
  let oldestMs := match current.rows.getLast? with
    | some r => r.timeMs
    | none => JVal.null
  { lastFetchAtMs := JVal.num nowFetch
    lastFetchNewestMs := newestMs
    lastFetchOldestMs := oldestMs
    lastFetchKeys := some (current.keySet.map JVal.str)
    gapCount := JVal.num ((match archiveMeta.gapCount with
      | JVal.num n => n
      | _ => 0) + (if gapInfo.detected then 1 else 0))
    lastGapAtMs := if gapInfo.detected then JVal.num nowGap else archiveMeta.lastGapAtMs.orNull
    lastGapFromMs := if gapInfo.detected then newestMs else archiveMeta.lastGapFromMs.orNull
    lastGapToMs := if gapInfo.detected then oldestMs else archiveMeta.lastGapToMs.orNull }

/-- Source: `persistHistoryBatch(league, rawRows)`: the returned value and the
storage after the call; `none` when `normalizeRow` throws on some entry (nothing
is written then).  `clock`, `nowFetch` and `nowGap` are the readings of
`Date.now()` during the call and `accepts` tells which `setItem` calls succeed. -/
def persistHistoryBatch (env : Env) (accepts : Nat → List Row → Bool) (clock : Nat → Int)
    (nowFetch nowGap : Int) (store : Storage) (league : JVal) (rawRows : List RawRow) :
    Option (Persisted × Storage) :=
  match normalizeAndKeyBatch env clock league rawRows with
  | none => none
  | some current =>
    let archive := readArchive env store league
    let gapInfo := detectGap env archive.meta current.rows current.keySet
    let merged := setAll (setAll [] archive.rows) current.rows
    let mergedRows := sortNewestFirst (merged.map Prod.snd)
    let nextMeta := nextMetaOf nowFetch nowGap archive.meta current gapInfo
    some ({ rows := mergedRows, gapInfo := gapInfo },
      writeArchive env accepts store league mergedRows nextMeta)

/-! ## Income statistics -/

/-- Source: `toPositiveNumberOrNull(value)`; `none` is `null`. -/
def toPositiveNumberOrNull (env : Env) : JVal → Option ℚ
  | JVal.num q => if 0 < q then some q else none
  | JVal.str s =>
    let t := jsTrim s
    if t = "" then none
    else
      match env.stringToNumber t with
      | some n => if 0 < n then some n else none
      | none => none
  | _ => none

/-- Source: `pad2(n)`, applied to the text of `n`. -/
def pad2 (s : String) : String :=
  String.mk (List.replicate (2 - s.length) '0') ++ s

/-- The text built by `localDayKey` and `localWeekStartKey` from a date object. -/
def dateKeyText (env : Env) : Option Int → String
  | some t =>
    env.numToString (env.getFullYear t) ++ "-" ++ pad2 (env.numToString (env.getMonth t + 1))
      ++ "-" ++ pad2 (env.numToString (env.getDate t))
  | none => "NaN-" ++ pad2 "NaN" ++ "-" ++ pad2 "NaN"

/-- Source: `localDayKey(ms)`. -/
def localDayKey (env : Env) (ms : ℚ) : String :=
  dateKeyText env (dateOf ms)

/-- Source: `localWeekStartKey(ms)`. -/
def localWeekStartKey (env : Env) (ms : ℚ) : String :=
  match (dateOf ms).bind env.setHoursZero with
  | some d =>
    let dow := env.getDay d
    let daysSinceMonday := Int.tmod (dow + 6) 7
    dateKeyText env (env.setDate d (env.getDate d - daysSinceMonday))
  | none => dateKeyText env none

/-- One aggregation group: `{ count, byCurrency }`. -/
structure Group where
  count : Nat
  byCurrency : List (String × Num)
  deriving DecidableEq

/-- Source: `bumpCountOnly(groupMap, key)`. -/
def bumpCountOnly (groupMap : List (String × Group)) (key : String) : List (String × Group) :=
  match mapGet groupMap key with
  | some g => mapSet groupMap key { g with count := g.count + 1 }
  | none => mapSet groupMap key { count := 0 + 1, byCurrency := [] }

/-- Source: `bumpBucket(currencyMap, currency, amount)`; `amount` is the finite
price amount of a record. -/
def bumpBucket (env : Env) (currencyMap : List (String × Num)) (currency : JVal) (amount : ℚ) :
    List (String × Num) :=
  let k := normalizeCurrency env currency
  if k = "" then currencyMap
  else
    let prev := Num.orZero (mapGet currencyMap k)
    mapSet currencyMap k (prev.add (Num.fin amount))

/-- Source: `bumpGroupBucket(groupMap, key, currency, amount)`. -/
def bumpGroupBucket (env : Env) (groupMap : List (String × Group)) (key : String)
    (currency : JVal) (amount : ℚ) : List (String × Group) :=
  match mapGet groupMap key with
  | none => groupMap
  | some g => mapSet groupMap key { g with byCurrency := bumpBucket env g.byCurrency currency amount }

/-- The entries of a currency map that `formatCurrencyMap` and
`tryConvertChaosDivineOnly` keep, by the filter
`Number.isFinite(v) && v !== 0`: those with a finite sum other than zero. -/
def nonZeroEntries (currencyMap : List (String × Num)) : List (String × Num) :=
  currencyMap.filter (fun e => e.2.isFinite && !(e.2.strictEq (Num.fin 0)))

/-- Source: `formatCurrencyMap(currencyMap)`.  The sort is stable and puts `a`
before `b` when the comparator `b[1] - a[1]` is not positive. -/
def formatCurrencyMap (env : Env) (currencyMap : List (String × Num)) : String :=
  let entries := nonZeroEntries currencyMap
  if entries.length = 0 then ""
  else
    String.intercalate " + "
      ((entries.insertionSort (fun a b => (b.2.sub a.2).notPositive = true)).map
        (fun e => formatAmount env e.2.toJVal ++ " " ++ e.1))

/-- Source: `tryConvertChaosDivineOnly(currencyMap, preferredCurrency, divineChaosPrice)`;
`none` is `null`. -/
def tryConvertChaosDivineOnly (env : Env) (currencyMap : List (String × Num))
    (preferredCurrency divineChaosPrice : JVal) : Option Num :=
  match toPositiveNumberOrNull env divineChaosPrice with
  | none => none
  | some price =>
    let preferred := normalizeCurrency env preferredCurrency
    if preferred ≠ "chaos" ∧ preferred ≠ "divine" then none
    else
      let entries := nonZeroEntries currencyMap
      if entries.length = 0 then some (Num.fin 0)
      else if entries.any (fun e =>
          let c := normalizeCurrency env (JVal.str e.1)
          decide (c ≠ "chaos" ∧ c ≠ "divine")) then none
      else
        let chaos := Num.orZero (mapGet currencyMap "chaos")
        let divine := Num.orZero (mapGet currencyMap "divine")
        if preferred = "chaos" then some (chaos.add (divine.mul (Num.fin price)))
        else some (divine.add (chaos.div (Num.fin price)))

/-- Source: `preferredAmountForGroup(currencyMap, preferredCurrency, divineChaosPrice)`. -/
def preferredAmountForGroup (env : Env) (currencyMap : List (String × Num))
    (preferredCurrency divineChaosPrice : JVal) : Num :=
  let preferred := normalizeCurrency env preferredCurrency
  match tryConvertChaosDivineOnly env currencyMap (JVal.str preferred) divineChaosPrice with
  | some converted => converted
  | none => Num.orZero (mapGet currencyMap preferred)

/-- Source: `formatCurrencyMapForPreferred(currencyMap, preferredCurrency, divineChaosPrice)`. -/
def formatCurrencyMapForPreferred (env : Env) (currencyMap : List (String × Num))
    (preferredCurrency divineChaosPrice : JVal) : String :=
  let preferred := normalizeCurrency env preferredCurrency
  match tryConvertChaosDivineOnly env currencyMap (JVal.str preferred) divineChaosPrice with
  | none => formatCurrencyMap env currencyMap
  | some converted => formatAmount env converted.toJVal ++ " " ++ preferred

/-- One row of a statistics table. -/
structure StatRow where
  label : String
  count : Nat
  countText : String
  preferredAmount : Num
  incomeText : String
  deriving DecidableEq

/-- The comparator of the default sort of `toStatRows`.  The counts and the
result of `localeCompare` are integers, whose difference is exact. -/
def preferredThenCount (env : Env) (a b : StatRow) : Num :=
  if b.preferredAmount.strictEq a.preferredAmount = false then
    b.preferredAmount.sub a.preferredAmount
  else if b.count ≠ a.count then Num.fin ((b.count : ℚ) - (a.count : ℚ))
  else Num.fin (env.localeCompare a.label b.label : ℚ)

/-- Source: `toStatRows(groupMap, options)`; `keyDesc` tells whether `sort` is
`"keyDesc"`.  The sort is stable and puts `a` before `b` when the comparator is
not positive; that is the result of `Array.prototype.sort` whenever the
comparator is consistent, which it is unless a preferred amount is `NaN`. -/
def toStatRows (env : Env) (groupMap : List (String × Group)) (keyDesc : Bool)
    (preferredCurrency divineChaosPrice : JVal) (limit : Nat) : List StatRow :=
  let rows := groupMap.map (fun e =>
    { label := e.1
      count := e.2.count
      countText := env.numToString e.2.count
      preferredAmount := preferredAmountForGroup env e.2.byCurrency preferredCurrency divineChaosPrice
      incomeText :=
        formatCurrencyMapForPreferred env e.2.byCurrency preferredCurrency divineChaosPrice
      : StatRow })
  let sorted :=
    if keyDesc then rows.insertionSort (fun a b => env.localeCompare b.label a.label ≤ 0)
    else rows.insertionSort (fun a b => (preferredThenCount env a b).notPositive = true)
  sorted.take limit

/-- The rows `best` and `worst` of `computeBestWorstDay`. -/
structure DayRow where
  dayKey : String
  count : Nat
  preferredAmount : Num
  incomeText : String
  deriving DecidableEq

/-- The loop of `computeBestWorstDay`, from the current `best` and `worst`. -/
def bestWorstLoop (env : Env) (preferredCurrency divineChaosPrice : JVal) :
    Option DayRow × Option DayRow → List (String × Group) → Option DayRow × Option DayRow
  | acc, [] => acc
  | (best, worst), (dayKey, g) :: rest =>
    let row : DayRow :=
      { dayKey := dayKey
        count := g.count
        preferredAmount := preferredAmountForGroup env g.byCurrency preferredCurrency divineChaosPrice
        incomeText :=
          formatCurrencyMapForPreferred env g.byCurrency preferredCurrency divineChaosPrice }
    let best1 := match best with
      | none => some row
      | some b => if b.preferredAmount.lt row.preferredAmount then some row else some b
    let worst1 := match worst with
      | none => some row
      | some w => if row.preferredAmount.lt w.preferredAmount then some row else some w
    bestWorstLoop env preferredCurrency divineChaosPrice (best1, worst1) rest

/-- Source: `escapeHtml(text)`. -/
def escapeHtml (text : String) : String :=
  String.join (text.data.map (fun c =>
    if c = '&' then "&amp;" else if c = '<' then "&lt;" else if c = '>' then "&gt;"
    else if c = '"' then "&quot;" else if c = Char.ofNat 39 then "&#039;"
    else String.singleton c))

/-- The texts `bestText` and `worstText` of `computeBestWorstDay`. -/
def dayRowText (env : Env) (preferredCurrency : JVal) : Option DayRow → String
  | some r =>
    r.dayKey ++ ": " ++ formatAmount env r.preferredAmount.toJVal ++ " "
      ++ preferredCurrency.toStr env ++ " • " ++ env.numToString r.count ++ " sold • "
      ++ (if r.incomeText ≠ "" then r.incomeText else "—")
  | none => "—"

/-- The value returned by `computeBestWorstDay`. -/
structure BestWorst where
  best : Option DayRow
  worst : Option DayRow
  html : String

/-- Source: `computeBestWorstDay(byDay, preferredCurrency, divineChaosPrice)`. -/
def computeBestWorstDay (env : Env) (byDay : List (String × Group))
    (preferredCurrency divineChaosPrice : JVal) : BestWorst :=
  let bw := bestWorstLoop env preferredCurrency divineChaosPrice (none, none) byDay
  { best := bw.1
    worst := bw.2
    html :=
      "<div><span class=\"pth-muted\">Best:</span> "
        ++ escapeHtml (dayRowText env preferredCurrency bw.1) ++ "</div>"
      ++ "<div><span class=\"pth-muted\">Worst:</span> "
        ++ escapeHtml (dayRowText env preferredCurrency bw.2) ++ "</div>"
      ++ "<div class=\"pth-muted\" style=\"margin-top:6px\">Tip: set “1 div = … chaos” to enable chaos/divine conversion for these comparisons.</div>" }

/-- The filter that selects `soldRows` in `computeIncomeStats`. -/
def isSold (env : Env) (r : Row) : Bool :=
  r.timeMs.isFiniteNumber && r.priceAmount.isFiniteNumber
    && decide (normalizeCurrency env (if r.priceCurrency.truthy then r.priceCurrency else JVal.str "") ≠ "")

/-- The amount of a record that passed `isSold`. -/
def amountNum (r : Row) : ℚ :=
  match r.priceAmount with
  | JVal.num q => q
  | _ => 0

/-- The value `s || "Other"`. -/
def orOther (s : String) : String := if s ≠ "" then s else "Other"

/-- The five group labels of one sold record. -/
structure Labels where
  dayKey : String
  weekKey : String
  categoryKey : String
  baseTypeKey : String
  rarityKey : String

/-- The labels computed at the head of the loop body of `computeIncomeStats`;
`none` when a `trim` call throws. -/
def labelsOf (env : Env) (r : Row) : Option Labels :=
  let t := timeNum r
  match trimOrEmpty r.category with
  | none => none
  | some category =>
    match trimOrEmpty r.baseType with
    | none => none
    | some baseType =>
      let baseOrName : Option String :=
        if baseType ≠ "" then some baseType
        else
          match trimOrEmpty r.name with
          | none => none
          | some name => some (orOther name)
      match baseOrName with
      | none => none
      | some k =>
        match trimOrEmpty r.rarity with
        | none => none
        | some rarity =>
          some
            { dayKey := localDayKey env t
              weekKey := "Week of " ++ localWeekStartKey env t
              categoryKey := orOther category
              baseTypeKey := if k = "(unknown)" then "Other" else k
              rarityKey := orOther rarity }

/-- The maps filled by the loop of `computeIncomeStats`. -/
structure IncomeGroups where
  totalByCurrency : List (String × Num)
  byCategory : List (String × Group)
  byBaseType : List (String × Group)
  byRarity : List (String × Group)
  byDay : List (String × Group)
  byWeek : List (String × Group)
  deriving DecidableEq

/-- The maps before the loop: all empty. -/
def IncomeGroups.empty : IncomeGroups :=
  { totalByCurrency := [], byCategory := [], byBaseType := [], byRarity := [], byDay := [],
    byWeek := [] }

/-- The body of the loop `for (const r of soldRows)` of `computeIncomeStats`. -/
def incomeStep (env : Env) (g : IncomeGroups) (r : Row) : Option IncomeGroups :=
  match labelsOf env r with
  | none => none
  | some l =>
    let byDay := bumpCountOnly g.byDay l.dayKey
    let byWeek := bumpCountOnly g.byWeek l.weekKey
    let byCategory := bumpCountOnly g.byCategory l.categoryKey
    let byBaseType := bumpCountOnly g.byBaseType l.baseTypeKey
    let byRarity := bumpCountOnly g.byRarity l.rarityKey
    some
      { totalByCurrency := bumpBucket env g.totalByCurrency r.priceCurrency (amountNum r)
        byDay := bumpGroupBucket env byDay l.dayKey r.priceCurrency (amountNum r)
        byWeek := bumpGroupBucket env byWeek l.weekKey r.priceCurrency (amountNum r)
        byCategory := bumpGroupBucket env byCategory l.categoryKey r.priceCurrency (amountNum r)
        byBaseType := bumpGroupBucket env byBaseType l.baseTypeKey r.priceCurrency (amountNum r)
        byRarity := bumpGroupBucket env byRarity l.rarityKey r.priceCurrency (amountNum r) }

/-- The loop `for (const r of soldRows)` of `computeIncomeStats`. -/
def incomeLoop (env : Env) : IncomeGroups → List Row → Option IncomeGroups
  | g, [] => some g
  | g, r :: rest =>
    match incomeStep env g r with
    | none => none
    | some g1 => incomeLoop env g1 rest

/-- The maps of `computeIncomeStats` after its loop, for the input `rows`. -/
def incomeGroups (env : Env) (rows : List Row) : Option IncomeGroups :=
  incomeLoop env IncomeGroups.empty (rows.filter (isSold env))

/-- The value returned by `computeIncomeStats`. -/
structure Stats where
  preferredCurrency : String
  divineChaosPrice : Option ℚ
  trades : Nat
  totalText : String
  totalPreferredText : Option String
  bestWorstHtml : String
  byDay : List StatRow
  byWeek : List StatRow
  byCategory : List StatRow
  byBaseType : List StatRow
  byRarity : List StatRow

/-- A number or `null` passed on as an argument. -/
def numOrNull : Option ℚ → JVal
  | some q => JVal.num q
  | none => JVal.null

/-- Source: `computeIncomeStats(rows, options)` with the two fields of `options`;
`none` when a `trim` call of the loop throws. -/
def computeIncomeStats (env : Env) (rows : List Row) (preferredCurrency divineChaosPrice : JVal) :
    Option Stats :=
  let preferred :=
    if normalizeCurrency env preferredCurrency ≠ "" then normalizeCurrency env preferredCurrency
    else "chaos"
  let divineChaos := toPositiveNumberOrNull env divineChaosPrice
  let soldRows := rows.filter (isSold env)
  match incomeLoop env IncomeGroups.empty soldRows with
  | none => none
  | some g =>
    let pref := JVal.str preferred
    let price := numOrNull divineChaos
    let bestWorst := computeBestWorstDay env g.byDay pref price
    let totalPreferredAmount := tryConvertChaosDivineOnly env g.totalByCurrency pref price
    some
      { preferredCurrency := preferred
        divineChaosPrice := divineChaos
        trades := soldRows.length
        totalText := formatCurrencyMap env g.totalByCurrency
        totalPreferredText := totalPreferredAmount.map
          (fun a => formatAmount env a.toJVal ++ " " ++ preferred)
        bestWorstHtml := bestWorst.html
        byDay := toStatRows env g.byDay true pref price 14
        byWeek := toStatRows env g.byWeek true pref price 12
        byCategory := toStatRows env g.byCategory false pref price 12
        byBaseType := toStatRows env g.byBaseType false pref price 12
        byRarity := toStatRows env g.byRarity false pref price 12 }

/-! ## Vocabulary of the statements -/

/-- A value on which `(v || "").trim()` does not throw: a string or a falsy value. -/
def textLike (v : JVal) : Bool := v.isString || !v.truthy

/-- The sum of the trade counts of all groups of a grouping. -/
def totalCount (groupMap : List (String × Group)) : Nat :=
  (groupMap.map (fun e => e.2.count)).sum

/-- The storage accepts every first write attempt. -/
def AcceptsAll (accepts : Nat → List Row → Bool) : Prop := ∀ rows, accepts 0 rows = true

/-- The write of `rows` is stored, possibly after truncation. -/
def WriteStored (accepts : Nat → List Row → Bool) (rows : List Row) : Prop :=
  ∃ payloadRows, writeLoop accepts (rows.length + 1) 0 rows = some (some payloadRows)

/-- The trade keys of a record list, in order. -/
def keysOf (rows : List Row) : List JVal := rows.map (fun r => r.tradeKey)

/-- A raw entry whose item identifier and time stamp are strings or falsy. -/
def stringIds (row : RawRow) : Bool :=
  (row.item_id.isString || !row.item_id.truthy) && (row.time.isString || !row.time.truthy)

/-- A record without its clock-relative text `timeAgo` and after the storage
round trip: what two normalisations of one entry at different times, one of them
read back from the archive, have in common. -/
def Row.stable (r : Row) : Row := { r.json with timeAgo := JVal.undefined }

/-! ## A sample environment and sample inputs

`sampleEnv` agrees with a JavaScript engine running in UTC with the `en-US`
locale on the inputs of the examples below: ASCII text, integers of magnitude
below `2^53`, doubles nearest to a number with one or two decimals, and time
values of the years 1 to 9999; `Date.parse` knows three time stamps within the
first second of 1970. -/

/-- Lower case for ASCII letters. -/
def asciiLower (s : String) : String := String.mk (s.data.map Char.toLower)

/-- Upper case for ASCII letters. -/
def asciiUpper (s : String) : String := String.mk (s.data.map Char.toUpper)

/-- The decimal text of `k/100` for an integer `k` that is not a multiple of 100:
the sign, the integer part, the point and one or two decimals, without a
trailing zero. -/
def decimalText (k : ℤ) : String :=
  (if k < 0 then "-" else "") ++ toString (k.natAbs / 100) ++ "."
    ++ (if k.natAbs % 100 % 10 = 0 then toString (k.natAbs % 100 / 10)
        else (if k.natAbs % 100 < 10 then "0" else "") ++ toString (k.natAbs % 100))

/-- The decimal text of `k/100` for an integer `k`, without trailing zeros and
without the point when there are no decimals. -/
def hundredthsText (k : ℤ) : String :=
  if (100 : ℤ) ∣ k then toString (k / 100) else decimalText k

/-- The integer `k` for which `k/100` is nearest to `q`, a half going away from
zero. -/
def nearestHundredth (q : ℚ) : ℤ :=
  if 0 ≤ q then ⌊q * 100 + 1 / 2⌋ else -⌊(-q) * 100 + 1 / 2⌋

/-- Decimal text of integers and, for another number, of the nearest number with
two decimals: the shortest text that `Number` reads back as the same double when
that double is the one nearest to a number with one or two decimals. -/
def sampleNumToString (q : ℚ) : String :=
  if q.den = 1 then toString q.num else decimalText (nearestHundredth q)

/-- The civil date (year, month counted from 1, day of the month) of a day
number counted from 1970-01-01, in the Gregorian calendar. -/
def civilOfDays (day : Int) : Int × Int × Int :=
  let z := day + 719468
  let era := z / 146097
  let doe := z - era * 146097
  let yoe := (doe - doe / 1460 + doe / 36524 - doe / 146096) / 365
  let doy := doe - (365 * yoe + yoe / 4 - yoe / 100)
  let mp := (5 * doy + 2) / 153
  let d := doy - (153 * mp + 2) / 5 + 1
  let m := if mp < 10 then mp + 3 else mp - 9
  (if m ≤ 2 then yoe + era * 400 + 1 else yoe + era * 400, m, d)

/-- The day number of a time value in UTC. -/
def utcDay (t : Int) : Int := t / 86400000

/-- A time value, or nothing when it is outside the range of `Date`. -/
def inDateRange (t : Int) : Option Int :=
  if -8640000000000000 ≤ t ∧ t ≤ 8640000000000000 then some t else none

/-- The text `M/D/YYYY, h:mm:ss AM` of a time value in UTC. -/
def sampleLocaleString (t : Int) : String :=
  let date := civilOfDays (utcDay t)
  let secs := t % 86400000 / 1000
  let hour := secs / 3600
  toString date.2.1 ++ "/" ++ toString date.2.2 ++ "/" ++ toString date.1 ++ ", "
    ++ toString (if hour % 12 = 0 then 12 else hour % 12) ++ ":"
    ++ (if secs / 60 % 60 < 10 then "0" else "") ++ toString (secs / 60 % 60) ++ ":"
    ++ (if secs % 60 < 10 then "0" else "") ++ toString (secs % 60)
    ++ (if hour < 12 then " AM" else " PM")

/-- `Date.parse` on the time stamps of the examples. -/
def sampleDateParse (s : String) : Option Int :=
  if s = "1970-01-01T00:00:00.100Z" then some 100
  else if s = "1970-01-01T00:00:00.150Z" then some 150
  else if s = "1970-01-01T00:00:00.200Z" then some 200
  else none

/-- The characters that `encodeURIComponent` leaves as they are. -/
def isUnreserved (c : Char) : Bool :=
  c.isAlphanum || c == '-' || c == '_' || c == '.' || c == '!' || c == '~' || c == '*'
    || c == Char.ofNat 39 || c == '(' || c == ')'

/-- `encodeURIComponent` on text made of unreserved characters and spaces. -/
def sampleEncode (s : String) : String :=
  String.join (s.data.map (fun c =>
    if isUnreserved c then String.singleton c else if c = ' ' then "%20" else String.singleton c))

/-- The sample environment. -/
def sampleEnv : Env :=
  { dateParse := sampleDateParse
    numToString := sampleNumToString
    stringToNumber := fun _ => none
    encodeURIComponent := sampleEncode
    toLowerCase := asciiLower
    toUpperCase := asciiUpper
    atob := fun _ => none
    matchItemClass := fun _ => none
    getFullYear := fun t => (civilOfDays (utcDay t)).1
    getMonth := fun t => (civilOfDays (utcDay t)).2.1 - 1
    getDate := fun t => (civilOfDays (utcDay t)).2.2
    getDay := fun t => (utcDay t + 4) % 7
    setHoursZero := fun t => inDateRange (utcDay t * 86400000)
    setDate := fun t n => inDateRange (t + (n - (civilOfDays (utcDay t)).2.2) * 86400000)
    toLocaleString := sampleLocaleString
    localeCompare := fun a b => if a < b then -1 else if a = b then 0 else 1 }

/-- An item description all of whose fields are missing. -/
def RawItem.absent : RawItem :=
  { typeLine := JVal.undefined
    baseType := JVal.undefined
    frameType := JVal.undefined
    ilvl := JVal.undefined
    note := JVal.undefined
    icon := JVal.undefined
    extendedText := JVal.undefined
    extendedCategory := JVal.undefined
    category := none
    implicitMods := none
    explicitMods := none
    utilityMods := none
    fracturedMods := none
    craftedMods := none
    enchantMods := none }

/-- The raw entry `{ item_id, time, price: { amount, currency } }`. -/
def rawEntry (itemId time amount currency : JVal) : RawRow :=
  { item_id := itemId, time := time, item := RawItem.absent, priceAmount := amount,
    priceCurrency := currency }

/-- The record `{ timeMs, priceAmount, priceCurrency }` of the unit tests of
`computeIncomeStats`: every other field is missing. -/
def bareRow (timeMs priceAmount : ℚ) (priceCurrency : String) : Row :=
  { tradeKey := JVal.undefined
    itemId := JVal.undefined
    timeIso := JVal.undefined
    timeMs := JVal.num timeMs
    timeLocal := JVal.undefined
    timeAgo := JVal.undefined
    name := JVal.undefined
    baseType := JVal.undefined
    rarity := JVal.undefined
    category := JVal.undefined
    ilvl := JVal.undefined
    priceText := JVal.undefined
    priceAmount := JVal.num priceAmount
    priceCurrency := JVal.str priceCurrency
    note := JVal.undefined
    fracturedMods := []
    mods := []
    itemText := JVal.undefined
    icon := JVal.undefined }

/-- The time stamps T100, T150 and T200 of the examples. -/
def t100 : JVal := JVal.str "1970-01-01T00:00:00.100Z"

/-- See `t100`. -/
def t150 : JVal := JVal.str "1970-01-01T00:00:00.150Z"

/-- See `t100`. -/
def t200 : JVal := JVal.str "1970-01-01T00:00:00.200Z"

/-- A storage in which every slot is missing. -/
def emptyStorage : Storage := fun _ => Slot.empty

/-- A storage that accepts every write. -/
def acceptAll : Nat → List Row → Bool := fun _ _ => true

/-- A clock that stands at 1000 ms. -/
def sampleClock : Nat → Int := fun _ => 1000

/-- The league of the examples. -/
def sampleLeague : JVal := JVal.str "Standard"

/-- A raw entry with a price amount and no price currency. -/
def amountOnlyEntry : RawRow := rawEntry (JVal.str "item-a") t100 (JVal.num 5) JVal.undefined

/-- A slot whose previous fetch had the newest time 100 and the key set `{k1}`. -/
def gapStorage : Storage :=
  Function.update emptyStorage (leagueStorageKey sampleEnv sampleLeague)
    { rows := []
      meta :=
        { Meta.empty with
          lastFetchNewestMs := JVal.num 100
          lastFetchKeys := some [JVal.str "k1"] } }

/-- A batch with one sale at T200 and one at T150. -/
def gapBatch : List RawRow :=
  [rawEntry (JVal.str "item-a") t200 (JVal.num 1) (JVal.str "chaos"),
   rawEntry (JVal.str "item-b") t150 (JVal.num 2) (JVal.str "chaos")]

/-- Metadata of a previous fetch with newest time 100 and key set `{k1}`. -/
def metaT100 : Meta :=
  { Meta.empty with lastFetchNewestMs := JVal.num 100, lastFetchKeys := some [JVal.str "k1"] }

/-- A current batch whose only record has the time 150. -/
def rowsT150 : List Row := [bareRow 150 1 "chaos"]

/-- A record that passes every test of `sanitizeArchiveRows` other than the one
for a repeated key. -/
def validRow (r : Row) : Bool := (sanitizeKeeps [] r).isSome

/-- A record without its clock-relative text `timeAgo`. -/
def eraseAgo (r : Row) : Row := { r with timeAgo := JVal.undefined }

/-- A batch without the `timeAgo` texts of its records. -/
def Batch.erase (b : Batch) : Batch := { rows := b.rows.map eraseAgo, keySet := b.keySet }

/-- The entries of a `Map` from trade keys to records are filed under the trade
key of the record. -/
def Keyed (entries : List (JVal × Row)) : Prop := ∀ e ∈ entries, e.1 = e.2.tradeKey

/-- The key and the time of each entry of a `Map`, in insertion order. -/
def signature (entries : List (JVal × Row)) : List (JVal × ℚ) :=
  entries.map (fun e => (e.1, timeNum e.2))

/-- The properties of a record kept by `normalizeAndKeyBatch`. -/
def BatchRow (r : Row) : Prop :=
  (∃ k, r.tradeKey = JVal.str k ∧ k ≠ "") ∧ r.timeMs.isFiniteNumber = true
    ∧ r.priceAmount.isFiniteNumber = true
    ∧ (r.priceCurrency.isString && r.priceCurrency.truthy) = true
    ∧ r.itemId.truthy = true ∧ r.timeIso.truthy = true

/-- The value `mergedRows` of `persistHistoryBatch` for the archived rows and the
rows of the current batch. -/
def mergeRows (archiveRows currentRows : List Row) : List Row :=
  sortNewestFirst ((setAll (setAll [] archiveRows) currentRows).map Prod.snd)

/-- The gap count read from a metadata object: 0 unless it is a finite number. -/
def gapCountOf (m : Meta) : ℚ :=
  match m.gapCount with
  | JVal.num n => n
  | _ => 0

/-- The metadata stored in the slot of a league. -/
def storedMeta (env : Env) (store : Storage) (league : JVal) : Meta :=
  (store (leagueStorageKey env league)).meta

/-- A batch of two sales at the same time; the item identifier of the first entry
is the number 7. -/
def numericIdBatch : List RawRow :=
  [rawEntry (JVal.num 7) t100 (JVal.num 1) (JVal.str "chaos"),
   rawEntry (JVal.str "item-b") t100 (JVal.num 1) (JVal.str "chaos")]

/-- A batch with the single sale whose item identifier is the number 7. -/
def numericIdOnly : List RawRow :=
  [rawEntry (JVal.num 7) t100 (JVal.num 1) (JVal.str "chaos")]

/-- A batch with a single sale of `item-a` at T100. -/
def batchA : List RawRow :=
  [rawEntry (JVal.str "item-a") t100 (JVal.num 1) (JVal.str "chaos")]

/-- A batch with a single sale of `item-b` at T150. -/
def batchB : List RawRow :=
  [rawEntry (JVal.str "item-b") t150 (JVal.num 2) (JVal.str "chaos")]

/-- The trade keys returned by two successive calls of `persistHistoryBatch`, the
first with the batch `first` on an empty storage and the second with the batch
`second`. -/
def keysOfTwoCalls (first second : List RawRow) : Option (List JVal × List JVal) :=
  match persistHistoryBatch sampleEnv acceptAll sampleClock 1000 1000 emptyStorage sampleLeague
      first with
  | none => none
  | some (res, store1) =>
    (persistHistoryBatch sampleEnv acceptAll sampleClock 2000 2000 store1 sampleLeague
        second).map (fun p => (keysOf res.rows, keysOf p.1.rows))

/-- The sum of the trade counts of the rows of a statistics table. -/
def rowCountSum (rows : List StatRow) : Nat := (rows.map (fun r => r.count)).sum

/-- The two records `{100 chaos, 1 divine}` of the unit tests, sold at time `t`. -/
def chaosDivineRows (t : ℚ) : List Row := [bareRow t 100 "chaos", bareRow t 1 "divine"]

/-- A currency map holds a finite non-zero sum in a currency that is neither
chaos nor divine. -/
def hasForeign (env : Env) (currencyMap : List (String × Num)) : Prop :=
  ∃ e ∈ currencyMap, (∃ q, e.2 = Num.fin q ∧ q ≠ 0)
    ∧ normalizeCurrency env (JVal.str e.1) ≠ "chaos"
    ∧ normalizeCurrency env (JVal.str e.1) ≠ "divine"

/-- Every row of a statistics table comes from a group of the grouping, and shows
the raw currency breakdown of that group when no rate is supplied (`noRate`) or
the group holds a foreign currency. -/
def RawIncomeRows (env : Env) (noRate : Prop) (rows : List StatRow)
    (groupMap : List (String × Group)) : Prop :=
  ∀ row ∈ rows, ∃ e ∈ groupMap, row.label = e.1
    ∧ ((noRate ∨ hasForeign env e.2.byCurrency) →
        row.incomeText = formatCurrencyMap env e.2.byCurrency)

/-- Entry number `i` of the raw batch is accepted by `normalizeRow`, read at the
clock of its iteration, as the record `norm`, and `makeTradeKey` gives that
record the key `k`. -/
def Produces (env : Env) (clock : Nat → Int) (league : JVal) (rawRows : List RawRow) (i : Nat)
    (norm : Row) (k : String) : Prop :=
  ∃ row, rawRows[i]? = some row ∧ normalizeRow env (clock i) row = some (some norm)
    ∧ makeTradeKey env league (some norm) = some k

/-- What the loop of `normalizeAndKeyBatch` has established after the entries
before number `s`: every row kept is the record of the first entry producing its
key, and every key produced so far is in the key set. -/
def FirstKept (env : Env) (clock : Nat → Int) (league : JVal) (rawRows : List RawRow) (s : Nat)
    (acc : Batch) : Prop :=
  (∀ r ∈ acc.rows, ∃ i norm k, i < s ∧ Produces env clock league rawRows i norm k
      ∧ r = { norm with tradeKey := JVal.str k }
      ∧ ∀ j, j < i → ∀ norm1, ¬ Produces env clock league rawRows j norm1 k)
    ∧ ∀ i norm k, i < s → Produces env clock league rawRows i norm k → k ∈ acc.keySet

/-- The normalised league name `String(league || "").trim().toLowerCase()` that
`leagueStorageKey` and `makeTradeKey` encode. -/
def normalizedLeague (env : Env) (league : JVal) : String :=
  env.toLowerCase (jsTrim (if league.truthy then league.toStr env else ""))

/-- A record with the price 1 chaos, the identifier `item-a` and the time T100,
whose display fields are filled with the text `label`. -/
def labelledRow (label : String) : Row :=
  { bareRow 100 1 "chaos" with
    itemId := JVal.str "item-a"
    timeIso := t100
    name := JVal.str label
    category := JVal.str label
    note := JVal.str label }

/-- The record at place `i` of a loaded list passes every field test of
`sanitizeArchiveRows`, and no record before place `i` that passes them has its
trade key: the first valid occurrence of a key. -/
def FirstValid (rows : List (Option Row)) (i : Nat) (r : Row) : Prop :=
  rows[i]? = some (some r) ∧ validRow r = true
    ∧ ∀ j, j < i → ∀ r1, rows[j]? = some (some r1) → validRow r1 = true →
        r1.tradeKey ≠ r.tradeKey

/-- What the loop of `sanitizeArchiveRows` has established after the elements
before place `s`: `out` holds exactly the first valid occurrences, and the key of
every valid record seen is a key of `out`. -/
def SanitizedUpTo (rows : List (Option Row)) (s : Nat) (out : List Row) : Prop :=
  (∀ r, r ∈ out ↔ ∃ i, i < s ∧ FirstValid rows i r)
    ∧ ∀ j, j < s → ∀ r1, rows[j]? = some (some r1) → validRow r1 = true →
        r1.tradeKey ∈ keysOf out

/-- A stored list of three elements: a record with the key `k1`, a `null`, and a
second record with the key `k1`. -/
def repeatedKeySlot : List (Option Row) :=
  [some { labelledRow "first" with tradeKey := JVal.str "k1" }, none,
   some { labelledRow "second" with tradeKey := JVal.str "k1" }]

/-- The rows of attempt number `i` of `writeArchive` when every earlier attempt
was rejected: `payloadRows.slice(0, Math.floor(payloadRows.length * 0.9))` applied
`i` times to the input. -/
def attemptRows (rows : List Row) : Nat → List Row
  | 0 => rows
  | i + 1 => (attemptRows rows i).take ((attemptRows rows i).length * 9 / 10)

/-- A storage that rejects every write. -/
def rejectAll : Nat → List Row → Bool := fun _ _ => false

/-- The raw entry `{ item_id, time, item: { typeLine, baseType }, price }` sold for
1 chaos at T100. -/
def namedEntry (typeLine baseType : JVal) : RawRow :=
  { rawEntry (JVal.str "item-a") t100 (JVal.num 1) (JVal.str "chaos") with
    item := { RawItem.absent with typeLine := typeLine, baseType := baseType } }

/-- The text of a field after `trim`, a field that is not a string counting as
empty: the value of `(v || "").trim()` whenever that does not throw. -/
def trimmedText : JVal → String
  | JVal.str s => jsTrim s
  | _ => ""

/-- An item whose category map has an empty first key. -/
def emptyKeyItem : RawItem :=
  { RawItem.absent with
    category := some [("", some [JVal.str "x"]), ("weapons", some [JVal.str "sword"])] }

/-- A raw entry with mods in three of the six arrays, some of them blank or not
strings. -/
def modsEntry : RawRow :=
  { rawEntry (JVal.str "item-a") t100 (JVal.num 1) (JVal.str "chaos") with
    item :=
      { RawItem.absent with
        implicitMods := some [JVal.str "a", JVal.num 5]
        fracturedMods := some [JVal.str "f", JVal.str " ", JVal.null]
        enchantMods := some [JVal.str "e"] } }

/-- The last two steps of `itemCategoryLabel`: the trimmed capture of the
`Item Class:` pattern in a non-empty item text, or the empty string. -/
def labelFromText (env : Env) (itemText : Option String) : String :=
  match itemText with
  | some t =>
    if t ≠ "" then
      match env.matchItemClass t with
      | some g => if g ≠ "" then jsTrim g else ""
      | none => ""
    else ""
  | none => ""

/-- The steps of `itemCategoryLabel` after the explicit category: the label of
the category map, or else the label of the item text. -/
def labelFromMap (env : Env) (item : RawItem) (itemText : Option String) : String :=
  match item.category with
  | some entries =>
    match categoryFromEntries env entries with
    | some label => label
    | none => labelFromText env itemText
  | none => labelFromText env itemText

/-- A record sold for 1 chaos that has no `timeMs`. -/
def untimedRow : Row := { bareRow 0 1 "chaos" with timeMs := JVal.undefined }

/-- The map `expectedTotals` of the unit test of `computeIncomeStats`: for each
record in input order, the sum filed under its normalised currency grows by its
price amount, `(expectedTotals.get(k) || 0) + r.priceAmount`. -/
def expectedTotals (env : Env) (rows : List Row) : List (String × Num) :=
  rows.foldl (fun m r =>
    mapSet m (normalizeCurrency env r.priceCurrency)
      ((Num.orZero (mapGet m (normalizeCurrency env r.priceCurrency))).add
        (Num.fin (amountNum r)))) []

/-- The trade count of the group filed under `key`; 0 when there is none. -/
def groupCount (groupMap : List (String × Group)) (key : String) : Nat :=
  ((mapGet groupMap key).map (fun g => g.count)).getD 0

/-- The value `s.trim() || "Other"` of a label field. -/
def labelOrOther (v : JVal) : String :=
  if trimmedText v ≠ "" then trimmedText v else "Other"

/-- The base-type label as the statement describes it: the trimmed `baseType` if
non-empty, else the trimmed `name` if non-empty, else `Other`, with `(unknown)`
folded into `Other`. -/
def baseTypeLabel (r : Row) : String :=
  if (if trimmedText r.baseType ≠ "" then trimmedText r.baseType else labelOrOther r.name)
      = "(unknown)" then "Other"
  else if trimmedText r.baseType ≠ "" then trimmedText r.baseType else labelOrOther r.name

/-- A sold record without base type whose display name is `(unknown)`. -/
def unknownNameRow : Row :=
  { bareRow 100 1 "chaos" with name := JVal.str "(unknown)", baseType := JVal.str "" }

/-- The row that `toStatRows` builds for one group. -/
def statRowOf (env : Env) (preferredCurrency divineChaosPrice : JVal) (e : String × Group) :
    StatRow :=
  { label := e.1
    count := e.2.count
    countText := env.numToString e.2.count
    preferredAmount := preferredAmountForGroup env e.2.byCurrency preferredCurrency divineChaosPrice
    incomeText :=
      formatCurrencyMapForPreferred env e.2.byCurrency preferredCurrency divineChaosPrice }

/-- The order of the default sort of `toStatRows`: `a` comes before `b` when its
preferred amount is larger, or the amounts are equal and its trade count is
larger, or both are equal and its label does not come after the label of `b`. -/
def RanksBefore (env : Env) (a b : StatRow) : Prop :=
  b.preferredAmount.lt a.preferredAmount = true
    ∨ (b.preferredAmount = a.preferredAmount
        ∧ (b.count < a.count
          ∨ (b.count = a.count ∧ env.localeCompare a.label b.label ≤ 0)))

/-- The comparison `localeCompare` orders all strings: by its sign it is total and
transitive. -/
def OrdersLabels (env : Env) : Prop :=
  (∀ a b, env.localeCompare a b ≤ 0 ∨ env.localeCompare b a ≤ 0)
    ∧ ∀ a b c, env.localeCompare a b ≤ 0 → env.localeCompare b c ≤ 0 →
        env.localeCompare a c ≤ 0

/-- The comparison `localeCompare` tells any two different labels of the list
apart. -/
def SeparatesLabels (env : Env) (labels : List String) : Prop :=
  ∀ a ∈ labels, ∀ b ∈ labels, env.localeCompare a b = 0 → a = b

/-- Twenty sold records with the categories `a` to `t`, one trade each, at the
prices 1 to 20 chaos. -/
def twentyCategories : List Row :=
  (List.range 20).map (fun (i : Nat) =>
    { bareRow 100 ((i : ℚ) + 1) "chaos" with
      category := JVal.str (String.singleton (Char.ofNat (i + 97))) })

/-- No group of the grouping has the preferred amount `NaN`. -/
def NanFree (env : Env) (preferredCurrency divineChaosPrice : JVal)
    (groupMap : List (String × Group)) : Prop :=
  ∀ e ∈ groupMap,
    preferredAmountForGroup env e.2.byCurrency preferredCurrency divineChaosPrice ≠ Num.nan

/-- A table of `toStatRows` in the default order: the first `limit` rows of a
list of all groups, one row per distinct label, `labels` being the labels of the
counted records; the list is a ranking when no preferred amount of the grouping
is `NaN`. -/
def RankedTable (env : Env) (preferredCurrency divineChaosPrice : JVal)
    (groupMap : List (String × Group)) (labels : List String) (limit : Nat)
    (table : List StatRow) : Prop :=
  table.length = min limit labels.dedup.length
    ∧ ∃ ranked : List StatRow,
        ranked.Perm (groupMap.map (statRowOf env preferredCurrency divineChaosPrice))
          ∧ (ranked.map (fun row => row.label)).Perm labels.dedup
          ∧ (NanFree env preferredCurrency divineChaosPrice groupMap →
              ranked.Sorted (RanksBefore env))
          ∧ table = ranked.take limit

/-- A table of `toStatRows` in the order `keyDesc`: at most `limit` rows, one per
group, with strictly descending labels, and every group left out has a label
smaller than each label of the table. -/
def RecentTable (env : Env) (preferredCurrency divineChaosPrice : JVal)
    (groupMap : List (String × Group)) (limit : Nat) (table : List StatRow) : Prop :=
  table.length ≤ limit
    ∧ table.length = min limit groupMap.length
    ∧ (∀ row ∈ table, ∃ e ∈ groupMap,
        row = statRowOf env preferredCurrency divineChaosPrice e)
    ∧ table.Pairwise (fun a b => env.localeCompare b.label a.label < 0)
    ∧ ∀ e ∈ groupMap, e.1 ∉ table.map (fun row => row.label) →
        ∀ row ∈ table, env.localeCompare e.1 row.label < 0

/-- Sixteen sold records of 1 chaos each on sixteen days of fourteen weeks, in
the order of their times: 100 ms after midnight (UTC) of the days 0, 1 and 2
after 1970-01-01 and of every seventh day from day 7 to day 91. -/
def sixteenDays : List Row :=
  ([0, 1, 2] ++ (List.range 13).map (fun (i : Nat) => 7 * (i + 1))).map
    (fun (d : Nat) => bareRow ((d : ℚ) * 86400000 + 100) 1 "chaos")

/-- The row that `computeBestWorstDay` builds for one day. -/
def dayRowOf (env : Env) (preferredCurrency divineChaosPrice : JVal) (e : String × Group) :
    DayRow :=
  { dayKey := e.1
    count := e.2.count
    preferredAmount := preferredAmountForGroup env e.2.byCurrency preferredCurrency divineChaosPrice
    incomeText :=
      formatCurrencyMapForPreferred env e.2.byCurrency preferredCurrency divineChaosPrice }

/-- After the first `s` days, `best` is the row of the first day among them with
the largest preferred amount; nothing when `s` is 0. -/
def BestUpTo (env : Env) (pc dp : JVal) (byDay : List (String × Group)) (s : Nat) :
    Option DayRow → Prop
  | none => s = 0
  | some b =>
    ∃ i e, i < s ∧ byDay[i]? = some e ∧ b = dayRowOf env pc dp e
      ∧ (∀ k e1, k < s → byDay[k]? = some e1 →
          (dayRowOf env pc dp e1).preferredAmount.le b.preferredAmount = true)
      ∧ ∀ k e1, k < i → byDay[k]? = some e1 →
          (dayRowOf env pc dp e1).preferredAmount.lt b.preferredAmount = true

/-- After the first `s` days, `worst` is the row of the first day among them with
the smallest preferred amount; nothing when `s` is 0. -/
def WorstUpTo (env : Env) (pc dp : JVal) (byDay : List (String × Group)) (s : Nat) :
    Option DayRow → Prop
  | none => s = 0
  | some w =>
    ∃ i e, i < s ∧ byDay[i]? = some e ∧ w = dayRowOf env pc dp e
      ∧ (∀ k e1, k < s → byDay[k]? = some e1 →
          w.preferredAmount.le (dayRowOf env pc dp e1).preferredAmount = true)
      ∧ ∀ k e1, k < i → byDay[k]? = some e1 →
          w.preferredAmount.lt (dayRowOf env pc dp e1).preferredAmount = true

/-- Three days with the chaos sums 5, 7 and 7, and then one with the sum 5. -/
def fourDays : List (String × Group) :=
  [("d1", { count := 1, byCurrency := [("chaos", Num.fin 5)] }),
   ("d2", { count := 1, byCurrency := [("chaos", Num.fin 7)] }),
   ("d3", { count := 2, byCurrency := [("chaos", Num.fin 7)] }),
   ("d4", { count := 1, byCurrency := [("chaos", Num.fin 5)] })]

/-- The characters of a number text that follow its first decimal point; none when
it has no decimal point. -/
def fractionDigits (s : String) : List Char :=
  (s.data.dropWhile (fun c => c != '.')).drop 1

/-- An environment that agrees with `sampleEnv` and prints the number
1500000000000000000000 as `String` does, in exponent notation. -/
def exponentEnv : Env :=
  { sampleEnv with
    numToString := fun q =>
      if q = 1500000000000000000000 then "1.5e+21" else sampleNumToString q }

/-- The number-to-string conversion of the environment prints an integer of
magnitude below `2^53` with all its digits, and prints the double nearest to
`k/100`, for an integer `k` that is not a multiple of 100 and has
`|k/100| < 2^46`, as the decimal text of `k/100`.  That is what `String` does: it
prints the shortest decimal text that reads back as the same double, and in
these ranges the doubles are less than 1 resp. 1/100 apart. -/
def PrintsDecimals (env : Env) : Prop :=
  (∀ n : ℤ, |n| < 2 ^ 53 → env.numToString n = toString n)
    ∧ ∀ (k : ℤ) (v : ℚ), |k| < 100 * 2 ^ 46 → ¬ (100 : ℤ) ∣ k → fl (k / 100) = Num.fin v →
        env.numToString v = decimalText k

/-- The texts of the item identifier and of the time stamp of every entry are free
of the separator `|` of the trade key. -/
def BarFree (env : Env) (rawRows : List RawRow) : Prop :=
  ∀ row ∈ rawRows, '|' ∉ (row.item_id.toStr env).data ∧ '|' ∉ (row.time.toStr env).data

/-- A batch with the single sale of `item-c` at T200. -/
def batchC : List RawRow :=
  [rawEntry (JVal.str "item-c") t200 (JVal.num 3) (JVal.str "chaos")]

/-- Normalising a currency that was normalised to a non-empty text does not empty
it, as `trim` and `toLowerCase` guarantee. -/
def KeepsCurrency (env : Env) : Prop :=
  ∀ s, normalizeCurrency env (JVal.str s) ≠ "" →
    normalizeCurrency env (JVal.str (normalizeCurrency env (JVal.str s))) ≠ ""

/-- Two sold records of `2^1023` (about 9·10^307) each, in one currency and at
the time 100; the sum of the two amounts is too large for a double. -/
def hugeRows (currency : String) : List Row :=
  [bareRow 100 (2 ^ 1023) currency, bareRow 100 (2 ^ 1023) currency]

/-- The number is on the grid of the doubles: a finite value is an integer
multiple of `2^-1074`, as every double is. -/
def Num.OnGrid : Num → Prop
  | Num.fin q => ∃ z : ℤ, q = z * pow2 (-1074)
  | _ => True

/-- The sum of finite amounts as the loop of `computeIncomeStats` accumulates it:
from 0, in the order of the list, every addition rounding to a double. -/
def sumInOrder (amounts : List ℚ) : Num :=
  amounts.foldl (fun acc a => acc.add (Num.fin a)) (Num.fin 0)

/-- A sold record of a category, 100 ms after midnight (UTC) of a day counted from
1970-01-01. -/
def dayCategoryRow (day : Nat) (category : String) (amount : ℚ) (currency : String) : Row :=
  { bareRow ((day : ℚ) * 86400000 + 100) amount currency with category := JVal.str category }

/-- Five sold records: 5 chaos in the category `b` on day 1, then in the category
`a` on day 0 twice `-2^1023` chaos and once `2^1023` divine, then 7 chaos in the
category `c` on day 2.  With the rate 150 the chaos value of the category `a` is
minus infinity plus infinity. -/
def nanCategoryRows : List Row :=
  [dayCategoryRow 1 "b" 5 "chaos", dayCategoryRow 0 "a" (-(2 ^ 1023)) "chaos",
   dayCategoryRow 0 "a" (-(2 ^ 1023)) "chaos", dayCategoryRow 0 "a" (2 ^ 1023) "divine",
   dayCategoryRow 2 "c" 7 "chaos"]

/-- The records of `nanCategoryRows` in the order of their days: day 0 first. -/
def nanDayRows : List Row :=
  [dayCategoryRow 0 "a" (-(2 ^ 1023)) "chaos", dayCategoryRow 0 "a" (-(2 ^ 1023)) "chaos",
   dayCategoryRow 0 "a" (2 ^ 1023) "divine", dayCategoryRow 1 "b" 5 "chaos",
   dayCategoryRow 2 "c" 7 "chaos"]

/-! ## Lemmas and theorems -/

/-! ### Rounding to a double -/

theorem pow2_eq (e : ℤ) : pow2 e = (2 : ℚ) ^ e := by
  unfold pow2
  split
  · rename_i h
    have h1 : e = (e.toNat : ℤ) := (Int.toNat_of_nonneg h).symm
    conv_rhs => rw [h1]
    rw [zpow_natCast]
    push_cast
    rfl
  · rename_i h
    have h0 : 0 ≤ -e := by omega
    have h1 : e = -((-e).toNat : ℤ) := by
      rw [Int.toNat_of_nonneg h0]
      ring
    conv_rhs => rw [h1]
    rw [zpow_neg, zpow_natCast]
    push_cast
    rw [one_div]

theorem pow2_pos (e : ℤ) : 0 < pow2 e := by
  rw [pow2_eq]
  positivity

theorem pow2_add (a b : ℤ) : pow2 (a + b) = pow2 a * pow2 b := by
  rw [pow2_eq, pow2_eq, pow2_eq, zpow_add₀ (by norm_num)]

theorem pow2_le {a b : ℤ} (h : a ≤ b) : pow2 a ≤ pow2 b := by
  rw [pow2_eq, pow2_eq]
  exact zpow_le_zpow_right₀ (by norm_num) h

theorem pow2_lt_iff {a b : ℤ} : pow2 a < pow2 b ↔ a < b := by
  rw [pow2_eq, pow2_eq]
  exact zpow_lt_zpow_iff_right₀ (by norm_num)

theorem pow2_natCast (n : ℕ) : pow2 (n : ℤ) = (2 : ℚ) ^ n := by
  rw [pow2_eq, zpow_natCast]

theorem bitLog_eq : ∀ fuel n, n ≤ fuel → bitLog fuel n = Nat.log2 n := by
  intro fuel
  induction fuel with
  | zero =>
    intro n hn
    have h0 : n = 0 := by omega
    subst h0
    simp [bitLog, Nat.log2_zero]
  | succ f ih =>
    intro n hn
    unfold bitLog
    rw [Nat.log2]
    by_cases h : 2 ≤ n
    · rw [if_pos h, if_pos h, ih (n / 2) (by omega)]
    · rw [if_neg h, if_neg h]

theorem log2Floor_spec {a : ℚ} (ha : 0 < a) :
    pow2 (log2Floor a) ≤ a ∧ a < pow2 (log2Floor a + 1) := by
  have hnum : 0 < a.num := Rat.num_pos.mpr ha
  have hn0 : a.num.natAbs ≠ 0 := by omega
  have hd0 : a.den ≠ 0 := a.den_nz
  have hn1 := Nat.log2_self_le hn0
  have hn2 := @Nat.lt_log2_self a.num.natAbs
  have hd1 := Nat.log2_self_le hd0
  have hd2 := @Nat.lt_log2_self a.den
  have hval : a = (a.num.natAbs : ℚ) / (a.den : ℚ) := by
    have h1 : ((a.num.natAbs : ℤ) : ℚ) = (a.num : ℚ) := by
      rw [Int.natAbs_of_nonneg hnum.le]
    rw [← Int.cast_natCast, h1]
    exact (Rat.num_div_den a).symm
  have hdpos : (0 : ℚ) < (a.den : ℚ) := by exact_mod_cast a.den_pos
  have hn1q : (2 : ℚ) ^ a.num.natAbs.log2 ≤ (a.num.natAbs : ℚ) := by exact_mod_cast hn1
  have hn2q : (a.num.natAbs : ℚ) < (2 : ℚ) ^ (a.num.natAbs.log2 + 1) := by exact_mod_cast hn2
  have hd1q : (2 : ℚ) ^ a.den.log2 ≤ (a.den : ℚ) := by exact_mod_cast hd1
  have hd2q : (a.den : ℚ) < (2 : ℚ) ^ (a.den.log2 + 1) := by exact_mod_cast hd2
  have hlow : pow2 ((a.num.natAbs.log2 : ℤ) - (a.den.log2 : ℤ) - 1) ≤ a := by
    have he : ((a.num.natAbs.log2 : ℤ) - (a.den.log2 : ℤ) - 1)
        = (a.num.natAbs.log2 : ℤ) - ((a.den.log2 + 1 : ℕ) : ℤ) := by
      push_cast
      ring
    rw [pow2_eq, he, zpow_sub₀ (by norm_num), zpow_natCast, zpow_natCast]
    conv_rhs => rw [hval]
    exact div_le_div₀ (by positivity) hn1q hdpos hd2q.le
  have hhigh : a < pow2 ((a.num.natAbs.log2 : ℤ) - (a.den.log2 : ℤ) + 1) := by
    have he : ((a.num.natAbs.log2 : ℤ) - (a.den.log2 : ℤ) + 1)
        = ((a.num.natAbs.log2 + 1 : ℕ) : ℤ) - (a.den.log2 : ℤ) := by
      push_cast
      ring
    rw [pow2_eq, he, zpow_sub₀ (by norm_num), zpow_natCast, zpow_natCast]
    conv_lhs => rw [hval]
    exact div_lt_div₀ hn2q hd1q (by positivity) (by positivity)
  unfold log2Floor
  simp only [bitLog_eq _ _ (le_refl _)]
  split
  · rename_i h
    exact ⟨h, hhigh⟩
  · rename_i h
    refine ⟨hlow, ?_⟩
    rw [sub_add_cancel]
    exact not_le.mp h

theorem roundHalfEven_near (x : ℚ) :
    x - 1 / 2 ≤ (roundHalfEven x : ℚ) ∧ (roundHalfEven x : ℚ) ≤ x + 1 / 2 := by
  have h1 := Int.floor_le x
  have h2 := Int.lt_floor_add_one x
  unfold roundHalfEven
  split
  · constructor <;> linarith
  · split
    · push_cast
      constructor <;> linarith
    · rename_i h3 h4
      have h5 : x - ⌊x⌋ = 1 / 2 := le_antisymm (not_lt.mp h4) (not_lt.mp h3)
      split
      · constructor <;> linarith
      · push_cast
        constructor <;> linarith

theorem roundHalfEven_ge {x : ℚ} {n : ℤ} (h : (n : ℚ) ≤ x) : n ≤ roundHalfEven x := by
  have h1 : n ≤ ⌊x⌋ := Int.le_floor.mpr h
  unfold roundHalfEven
  split
  · exact h1
  · split
    · omega
    · split
      · exact h1
      · omega

theorem ulpExponent_ge (a : ℚ) : -1074 ≤ ulpExponent a := by
  unfold ulpExponent
  have := le_max_right (log2Floor a) (-1022)
  omega

theorem pow2_ulp_le {a : ℚ} (ha : pow2 (-1074) ≤ a) : pow2 (ulpExponent a) ≤ a := by
  have hpos : 0 < a := lt_of_lt_of_le (pow2_pos _) ha
  unfold ulpExponent
  rcases le_total (log2Floor a) (-1022) with h | h
  · rw [max_eq_right h]
    exact ha
  · rw [max_eq_left h]
    exact le_trans (pow2_le (by omega)) (log2Floor_spec hpos).1

theorem pow2_ulp_grid (a : ℚ) :
    pow2 (ulpExponent a) = (2 : ℚ) ^ (ulpExponent a + 1074).toNat * pow2 (-1074) := by
  have h := ulpExponent_ge a
  rw [← pow2_natCast, ← pow2_add, Int.toNat_of_nonneg (by omega)]
  congr 1
  ring

theorem nearestMagnitude_grid (a : ℚ) : ∃ z : ℤ, nearestMagnitude a = z * pow2 (-1074) := by
  refine ⟨roundHalfEven (a / pow2 (ulpExponent a)) * 2 ^ (ulpExponent a + 1074).toNat, ?_⟩
  unfold nearestMagnitude
  generalize roundHalfEven (a / pow2 (ulpExponent a)) = m
  rw [pow2_ulp_grid]
  push_cast
  ring

theorem nearestMagnitude_pos {a : ℚ} (ha : pow2 (-1074) ≤ a) : 0 < nearestMagnitude a := by
  have h1 : (1 : ℚ) ≤ a / pow2 (ulpExponent a) := by
    rw [le_div_iff₀ (pow2_pos _), one_mul]
    exact pow2_ulp_le ha
  have h2 : (1 : ℤ) ≤ roundHalfEven (a / pow2 (ulpExponent a)) :=
    roundHalfEven_ge (by exact_mod_cast h1)
  unfold nearestMagnitude
  have h3 : (1 : ℚ) ≤ (roundHalfEven (a / pow2 (ulpExponent a)) : ℚ) := by exact_mod_cast h2
  have := pow2_pos (ulpExponent a)
  positivity

theorem nearestMagnitude_near (a : ℚ) :
    |nearestMagnitude a - a| ≤ pow2 (ulpExponent a) / 2 := by
  have hp := pow2_pos (ulpExponent a)
  obtain ⟨h1, h2⟩ := roundHalfEven_near (a / pow2 (ulpExponent a))
  have ha : a = a / pow2 (ulpExponent a) * pow2 (ulpExponent a) := by
    field_simp
  unfold nearestMagnitude
  rw [abs_le]
  constructor
  · have : (a / pow2 (ulpExponent a) - 1 / 2) * pow2 (ulpExponent a)
        ≤ (roundHalfEven (a / pow2 (ulpExponent a)) : ℚ) * pow2 (ulpExponent a) :=
      mul_le_mul_of_nonneg_right h1 hp.le
    nlinarith
  · have : (roundHalfEven (a / pow2 (ulpExponent a)) : ℚ) * pow2 (ulpExponent a)
        ≤ (a / pow2 (ulpExponent a) + 1 / 2) * pow2 (ulpExponent a) :=
      mul_le_mul_of_nonneg_right h2 hp.le
    nlinarith

theorem ulpExponent_le {a : ℚ} (ha : 0 < a) {n : ℤ} (hn : -1022 ≤ n) (h : a < pow2 (n + 1)) :
    ulpExponent a ≤ n - 52 := by
  have h1 : pow2 (log2Floor a) < pow2 (n + 1) := lt_of_le_of_lt (log2Floor_spec ha).1 h
  have h2 : log2Floor a < n + 1 := pow2_lt_iff.mp h1
  unfold ulpExponent
  have := max_le (show log2Floor a ≤ n by omega) hn
  omega

theorem fl_onGrid (q : ℚ) : ∃ z : ℤ, ∀ v, fl q = Num.fin v → v = z * pow2 (-1074) := by
  obtain ⟨z, hz⟩ := nearestMagnitude_grid |q|
  unfold fl
  split
  · exact ⟨0, fun v hv => by simp only [Num.fin.injEq] at hv; rw [← hv]; simp⟩
  · split
    · exact ⟨0, fun v hv => by simp at hv⟩
    · split
      · refine ⟨-z, fun v hv => ?_⟩
        simp only [Num.fin.injEq] at hv
        rw [← hv, hz]
        push_cast
        ring
      · refine ⟨z, fun v hv => ?_⟩
        simp only [Num.fin.injEq] at hv
        rw [← hv, hz]

theorem fl_pos {q : ℚ} (h : pow2 (-1074) ≤ q) : (Num.fin 0).lt (fl q) = true := by
  have hpos : 0 < q := lt_of_lt_of_le (pow2_pos _) h
  have habs : |q| = q := abs_of_pos hpos
  have hm := nearestMagnitude_pos h
  unfold fl
  rw [if_neg hpos.ne', habs, if_neg (not_lt.mpr hpos.le)]
  split
  · simp [Num.lt, not_lt.mpr hpos.le]
  · simp [Num.lt, hm]

theorem fl_neg {q : ℚ} (h : q ≤ -pow2 (-1074)) : (fl q).lt (Num.fin 0) = true := by
  have hneg : q < 0 := lt_of_le_of_lt h (neg_lt_zero.mpr (pow2_pos _))
  have habs : |q| = -q := abs_of_neg hneg
  have hm : 0 < nearestMagnitude (-q) := nearestMagnitude_pos (by linarith)
  unfold fl
  rw [if_neg hneg.ne, habs, if_pos hneg]
  split
  · simp [Num.lt, hneg]
  · simp [Num.lt, hm]

theorem fl_near {q : ℚ} (h : |q| < 2 ^ 46) : ∃ v, fl q = Num.fin v ∧ |v - q| ≤ 1 / 256 := by
  by_cases h0 : q = 0
  · subst h0
    exact ⟨0, by simp [fl], by norm_num⟩
  have hpos : 0 < |q| := abs_pos.mpr h0
  have hu : ulpExponent |q| ≤ -7 := by
    have := ulpExponent_le hpos (show (-1022 : ℤ) ≤ 45 by norm_num)
      (by rw [pow2_eq]; exact lt_of_lt_of_le h (by norm_num))
    omega
  have hu2 : pow2 (ulpExponent |q|) ≤ 1 / 128 := by
    have := pow2_le hu
    rw [pow2_eq (-7)] at this
    exact le_trans this (by norm_num)
  have herr := nearestMagnitude_near |q|
  have herr2 : |nearestMagnitude (abs q) - abs q| ≤ 1 / 256 := by linarith
  have hfin : ¬ (2 : ℚ) ^ 1024 ≤ nearestMagnitude |q| := by
    rw [not_le]
    have h1 := (abs_le.mp herr2).2
    have h2 : (2 : ℚ) ^ 46 + 1 < 2 ^ 1024 := by norm_num
    linarith
  unfold fl
  rw [if_neg h0, if_neg hfin]
  split
  · rename_i hq
    refine ⟨_, rfl, ?_⟩
    rw [abs_of_neg hq] at herr2 ⊢
    rw [abs_le] at herr2 ⊢
    constructor <;> linarith [herr2.1, herr2.2]
  · rename_i hq
    refine ⟨_, rfl, ?_⟩
    rw [abs_of_nonneg (not_lt.mp hq)] at herr2 ⊢
    exact herr2

/-! ### The order of the numbers -/

theorem fl_grid (q : ℚ) : (fl q).OnGrid := by
  obtain ⟨z, hz⟩ := fl_onGrid q
  cases h : fl q with
  | fin v => exact ⟨z, hz v h⟩
  | inf n => trivial
  | nan => trivial

theorem fl_zero : fl 0 = Num.fin 0 := by
  simp [fl]

theorem fl_ne_nan (q : ℚ) : fl q ≠ Num.nan := by
  unfold fl
  split
  · simp
  · split
    · simp
    · split <;> simp

theorem orZero_ne_nan (o : Option Num) : Num.orZero o ≠ Num.nan := by
  rcases o with _ | v
  · simp [Num.orZero]
  · cases v <;> simp [Num.orZero]

theorem orZero_grid {o : Option Num} (h : ∀ v, o = some v → v.OnGrid) :
    (Num.orZero o).OnGrid := by
  rcases o with _ | v
  · exact ⟨0, by simp⟩
  · cases v with
    | fin q => exact h _ rfl
    | inf n => trivial
    | nan => exact ⟨0, by simp⟩

theorem numAdd_ne_nan {a : Num} (h : a ≠ Num.nan) (q : ℚ) : a.add (Num.fin q) ≠ Num.nan := by
  cases a with
  | fin p => exact fl_ne_nan _
  | inf n => simp [Num.add]
  | nan => exact absurd rfl h

theorem numAdd_grid (a : Num) (q : ℚ) : (a.add (Num.fin q)).OnGrid := by
  cases a with
  | fin p => exact fl_grid _
  | inf n => trivial
  | nan => trivial

theorem orZero_of_ne_nan {v : Num} (h : v ≠ Num.nan) : Num.orZero (some v) = v := by
  cases v with
  | fin q => rfl
  | inf n => rfl
  | nan => exact absurd rfl h

theorem numLt_irrefl (a : Num) : a.lt a = false := by
  cases a with
  | fin q => simp [Num.lt]
  | inf n => cases n <;> rfl
  | nan => rfl

theorem numLt_asymm {a b : Num} (h : a.lt b = true) : b.lt a = false := by
  cases a with
  | fin p =>
    cases b with
    | fin q =>
      simp only [Num.lt, decide_eq_true_eq, decide_eq_false_iff_not, not_lt] at h ⊢
      exact h.le
    | inf n => cases n <;> simp_all [Num.lt]
    | nan => simp [Num.lt] at h
  | inf m =>
    cases b with
    | fin q => cases m <;> simp_all [Num.lt]
    | inf n => cases m <;> cases n <;> simp_all [Num.lt]
    | nan => simp [Num.lt] at h
  | nan => simp [Num.lt] at h

theorem numLt_trans {a b c : Num} (h1 : a.lt b = true) (h2 : b.lt c = true) :
    a.lt c = true := by
  cases a with
  | fin p =>
    cases b with
    | fin q =>
      cases c with
      | fin r =>
        simp only [Num.lt, decide_eq_true_eq] at h1 h2 ⊢
        exact lt_trans h1 h2
      | inf n => simpa [Num.lt] using h2
      | nan => simp [Num.lt] at h2
    | inf m =>
      cases c with
      | fin r => cases m <;> simp_all [Num.lt]
      | inf n => cases m <;> cases n <;> simp_all [Num.lt]
      | nan => simp [Num.lt] at h2
    | nan => simp [Num.lt] at h1
  | inf k =>
    cases b with
    | fin q =>
      cases c with
      | fin r => simpa [Num.lt] using h1
      | inf n => cases k <;> cases n <;> simp_all [Num.lt]
      | nan => simp [Num.lt] at h2
    | inf m =>
      cases c with
      | fin r => cases k <;> cases m <;> simp_all [Num.lt]
      | inf n => cases k <;> cases m <;> cases n <;> simp_all [Num.lt]
      | nan => simp [Num.lt] at h2
    | nan => simp [Num.lt] at h1
  | nan => simp [Num.lt] at h1

theorem numLt_trichotomy {a b : Num} (ha : a ≠ Num.nan) (hb : b ≠ Num.nan) :
    a.lt b = true ∨ a = b ∨ b.lt a = true := by
  cases a with
  | fin p =>
    cases b with
    | fin q =>
      rcases lt_trichotomy p q with h | h | h
      · exact Or.inl (by simp [Num.lt, h])
      · exact Or.inr (Or.inl (by rw [h]))
      · exact Or.inr (Or.inr (by simp [Num.lt, h]))
    | inf n => cases n <;> simp [Num.lt]
    | nan => exact absurd rfl hb
  | inf m =>
    cases b with
    | fin q => cases m <;> simp [Num.lt]
    | inf n => cases m <;> cases n <;> simp [Num.lt]
    | nan => exact absurd rfl hb
  | nan => exact absurd rfl ha

theorem strictEq_iff {a b : Num} (ha : a ≠ Num.nan) : a.strictEq b = true ↔ a = b := by
  cases a with
  | fin p => cases b <;> simp [Num.strictEq]
  | inf m => cases b <;> simp [Num.strictEq]
  | nan => exact absurd rfl ha

theorem numLe_iff {a b : Num} (ha : a ≠ Num.nan) : a.le b = true ↔ a.lt b = true ∨ a = b := by
  unfold Num.le
  rw [Bool.or_eq_true, strictEq_iff ha]

theorem numLe_of_not_lt {a b : Num} (ha : a ≠ Num.nan) (hb : b ≠ Num.nan)
    (h : a.lt b = false) : b.le a = true := by
  rw [numLe_iff hb]
  rcases numLt_trichotomy ha hb with h1 | h1 | h1
  · rw [h1] at h
    simp at h
  · exact Or.inr h1.symm
  · exact Or.inl h1

theorem numSub_fin (p q : ℚ) : (Num.fin p).sub (Num.fin q) = fl (p - q) := by
  simp [Num.sub, Num.neg, Num.add, sub_eq_add_neg]

theorem notPositive_fl {x : ℚ} (hx : x = 0 ∨ pow2 (-1074) ≤ |x|) :
    (fl x).notPositive = true ↔ x ≤ 0 := by
  unfold Num.notPositive
  rcases hx with hx | hx
  · subst hx
    simp [fl_zero, Num.lt]
  · rcases le_or_lt 0 x with h | h
    · rw [abs_of_nonneg h] at hx
      have hpos : 0 < x := lt_of_lt_of_le (pow2_pos _) hx
      rw [fl_pos hx]
      simp [not_le.mpr hpos]
    · rw [abs_of_neg h] at hx
      have := numLt_asymm (fl_neg (show x ≤ -pow2 (-1074) by linarith))
      rw [this]
      simp [h.le]

theorem grid_gap {p q : ℚ} (hp : (Num.fin p).OnGrid) (hq : (Num.fin q).OnGrid) :
    p - q = 0 ∨ pow2 (-1074) ≤ |p - q| := by
  obtain ⟨zp, rfl⟩ := hp
  obtain ⟨zq, rfl⟩ := hq
  by_cases h : zp = zq
  · left
    rw [h]
    ring
  · right
    have h1 : (1 : ℚ) ≤ |((zp - zq : ℤ) : ℚ)| := by
      have : (1 : ℤ) ≤ |zp - zq| := Int.one_le_abs (sub_ne_zero.mpr h)
      exact_mod_cast this
    have h2 : (zp : ℚ) * pow2 (-1074) - zq * pow2 (-1074) = ((zp - zq : ℤ) : ℚ) * pow2 (-1074) := by
      push_cast
      ring
    rw [h2, abs_mul, abs_of_pos (pow2_pos _)]
    have := pow2_pos (-1074)
    nlinarith

theorem notPositive_sub_iff {a b : Num} (ha : a.OnGrid) (hb : b.OnGrid)
    (hna : a ≠ Num.nan) (hnb : b ≠ Num.nan) :
    (b.sub a).notPositive = true ↔ b.le a = true := by
  cases a with
  | fin p =>
    cases b with
    | fin q =>
      rw [numSub_fin, notPositive_fl (grid_gap hb ha)]
      simp only [Num.le, Num.lt, Num.strictEq, Bool.or_eq_true, decide_eq_true_eq]
      constructor
      · intro h
        rcases (sub_nonpos.mp h).lt_or_eq with h1 | h1
        · exact Or.inl h1
        · exact Or.inr h1
      · rintro (h | h)
        · linarith
        · linarith
    | inf n => cases n <;> simp [Num.sub, Num.neg, Num.add, Num.notPositive, Num.le, Num.lt,
        Num.strictEq]
    | nan => exact absurd rfl hnb
  | inf m =>
    cases b with
    | fin q => cases m <;> simp [Num.sub, Num.neg, Num.add, Num.notPositive, Num.le, Num.lt,
        Num.strictEq]
    | inf n => cases m <;> cases n <;> simp [Num.sub, Num.neg, Num.add, Num.notPositive, Num.le,
        Num.lt, Num.strictEq]
    | nan => exact absurd rfl hnb
  | nan => exact absurd rfl hna

/-! ### Sorting with a comparator that orders the elements at hand -/

theorem sorted_orderedInsert_of {α : Type} (r : α → α → Prop) [DecidableRel r] (P : α → Prop)
    (htot : ∀ a b, P a → P b → r a b ∨ r b a)
    (htrans : ∀ a b c, P a → P b → P c → r a b → r b c → r a c) (a : α) (ha : P a) :
    ∀ l : List α, (∀ x ∈ l, P x) → l.Sorted r → (l.orderedInsert r a).Sorted r := by
  intro l
  induction l with
  | nil =>
    intro _ _
    simp
  | cons b l ih =>
    intro hl hs
    have hb : P b := hl b (List.mem_cons_self _ _)
    have hl1 : ∀ x ∈ l, P x := fun x hx => hl x (List.mem_cons_of_mem _ hx)
    rw [List.orderedInsert]
    split
    · rename_i hab
      rw [List.Sorted, List.pairwise_cons]
      refine ⟨?_, hs⟩
      intro c hc
      rcases List.mem_cons.mp hc with h | h
      · rw [h]
        exact hab
      · exact htrans a b c ha hb (hl1 c h) hab (List.rel_of_sorted_cons hs c h)
    · rename_i hab
      rw [List.Sorted, List.pairwise_cons]
      refine ⟨?_, ih hl1 (List.Sorted.of_cons hs)⟩
      intro c hc
      rcases (List.mem_orderedInsert r).mp hc with h | h
      · rw [h]
        rcases htot a b ha hb with h1 | h1
        · exact absurd h1 hab
        · exact h1
      · exact List.rel_of_sorted_cons hs c h

theorem sorted_insertionSort_of {α : Type} (r : α → α → Prop) [DecidableRel r] (P : α → Prop)
    (htot : ∀ a b, P a → P b → r a b ∨ r b a)
    (htrans : ∀ a b c, P a → P b → P c → r a b → r b c → r a c) :
    ∀ l : List α, (∀ x ∈ l, P x) → (l.insertionSort r).Sorted r := by
  intro l
  induction l with
  | nil =>
    intro _
    simp
  | cons a l ih =>
    intro hl
    rw [List.insertionSort]
    apply sorted_orderedInsert_of r P htot htrans a (hl a (List.mem_cons_self _ _))
    · intro x hx
      exact hl x (List.mem_cons_of_mem _ ((List.perm_insertionSort r l).mem_iff.mp hx))
    · exact ih (fun x hx => hl x (List.mem_cons_of_mem _ hx))

/-! ### The price fields of `normalizeRow` -/

/-- C4, counterexample: `normalizeRow` accepts the entry with price amount 5 and no
price currency and returns a record whose `priceAmount` is 5 while its
`priceCurrency` is `null`. -/
theorem normalizeRow_amount_without_currency :
    (normalizeRow sampleEnv 1000 amountOnlyEntry).map
        (Option.map (fun norm => (norm.priceAmount, norm.priceCurrency)))
      = some (some (JVal.num 5, JVal.null)) := by
  decide!

/-- C4, amended: for every raw entry that `normalizeRow` accepts, the two price
fields are set independently of each other: `priceAmount` is the raw amount when
that is a finite number and `null` otherwise; `priceCurrency` is the normalised
raw currency when that is a string and `null` otherwise.  A price is accepted
only if both are present: `priceText` is non-empty only if the amount is a
finite number and the currency is a non-empty string, and `makeTradeKey` gives a
key exactly in that case. -/
theorem normalizeRow_price_fields (env : Env) (now : Int) (row : RawRow) (norm : Row)
    (h : normalizeRow env now row = some (some norm)) :
    ((row.priceAmount.isFiniteNumber = true ∧ norm.priceAmount = row.priceAmount)
        ∨ (row.priceAmount.isFiniteNumber = false ∧ norm.priceAmount = JVal.null))
      ∧ ((∃ s, row.priceCurrency = JVal.str s
            ∧ norm.priceCurrency = JVal.str (normalizeCurrency env (JVal.str s)))
          ∨ (row.priceCurrency.isString = false ∧ norm.priceCurrency = JVal.null))
      ∧ (norm.priceText ≠ JVal.str "" →
          norm.priceAmount.isFiniteNumber = true ∧ norm.priceCurrency.isString = true
            ∧ norm.priceCurrency.truthy = true)
      ∧ (∀ league, (makeTradeKey env league (some norm)).isSome = true ↔
          (norm.priceAmount.isFiniteNumber = true ∧ norm.priceCurrency.isString = true
            ∧ norm.priceCurrency.truthy = true)) := by
  unfold normalizeRow at h
  simp only at h
  split at h
  · simp at h
  · split at h
    · simp at h
    · split at h
      · simp only [Option.some.injEq] at h
        subst h
        refine ⟨?_, ?_, ?_, ?_⟩
        · cases row.priceAmount <;> simp [JVal.isFiniteNumber]
        · cases row.priceCurrency <;> simp [JVal.isString]
        · cases row.priceAmount <;> cases row.priceCurrency <;>
            simp [JVal.isFiniteNumber, JVal.isString, JVal.isNullish, JVal.truthy]
          intro hne _
          exact hne
        · intro league
          cases row.priceAmount <;> cases row.priceCurrency <;>
            simp [makeTradeKey, JVal.isFiniteNumber, JVal.isString, JVal.isNullish, JVal.truthy]
      · simp at h

/-- C4, witness: the amended statement at the entry with amount 5 and no currency. -/
theorem normalizeRow_price_fields_witness :
    ∃ norm, normalizeRow sampleEnv 1000 amountOnlyEntry = some (some norm)
      ∧ norm.priceAmount = JVal.num 5 ∧ norm.priceCurrency = JVal.null
      ∧ (∀ league, (makeTradeKey sampleEnv league (some norm)).isSome = true ↔
          (norm.priceAmount.isFiniteNumber = true ∧ norm.priceCurrency.isString = true
            ∧ norm.priceCurrency.truthy = true)) := by
  have hsome : (normalizeRow sampleEnv 1000 amountOnlyEntry).isSome = true := by decide!
  obtain ⟨inner, hinner⟩ := Option.isSome_iff_exists.mp hsome
  have hsome2 : ((normalizeRow sampleEnv 1000 amountOnlyEntry).bind id).isSome = true := by
    decide!
  rw [hinner] at hsome2
  obtain ⟨norm, hnorm⟩ := Option.isSome_iff_exists.mp hsome2
  simp only [Option.bind, id] at hnorm
  subst hnorm
  have hval : (normalizeRow sampleEnv 1000 amountOnlyEntry).map
      (Option.map (fun norm => (norm.priceAmount, norm.priceCurrency)))
        = some (some (JVal.num 5, JVal.null)) := by decide!
  rw [hinner] at hval
  simp only [Option.map, Option.some.injEq, Prod.mk.injEq] at hval
  exact ⟨norm, hinner, hval.1, hval.2,
    (normalizeRow_price_fields sampleEnv 1000 amountOnlyEntry norm hinner).2.2.2⟩

/-! ### Gap detection -/

theorem mem_prevKeysOf (lastMeta : Meta) (k : String) :
    k ∈ prevKeysOf lastMeta ↔ JVal.str k ∈ lastMeta.lastFetchKeys.getD [] := by
  unfold prevKeysOf
  cases lastMeta.lastFetchKeys with
  | none => simp
  | some xs =>
    simp only [List.mem_filterMap, Option.getD_some]
    constructor
    · rintro ⟨a, ha, hk⟩
      cases a <;> simp at hk
      subst hk
      exact ha
    · intro h
      exact ⟨JVal.str k, h, rfl⟩

theorem oldest_of_sorted {rows : List Row} {oldest : Row}
    (hsorted : rows.Sorted (fun a b => timeNum b ≤ timeNum a))
    (hlast : rows.getLast? = some oldest) : ∀ r ∈ rows, timeNum oldest ≤ timeNum r := by
  obtain ⟨ys, rfl⟩ := List.getLast?_eq_some_iff.mp hlast
  intro r hr
  rcases List.mem_append.mp hr with h | h
  · exact (List.pairwise_append.mp hsorted).2.2 r h oldest (by simp)
  · simp at h
    subst h
    exact le_refl _

theorem newest_of_sorted {rows : List Row} {newest : Row}
    (hsorted : rows.Sorted (fun a b => timeNum b ≤ timeNum a))
    (hhead : rows.head? = some newest) : ∀ r ∈ rows, timeNum r ≤ timeNum newest := by
  obtain ⟨ys, rfl⟩ := List.head?_eq_some_iff.mp hhead
  intro r hr
  rcases List.mem_cons.mp hr with h | h
  · subst h
    exact le_refl _
  · exact List.rel_of_sorted_cons hsorted r h

theorem keyOverlap_eq_true_iff (prevKeys currentKeySet : List String) :
    (if prevKeys.length ≠ 0 then currentKeySet.any (fun k => decide (k ∈ prevKeys)) else false) = true
      ↔ ∃ k ∈ currentKeySet, k ∈ prevKeys := by
  by_cases hlen : prevKeys.length ≠ 0
  · simp [hlen]
  · have hnil : prevKeys = [] := by
      cases prevKeys with
      | nil => rfl
      | cons a l => simp at hlen
    subst hnil
    simp

/-- C8: for a current row list sorted newest first, `detectGap` reports a gap
exactly when the metadata holds a finite previous newest time, the current batch
is not empty, its oldest record (the last one, whose time is the least of the
batch) has a finite time strictly greater than the previous newest time, and no
current key belongs to the key set of the previous fetch. -/
theorem detectGap_detected_iff (env : Env) (lastMeta : Meta) (currentRows : List Row)
    (currentKeySet : List String)
    (hsorted : currentRows.Sorted (fun a b => timeNum b ≤ timeNum a)) :
    (detectGap env lastMeta currentRows currentKeySet).detected = true ↔
      ∃ prevNewestMs oldest currentOldestMs,
        lastMeta.lastFetchNewestMs = JVal.num prevNewestMs
          ∧ currentRows.getLast? = some oldest
          ∧ oldest.timeMs = JVal.num currentOldestMs
          ∧ (∀ r ∈ currentRows, timeNum oldest ≤ timeNum r)
          ∧ prevNewestMs < currentOldestMs
          ∧ ∀ k ∈ currentKeySet, JVal.str k ∉ lastMeta.lastFetchKeys.getD [] := by
  have hover := keyOverlap_eq_true_iff (prevKeysOf lastMeta) currentKeySet
  unfold detectGap
  simp only
  cases hlast : currentRows.getLast? with
  | none => simp [GapInfo.noGap]
  | some oldest =>
    have hmin := oldest_of_sorted hsorted hlast
    cases hprev : lastMeta.lastFetchNewestMs with
    | num prevNewestMs =>
      cases htime : oldest.timeMs with
      | num currentOldestMs =>
        simp only [htime, Option.some.injEq, JVal.num.injEq, exists_and_left, exists_eq_left']
        by_cases hle : currentOldestMs ≤ prevNewestMs
        · simp only [if_pos hle, GapInfo.noGap, Bool.false_eq_true, false_iff]
          rintro ⟨_, hlt, _⟩
          exact absurd hlt (not_lt.mpr hle)
        · rw [if_neg hle]
          by_cases hov : (if (prevKeysOf lastMeta).length ≠ 0 then
              currentKeySet.any (fun k => decide (k ∈ prevKeysOf lastMeta)) else false) = true
          · rw [if_pos hov]
            simp only [GapInfo.noGap, Bool.false_eq_true, false_iff]
            rintro ⟨_, _, hkeys⟩
            obtain ⟨k, hk, hin⟩ := hover.mp hov
            exact hkeys k hk ((mem_prevKeysOf lastMeta k).mp hin)
          · rw [if_neg hov]
            simp only [true_iff]
            refine ⟨hmin, not_le.mp hle, ?_⟩
            intro k hk hin
            exact hov (hover.mpr ⟨k, hk, (mem_prevKeysOf lastMeta k).mpr hin⟩)
      | _ => simp [htime, GapInfo.noGap]
    | _ => simp [GapInfo.noGap]

/-- C8, witness: with previous newest time 100 and previous keys `{k1}`, a batch
whose oldest record has time 150 and whose keys are `{k2}` is a gap, and the same
batch with keys `{k1, k2}` is not. -/
theorem detectGap_detected_iff_witness :
    (detectGap sampleEnv metaT100 rowsT150 ["k2"]).detected = true
      ∧ (detectGap sampleEnv metaT100 rowsT150 ["k1", "k2"]).detected ≠ true := by
  have hsorted : rowsT150.Sorted (fun a b => timeNum b ≤ timeNum a) := by
    simp [rowsT150]
  constructor
  · refine (detectGap_detected_iff sampleEnv metaT100 rowsT150 ["k2"] hsorted).mpr
      ⟨100, bareRow 150 1 "chaos", 150, rfl, rfl, rfl, ?_, by norm_num, ?_⟩
    · intro r hr
      simp [rowsT150] at hr
      subst hr
      exact le_refl _
    · intro k hk
      simp at hk
      subst hk
      decide
  · intro h
    obtain ⟨_, _, _, _, _, _, _, _, hkeys⟩ :=
      (detectGap_detected_iff sampleEnv metaT100 rowsT150 ["k1", "k2"] hsorted).mp h
    exact hkeys "k1" (by simp) (by decide)

/-- C9, the code at the failing input: the previous fetch had the newest time 100,
the batch holds sales at times 200 and 150 with new keys.  A gap is detected, and
the stored bounds of the gap are 200 and 150 (the newest and the oldest time of
the current batch), not 100 and 150. -/
theorem persistHistoryBatch_gap_bounds_current_batch :
    (persistHistoryBatch sampleEnv acceptAll sampleClock 1000 1000 gapStorage sampleLeague
        gapBatch).map
      (fun p => (p.1.gapInfo.detected,
        (gapStorage (leagueStorageKey sampleEnv sampleLeague)).meta.lastFetchNewestMs,
        (p.2 (leagueStorageKey sampleEnv sampleLeague)).meta.lastGapFromMs,
        (p.2 (leagueStorageKey sampleEnv sampleLeague)).meta.lastGapToMs))
      = some (true, JVal.num 100, JVal.num 200, JVal.num 150) := by
  decide!

/-! ### The storage round trip -/

theorem JVal.isString_json (v : JVal) : v.json.isString = v.isString := by
  cases v <;> rfl

theorem JVal.isFiniteNumber_json (v : JVal) : v.json.isFiniteNumber = v.isFiniteNumber := by
  cases v <;> rfl

theorem JVal.stringTruthy_json (v : JVal) :
    (v.json.isString && v.json.truthy) = (v.isString && v.truthy) := by
  cases v <;> rfl

theorem JVal.json_idem (v : JVal) : v.json.json = v.json := by
  cases v <;> rfl

theorem JVal.json_orNull_idem (v : JVal) : v.json.orNull.json.orNull = v.json.orNull := by
  cases v <;> rfl

theorem JVal.json_of_isFiniteNumber {v : JVal} (h : v.isFiniteNumber = true) : v.json = v := by
  cases v <;> simp [JVal.isFiniteNumber] at h
  rfl

theorem timeNum_json (r : Row) : timeNum r.json = timeNum r := by
  unfold timeNum Row.json
  cases r.timeMs <;> rfl

theorem tradeKey_json_eq_str {r : Row} {k : String} :
    r.json.tradeKey = JVal.str k ↔ r.tradeKey = JVal.str k := by
  unfold Row.json
  cases r.tradeKey <;> simp [JVal.json]

theorem tradeKey_json_of_str {r : Row} {k : String} (h : r.tradeKey = JVal.str k) :
    r.json.tradeKey = r.tradeKey := by
  rw [h]
  exact tradeKey_json_eq_str.mpr h

theorem sanitizeKeeps_json (keys : List String) (r : Row) :
    sanitizeKeeps keys r.json = sanitizeKeeps keys r := by
  unfold sanitizeKeeps
  have h1 : r.json.tradeKey = r.tradeKey.json := rfl
  have h2 : r.json.itemId = r.itemId.json := rfl
  have h3 : r.json.timeIso = r.timeIso.json := rfl
  have h4 : r.json.timeMs = r.timeMs.json := rfl
  have h5 : r.json.priceCurrency = r.priceCurrency.json := rfl
  have h6 : r.json.priceAmount = r.priceAmount.json := rfl
  rw [h1, h2, h3, h4, h5, h6]
  simp only [JVal.stringTruthy_json, JVal.isFiniteNumber_json]
  cases r.tradeKey <;> rfl

theorem validRow_json (r : Row) : validRow r.json = validRow r := by
  unfold validRow
  rw [sanitizeKeeps_json]

theorem Row.json_twice (r : Row) : r.json.json = r.json := by
  cases r
  have hlist : ∀ l : List JVal,
      List.map ((fun v => v.json.orNull) ∘ fun v => v.json.orNull) l
        = List.map (fun v => v.json.orNull) l := by
    intro l
    apply List.map_congr_left
    intro v _
    exact JVal.json_orNull_idem v
  simp only [Row.json, JVal.json_idem, List.map_map, hlist]

theorem Row.stable_json (r : Row) : r.json.stable = r.stable := by
  unfold Row.stable
  rw [Row.json_twice]

theorem Row.stable_eq_of_eraseAgo_eq {r s : Row} (h : eraseAgo r = eraseAgo s) :
    r.stable = s.stable := by
  cases r
  cases s
  simp only [eraseAgo, Row.mk.injEq] at h
  obtain ⟨h1, h2, h3, h4, h5, -, h7, h8, h9, h10, h11, h12, h13, h14, h15, h16, h17, h18, h19⟩ := h
  subst h1 h2 h3 h4 h5 h7 h8 h9 h10 h11 h12 h13 h14 h15 h16 h17 h18 h19
  rfl

/-! ### The tests of `sanitizeArchiveRows` -/

theorem sanitizeKeeps_eq_some_iff (keys : List String) (r : Row) (k : String) :
    sanitizeKeeps keys r = some k ↔
      validRow r = true ∧ r.tradeKey = JVal.str k ∧ k ∉ keys := by
  unfold validRow sanitizeKeeps
  cases htk : r.tradeKey with
  | str k1 =>
    by_cases hk : k1 = ""
    · simp [hk]
    · by_cases hmem : k1 ∈ keys
      · simp only [hk, hmem, if_false, if_true, List.not_mem_nil, JVal.str.injEq]
        constructor
        · intro h
          cases h
        · rintro ⟨_, h1, h2⟩
          subst h1
          exact absurd hmem h2
      · simp only [hk, hmem, if_false, List.not_mem_nil, JVal.str.injEq]
        split
        · simp
        · split
          · simp
          · split
            · simp
            · split
              · simp
              · split
                · simp
                · simp only [Option.some.injEq, Option.isSome_some, true_and]
                  constructor
                  · intro h
                    subst h
                    exact ⟨rfl, hmem⟩
                  · intro h
                    exact h.1
  | _ => simp

theorem validRow_tradeKey {r : Row} (h : validRow r = true) :
    ∃ k, r.tradeKey = JVal.str k ∧ k ≠ "" := by
  unfold validRow sanitizeKeeps at h
  cases htk : r.tradeKey with
  | str k =>
    refine ⟨k, rfl, ?_⟩
    intro hk
    rw [htk] at h
    simp [hk] at h
  | _ =>
    rw [htk] at h
    simp at h

theorem validRow_timeMs {r : Row} (h : validRow r = true) : r.timeMs.isFiniteNumber = true := by
  unfold validRow sanitizeKeeps at h
  cases htk : r.tradeKey with
  | str k =>
    rw [htk] at h
    simp only at h
    by_contra hnot
    simp only [Bool.not_eq_true] at hnot
    simp [hnot] at h
  | _ =>
    rw [htk] at h
    simp at h

theorem validRow_of_fields {r : Row} (hk : ∃ k, r.tradeKey = JVal.str k ∧ k ≠ "")
    (hid : (r.itemId.isString && r.itemId.truthy) = true)
    (hiso : (r.timeIso.isString && r.timeIso.truthy) = true)
    (hms : r.timeMs.isFiniteNumber = true)
    (hcur : (r.priceCurrency.isString && r.priceCurrency.truthy) = true)
    (hamt : r.priceAmount.isFiniteNumber = true) : validRow r = true := by
  obtain ⟨k, hk1, hk2⟩ := hk
  unfold validRow sanitizeKeeps
  rw [hk1]
  simp [hk2, hid, hiso, hms, hcur, hamt]

/-! ### Sorting newest first -/

theorem mem_sortNewestFirst {rows : List Row} {r : Row} :
    r ∈ sortNewestFirst rows ↔ r ∈ rows :=
  (List.perm_insertionSort _ rows).mem_iff

theorem perm_sortNewestFirst (rows : List Row) : (sortNewestFirst rows).Perm rows :=
  List.perm_insertionSort _ rows

theorem sorted_sortNewestFirst (rows : List Row) :
    (sortNewestFirst rows).Sorted (fun a b => timeNum b ≤ timeNum a) :=
  @List.sorted_insertionSort Row (fun a b => timeNum b ≤ timeNum a) _
    ⟨fun a b => le_total (timeNum b) (timeNum a)⟩
    ⟨fun _ _ _ hab hbc => le_trans hbc hab⟩ rows

theorem sortNewestFirst_of_sorted {rows : List Row}
    (h : rows.Sorted (fun a b => timeNum b ≤ timeNum a)) : sortNewestFirst rows = rows :=
  List.Sorted.insertionSort_eq h

theorem keysOf_sortNewestFirst_perm (rows : List Row) :
    (keysOf (sortNewestFirst rows)).Perm (keysOf rows) :=
  (perm_sortNewestFirst rows).map _

theorem sorted_iff_times {rows : List Row} :
    rows.Sorted (fun a b => timeNum b ≤ timeNum a)
      ↔ (rows.map timeNum).Sorted (fun x y => y ≤ x) := by
  unfold List.Sorted
  rw [List.pairwise_map]

theorem sortNewestFirst_map (f : Row → Row) (hf : ∀ r, timeNum (f r) = timeNum r)
    (rows : List Row) : sortNewestFirst (rows.map f) = (sortNewestFirst rows).map f := by
  unfold sortNewestFirst
  symm
  apply List.map_insertionSort
  intro a _ b _
  rw [hf a, hf b]

theorem timeNum_eraseAgo (r : Row) : timeNum (eraseAgo r) = timeNum r := rfl

/-! ### The `Map` of records -/

theorem mapSet_of_not_mem {κ ν : Type} [DecidableEq κ] (entries : List (κ × ν)) (k : κ) (v : ν)
    (h : k ∉ entries.map Prod.fst) : mapSet entries k v = entries ++ [(k, v)] := by
  induction entries with
  | nil => rfl
  | cons e rest ih =>
    obtain ⟨k1, v1⟩ := e
    simp only [List.map_cons, List.mem_cons, not_or] at h
    simp only [mapSet, List.cons_append]
    rw [if_neg (fun hk => h.1 hk.symm), ih h.2]

theorem mapSet_keys_of_mem {κ ν : Type} [DecidableEq κ] (entries : List (κ × ν)) (k : κ) (v : ν)
    (h : k ∈ entries.map Prod.fst) :
    (mapSet entries k v).map Prod.fst = entries.map Prod.fst := by
  induction entries with
  | nil => simp at h
  | cons e rest ih =>
    obtain ⟨k1, v1⟩ := e
    simp only [mapSet]
    by_cases hk : k1 = k
    · simp [hk]
    · rw [if_neg hk]
      simp only [List.map_cons, List.mem_cons] at h
      rcases h with h | h
      · exact absurd h.symm hk
      · simp [ih h]

theorem mapSet_keys_nodup {κ ν : Type} [DecidableEq κ] (entries : List (κ × ν)) (k : κ) (v : ν)
    (h : (entries.map Prod.fst).Nodup) : ((mapSet entries k v).map Prod.fst).Nodup := by
  by_cases hk : k ∈ entries.map Prod.fst
  · rw [mapSet_keys_of_mem entries k v hk]
    exact h
  · rw [mapSet_of_not_mem entries k v hk]
    simp only [List.map_append, List.map_cons, List.map_nil]
    exact List.Nodup.append h (List.nodup_singleton k) (by simpa using hk)

theorem mem_mapSet {κ ν : Type} [DecidableEq κ] (entries : List (κ × ν)) (k : κ) (v : ν)
    (h : (entries.map Prod.fst).Nodup) (e : κ × ν) :
    e ∈ mapSet entries k v ↔ e = (k, v) ∨ (e ∈ entries ∧ e.1 ≠ k) := by
  induction entries with
  | nil => simp [mapSet]
  | cons e1 rest ih =>
    obtain ⟨k1, v1⟩ := e1
    simp only [List.map_cons, List.nodup_cons] at h
    simp only [mapSet]
    by_cases hk : k1 = k
    · subst hk
      rw [if_pos rfl]
      simp only [List.mem_cons]
      constructor
      · rintro (he | he)
        · exact Or.inl he
        · right
          refine ⟨Or.inr he, ?_⟩
          intro hk
          exact h.1 (hk ▸ List.mem_map_of_mem Prod.fst he)
      · rintro (he | ⟨he | he, hne⟩)
        · exact Or.inl he
        · subst he
          exact absurd rfl hne
        · exact Or.inr he
    · rw [if_neg hk]
      simp only [List.mem_cons, ih h.2]
      constructor
      · rintro (he | he | ⟨he, hne⟩)
        · right
          subst he
          exact ⟨Or.inl rfl, hk⟩
        · exact Or.inl he
        · exact Or.inr ⟨Or.inr he, hne⟩
      · rintro (he | ⟨he | he, hne⟩)
        · exact Or.inr (Or.inl he)
        · exact Or.inl he
        · exact Or.inr (Or.inr ⟨he, hne⟩)

theorem keyed_mapSet (entries : List (JVal × Row)) (r : Row) (h : Keyed entries)
    (hn : (entries.map Prod.fst).Nodup) : Keyed (mapSet entries r.tradeKey r) := by
  intro e he
  rcases (mem_mapSet entries r.tradeKey r hn e).mp he with he | ⟨he, _⟩
  · subst he
    rfl
  · exact h e he

theorem signature_mapSet (entries : List (JVal × Row)) (r : Row)
    (hmem : r.tradeKey ∈ entries.map Prod.fst)
    (htime : ∀ p ∈ signature entries, p.1 = r.tradeKey → p.2 = timeNum r) :
    signature (mapSet entries r.tradeKey r) = signature entries := by
  induction entries with
  | nil => simp at hmem
  | cons e rest ih =>
    obtain ⟨k1, v1⟩ := e
    simp only [mapSet]
    by_cases hk : k1 = r.tradeKey
    · rw [if_pos hk]
      have := htime (k1, timeNum v1) (by simp [signature]) hk
      simp only at this
      simp [signature, this, hk]
    · rw [if_neg hk]
      simp only [List.map_cons, List.mem_cons] at hmem
      rcases hmem with h | h
      · exact absurd h.symm hk
      · have ih' := ih h (fun p hp => htime p (by
          simp only [signature, List.map_cons, List.mem_cons]
          exact Or.inr hp))
        simp only [signature, List.map_cons] at ih' ⊢
        rw [ih']

theorem signature_keys (entries : List (JVal × Row)) :
    (signature entries).map Prod.fst = entries.map Prod.fst := by
  simp [signature, List.map_map, Function.comp_def]

theorem signature_times (entries : List (JVal × Row)) :
    (signature entries).map Prod.snd = (entries.map Prod.snd).map timeNum := by
  simp [signature, List.map_map, Function.comp_def]

theorem setAll_nil (entries : List (JVal × Row)) : setAll entries [] = entries := rfl

theorem setAll_cons (entries : List (JVal × Row)) (r : Row) (rows : List Row) :
    setAll entries (r :: rows) = setAll (mapSet entries r.tradeKey r) rows := rfl

theorem setAll_invariant (rows : List Row) :
    ∀ entries : List (JVal × Row), Keyed entries → (entries.map Prod.fst).Nodup →
      Keyed (setAll entries rows) ∧ ((setAll entries rows).map Prod.fst).Nodup := by
  induction rows with
  | nil => intro entries hk hn; exact ⟨hk, hn⟩
  | cons r rest ih =>
    intro entries hk hn
    rw [setAll_cons]
    exact ih _ (keyed_mapSet entries r hk hn) (mapSet_keys_nodup entries _ r hn)

theorem mem_values_mapSet (entries : List (JVal × Row)) (c : Row) (hk : Keyed entries)
    (hn : (entries.map Prod.fst).Nodup) (r : Row) :
    r ∈ (mapSet entries c.tradeKey c).map Prod.snd ↔
      r = c ∨ (r ∈ entries.map Prod.snd ∧ r.tradeKey ≠ c.tradeKey) := by
  constructor
  · intro h
    obtain ⟨e, he, rfl⟩ := List.mem_map.mp h
    rcases (mem_mapSet entries c.tradeKey c hn e).mp he with he | ⟨he, hne⟩
    · subst he
      exact Or.inl rfl
    · right
      refine ⟨List.mem_map_of_mem Prod.snd he, ?_⟩
      rw [← hk e he]
      exact hne
  · rintro (h | ⟨h, hne⟩)
    · subst h
      exact List.mem_map.mpr ⟨(r.tradeKey, r),
        (mem_mapSet entries r.tradeKey r hn _).mpr (Or.inl rfl), rfl⟩
    · obtain ⟨e, he, rfl⟩ := List.mem_map.mp h
      refine List.mem_map.mpr ⟨e, (mem_mapSet entries c.tradeKey c hn e).mpr (Or.inr ⟨he, ?_⟩), rfl⟩
      rw [hk e he]
      exact hne

theorem not_mem_keysOf_cons (k : JVal) (c : Row) (rest : List Row) :
    k ∉ keysOf (c :: rest) ↔ k ≠ c.tradeKey ∧ k ∉ keysOf rest := by
  simp [keysOf]

theorem mem_keysOf {k : JVal} {rows : List Row} :
    k ∈ keysOf rows ↔ ∃ r ∈ rows, r.tradeKey = k := by
  simp [keysOf]

theorem mem_setAll (rows : List Row) :
    ∀ entries : List (JVal × Row), Keyed entries → (entries.map Prod.fst).Nodup →
      (keysOf rows).Nodup → ∀ r : Row,
        r ∈ (setAll entries rows).map Prod.snd ↔
          r ∈ rows ∨ (r ∈ entries.map Prod.snd ∧ r.tradeKey ∉ keysOf rows) := by
  induction rows with
  | nil =>
    intro entries _ _ _ r
    simp [setAll_nil, keysOf]
  | cons c rest ih =>
    intro entries hk hn hnd r
    rw [setAll_cons]
    have hnd1 : c.tradeKey ∉ keysOf rest ∧ (keysOf rest).Nodup := by
      simpa [keysOf] using hnd
    rw [ih _ (keyed_mapSet entries c hk hn) (mapSet_keys_nodup entries _ c hn) hnd1.2 r,
      mem_values_mapSet entries c hk hn r, not_mem_keysOf_cons]
    constructor
    · rintro (h | ⟨h | ⟨h, hne⟩, hnot⟩)
      · exact Or.inl (List.mem_cons_of_mem _ h)
      · subst h
        exact Or.inl (List.mem_cons_self _ _)
      · exact Or.inr ⟨h, hne, hnot⟩
    · rintro (h | ⟨h, hne, hnot⟩)
      · rcases List.mem_cons.mp h with h | h
        · subst h
          exact Or.inr ⟨Or.inl rfl, hnd1.1⟩
        · exact Or.inl h
      · exact Or.inr ⟨Or.inr ⟨h, hne⟩, hnot⟩

theorem setAll_of_fresh (rows : List Row) :
    ∀ entries : List (JVal × Row), (keysOf rows).Nodup →
      (∀ r ∈ rows, r.tradeKey ∉ entries.map Prod.fst) →
      setAll entries rows = entries ++ rows.map (fun r => (r.tradeKey, r)) := by
  induction rows with
  | nil => intro entries _ _; simp [setAll_nil]
  | cons c rest ih =>
    intro entries hnd hfresh
    rw [setAll_cons, mapSet_of_not_mem entries _ c (hfresh c (by simp))]
    simp only [keysOf, List.map_cons, List.nodup_cons] at hnd
    rw [ih _ hnd.2]
    · simp
    · intro r hr
      simp only [List.map_append, List.map_cons, List.map_nil, List.mem_append,
        List.mem_singleton, not_or]
      refine ⟨hfresh r (List.mem_cons_of_mem _ hr), ?_⟩
      intro heq
      apply hnd.1
      rw [← heq]
      exact List.mem_map_of_mem (fun r => r.tradeKey) hr

theorem signature_setAll (rows : List Row) :
    ∀ entries : List (JVal × Row),
      (∀ c ∈ rows, c.tradeKey ∈ (signature entries).map Prod.fst
        ∧ ∀ p ∈ signature entries, p.1 = c.tradeKey → p.2 = timeNum c) →
      signature (setAll entries rows) = signature entries := by
  induction rows with
  | nil => intro entries _; rfl
  | cons c rest ih =>
    intro entries h
    rw [setAll_cons]
    have hc := h c (by simp)
    rw [signature_keys] at hc
    have hsig := signature_mapSet entries c hc.1 hc.2
    rw [ih, hsig]
    intro c1 hc1
    rw [hsig]
    exact h c1 (List.mem_cons_of_mem _ hc1)

/-! ### The loop of `sanitizeArchiveRows` -/

theorem sanitizeLoop_invariant (rows : List (Option Row)) :
    ∀ (out : List Row) (keys : List String), keysOf out = keys.map JVal.str → keys.Nodup →
      (∀ r ∈ out, validRow r = true) →
      ∃ keys1 : List String, keysOf (sanitizeLoop out keys rows) = keys1.map JVal.str
        ∧ keys1.Nodup ∧ ∀ r ∈ sanitizeLoop out keys rows, validRow r = true := by
  induction rows with
  | nil => intro out keys h1 h2 h3; exact ⟨keys, h1, h2, h3⟩
  | cons x rest ih =>
    intro out keys h1 h2 h3
    cases x with
    | none => exact ih out keys h1 h2 h3
    | some r =>
      simp only [sanitizeLoop]
      cases hk : sanitizeKeeps keys r with
      | none => exact ih out keys h1 h2 h3
      | some k =>
        obtain ⟨hv, hkey, hnot⟩ := (sanitizeKeeps_eq_some_iff keys r k).mp hk
        apply ih
        · simp [keysOf, hkey] at h1 ⊢
          exact h1
        · exact List.Nodup.append h2 (List.nodup_singleton k) (by simpa using hnot)
        · intro r1 hr1
          rcases List.mem_append.mp hr1 with h | h
          · exact h3 r1 h
          · simp at h
            subst h
            exact hv

theorem sanitizeLoop_of_nodup (rows : List Row) :
    ∀ (out : List Row) (keys : List String), (keysOf rows).Nodup →
      (∀ r ∈ rows, ∀ k ∈ keys, r.tradeKey ≠ JVal.str k) →
      sanitizeLoop out keys (rows.map some) = out ++ rows.filter validRow := by
  induction rows with
  | nil => intro out keys _ _; simp [sanitizeLoop]
  | cons r rest ih =>
    intro out keys hnd hfresh
    have hnd1 : r.tradeKey ∉ keysOf rest ∧ (keysOf rest).Nodup := by
      simpa [keysOf] using hnd
    simp only [List.map_cons, sanitizeLoop]
    cases hk : sanitizeKeeps keys r with
    | none =>
      have hv : validRow r = false := by
        cases hv : validRow r with
        | false => rfl
        | true =>
          obtain ⟨k, hkey, _⟩ := validRow_tradeKey hv
          have := (sanitizeKeeps_eq_some_iff keys r k).mpr
            ⟨hv, hkey, fun hin => hfresh r (by simp) k hin hkey⟩
          rw [hk] at this
          cases this
      simp only
      rw [ih out keys hnd1.2 (fun r1 hr1 => hfresh r1 (List.mem_cons_of_mem _ hr1))]
      simp [List.filter_cons, hv]
    | some k =>
      obtain ⟨hv, hkey, _⟩ := (sanitizeKeeps_eq_some_iff keys r k).mp hk
      simp only
      rw [ih (out ++ [r]) (keys ++ [k]) hnd1.2]
      · simp [List.filter_cons, hv]
      · intro r1 hr1 k1 hk1
        rcases List.mem_append.mp hk1 with h | h
        · exact hfresh r1 (List.mem_cons_of_mem _ hr1) k1 h
        · simp at h
          subst h
          intro heq
          apply hnd1.1
          rw [hkey, ← heq]
          exact mem_keysOf.mpr ⟨r1, hr1, rfl⟩

theorem sanitizeArchiveRows_spec (rows : List (Option Row)) :
    (keysOf (sanitizeArchiveRows rows)).Nodup
      ∧ (∀ r ∈ sanitizeArchiveRows rows, validRow r = true)
      ∧ (sanitizeArchiveRows rows).Sorted (fun a b => timeNum b ≤ timeNum a) := by
  obtain ⟨keys1, h1, h2, h3⟩ := sanitizeLoop_invariant rows [] [] rfl List.nodup_nil
    (fun r hr => by simp at hr)
  refine ⟨?_, ?_, sorted_sortNewestFirst _⟩
  · unfold sanitizeArchiveRows
    rw [(keysOf_sortNewestFirst_perm _).nodup_iff, h1]
    exact List.Nodup.map (fun a b hab => by injection hab) h2
  · intro r hr
    exact h3 r (mem_sortNewestFirst.mp hr)

theorem keysOf_map_json (rows : List Row) (hstr : ∀ r ∈ rows, ∃ k, r.tradeKey = JVal.str k) :
    keysOf (rows.map Row.json) = keysOf rows := by
  unfold keysOf
  rw [List.map_map]
  apply List.map_congr_left
  intro r hr
  obtain ⟨k, hk⟩ := hstr r hr
  exact tradeKey_json_of_str hk

theorem times_map_json (rows : List Row) : (rows.map Row.json).map timeNum = rows.map timeNum := by
  rw [List.map_map]
  apply List.map_congr_left
  intro r _
  exact timeNum_json r

theorem sanitizeArchiveRows_stored (rows : List Row) (hnd : (keysOf rows).Nodup)
    (hstr : ∀ r ∈ rows, ∃ k, r.tradeKey = JVal.str k)
    (hsorted : rows.Sorted (fun a b => timeNum b ≤ timeNum a)) :
    sanitizeArchiveRows (rows.map (fun r => some r.json))
      = (rows.filter validRow).map Row.json := by
  have hmap : rows.map (fun r => some r.json) = (rows.map Row.json).map some := by
    simp [List.map_map, Function.comp_def]
  have hfilter : (rows.map Row.json).filter validRow = (rows.filter validRow).map Row.json := by
    rw [List.filter_map]
    congr 1
    apply List.filter_congr
    intro r _
    exact validRow_json r
  have hnd1 : (keysOf (rows.map Row.json)).Nodup := by
    rw [keysOf_map_json rows hstr]
    exact hnd
  unfold sanitizeArchiveRows
  rw [hmap, sanitizeLoop_of_nodup _ [] [] hnd1 (fun _ _ k hk => by simp at hk), List.nil_append,
    hfilter]
  apply sortNewestFirst_of_sorted
  rw [sorted_iff_times, times_map_json, ← sorted_iff_times]
  exact List.Sorted.filter _ hsorted

/-! ### The per-batch pass -/

theorem normalizeRow_some {env : Env} {now : Int} {row : RawRow} {norm : Row}
    (h : normalizeRow env now row = some (some norm)) :
    norm.itemId = row.item_id ∧ norm.timeIso = row.time ∧ row.item_id.truthy = true
      ∧ row.time.truthy = true ∧ norm.timeMs.isFiniteNumber = true
      ∧ (norm.priceAmount.isNullish = false → norm.priceAmount.isFiniteNumber = true)
      ∧ (norm.priceCurrency.truthy = true → norm.priceCurrency.isString = true) := by
  unfold normalizeRow at h
  simp only at h
  split at h
  · simp at h
  · rename_i hcond
    split at h
    · simp at h
    · split at h
      · simp only [Option.some.injEq] at h
        subst h
        simp only [Bool.or_eq_true, Bool.not_eq_true', not_or, Bool.not_eq_false] at hcond
        refine ⟨rfl, rfl, hcond.1, hcond.2, rfl, ?_, ?_⟩
        · cases row.priceAmount <;> simp [JVal.isFiniteNumber, JVal.isNullish]
        · cases row.priceCurrency <;> simp [JVal.isString, JVal.truthy]
      · simp at h

theorem normalizeRow_clock (env : Env) (now now1 : Int) (row : RawRow) :
    (normalizeRow env now row).map (Option.map eraseAgo)
      = (normalizeRow env now1 row).map (Option.map eraseAgo) := by
  unfold normalizeRow
  simp only
  split
  · rfl
  · split
    · rfl
    · split
      · rfl
      · rfl

theorem eraseAgo_with_tradeKey {n n1 : Row} (h : eraseAgo n = eraseAgo n1) (x : JVal) :
    eraseAgo { n with tradeKey := x } = eraseAgo { n1 with tradeKey := x } := by
  cases n
  cases n1
  simp only [eraseAgo, Row.mk.injEq, true_and] at h ⊢
  exact h.2

theorem makeTradeKey_eraseAgo {n n1 : Row} (h : eraseAgo n = eraseAgo n1) (env : Env)
    (league : JVal) : makeTradeKey env league (some n) = makeTradeKey env league (some n1) := by
  have h1 : n.priceAmount = n1.priceAmount :=
    show (eraseAgo n).priceAmount = (eraseAgo n1).priceAmount from congrArg Row.priceAmount h
  have h2 : n.priceCurrency = n1.priceCurrency :=
    show (eraseAgo n).priceCurrency = (eraseAgo n1).priceCurrency from
      congrArg Row.priceCurrency h
  have h3 : n.itemId = n1.itemId :=
    show (eraseAgo n).itemId = (eraseAgo n1).itemId from congrArg Row.itemId h
  have h4 : n.timeIso = n1.timeIso :=
    show (eraseAgo n).timeIso = (eraseAgo n1).timeIso from congrArg Row.timeIso h
  simp only [makeTradeKey, h1, h2, h3, h4]

theorem keyBatchStep_clock (env : Env) (now now1 : Int) (league : JVal) (acc acc1 : Batch)
    (row : RawRow) (hacc : acc.erase = acc1.erase) :
    (keyBatchStep env now league acc row).map Batch.erase
      = (keyBatchStep env now1 league acc1 row).map Batch.erase := by
  have h := normalizeRow_clock env now now1 row
  have hkeys : acc.keySet = acc1.keySet :=
    show acc.erase.keySet = acc1.erase.keySet from congrArg Batch.keySet hacc
  have hrows : acc.rows.map eraseAgo = acc1.rows.map eraseAgo :=
    show acc.erase.rows = acc1.erase.rows from congrArg Batch.rows hacc
  unfold keyBatchStep
  cases h1 : normalizeRow env now row with
  | none =>
    cases h2 : normalizeRow env now1 row with
    | none => rfl
    | some x => rw [h1, h2] at h; simp at h
  | some x =>
    cases h2 : normalizeRow env now1 row with
    | none => rw [h1, h2] at h; simp at h
    | some y =>
      rw [h1, h2] at h
      simp only [Option.map_some', Option.some.injEq] at h
      cases x with
      | none =>
        cases y with
        | none => simp [hacc]
        | some n1 => simp at h
      | some n =>
        cases y with
        | none => simp at h
        | some n1 =>
          simp only [Option.map_some', Option.some.injEq] at h
          have hp1 : n.priceAmount = n1.priceAmount :=
            show (eraseAgo n).priceAmount = (eraseAgo n1).priceAmount from
              congrArg Row.priceAmount h
          have hp2 : n.priceCurrency = n1.priceCurrency :=
            show (eraseAgo n).priceCurrency = (eraseAgo n1).priceCurrency from
              congrArg Row.priceCurrency h
          simp only [hp1, hp2, makeTradeKey_eraseAgo h env league, hkeys]
          split
          · simp [hacc]
          · split
            · simp [hacc]
            · split
              · simp [hacc]
              · simp only [Option.map_some', Option.some.injEq, Batch.erase, List.map_append,
                  List.map_cons, List.map_nil, hrows]
                clear h1 h2 hp1 hp2
                cases n
                cases n1
                simp only [eraseAgo, Row.mk.injEq] at h
                simp only [eraseAgo, h]

theorem keyBatchLoop_clock (env : Env) (clock clock1 : Nat → Int) (league : JVal)
    (rawRows : List RawRow) :
    ∀ (i j : Nat) (acc acc1 : Batch), acc.erase = acc1.erase →
      (keyBatchLoop env clock league i acc rawRows).map Batch.erase
        = (keyBatchLoop env clock1 league j acc1 rawRows).map Batch.erase := by
  induction rawRows with
  | nil =>
    intro i j acc acc1 h
    simp [keyBatchLoop, h]
  | cons row rest ih =>
    intro i j acc acc1 h
    have hstep := keyBatchStep_clock env (clock i) (clock1 j) league acc acc1 row h
    simp only [keyBatchLoop]
    cases h1 : keyBatchStep env (clock i) league acc row with
    | none =>
      cases h2 : keyBatchStep env (clock1 j) league acc1 row with
      | none => rfl
      | some b => rw [h1, h2] at hstep; simp at hstep
    | some a =>
      cases h2 : keyBatchStep env (clock1 j) league acc1 row with
      | none => rw [h1, h2] at hstep; simp at hstep
      | some b =>
        rw [h1, h2] at hstep
        simp only [Option.map_some', Option.some.injEq] at hstep
        exact ih (i + 1) (j + 1) a b hstep

theorem normalizeAndKeyBatch_clock (env : Env) (clock clock1 : Nat → Int) (league : JVal)
    (rawRows : List RawRow) :
    (normalizeAndKeyBatch env clock league rawRows).map Batch.erase
      = (normalizeAndKeyBatch env clock1 league rawRows).map Batch.erase := by
  have h := keyBatchLoop_clock env clock clock1 league rawRows 0 0
    { rows := [], keySet := [] } { rows := [], keySet := [] } rfl
  unfold normalizeAndKeyBatch
  cases h1 : keyBatchLoop env clock league 0 { rows := [], keySet := [] } rawRows with
  | none =>
    cases h2 : keyBatchLoop env clock1 league 0 { rows := [], keySet := [] } rawRows with
    | none => rfl
    | some b => rw [h1, h2] at h; simp at h
  | some a =>
    cases h2 : keyBatchLoop env clock1 league 0 { rows := [], keySet := [] } rawRows with
    | none => rw [h1, h2] at h; simp at h
    | some b =>
      rw [h1, h2] at h
      simp only [Option.map_some', Option.some.injEq, Batch.erase, Batch.mk.injEq] at h ⊢
      refine ⟨?_, h.2⟩
      rw [← sortNewestFirst_map eraseAgo timeNum_eraseAgo, ← sortNewestFirst_map eraseAgo
        timeNum_eraseAgo, h.1]

theorem normalizeAndKeyBatch_other_clock {env : Env} {clock : Nat → Int} {league : JVal}
    {rawRows : List RawRow} {current : Batch} (clock1 : Nat → Int)
    (h : normalizeAndKeyBatch env clock league rawRows = some current) :
    ∃ current1, normalizeAndKeyBatch env clock1 league rawRows = some current1
      ∧ current1.rows.map eraseAgo = current.rows.map eraseAgo
      ∧ current1.keySet = current.keySet := by
  have hc := normalizeAndKeyBatch_clock env clock clock1 league rawRows
  rw [h] at hc
  cases h1 : normalizeAndKeyBatch env clock1 league rawRows with
  | none => rw [h1] at hc; simp at hc
  | some current1 =>
    rw [h1] at hc
    simp only [Option.map_some', Option.some.injEq, Batch.erase, Batch.mk.injEq] at hc
    exact ⟨current1, rfl, hc.1.symm, hc.2.symm⟩

theorem keysOf_of_eraseAgo {rows rows1 : List Row}
    (h : rows1.map eraseAgo = rows.map eraseAgo) : keysOf rows1 = keysOf rows := by
  have := congrArg (List.map (fun r : Row => r.tradeKey)) h
  simpa [keysOf, List.map_map, Function.comp_def, eraseAgo] using this

theorem times_of_eraseAgo {rows rows1 : List Row}
    (h : rows1.map eraseAgo = rows.map eraseAgo) : rows1.map timeNum = rows.map timeNum := by
  have := congrArg (List.map timeNum) h
  simpa [List.map_map, Function.comp_def, timeNum_eraseAgo] using this

theorem mem_of_eraseAgo {rows rows1 : List Row}
    (h : rows1.map eraseAgo = rows.map eraseAgo) {r : Row} (hr : r ∈ rows) :
    ∃ r1 ∈ rows1, eraseAgo r1 = eraseAgo r := by
  have hm : eraseAgo r ∈ rows1.map eraseAgo := by
    rw [h]
    exact List.mem_map_of_mem eraseAgo hr
  obtain ⟨r1, hr1, heq⟩ := List.mem_map.mp hm
  exact ⟨r1, hr1, heq⟩

theorem keyBatchStep_spec {env : Env} {now : Int} {league : JVal} {acc acc1 : Batch}
    {row : RawRow} (h : keyBatchStep env now league acc row = some acc1) :
    acc1 = acc ∨ ∃ norm k, normalizeRow env now row = some (some norm)
      ∧ norm.priceAmount.isNullish = false ∧ norm.priceCurrency.truthy = true
      ∧ k ≠ "" ∧ k ∉ acc.keySet
      ∧ acc1 = { rows := acc.rows ++ [{ norm with tradeKey := JVal.str k }]
                 keySet := acc.keySet ++ [k] } := by
  unfold keyBatchStep at h
  cases h1 : normalizeRow env now row with
  | none => rw [h1] at h; simp at h
  | some x =>
    rw [h1] at h
    cases x with
    | none =>
      simp only [Option.some.injEq] at h
      exact Or.inl h.symm
    | some norm =>
      simp only at h
      split at h
      · simp only [Option.some.injEq] at h
        exact Or.inl h.symm
      · rename_i hcond
        split at h
        · simp only [Option.some.injEq] at h
          exact Or.inl h.symm
        · rename_i k hk
          split at h
          · simp only [Option.some.injEq] at h
            exact Or.inl h.symm
          · rename_i hfresh
            simp only [Option.some.injEq] at h
            simp only [Bool.or_eq_true, Bool.not_eq_true', not_or, Bool.not_eq_true,
              Bool.not_eq_false] at hcond
            simp only [not_or] at hfresh
            exact Or.inr ⟨norm, k, rfl, hcond.1, hcond.2, hfresh.1, hfresh.2, h.symm⟩

theorem keyBatchLoop_invariant (env : Env) (clock : Nat → Int) (league : JVal)
    (P : Row → Prop) (rawRows : List RawRow)
    (hP : ∀ row ∈ rawRows, ∀ now norm k, normalizeRow env now row = some (some norm) →
      norm.priceAmount.isNullish = false → norm.priceCurrency.truthy = true → k ≠ "" →
      P { norm with tradeKey := JVal.str k }) :
    ∀ (i : Nat) (acc b : Batch), keyBatchLoop env clock league i acc rawRows = some b →
      keysOf acc.rows = acc.keySet.map JVal.str → acc.keySet.Nodup → (∀ r ∈ acc.rows, P r) →
      keysOf b.rows = b.keySet.map JVal.str ∧ b.keySet.Nodup ∧ ∀ r ∈ b.rows, P r := by
  induction rawRows with
  | nil =>
    intro i acc b h h1 h2 h3
    simp only [keyBatchLoop, Option.some.injEq] at h
    subst h
    exact ⟨h1, h2, h3⟩
  | cons row rest ih =>
    intro i acc b h h1 h2 h3
    simp only [keyBatchLoop] at h
    cases hs : keyBatchStep env (clock i) league acc row with
    | none => rw [hs] at h; simp at h
    | some acc1 =>
      rw [hs] at h
      simp only at h
      have ih1 := ih (fun row1 hrow1 => hP row1 (List.mem_cons_of_mem _ hrow1)) (i + 1) acc1 b h
      rcases keyBatchStep_spec hs with heq | ⟨norm, k, hn, hna, hnc, hk1, hk2, heq⟩
      · subst heq
        exact ih1 h1 h2 h3
      · subst heq
        apply ih1
        · simp only [keysOf, List.map_append, List.map_cons, List.map_nil] at h1 ⊢
          rw [h1]
        · exact List.Nodup.append h2 (List.nodup_singleton k) (by simpa using hk2)
        · intro r hr
          rcases List.mem_append.mp hr with hr | hr
          · exact h3 r hr
          · simp only [List.mem_singleton] at hr
            subst hr
            exact hP row (by simp) (clock i) norm k hn hna hnc hk1

theorem batchRow_of_normalizeRow {env : Env} {now : Int} {row : RawRow} {norm : Row} {k : String}
    (hn : normalizeRow env now row = some (some norm))
    (hna : norm.priceAmount.isNullish = false) (hnc : norm.priceCurrency.truthy = true)
    (hk : k ≠ "") : BatchRow { norm with tradeKey := JVal.str k } := by
  obtain ⟨h1, h2, h3, h4, h5, h6, h7⟩ := normalizeRow_some hn
  refine ⟨⟨k, rfl, hk⟩, h5, h6 hna, ?_, ?_, ?_⟩
  · simp only [h7 hnc, hnc, Bool.and_self]
  · show norm.itemId.truthy = true
    rw [h1]
    exact h3
  · show norm.timeIso.truthy = true
    rw [h2]
    exact h4

theorem validRow_of_normalizeRow {env : Env} {now : Int} {row : RawRow} {norm : Row} {k : String}
    (hids : stringIds row = true)
    (hn : normalizeRow env now row = some (some norm))
    (hna : norm.priceAmount.isNullish = false) (hnc : norm.priceCurrency.truthy = true)
    (hk : k ≠ "") : validRow { norm with tradeKey := JVal.str k } = true := by
  obtain ⟨h1, h2, h3, h4, h5, h6, h7⟩ := normalizeRow_some hn
  simp only [stringIds, h3, h4, Bool.not_true, Bool.or_false, Bool.and_eq_true] at hids
  apply validRow_of_fields ⟨k, rfl, hk⟩
  · show (norm.itemId.isString && norm.itemId.truthy) = true
    rw [h1, hids.1, h3]
    rfl
  · show (norm.timeIso.isString && norm.timeIso.truthy) = true
    rw [h2, hids.2, h4]
    rfl
  · exact h5
  · show (norm.priceCurrency.isString && norm.priceCurrency.truthy) = true
    rw [h7 hnc, hnc]
    rfl
  · exact h6 hna

theorem normalizeAndKeyBatch_spec {env : Env} {clock : Nat → Int} {league : JVal}
    {rawRows : List RawRow} {current : Batch}
    (h : normalizeAndKeyBatch env clock league rawRows = some current) :
    (keysOf current.rows).Perm (current.keySet.map JVal.str) ∧ current.keySet.Nodup
      ∧ (keysOf current.rows).Nodup ∧ (∀ r ∈ current.rows, BatchRow r)
      ∧ current.rows.Sorted (fun a b => timeNum b ≤ timeNum a)
      ∧ ((∀ row ∈ rawRows, stringIds row = true) → ∀ r ∈ current.rows, validRow r = true) := by
  unfold normalizeAndKeyBatch at h
  cases hl : keyBatchLoop env clock league 0 { rows := [], keySet := [] } rawRows with
  | none => rw [hl] at h; simp at h
  | some b =>
    rw [hl] at h
    simp only [Option.map_some', Option.some.injEq] at h
    subst h
    obtain ⟨h1, h2, h3⟩ := keyBatchLoop_invariant env clock league BatchRow rawRows
      (fun _ _ _ _ _ hn hna hnc hk => batchRow_of_normalizeRow hn hna hnc hk) 0 _ b hl rfl
      List.nodup_nil (fun r hr => by simp at hr)
    have hperm : (keysOf (sortNewestFirst b.rows)).Perm (b.keySet.map JVal.str) := by
      rw [← h1]
      exact keysOf_sortNewestFirst_perm _
    refine ⟨hperm, h2, ?_, ?_, sorted_sortNewestFirst _, ?_⟩
    · rw [hperm.nodup_iff]
      exact List.Nodup.map (fun a b hab => by injection hab) h2
    · intro r hr
      exact h3 r (mem_sortNewestFirst.mp hr)
    · intro hids r hr
      obtain ⟨_, _, h4⟩ := keyBatchLoop_invariant env clock league (fun r => validRow r = true)
        rawRows
        (fun row hrow _ _ _ hn hna hnc hk => validRow_of_normalizeRow (hids row hrow) hn hna hnc hk)
        0 _ b hl rfl List.nodup_nil (fun r hr => by simp at hr)
      exact h4 r (mem_sortNewestFirst.mp hr)

/-! ### Writing and reading the archive -/

theorem writeLoop_of_accepts {accepts : Nat → List Row → Bool} (fuel i : Nat) (rows : List Row)
    (h : accepts i rows = true) : writeLoop accepts (fuel + 1) i rows = some (some rows) := by
  simp [writeLoop, h]

theorem writeArchive_of_acceptsAll (env : Env) {accepts : Nat → List Row → Bool}
    (h : AcceptsAll accepts) (store : Storage) (league : JVal) (rows : List Row) (meta : Meta) :
    writeArchive env accepts store league rows meta
      = Function.update store (leagueStorageKey env league)
          { rows := rows.map (fun r => some r.json), meta := meta.json } := by
  unfold writeArchive
  rw [writeLoop_of_accepts _ _ _ (h rows)]

theorem writeArchive_meta_of_stored (env : Env) {accepts : Nat → List Row → Bool}
    (store : Storage) (league : JVal) (rows : List Row) (meta : Meta)
    (h : WriteStored accepts rows) :
    (writeArchive env accepts store league rows meta (leagueStorageKey env league)).meta
      = meta.json := by
  obtain ⟨payloadRows, hp⟩ := h
  unfold writeArchive
  rw [hp]
  simp

theorem writeArchive_meta_cases (env : Env) (accepts : Nat → List Row → Bool)
    (store : Storage) (league : JVal) (rows : List Row) (meta : Meta) :
    (writeArchive env accepts store league rows meta (leagueStorageKey env league)).meta
        = meta.json
      ∨ writeArchive env accepts store league rows meta = store := by
  unfold writeArchive
  cases writeLoop accepts (rows.length + 1) 0 rows with
  | none => exact Or.inr rfl
  | some x =>
    cases x with
    | none => exact Or.inr rfl
    | some payloadRows => left; simp

theorem persistHistoryBatch_eq {env : Env} (accepts : Nat → List Row → Bool)
    {clock : Nat → Int} (nowFetch nowGap : Int) (store : Storage) {league : JVal}
    {rawRows : List RawRow} {current : Batch}
    (h : normalizeAndKeyBatch env clock league rawRows = some current) :
    persistHistoryBatch env accepts clock nowFetch nowGap store league rawRows
      = some
          ({ rows := sortNewestFirst
                ((setAll (setAll [] (readArchive env store league).rows) current.rows).map
                  Prod.snd)
             gapInfo := detectGap env (readArchive env store league).meta current.rows
                current.keySet },
            writeArchive env accepts store league
              (sortNewestFirst
                ((setAll (setAll [] (readArchive env store league).rows) current.rows).map
                  Prod.snd))
              (nextMetaOf nowFetch nowGap (readArchive env store league).meta current
                (detectGap env (readArchive env store league).meta current.rows
                  current.keySet))) := by
  unfold persistHistoryBatch
  rw [h]

theorem persistHistoryBatch_some {env : Env} {accepts : Nat → List Row → Bool}
    {clock : Nat → Int} {nowFetch nowGap : Int} {store : Storage} {league : JVal}
    {rawRows : List RawRow} {res : Persisted} {store1 : Storage}
    (h : persistHistoryBatch env accepts clock nowFetch nowGap store league rawRows
      = some (res, store1)) :
    ∃ current, normalizeAndKeyBatch env clock league rawRows = some current := by
  unfold persistHistoryBatch at h
  cases hc : normalizeAndKeyBatch env clock league rawRows with
  | none => rw [hc] at h; simp at h
  | some current => exact ⟨current, rfl⟩

/-! ### The merge -/

theorem setAll_nil_of_nodup (rows : List Row) (h : (keysOf rows).Nodup) :
    setAll [] rows = rows.map (fun r => (r.tradeKey, r)) := by
  rw [setAll_of_fresh rows [] h (fun _ _ => by simp)]
  simp

theorem keyed_archive (rows : List Row) : Keyed (rows.map (fun r => (r.tradeKey, r))) := by
  intro e he
  obtain ⟨r, _, rfl⟩ := List.mem_map.mp he
  rfl

theorem keys_archive (rows : List Row) :
    (rows.map (fun r => (r.tradeKey, r))).map Prod.fst = keysOf rows := by
  simp [keysOf, List.map_map, Function.comp_def]

theorem values_archive (rows : List Row) :
    (rows.map (fun r => (r.tradeKey, r))).map Prod.snd = rows := by
  simp [List.map_map, Function.comp_def]

theorem mem_mergeRows {archiveRows currentRows : List Row} (ha : (keysOf archiveRows).Nodup)
    (hc : (keysOf currentRows).Nodup) (r : Row) :
    r ∈ mergeRows archiveRows currentRows ↔
      r ∈ currentRows ∨ (r ∈ archiveRows ∧ r.tradeKey ∉ keysOf currentRows) := by
  unfold mergeRows
  rw [mem_sortNewestFirst, setAll_nil_of_nodup archiveRows ha,
    mem_setAll currentRows _ (keyed_archive archiveRows) (by rw [keys_archive]; exact ha) hc r,
    values_archive]

theorem keysOf_values_of_keyed {entries : List (JVal × Row)} (h : Keyed entries) :
    keysOf (entries.map Prod.snd) = entries.map Prod.fst := by
  unfold keysOf
  rw [List.map_map]
  apply List.map_congr_left
  intro e he
  exact (h e he).symm

theorem nodup_mergeRows {archiveRows currentRows : List Row} (ha : (keysOf archiveRows).Nodup) :
    (keysOf (mergeRows archiveRows currentRows)).Nodup := by
  unfold mergeRows
  rw [(keysOf_sortNewestFirst_perm _).nodup_iff, setAll_nil_of_nodup archiveRows ha]
  obtain ⟨hk, hn⟩ := setAll_invariant currentRows _ (keyed_archive archiveRows)
    (by rw [keys_archive]; exact ha)
  rw [keysOf_values_of_keyed hk]
  exact hn

theorem sorted_mergeRows (archiveRows currentRows : List Row) :
    (mergeRows archiveRows currentRows).Sorted (fun a b => timeNum b ≤ timeNum a) :=
  sorted_sortNewestFirst _

theorem batchRow_tradeKey {r : Row} (h : BatchRow r) : ∃ k, r.tradeKey = JVal.str k :=
  let ⟨k, hk, _⟩ := h.1
  ⟨k, hk⟩

theorem timeMs_eq_num_timeNum {r : Row} (h : r.timeMs.isFiniteNumber = true) :
    r.timeMs = JVal.num (timeNum r) := by
  unfold timeNum
  cases hr : r.timeMs <;> rw [hr] at h <;> simp [JVal.isFiniteNumber] at h ⊢

theorem detectGap_detected_imp {env : Env} {lastMeta : Meta} {currentRows : List Row}
    {currentKeySet : List String}
    (h : (detectGap env lastMeta currentRows currentKeySet).detected = true) :
    ∃ prevNewestMs oldest currentOldestMs,
      lastMeta.lastFetchNewestMs = JVal.num prevNewestMs
        ∧ currentRows.getLast? = some oldest ∧ oldest.timeMs = JVal.num currentOldestMs
        ∧ prevNewestMs < currentOldestMs := by
  unfold detectGap at h
  simp only at h
  split at h
  · rename_i oldest prevNewestMs hlast hprev
    split at h
    · rename_i currentOldestMs htime
      split at h
      · simp [GapInfo.noGap] at h
      · rename_i hle
        exact ⟨prevNewestMs, oldest, currentOldestMs, hprev, hlast, htime, not_le.mp hle⟩
    · simp [GapInfo.noGap] at h
  · simp [GapInfo.noGap] at h

/-! ### The metadata written by `persistHistoryBatch` -/

/-- C10: whenever `persistHistoryBatch` returns and its write is stored, the stored
metadata has as newest and oldest watermark the greatest and the least `timeMs`
of the records of the current batch (`null` for an empty batch), as last-fetch
keys exactly the key set of the current batch, and as `gapCount` the previous
count (0 when that is not a finite number) plus 1 exactly when the call
detected a gap; when no gap is detected, the time stamp and the bounds of the
last gap are those of the previous metadata (with `null` for a missing field, as
the storage round trip writes them). -/
theorem persistHistoryBatch_metadata (env : Env) (accepts : Nat → List Row → Bool)
    (clock : Nat → Int) (nowFetch nowGap : Int) (store : Storage) (league : JVal)
    (rawRows : List RawRow) (res : Persisted) (store1 : Storage)
    (h : persistHistoryBatch env accepts clock nowFetch nowGap store league rawRows
      = some (res, store1))
    (hw : WriteStored accepts res.rows) :
    ∃ current, normalizeAndKeyBatch env clock league rawRows = some current
      ∧ ((current.rows = [] ∧ (storedMeta env store1 league).lastFetchNewestMs = JVal.null
            ∧ (storedMeta env store1 league).lastFetchOldestMs = JVal.null)
          ∨ ∃ newest oldest, newest ∈ current.rows ∧ oldest ∈ current.rows
              ∧ (∀ r ∈ current.rows, timeNum oldest ≤ timeNum r ∧ timeNum r ≤ timeNum newest)
              ∧ (storedMeta env store1 league).lastFetchNewestMs = JVal.num (timeNum newest)
              ∧ newest.timeMs = JVal.num (timeNum newest)
              ∧ (storedMeta env store1 league).lastFetchOldestMs = JVal.num (timeNum oldest)
              ∧ oldest.timeMs = JVal.num (timeNum oldest))
      ∧ (storedMeta env store1 league).lastFetchKeys = some (current.keySet.map JVal.str)
      ∧ res.gapInfo = detectGap env (storedMeta env store league) current.rows current.keySet
      ∧ (storedMeta env store1 league).gapCount
          = JVal.num (gapCountOf (storedMeta env store league)
              + (if res.gapInfo.detected then 1 else 0))
      ∧ (res.gapInfo.detected = false →
          (storedMeta env store1 league).lastGapAtMs
              = (storedMeta env store league).lastGapAtMs.orNull.json
            ∧ (storedMeta env store1 league).lastGapFromMs
              = (storedMeta env store league).lastGapFromMs.orNull.json
            ∧ (storedMeta env store1 league).lastGapToMs
              = (storedMeta env store league).lastGapToMs.orNull.json) := by
  obtain ⟨current, hc⟩ := persistHistoryBatch_some h
  rw [persistHistoryBatch_eq _ _ _ _ hc] at h
  simp only [Option.some.injEq, Prod.mk.injEq] at h
  obtain ⟨hres, hstore⟩ := h
  obtain ⟨_, _, _, hbatch, hsorted, _⟩ := normalizeAndKeyBatch_spec hc
  have hgap : res.gapInfo
      = detectGap env (storedMeta env store league) current.rows current.keySet := by
    rw [← hres]
    rfl
  have hM : storedMeta env store1 league
      = (nextMetaOf nowFetch nowGap (storedMeta env store league) current res.gapInfo).json := by
    rw [hgap, ← hstore]
    rw [← hres] at hw
    exact writeArchive_meta_of_stored env store league _ _ hw
  rw [hM]
  refine ⟨current, hc, ?_, ?_, hgap, ?_, ?_⟩
  · cases hrows : current.rows with
    | nil =>
      left
      simp [Meta.json, nextMetaOf, hrows, JVal.json]
    | cons newest rest =>
      right
      have hne : current.rows ≠ [] := by simp [hrows]
      have hhead : current.rows.head? = some newest := by simp [hrows]
      have hlast : current.rows.getLast? = some (current.rows.getLast hne) :=
        List.getLast?_eq_getLast _ hne
      have hnew : newest ∈ current.rows := by simp [hrows]
      have hold : current.rows.getLast hne ∈ current.rows := List.getLast_mem hne
      have hnewMs := timeMs_eq_num_timeNum (hbatch newest hnew).2.1
      have holdMs := timeMs_eq_num_timeNum (hbatch _ hold).2.1
      rw [← hrows]
      refine ⟨newest, current.rows.getLast hne, hnew, hold, ?_, ?_, hnewMs, ?_, holdMs⟩
      · intro r hr
        exact ⟨oldest_of_sorted hsorted hlast r hr, newest_of_sorted hsorted hhead r hr⟩
      · simp only [Meta.json, nextMetaOf, hhead]
        rw [hnewMs]
        rfl
      · simp only [Meta.json, nextMetaOf, hlast]
        rw [holdMs]
        rfl
  · simp [Meta.json, nextMetaOf, List.map_map, Function.comp_def, JVal.json, JVal.orNull]
  · simp [Meta.json, nextMetaOf, JVal.json, gapCountOf]
  · intro hno
    simp [Meta.json, nextMetaOf, hno]


theorem persistHistoryBatch_sample_exists :
    ∃ res store1, persistHistoryBatch sampleEnv acceptAll sampleClock 1000 1000 gapStorage
      sampleLeague gapBatch = some (res, store1) := by
  have hsome : (persistHistoryBatch sampleEnv acceptAll sampleClock 1000 1000 gapStorage
      sampleLeague gapBatch).isSome = true := by decide!
  obtain ⟨p, hp⟩ := Option.isSome_iff_exists.mp hsome
  exact ⟨p.1, p.2, hp⟩

theorem writeStored_acceptAll (rows : List Row) : WriteStored acceptAll rows :=
  ⟨rows, writeLoop_of_accepts _ _ _ rfl⟩

/-- C10, witness: the statement for the batch with sales at T200 and T150 persisted
into the slot whose previous fetch ended at T100. -/
theorem persistHistoryBatch_metadata_witness :
    ∃ res store1 current,
      persistHistoryBatch sampleEnv acceptAll sampleClock 1000 1000 gapStorage sampleLeague
          gapBatch = some (res, store1)
        ∧ normalizeAndKeyBatch sampleEnv sampleClock sampleLeague gapBatch = some current
        ∧ (storedMeta sampleEnv store1 sampleLeague).lastFetchKeys
            = some (current.keySet.map JVal.str)
        ∧ (storedMeta sampleEnv store1 sampleLeague).gapCount
            = JVal.num (gapCountOf (storedMeta sampleEnv gapStorage sampleLeague)
                + (if res.gapInfo.detected then 1 else 0)) := by
  obtain ⟨res, store1, hp⟩ := persistHistoryBatch_sample_exists
  obtain ⟨current, hc, _, hkeys, _, hcount, _⟩ :=
    persistHistoryBatch_metadata sampleEnv acceptAll sampleClock 1000 1000 gapStorage
      sampleLeague gapBatch res store1 hp (writeStored_acceptAll res.rows)
  exact ⟨res, store1, current, hp, hc, hkeys, hcount⟩

/-! ### Persisting the same batch twice -/

theorem storedMeta_writeArchive_cases (env : Env) (accepts : Nat → List Row → Bool)
    (store : Storage) (league : JVal) (rows : List Row) (meta : Meta) :
    storedMeta env (writeArchive env accepts store league rows meta) league = meta.json
      ∨ writeArchive env accepts store league rows meta = store :=
  writeArchive_meta_cases env accepts store league rows meta

theorem readArchive_meta (env : Env) (store : Storage) (league : JVal) :
    (readArchive env store league).meta = storedMeta env store league := rfl

theorem detectGap_after_same_batch {env : Env} {nowFetch nowGap : Int} {oldMeta : Meta}
    {gapInfo : GapInfo} {current current1 : Batch}
    (hbatch : ∀ r ∈ current.rows, BatchRow r)
    (hsorted : current1.rows.Sorted (fun a b => timeNum b ≤ timeNum a))
    (hrows : current1.rows.map eraseAgo = current.rows.map eraseAgo) :
    (detectGap env (nextMetaOf nowFetch nowGap oldMeta current gapInfo).json current1.rows
      current1.keySet).detected = false := by
  cases hd : (detectGap env (nextMetaOf nowFetch nowGap oldMeta current gapInfo).json
      current1.rows current1.keySet).detected with
  | false => rfl
  | true =>
    exfalso
    obtain ⟨prev, oldest, t, hprev, hlast, htime, hlt⟩ := detectGap_detected_imp hd
    have hold : oldest ∈ current1.rows := List.mem_of_getLast?_eq_some hlast
    have htimes := times_of_eraseAgo hrows
    cases hc : current.rows with
    | nil =>
      rw [hc] at hrows
      simp at hrows
      rw [hrows] at hold
      simp at hold
    | cons newest rest =>
      have hnew : newest ∈ current.rows := by simp [hc]
      have hnewMs := timeMs_eq_num_timeNum (hbatch newest hnew).2.1
      have hp : (nextMetaOf nowFetch nowGap oldMeta current gapInfo).json.lastFetchNewestMs
          = JVal.num (timeNum newest) := by
        simp only [Meta.json, nextMetaOf, hc, List.head?_cons]
        rw [hnewMs]
        rfl
      rw [hp] at hprev
      injection hprev with hprev
      subst hprev
      cases hc1 : current1.rows with
      | nil =>
        rw [hc1] at hold
        simp at hold
      | cons newest1 rest1 =>
        rw [hc, hc1] at htimes
        simp only [List.map_cons, List.cons.injEq] at htimes
        have hle : timeNum oldest ≤ timeNum newest1 :=
          newest_of_sorted hsorted (by simp [hc1]) oldest hold
        have ht : timeNum oldest = t := by
          unfold timeNum
          rw [htime]
        rw [ht, htimes.1] at hle
        exact absurd hlt (not_lt.mpr hle)

/-- C2: when `persistHistoryBatch` returns for a batch and its write is stored, a
second call with the identical batch for the same league returns, reports no gap
(`gapInfo.detected` is false), and leaves the stored `gapCount` as the first call
stored it. -/
theorem persistHistoryBatch_twice_no_gap (env : Env) (accepts accepts1 : Nat → List Row → Bool)
    (clock clock1 : Nat → Int) (nowFetch nowGap nowFetch1 nowGap1 : Int) (store : Storage)
    (league : JVal) (rawRows : List RawRow) (res : Persisted) (store1 : Storage)
    (h : persistHistoryBatch env accepts clock nowFetch nowGap store league rawRows
      = some (res, store1))
    (hw : WriteStored accepts res.rows) :
    ∃ res1 store2,
      persistHistoryBatch env accepts1 clock1 nowFetch1 nowGap1 store1 league rawRows
          = some (res1, store2)
        ∧ res1.gapInfo.detected = false
        ∧ (storedMeta env store2 league).gapCount = (storedMeta env store1 league).gapCount := by
  obtain ⟨current, hc⟩ := persistHistoryBatch_some h
  obtain ⟨current1, hc1, hrows, _⟩ := normalizeAndKeyBatch_other_clock clock1 hc
  rw [persistHistoryBatch_eq _ _ _ _ hc] at h
  simp only [Option.some.injEq, Prod.mk.injEq] at h
  obtain ⟨hres, hstore⟩ := h
  obtain ⟨_, _, _, hbatch, _, _⟩ := normalizeAndKeyBatch_spec hc
  obtain ⟨_, _, _, _, hsorted1, _⟩ := normalizeAndKeyBatch_spec hc1
  have hM : storedMeta env store1 league
      = (nextMetaOf nowFetch nowGap (storedMeta env store league) current res.gapInfo).json := by
    rw [← hstore]
    rw [← hres] at hw
    rw [← hres]
    exact writeArchive_meta_of_stored env store league _ _ hw
  have hno : (detectGap env (storedMeta env store1 league) current1.rows
      current1.keySet).detected = false := by
    rw [hM]
    exact detectGap_after_same_batch hbatch hsorted1 hrows
  refine ⟨_, _, persistHistoryBatch_eq _ _ _ _ hc1, ?_, ?_⟩
  · exact hno
  · rcases storedMeta_writeArchive_cases env accepts1 store1 league
      (sortNewestFirst
        ((setAll (setAll [] (readArchive env store1 league).rows) current1.rows).map Prod.snd))
      (nextMetaOf nowFetch1 nowGap1 (readArchive env store1 league).meta current1
        (detectGap env (readArchive env store1 league).meta current1.rows current1.keySet))
      with hcase | hcase
    · rw [hcase]
      simp only [readArchive_meta, Meta.json, nextMetaOf, hno, Bool.false_eq_true, if_false,
        add_zero]
      rw [hM]
      simp [Meta.json, nextMetaOf, gapCountOf, JVal.json]
    · rw [hcase]

/-- C2, witness: the batch with sales at T200 and T150, persisted twice into the
slot whose previous fetch ended at T100. -/
theorem persistHistoryBatch_twice_no_gap_witness :
    ∃ res store1 res1 store2,
      persistHistoryBatch sampleEnv acceptAll sampleClock 1000 1000 gapStorage sampleLeague
          gapBatch = some (res, store1)
        ∧ persistHistoryBatch sampleEnv acceptAll sampleClock 2000 2000 store1 sampleLeague
          gapBatch = some (res1, store2)
        ∧ res1.gapInfo.detected = false
        ∧ (storedMeta sampleEnv store2 sampleLeague).gapCount
            = (storedMeta sampleEnv store1 sampleLeague).gapCount := by
  obtain ⟨res, store1, hp⟩ := persistHistoryBatch_sample_exists
  obtain ⟨res1, store2, h1, h2, h3⟩ :=
    persistHistoryBatch_twice_no_gap sampleEnv acceptAll acceptAll sampleClock sampleClock
      1000 1000 2000 2000 gapStorage sampleLeague gapBatch res store1 hp
      (writeStored_acceptAll res.rows)
  exact ⟨res, store1, res1, store2, hp, h1, h2, h3⟩


/-! ### Reading back what was written -/

theorem readArchive_after_write (env : Env) {accepts : Nat → List Row → Bool} (store : Storage)
    (league : JVal) (rows : List Row) (meta : Meta) (hacc : accepts 0 rows = true)
    (hnd : (keysOf rows).Nodup) (hstr : ∀ r ∈ rows, ∃ k, r.tradeKey = JVal.str k)
    (hsorted : rows.Sorted (fun a b => timeNum b ≤ timeNum a)) :
    (readArchive env (writeArchive env accepts store league rows meta) league).rows
      = (rows.filter validRow).map Row.json := by
  unfold writeArchive
  rw [writeLoop_of_accepts _ _ _ hacc]
  unfold readArchive
  simp only [Function.update_same]
  exact sanitizeArchiveRows_stored rows hnd hstr hsorted

theorem mem_filter_valid_json {rows : List Row} {r : Row} :
    r ∈ (rows.filter validRow).map Row.json ↔ ∃ m ∈ rows, validRow m = true ∧ r = m.json := by
  simp only [List.mem_map, List.mem_filter]
  constructor
  · rintro ⟨m, ⟨hm, hv⟩, rfl⟩
    exact ⟨m, hm, hv, rfl⟩
  · rintro ⟨m, hm, hv, rfl⟩
    exact ⟨m, ⟨hm, hv⟩, rfl⟩

theorem validRow_tradeKey_json {m : Row} (hv : validRow m = true) :
    m.json.tradeKey = m.tradeKey := by
  obtain ⟨k, hk, _⟩ := validRow_tradeKey hv
  exact tradeKey_json_of_str hk

theorem validRow_str {m : Row} (hv : validRow m = true) : ∃ k, m.tradeKey = JVal.str k :=
  let ⟨k, hk, _⟩ := validRow_tradeKey hv
  ⟨k, hk⟩

theorem str_keys_mergeRows {archiveRows currentRows : List Row}
    (ha : (keysOf archiveRows).Nodup) (hc : (keysOf currentRows).Nodup)
    (hav : ∀ r ∈ archiveRows, validRow r = true) (hcb : ∀ r ∈ currentRows, BatchRow r) :
    ∀ r ∈ mergeRows archiveRows currentRows, ∃ k, r.tradeKey = JVal.str k := by
  intro r hr
  rcases (mem_mergeRows ha hc r).mp hr with h | ⟨h, _⟩
  · exact batchRow_tradeKey (hcb r h)
  · exact validRow_str (hav r h)

theorem eq_of_tradeKey_eq {rows : List Row} (hnd : (keysOf rows).Nodup) {a b : Row}
    (ha : a ∈ rows) (hb : b ∈ rows) (hab : a.tradeKey = b.tradeKey) : a = b :=
  List.inj_on_of_nodup_map hnd ha hb hab

/-! ### Persisting the same batch twice: the merged records -/

theorem merge_again_keys_iff {A0 C C1 A1 : List Row} (hA0 : (keysOf A0).Nodup)
    (hA0v : ∀ r ∈ A0, validRow r = true) (hC : (keysOf C).Nodup) (hC1 : (keysOf C1).Nodup)
    (hCC : C1.map eraseAgo = C.map eraseAgo)
    (hA1 : ∀ r, r ∈ A1 ↔ ∃ m ∈ mergeRows A0 C, validRow m = true ∧ r = m.json)
    (hA1nd : (keysOf A1).Nodup) (k : JVal) :
    k ∈ keysOf (mergeRows A1 C1) ↔ k ∈ keysOf (mergeRows A0 C) := by
  have hkeys : keysOf C1 = keysOf C := keysOf_of_eraseAgo hCC
  constructor
  · intro hk
    obtain ⟨r, hr, rfl⟩ := mem_keysOf.mp hk
    rcases (mem_mergeRows hA1nd hC1 r).mp hr with h | ⟨h, _⟩
    · have hin : r.tradeKey ∈ keysOf C := by
        rw [← hkeys]
        exact mem_keysOf.mpr ⟨r, h, rfl⟩
      obtain ⟨c, hc, hck⟩ := mem_keysOf.mp hin
      exact mem_keysOf.mpr ⟨c, (mem_mergeRows hA0 hC c).mpr (Or.inl hc), hck⟩
    · obtain ⟨m, hm, hv, rfl⟩ := (hA1 r).mp h
      exact mem_keysOf.mpr ⟨m, hm, (validRow_tradeKey_json hv).symm⟩
  · intro hk
    obtain ⟨m, hm, rfl⟩ := mem_keysOf.mp hk
    rcases (mem_mergeRows hA0 hC m).mp hm with h | ⟨h, hnot⟩
    · have hin : m.tradeKey ∈ keysOf C1 := by
        rw [hkeys]
        exact mem_keysOf.mpr ⟨m, h, rfl⟩
      obtain ⟨c, hc, hck⟩ := mem_keysOf.mp hin
      exact mem_keysOf.mpr ⟨c, (mem_mergeRows hA1nd hC1 c).mpr (Or.inl hc), hck⟩
    · have hv := hA0v m h
      have hj : m.json ∈ A1 := (hA1 m.json).mpr ⟨m, hm, hv, rfl⟩
      refine mem_keysOf.mpr ⟨m.json, (mem_mergeRows hA1nd hC1 m.json).mpr (Or.inr ⟨hj, ?_⟩),
        validRow_tradeKey_json hv⟩
      rw [validRow_tradeKey_json hv, hkeys]
      exact hnot

theorem merge_again_keys_eq {A0 C C1 : List Row} (hA0 : (keysOf A0).Nodup)
    (hA0v : ∀ r ∈ A0, validRow r = true) (hC : (keysOf C).Nodup)
    (hCv : ∀ r ∈ C, validRow r = true) (hCC : C1.map eraseAgo = C.map eraseAgo) :
    keysOf (mergeRows ((mergeRows A0 C).map Row.json) C1) = keysOf (mergeRows A0 C) := by
  have hMv : ∀ m ∈ mergeRows A0 C, validRow m = true := by
    intro m hm
    rcases (mem_mergeRows hA0 hC m).mp hm with h | ⟨h, _⟩
    · exact hCv m h
    · exact hA0v m h
  have hMstr : ∀ m ∈ mergeRows A0 C, ∃ k, m.tradeKey = JVal.str k :=
    fun m hm => validRow_str (hMv m hm)
  have hMnd : (keysOf (mergeRows A0 C)).Nodup := nodup_mergeRows hA0
  have hMkeys : keysOf ((mergeRows A0 C).map Row.json) = keysOf (mergeRows A0 C) :=
    keysOf_map_json _ hMstr
  have hJnd : (keysOf ((mergeRows A0 C).map Row.json)).Nodup := by
    rw [hMkeys]
    exact hMnd
  have hkeys : keysOf C1 = keysOf C := keysOf_of_eraseAgo hCC
  have hsig : signature (setAll (setAll [] ((mergeRows A0 C).map Row.json)) C1)
      = signature (setAll [] ((mergeRows A0 C).map Row.json)) := by
    apply signature_setAll
    intro c1 hc1
    obtain ⟨c, hc, hce⟩ := mem_of_eraseAgo hCC.symm hc1
    have hck : c.tradeKey = c1.tradeKey :=
      show (eraseAgo c).tradeKey = (eraseAgo c1).tradeKey from congrArg Row.tradeKey hce
    have hct : timeNum c = timeNum c1 := by
      have := congrArg timeNum hce
      simpa [timeNum_eraseAgo] using this
    rw [signature_keys, setAll_nil_of_nodup _ hJnd, keys_archive, hMkeys]
    constructor
    · exact mem_keysOf.mpr ⟨c, (mem_mergeRows hA0 hC c).mpr (Or.inl hc), hck⟩
    · intro p hp hpk
      simp only [signature, List.map_map, List.mem_map, Function.comp_apply] at hp
      obtain ⟨m, hm, rfl⟩ := hp
      simp only at hpk ⊢
      rw [timeNum_json, ← hct]
      rw [validRow_tradeKey_json (hMv m hm), ← hck] at hpk
      have hmc : m = c :=
        eq_of_tradeKey_eq hMnd hm ((mem_mergeRows hA0 hC c).mpr (Or.inl hc)) hpk
      rw [hmc]
  obtain ⟨hkeyed, _⟩ := setAll_invariant C1 (setAll [] ((mergeRows A0 C).map Row.json))
    (by rw [setAll_nil_of_nodup _ hJnd]; exact keyed_archive _)
    (by rw [setAll_nil_of_nodup _ hJnd, keys_archive]; exact hJnd)
  have htimes : ((setAll (setAll [] ((mergeRows A0 C).map Row.json)) C1).map Prod.snd).map timeNum
      = (mergeRows A0 C).map timeNum := by
    rw [← signature_times, hsig, signature_times, setAll_nil_of_nodup _ hJnd, values_archive,
      times_map_json]
  have hsorted : ((setAll (setAll [] ((mergeRows A0 C).map Row.json)) C1).map Prod.snd).Sorted
      (fun a b => timeNum b ≤ timeNum a) := by
    rw [sorted_iff_times, htimes, ← sorted_iff_times]
    exact sorted_mergeRows A0 C
  have hstep : mergeRows ((mergeRows A0 C).map Row.json) C1
      = (setAll (setAll [] ((mergeRows A0 C).map Row.json)) C1).map Prod.snd :=
    sortNewestFirst_of_sorted hsorted
  rw [hstep, keysOf_values_of_keyed hkeyed, ← signature_keys, hsig, signature_keys,
    setAll_nil_of_nodup _ hJnd, keys_archive, hMkeys]

theorem filter_valid_of_all {rows : List Row} (h : ∀ r ∈ rows, validRow r = true) :
    rows.filter validRow = rows :=
  List.filter_eq_self.mpr h


theorem persistHistoryBatch_rows {env : Env} {accepts : Nat → List Row → Bool}
    {clock : Nat → Int} {nowFetch nowGap : Int} {store : Storage} {league : JVal}
    {rawRows : List RawRow} {current : Batch} {res : Persisted} {store1 : Storage}
    (hc : normalizeAndKeyBatch env clock league rawRows = some current)
    (h : persistHistoryBatch env accepts clock nowFetch nowGap store league rawRows
      = some (res, store1)) :
    res.rows = mergeRows (readArchive env store league).rows current.rows
      ∧ store1 = writeArchive env accepts store league res.rows
          (nextMetaOf nowFetch nowGap (storedMeta env store league) current res.gapInfo) := by
  rw [persistHistoryBatch_eq _ _ _ _ hc] at h
  simp only [Option.some.injEq, Prod.mk.injEq] at h
  obtain ⟨hres, hstore⟩ := h
  subst hres
  exact ⟨rfl, hstore.symm⟩

theorem readArchive_rows_spec (env : Env) (store : Storage) (league : JVal) :
    (keysOf (readArchive env store league).rows).Nodup
      ∧ (∀ r ∈ (readArchive env store league).rows, validRow r = true) :=
  ⟨(sanitizeArchiveRows_spec _).1, (sanitizeArchiveRows_spec _).2.1⟩

theorem readArchive_after_persist {env : Env} {accepts : Nat → List Row → Bool}
    {clock : Nat → Int} {nowFetch nowGap : Int} {store : Storage} {league : JVal}
    {rawRows : List RawRow} {current : Batch} {res : Persisted} {store1 : Storage}
    (hc : normalizeAndKeyBatch env clock league rawRows = some current)
    (h : persistHistoryBatch env accepts clock nowFetch nowGap store league rawRows
      = some (res, store1))
    (hw : accepts 0 res.rows = true) :
    (readArchive env store1 league).rows
      = ((mergeRows (readArchive env store league).rows current.rows).filter validRow).map
          Row.json := by
  obtain ⟨hrows, hstore⟩ := persistHistoryBatch_rows hc h
  obtain ⟨_, _, hcnd, hbatch, _, _⟩ := normalizeAndKeyBatch_spec hc
  obtain ⟨hand, hav⟩ := readArchive_rows_spec env store league
  rw [hstore, ← hrows]
  apply readArchive_after_write env store league res.rows _ hw
  · rw [hrows]
    exact nodup_mergeRows hand
  · rw [hrows]
    exact str_keys_mergeRows hand hcnd hav hbatch
  · rw [hrows]
    exact sorted_mergeRows _ _

/-- C1, counterexample: the batch of two sales at the same time whose first entry
has the numeric item identifier 7 is persisted twice on an empty storage.  The
first call returns the two keys in batch order, the second call returns them in
the opposite order. -/
theorem persistHistoryBatch_twice_order_differs :
    keysOfTwoCalls numericIdBatch numericIdBatch
      = some
          ([JVal.str "standard|7|1970-01-01T00:00:00.100Z|1|chaos",
            JVal.str "standard|item-b|1970-01-01T00:00:00.100Z|1|chaos"],
           [JVal.str "standard|item-b|1970-01-01T00:00:00.100Z|1|chaos",
            JVal.str "standard|7|1970-01-01T00:00:00.100Z|1|chaos"]) := by
  decide!

/-- C1, amended: when `persistHistoryBatch` returns for a batch and the storage
accepts its write untruncated, a second call with the identical batch returns a
record list with the same set of trade keys, each key once, and stores the same
last-fetch key set; when moreover the item identifier and the time stamp of every
entry of the batch are strings, the trade keys come in the same order. -/
theorem persistHistoryBatch_idempotent (env : Env) (accepts accepts1 : Nat → List Row → Bool)
    (clock clock1 : Nat → Int) (nowFetch nowGap nowFetch1 nowGap1 : Int) (store : Storage)
    (league : JVal) (rawRows : List RawRow) (res : Persisted) (store1 : Storage)
    (h : persistHistoryBatch env accepts clock nowFetch nowGap store league rawRows
      = some (res, store1))
    (hw : accepts 0 res.rows = true) :
    ∃ res1 store2,
      persistHistoryBatch env accepts1 clock1 nowFetch1 nowGap1 store1 league rawRows
          = some (res1, store2)
        ∧ (∀ k, k ∈ keysOf res1.rows ↔ k ∈ keysOf res.rows)
        ∧ (keysOf res.rows).Nodup ∧ (keysOf res1.rows).Nodup
        ∧ ((∀ row ∈ rawRows, stringIds row = true) → keysOf res1.rows = keysOf res.rows)
        ∧ (storedMeta env store2 league).lastFetchKeys
            = (storedMeta env store1 league).lastFetchKeys := by
  obtain ⟨current, hc⟩ := persistHistoryBatch_some h
  obtain ⟨current1, hc1, hCC, hkeySet⟩ := normalizeAndKeyBatch_other_clock clock1 hc
  obtain ⟨hrows, hstore⟩ := persistHistoryBatch_rows hc h
  obtain ⟨_, _, hcnd, hbatch, _, hvalid⟩ := normalizeAndKeyBatch_spec hc
  obtain ⟨_, _, hcnd1, _, _, _⟩ := normalizeAndKeyBatch_spec hc1
  obtain ⟨hand, hav⟩ := readArchive_rows_spec env store league
  obtain ⟨hand1, _⟩ := readArchive_rows_spec env store1 league
  have hread := readArchive_after_persist hc h hw
  have h2 := persistHistoryBatch_eq accepts1 nowFetch1 nowGap1 store1 hc1
  obtain ⟨hrows1, hstore2⟩ := persistHistoryBatch_rows hc1 h2
  refine ⟨_, _, h2, ?_, ?_, ?_, ?_, ?_⟩
  · intro k
    rw [hrows1, hrows]
    apply merge_again_keys_iff hand hav hcnd hcnd1 hCC _ hand1
    intro r
    rw [hread]
    exact mem_filter_valid_json
  · rw [hrows]
    exact nodup_mergeRows hand
  · rw [hrows1]
    exact nodup_mergeRows hand1
  · intro hids
    have hCv := hvalid hids
    have hMv : ∀ m ∈ mergeRows (readArchive env store league).rows current.rows,
        validRow m = true := by
      intro m hm
      rcases (mem_mergeRows hand hcnd m).mp hm with hm1 | ⟨hm1, _⟩
      · exact hCv m hm1
      · exact hav m hm1
    rw [hrows1, hrows, hread, filter_valid_of_all hMv]
    exact merge_again_keys_eq hand hav hcnd hCv hCC
  · have hM : storedMeta env store1 league
        = (nextMetaOf nowFetch nowGap (storedMeta env store league) current res.gapInfo).json := by
      rw [hstore]
      exact writeArchive_meta_of_stored env store league _ _
        ⟨res.rows, writeLoop_of_accepts _ _ _ hw⟩
    rw [hstore2]
    rcases storedMeta_writeArchive_cases env accepts1 store1 league
      ({ rows := sortNewestFirst
            ((setAll (setAll [] (readArchive env store1 league).rows) current1.rows).map
              Prod.snd)
         gapInfo := detectGap env (readArchive env store1 league).meta current1.rows
            current1.keySet } : Persisted).rows
      (nextMetaOf nowFetch1 nowGap1 (storedMeta env store1 league) current1
        ({ rows := sortNewestFirst
            ((setAll (setAll [] (readArchive env store1 league).rows) current1.rows).map
              Prod.snd)
           gapInfo := detectGap env (readArchive env store1 league).meta current1.rows
            current1.keySet } : Persisted).gapInfo)
      with hcase | hcase
    · rw [hcase, hM]
      simp [Meta.json, nextMetaOf, hkeySet]
    · rw [hcase]

/-- C1, witness: the batch with sales at T200 and T150 (string identifiers),
persisted twice into the slot whose previous fetch ended at T100. -/
theorem persistHistoryBatch_idempotent_witness :
    ∃ res store1 res1 store2,
      persistHistoryBatch sampleEnv acceptAll sampleClock 1000 1000 gapStorage sampleLeague
          gapBatch = some (res, store1)
        ∧ persistHistoryBatch sampleEnv acceptAll sampleClock 2000 2000 store1 sampleLeague
          gapBatch = some (res1, store2)
        ∧ keysOf res1.rows = keysOf res.rows
        ∧ (storedMeta sampleEnv store2 sampleLeague).lastFetchKeys
            = (storedMeta sampleEnv store1 sampleLeague).lastFetchKeys := by
  obtain ⟨res, store1, hp⟩ := persistHistoryBatch_sample_exists
  obtain ⟨res1, store2, h1, _, _, _, h5, h6⟩ :=
    persistHistoryBatch_idempotent sampleEnv acceptAll acceptAll sampleClock sampleClock
      1000 1000 2000 2000 gapStorage sampleLeague gapBatch res store1 hp rfl
  exact ⟨res, store1, res1, store2, hp, h1, h5 (by decide), h6⟩


/-! ### Persisting two batches in either order -/

theorem merge_commute_step {A0 CA1 CB1 CA2 CB2 A1 B2 : List Row}
    (hA0 : (keysOf A0).Nodup)
    (hCA1 : (keysOf CA1).Nodup) (hCB1 : (keysOf CB1).Nodup)
    (hCA2 : (keysOf CA2).Nodup) (hCB2 : (keysOf CB2).Nodup)
    (hvB2 : ∀ r ∈ CB2, validRow r = true)
    (hA : CA2.map eraseAgo = CA1.map eraseAgo) (hB : CB2.map eraseAgo = CB1.map eraseAgo)
    (hdisj : ∀ r ∈ CA1, r.tradeKey ∉ keysOf CB1)
    (hA1 : ∀ r, r ∈ A1 ↔ ∃ m ∈ mergeRows A0 CA1, validRow m = true ∧ r = m.json)
    (hA1nd : (keysOf A1).Nodup)
    (hB2 : ∀ r, r ∈ B2 ↔ ∃ m ∈ mergeRows A0 CB2, validRow m = true ∧ r = m.json)
    (hB2nd : (keysOf B2).Nodup) :
    ∀ r ∈ mergeRows A1 CB1, ∃ r1 ∈ mergeRows B2 CA2,
      r1.tradeKey = r.tradeKey ∧ r1.stable = r.stable := by
  have hkA : keysOf CA2 = keysOf CA1 := keysOf_of_eraseAgo hA
  have hkB : keysOf CB2 = keysOf CB1 := keysOf_of_eraseAgo hB
  intro r hr
  rcases (mem_mergeRows hA1nd hCB1 r).mp hr with h | ⟨h, hnot⟩
  · obtain ⟨r2, hr2, he⟩ := mem_of_eraseAgo hB h
    have hk2 : r2.tradeKey = r.tradeKey :=
      show (eraseAgo r2).tradeKey = (eraseAgo r).tradeKey from congrArg Row.tradeKey he
    have hv2 := hvB2 r2 hr2
    have hin : r2.json ∈ B2 :=
      (hB2 r2.json).mpr ⟨r2, (mem_mergeRows hA0 hCB2 r2).mpr (Or.inl hr2), hv2, rfl⟩
    refine ⟨r2.json, (mem_mergeRows hB2nd hCA2 r2.json).mpr (Or.inr ⟨hin, ?_⟩), ?_, ?_⟩
    · rw [validRow_tradeKey_json hv2, hk2, hkA]
      intro hmem
      obtain ⟨a, ha, hak⟩ := mem_keysOf.mp hmem
      apply hdisj a ha
      rw [hak]
      exact mem_keysOf.mpr ⟨r, h, rfl⟩
    · rw [validRow_tradeKey_json hv2, hk2]
    · rw [Row.stable_json]
      exact Row.stable_eq_of_eraseAgo_eq he
  · obtain ⟨m, hm, hv, rfl⟩ := (hA1 r).mp h
    rw [validRow_tradeKey_json hv] at hnot
    rcases (mem_mergeRows hA0 hCA1 m).mp hm with hm1 | ⟨hm1, hnotA⟩
    · obtain ⟨m2, hm2, he⟩ := mem_of_eraseAgo hA hm1
      have hk2 : m2.tradeKey = m.tradeKey :=
        show (eraseAgo m2).tradeKey = (eraseAgo m).tradeKey from congrArg Row.tradeKey he
      refine ⟨m2, (mem_mergeRows hB2nd hCA2 m2).mpr (Or.inl hm2), ?_, ?_⟩
      · rw [validRow_tradeKey_json hv, hk2]
      · rw [Row.stable_json]
        exact Row.stable_eq_of_eraseAgo_eq he
    · have hin : m.json ∈ B2 :=
        (hB2 m.json).mpr ⟨m, (mem_mergeRows hA0 hCB2 m).mpr
          (Or.inr ⟨hm1, by rw [hkB]; exact hnot⟩), hv, rfl⟩
      refine ⟨m.json, (mem_mergeRows hB2nd hCA2 m.json).mpr (Or.inr ⟨hin, ?_⟩), rfl, rfl⟩
      rw [validRow_tradeKey_json hv, hkA]
      exact hnotA

/-- C3, counterexample: on an empty storage, persisting the batch whose only entry
has the numeric item identifier 7 and then the empty batch returns no record,
while persisting the empty batch and then that batch returns the record. -/
theorem persistHistoryBatch_order_matters :
    keysOfTwoCalls numericIdOnly [] = some
        ([JVal.str "standard|7|1970-01-01T00:00:00.100Z|1|chaos"], [])
      ∧ keysOfTwoCalls [] numericIdOnly = some
        ([], [JVal.str "standard|7|1970-01-01T00:00:00.100Z|1|chaos"]) := by
  constructor <;> decide!

/-- C3, amended: let the item identifier and the time stamp of every entry of the
batches A and B be strings, let the records of A and of B share no trade key,
and let the storage accept untruncated the first write of either order.  Then
persisting A and then B, and persisting B and then A, all return, and the two
final record lists have the same trade keys, each key once, and for every key
records that agree in every field except the clock-relative text `timeAgo`, up
to the storage round trip (`Row.stable`). -/
theorem persistHistoryBatch_disjoint_commute (env : Env)
    (accA1 accB1 accB2 accA2 : Nat → List Row → Bool) (clockA1 clockB1 clockB2 clockA2 : Nat → Int)
    (nowA1 gapA1 nowB1 gapB1 nowB2 gapB2 nowA2 gapA2 : Int) (store : Storage) (league : JVal)
    (rawA rawB : List RawRow) (curA curB : Batch)
    (hcA : normalizeAndKeyBatch env clockA1 league rawA = some curA)
    (hcB : normalizeAndKeyBatch env clockB1 league rawB = some curB)
    (hidsA : ∀ row ∈ rawA, stringIds row = true) (hidsB : ∀ row ∈ rawB, stringIds row = true)
    (hdisj : ∀ r ∈ curA.rows, r.tradeKey ∉ keysOf curB.rows)
    (haccA : AcceptsAll accA1) (haccB : AcceptsAll accB2) :
    ∃ resA storeA resAB storeAB resB storeB resBA storeBA,
      persistHistoryBatch env accA1 clockA1 nowA1 gapA1 store league rawA = some (resA, storeA)
        ∧ persistHistoryBatch env accB1 clockB1 nowB1 gapB1 storeA league rawB
            = some (resAB, storeAB)
        ∧ persistHistoryBatch env accB2 clockB2 nowB2 gapB2 store league rawB
            = some (resB, storeB)
        ∧ persistHistoryBatch env accA2 clockA2 nowA2 gapA2 storeB league rawA
            = some (resBA, storeBA)
        ∧ (∀ k, k ∈ keysOf resAB.rows ↔ k ∈ keysOf resBA.rows)
        ∧ (keysOf resAB.rows).Nodup ∧ (keysOf resBA.rows).Nodup
        ∧ (∀ r ∈ resAB.rows, ∃ r1 ∈ resBA.rows,
            r1.tradeKey = r.tradeKey ∧ r1.stable = r.stable)
        ∧ (∀ r ∈ resBA.rows, ∃ r1 ∈ resAB.rows,
            r1.tradeKey = r.tradeKey ∧ r1.stable = r.stable) := by
  obtain ⟨curA2, hcA2, hAA, _⟩ := normalizeAndKeyBatch_other_clock clockA2 hcA
  obtain ⟨curB2, hcB2, hBB, _⟩ := normalizeAndKeyBatch_other_clock clockB2 hcB
  obtain ⟨_, _, hndA1, _, _, hvA1⟩ := normalizeAndKeyBatch_spec hcA
  obtain ⟨_, _, hndB1, _, _, hvB1⟩ := normalizeAndKeyBatch_spec hcB
  obtain ⟨_, _, hndA2, _, _, hvA2⟩ := normalizeAndKeyBatch_spec hcA2
  obtain ⟨_, _, hndB2, _, _, hvB2⟩ := normalizeAndKeyBatch_spec hcB2
  have hpA := persistHistoryBatch_eq accA1 nowA1 gapA1 store hcA
  have hpB := persistHistoryBatch_eq accB2 nowB2 gapB2 store hcB2
  obtain ⟨hand, _⟩ := readArchive_rows_spec env store league
  have hreadA := readArchive_after_persist hcA hpA (haccA _)
  have hreadB := readArchive_after_persist hcB2 hpB (haccB _)
  have hpAB := persistHistoryBatch_eq accB1 nowB1 gapB1
    (writeArchive env accA1 store league
      (sortNewestFirst
        ((setAll (setAll [] (readArchive env store league).rows) curA.rows).map Prod.snd))
      (nextMetaOf nowA1 gapA1 (readArchive env store league).meta curA
        (detectGap env (readArchive env store league).meta curA.rows curA.keySet))) hcB
  have hpBA := persistHistoryBatch_eq accA2 nowA2 gapA2
    (writeArchive env accB2 store league
      (sortNewestFirst
        ((setAll (setAll [] (readArchive env store league).rows) curB2.rows).map Prod.snd))
      (nextMetaOf nowB2 gapB2 (readArchive env store league).meta curB2
        (detectGap env (readArchive env store league).meta curB2.rows curB2.keySet))) hcA2
  obtain ⟨hrowsAB, _⟩ := persistHistoryBatch_rows hcB hpAB
  obtain ⟨hrowsBA, _⟩ := persistHistoryBatch_rows hcA2 hpBA
  obtain ⟨hnd1, _⟩ := readArchive_rows_spec env
    (writeArchive env accA1 store league
      (sortNewestFirst
        ((setAll (setAll [] (readArchive env store league).rows) curA.rows).map Prod.snd))
      (nextMetaOf nowA1 gapA1 (readArchive env store league).meta curA
        (detectGap env (readArchive env store league).meta curA.rows curA.keySet))) league
  obtain ⟨hnd2, _⟩ := readArchive_rows_spec env
    (writeArchive env accB2 store league
      (sortNewestFirst
        ((setAll (setAll [] (readArchive env store league).rows) curB2.rows).map Prod.snd))
      (nextMetaOf nowB2 gapB2 (readArchive env store league).meta curB2
        (detectGap env (readArchive env store league).meta curB2.rows curB2.keySet))) league
  have hkA : keysOf curA2.rows = keysOf curA.rows := keysOf_of_eraseAgo hAA
  have hkB : keysOf curB2.rows = keysOf curB.rows := keysOf_of_eraseAgo hBB
  have hdisj2 : ∀ r ∈ curB2.rows, r.tradeKey ∉ keysOf curA2.rows := by
    intro r hr hmem
    rw [hkA] at hmem
    obtain ⟨a, ha, hak⟩ := mem_keysOf.mp hmem
    apply hdisj a ha
    rw [hak, ← hkB]
    exact mem_keysOf.mpr ⟨r, hr, rfl⟩
  have hmemA : ∀ r, r ∈ (readArchive env
      (writeArchive env accA1 store league
        (sortNewestFirst
          ((setAll (setAll [] (readArchive env store league).rows) curA.rows).map Prod.snd))
        (nextMetaOf nowA1 gapA1 (readArchive env store league).meta curA
          (detectGap env (readArchive env store league).meta curA.rows curA.keySet)))
      league).rows ↔ ∃ m ∈ mergeRows (readArchive env store league).rows curA.rows,
        validRow m = true ∧ r = m.json := by
    intro r
    rw [hreadA]
    exact mem_filter_valid_json
  have hmemB : ∀ r, r ∈ (readArchive env
      (writeArchive env accB2 store league
        (sortNewestFirst
          ((setAll (setAll [] (readArchive env store league).rows) curB2.rows).map Prod.snd))
        (nextMetaOf nowB2 gapB2 (readArchive env store league).meta curB2
          (detectGap env (readArchive env store league).meta curB2.rows curB2.keySet)))
      league).rows ↔ ∃ m ∈ mergeRows (readArchive env store league).rows curB2.rows,
        validRow m = true ∧ r = m.json := by
    intro r
    rw [hreadB]
    exact mem_filter_valid_json
  have hfwd := merge_commute_step hand hndA1 hndB1 hndA2 hndB2 (hvB2 hidsB) hAA hBB hdisj
    hmemA hnd1 hmemB hnd2
  have hbwd := merge_commute_step hand hndB2 hndA2 hndB1 hndA1 (hvA1 hidsA) hBB.symm
    hAA.symm hdisj2 hmemB hnd2 hmemA hnd1
  refine ⟨_, _, _, _, _, _, _, _, hpA, hpAB, hpB, hpBA, ?_, ?_, ?_, ?_, ?_⟩
  · intro k
    rw [hrowsAB, hrowsBA]
    constructor
    · intro hk
      obtain ⟨r, hr, rfl⟩ := mem_keysOf.mp hk
      obtain ⟨r1, hr1, hk1, _⟩ := hfwd r hr
      exact mem_keysOf.mpr ⟨r1, hr1, hk1⟩
    · intro hk
      obtain ⟨r, hr, rfl⟩ := mem_keysOf.mp hk
      obtain ⟨r1, hr1, hk1, _⟩ := hbwd r hr
      exact mem_keysOf.mpr ⟨r1, hr1, hk1⟩
  · rw [hrowsAB]
    exact nodup_mergeRows hnd1
  · rw [hrowsBA]
    exact nodup_mergeRows hnd2
  · rw [hrowsAB, hrowsBA]
    exact hfwd
  · rw [hrowsAB, hrowsBA]
    exact hbwd


/-- C3, witness: the batches with the single sales `item-a` at T100 and `item-b` at
T150, persisted in either order on an empty storage. -/
theorem persistHistoryBatch_disjoint_commute_witness :
    ∃ resA storeA resAB storeAB resB storeB resBA storeBA,
      persistHistoryBatch sampleEnv acceptAll sampleClock 1000 1000 emptyStorage sampleLeague
          batchA = some (resA, storeA)
        ∧ persistHistoryBatch sampleEnv acceptAll sampleClock 2000 2000 storeA sampleLeague
          batchB = some (resAB, storeAB)
        ∧ persistHistoryBatch sampleEnv acceptAll sampleClock 1000 1000 emptyStorage sampleLeague
          batchB = some (resB, storeB)
        ∧ persistHistoryBatch sampleEnv acceptAll sampleClock 2000 2000 storeB sampleLeague
          batchA = some (resBA, storeBA)
        ∧ (∀ k, k ∈ keysOf resAB.rows ↔ k ∈ keysOf resBA.rows)
        ∧ (∀ r ∈ resAB.rows, ∃ r1 ∈ resBA.rows,
            r1.tradeKey = r.tradeKey ∧ r1.stable = r.stable) := by
  have hA : (normalizeAndKeyBatch sampleEnv sampleClock sampleLeague batchA).map
      (fun b => keysOf b.rows)
        = some [JVal.str "standard|item-a|1970-01-01T00:00:00.100Z|1|chaos"] := by decide!
  have hB : (normalizeAndKeyBatch sampleEnv sampleClock sampleLeague batchB).map
      (fun b => keysOf b.rows)
        = some [JVal.str "standard|item-b|1970-01-01T00:00:00.150Z|2|chaos"] := by decide!
  cases hcA : normalizeAndKeyBatch sampleEnv sampleClock sampleLeague batchA with
  | none => rw [hcA] at hA; simp at hA
  | some curA =>
    cases hcB : normalizeAndKeyBatch sampleEnv sampleClock sampleLeague batchB with
    | none => rw [hcB] at hB; simp at hB
    | some curB =>
      rw [hcA] at hA
      rw [hcB] at hB
      simp only [Option.map_some', Option.some.injEq] at hA hB
      have hdisj : ∀ r ∈ curA.rows, r.tradeKey ∉ keysOf curB.rows := by
        intro r hr hmem
        have hrk : r.tradeKey ∈ keysOf curA.rows := mem_keysOf.mpr ⟨r, hr, rfl⟩
        rw [hA] at hrk
        rw [hB] at hmem
        simp only [List.mem_singleton] at hrk hmem
        rw [hrk] at hmem
        revert hmem
        decide
      obtain ⟨resA, storeA, resAB, storeAB, resB, storeB, resBA, storeBA, h1, h2, h3, h4, h5,
          _, _, h8, _⟩ :=
        persistHistoryBatch_disjoint_commute sampleEnv acceptAll acceptAll acceptAll acceptAll
          sampleClock sampleClock sampleClock sampleClock 1000 1000 2000 2000 1000 1000 2000 2000
          emptyStorage sampleLeague batchA batchB curA curB hcA hcB (by decide) (by decide)
          hdisj (fun _ => rfl) (fun _ => rfl)
      exact ⟨resA, storeA, resAB, storeAB, resB, storeB, resBA, storeBA, h1, h2, h3, h4, h5, h8⟩


/-! ### The trade counts of the groupings -/

theorem totalCount_mapSet_of_get (groupMap : List (String × Group)) (key : String)
    (g g1 : Group) (d : Nat) (hget : mapGet groupMap key = some g)
    (hcount : g1.count = g.count + d) :
    totalCount (mapSet groupMap key g1) = totalCount groupMap + d := by
  induction groupMap with
  | nil => simp [mapGet] at hget
  | cons e rest ih =>
    obtain ⟨k1, v1⟩ := e
    simp only [mapGet] at hget
    simp only [mapSet]
    by_cases hk : k1 = key
    · rw [if_pos hk] at hget
      rw [if_pos hk]
      simp only [Option.some.injEq] at hget
      subst hget
      simp only [totalCount, List.map_cons, List.sum_cons, hcount]
      omega
    · rw [if_neg hk] at hget
      rw [if_neg hk]
      have := ih hget
      simp only [totalCount, List.map_cons, List.sum_cons] at this ⊢
      omega

theorem totalCount_mapSet_of_none (groupMap : List (String × Group)) (key : String)
    (g1 : Group) (hget : mapGet groupMap key = none) :
    totalCount (mapSet groupMap key g1) = totalCount groupMap + g1.count := by
  induction groupMap with
  | nil => simp [mapSet, totalCount]
  | cons e rest ih =>
    obtain ⟨k1, v1⟩ := e
    simp only [mapGet] at hget
    simp only [mapSet]
    by_cases hk : k1 = key
    · rw [if_pos hk] at hget
      cases hget
    · rw [if_neg hk] at hget
      rw [if_neg hk]
      have := ih hget
      simp only [totalCount, List.map_cons, List.sum_cons] at this ⊢
      omega

theorem totalCount_bumpCountOnly (groupMap : List (String × Group)) (key : String) :
    totalCount (bumpCountOnly groupMap key) = totalCount groupMap + 1 := by
  unfold bumpCountOnly
  cases hget : mapGet groupMap key with
  | none => simp [totalCount_mapSet_of_none groupMap key _ hget]
  | some g => exact totalCount_mapSet_of_get groupMap key g _ 1 hget rfl

theorem totalCount_bumpGroupBucket (env : Env) (groupMap : List (String × Group)) (key : String)
    (currency : JVal) (amount : ℚ) :
    totalCount (bumpGroupBucket env groupMap key currency amount) = totalCount groupMap := by
  unfold bumpGroupBucket
  cases hget : mapGet groupMap key with
  | none => rfl
  | some g => exact totalCount_mapSet_of_get groupMap key g _ 0 hget rfl

theorem incomeStep_counts {env : Env} {g g1 : IncomeGroups} {r : Row}
    (h : incomeStep env g r = some g1) :
    totalCount g1.byDay = totalCount g.byDay + 1
      ∧ totalCount g1.byWeek = totalCount g.byWeek + 1
      ∧ totalCount g1.byCategory = totalCount g.byCategory + 1
      ∧ totalCount g1.byBaseType = totalCount g.byBaseType + 1
      ∧ totalCount g1.byRarity = totalCount g.byRarity + 1 := by
  unfold incomeStep at h
  cases hl : labelsOf env r with
  | none => rw [hl] at h; simp at h
  | some l =>
    rw [hl] at h
    simp only [Option.some.injEq] at h
    subst h
    simp only [totalCount_bumpGroupBucket, totalCount_bumpCountOnly, and_self]

theorem incomeLoop_counts (env : Env) (rows : List Row) :
    ∀ g g1 : IncomeGroups, incomeLoop env g rows = some g1 →
      totalCount g1.byDay = totalCount g.byDay + rows.length
        ∧ totalCount g1.byWeek = totalCount g.byWeek + rows.length
        ∧ totalCount g1.byCategory = totalCount g.byCategory + rows.length
        ∧ totalCount g1.byBaseType = totalCount g.byBaseType + rows.length
        ∧ totalCount g1.byRarity = totalCount g.byRarity + rows.length := by
  induction rows with
  | nil =>
    intro g g1 h
    simp only [incomeLoop, Option.some.injEq] at h
    subst h
    simp
  | cons r rest ih =>
    intro g g1 h
    simp only [incomeLoop] at h
    cases hs : incomeStep env g r with
    | none => rw [hs] at h; simp at h
    | some g2 =>
      rw [hs] at h
      obtain ⟨a1, a2, a3, a4, a5⟩ := incomeStep_counts hs
      obtain ⟨b1, b2, b3, b4, b5⟩ := ih g2 g1 h
      simp only [List.length_cons]
      omega

theorem trimOrEmpty_of_textLike {v : JVal} (h : textLike v = true) :
    ∃ s, trimOrEmpty v = some s := by
  unfold trimOrEmpty
  cases v with
  | str s =>
    by_cases hs : s = ""
    · exact ⟨"", by simp [JVal.truthy, hs]⟩
    · exact ⟨jsTrim s, by simp [JVal.truthy, hs]⟩
  | bool b =>
    have hb : b = false := by simpa [textLike, JVal.isString, JVal.truthy] using h
    exact ⟨"", by simp [JVal.truthy, hb]⟩
  | num q =>
    have hq : q = 0 := by simpa [textLike, JVal.isString, JVal.truthy] using h
    exact ⟨"", by simp [JVal.truthy, hq]⟩
  | undefined => exact ⟨"", by simp [JVal.truthy]⟩
  | null => exact ⟨"", by simp [JVal.truthy]⟩
  | nan => exact ⟨"", by simp [JVal.truthy]⟩
  | inf n => simp [textLike, JVal.isString, JVal.truthy] at h
  | obj t => simp [textLike, JVal.isString, JVal.truthy] at h

theorem labelsOf_isSome {env : Env} {r : Row} (h1 : textLike r.category = true)
    (h2 : textLike r.baseType = true) (h3 : textLike r.name = true)
    (h4 : textLike r.rarity = true) : ∃ l, labelsOf env r = some l := by
  obtain ⟨c, hc⟩ := trimOrEmpty_of_textLike h1
  obtain ⟨b, hb⟩ := trimOrEmpty_of_textLike h2
  obtain ⟨n, hn⟩ := trimOrEmpty_of_textLike h3
  obtain ⟨y, hy⟩ := trimOrEmpty_of_textLike h4
  unfold labelsOf
  simp only [hc, hb, hn, hy]
  by_cases hbe : b ≠ ""
  · simp [hbe]
  · simp [hbe]

theorem incomeLoop_isSome (env : Env) (rows : List Row)
    (h : ∀ r ∈ rows, ∃ l, labelsOf env r = some l) :
    ∀ g : IncomeGroups, ∃ g1, incomeLoop env g rows = some g1 := by
  induction rows with
  | nil => intro g; exact ⟨g, rfl⟩
  | cons r rest ih =>
    intro g
    obtain ⟨l, hl⟩ := h r (by simp)
    simp only [incomeLoop, incomeStep, hl]
    exact ih (fun r1 hr1 => h r1 (List.mem_cons_of_mem _ hr1)) _

theorem rowCountSum_toStatRows (env : Env) (groupMap : List (String × Group)) (keyDesc : Bool)
    (preferredCurrency divineChaosPrice : JVal) (limit : Nat) (hlimit : groupMap.length ≤ limit) :
    rowCountSum (toStatRows env groupMap keyDesc preferredCurrency divineChaosPrice limit)
      = totalCount groupMap := by
  unfold toStatRows rowCountSum totalCount
  simp only
  rw [List.take_of_length_le]
  · have hperm : ∀ rows : List StatRow,
        ((if keyDesc = true then
            rows.insertionSort (fun a b => env.localeCompare b.label a.label ≤ 0)
          else rows.insertionSort
            (fun a b => (preferredThenCount env a b).notPositive = true)).map
            (fun r => r.count)).sum = (rows.map (fun r => r.count)).sum := by
      intro rows
      split
      · exact ((List.perm_insertionSort _ rows).map _).sum_eq
      · exact ((List.perm_insertionSort _ rows).map _).sum_eq
    rw [hperm, List.map_map]
    rfl
  · split
    · rw [List.length_insertionSort, List.length_map]
      exact hlimit
    · rw [List.length_insertionSort, List.length_map]
      exact hlimit

theorem computeIncomeStats_some {env : Env} {rows : List Row} {pc dp : JVal} {st : Stats}
    (h : computeIncomeStats env rows pc dp = some st) :
    ∃ g, incomeGroups env rows = some g
      ∧ st.trades = (rows.filter (isSold env)).length
      ∧ st.totalText = formatCurrencyMap env g.totalByCurrency
      ∧ st.totalPreferredText
          = (tryConvertChaosDivineOnly env g.totalByCurrency (JVal.str st.preferredCurrency)
              (numOrNull st.divineChaosPrice)).map
              (fun a => formatAmount env a.toJVal ++ " " ++ st.preferredCurrency)
      ∧ st.divineChaosPrice = toPositiveNumberOrNull env dp
      ∧ st.byDay = toStatRows env g.byDay true (JVal.str st.preferredCurrency)
          (numOrNull st.divineChaosPrice) 14
      ∧ st.byWeek = toStatRows env g.byWeek true (JVal.str st.preferredCurrency)
          (numOrNull st.divineChaosPrice) 12
      ∧ st.byCategory = toStatRows env g.byCategory false (JVal.str st.preferredCurrency)
          (numOrNull st.divineChaosPrice) 12
      ∧ st.byBaseType = toStatRows env g.byBaseType false (JVal.str st.preferredCurrency)
          (numOrNull st.divineChaosPrice) 12
      ∧ st.byRarity = toStatRows env g.byRarity false (JVal.str st.preferredCurrency)
          (numOrNull st.divineChaosPrice) 12 := by
  unfold computeIncomeStats at h
  simp only at h
  unfold incomeGroups
  cases hg : incomeLoop env IncomeGroups.empty (rows.filter (isSold env)) with
  | none => rw [hg] at h; simp at h
  | some g =>
    rw [hg] at h
    simp only [Option.some.injEq] at h
    subst h
    exact ⟨g, rfl, rfl, rfl, rfl, rfl, rfl, rfl, rfl, rfl, rfl⟩

/-- C5: `computeIncomeStats` returns a result whenever the category, base type,
name and rarity of every sold record are strings or missing, and whenever it
returns a result, each of the five groupings (day, week, category, base type,
rarity) has per-group trade counts whose sum over all groups is the number of
sellable input records, which is the returned `trades`; the same sum is found in
the table rows of a grouping as soon as the row limit is not smaller than the
number of groups. -/
theorem computeIncomeStats_counts (env : Env) (rows : List Row) (pc dp : JVal) :
    ((∀ r ∈ rows, isSold env r = true →
        textLike r.category = true ∧ textLike r.baseType = true ∧ textLike r.name = true
          ∧ textLike r.rarity = true) →
      ∃ st, computeIncomeStats env rows pc dp = some st)
    ∧ ∀ st, computeIncomeStats env rows pc dp = some st →
        st.trades = (rows.filter (isSold env)).length
          ∧ ∃ g, incomeGroups env rows = some g
            ∧ totalCount g.byDay = st.trades ∧ totalCount g.byWeek = st.trades
            ∧ totalCount g.byCategory = st.trades ∧ totalCount g.byBaseType = st.trades
            ∧ totalCount g.byRarity = st.trades
            ∧ ∀ (keyDesc : Bool) (pc1 dp1 : JVal) (limit : Nat),
                (g.byDay.length ≤ limit →
                  rowCountSum (toStatRows env g.byDay keyDesc pc1 dp1 limit) = st.trades)
                ∧ (g.byWeek.length ≤ limit →
                  rowCountSum (toStatRows env g.byWeek keyDesc pc1 dp1 limit) = st.trades)
                ∧ (g.byCategory.length ≤ limit →
                  rowCountSum (toStatRows env g.byCategory keyDesc pc1 dp1 limit) = st.trades)
                ∧ (g.byBaseType.length ≤ limit →
                  rowCountSum (toStatRows env g.byBaseType keyDesc pc1 dp1 limit) = st.trades)
                ∧ (g.byRarity.length ≤ limit →
                  rowCountSum (toStatRows env g.byRarity keyDesc pc1 dp1 limit) = st.trades) := by
  constructor
  · intro htext
    have hl : ∀ r ∈ rows.filter (isSold env), ∃ l, labelsOf env r = some l := by
      intro r hr
      obtain ⟨hr1, hr2⟩ := List.mem_filter.mp hr
      obtain ⟨h1, h2, h3, h4⟩ := htext r hr1 hr2
      exact labelsOf_isSome h1 h2 h3 h4
    obtain ⟨g, hg⟩ := incomeLoop_isSome env _ hl IncomeGroups.empty
    unfold computeIncomeStats
    simp only [hg]
    exact ⟨_, rfl⟩
  · intro st hst
    obtain ⟨g, hg, htrades, _⟩ := computeIncomeStats_some hst
    refine ⟨htrades, g, hg, ?_⟩
    unfold incomeGroups at hg
    obtain ⟨c1, c2, c3, c4, c5⟩ := incomeLoop_counts env _ _ _ hg
    have e1 : totalCount g.byDay = st.trades := by rw [c1, htrades]; simp [IncomeGroups.empty, totalCount]
    have e2 : totalCount g.byWeek = st.trades := by rw [c2, htrades]; simp [IncomeGroups.empty, totalCount]
    have e3 : totalCount g.byCategory = st.trades := by
      rw [c3, htrades]; simp [IncomeGroups.empty, totalCount]
    have e4 : totalCount g.byBaseType = st.trades := by
      rw [c4, htrades]; simp [IncomeGroups.empty, totalCount]
    have e5 : totalCount g.byRarity = st.trades := by
      rw [c5, htrades]; simp [IncomeGroups.empty, totalCount]
    refine ⟨e1, e2, e3, e4, e5, ?_⟩
    intro keyDesc pc1 dp1 limit
    refine ⟨?_, ?_, ?_, ?_, ?_⟩
    · intro hlim
      rw [rowCountSum_toStatRows env _ _ _ _ _ hlim, e1]
    · intro hlim
      rw [rowCountSum_toStatRows env _ _ _ _ _ hlim, e2]
    · intro hlim
      rw [rowCountSum_toStatRows env _ _ _ _ _ hlim, e3]
    · intro hlim
      rw [rowCountSum_toStatRows env _ _ _ _ _ hlim, e4]
    · intro hlim
      rw [rowCountSum_toStatRows env _ _ _ _ _ hlim, e5]

/-- C5, witness: the two records `{100 chaos, 1 divine}` of the unit tests; the
result exists and every grouping counts two trades. -/
theorem computeIncomeStats_counts_witness :
    ∃ st g, computeIncomeStats sampleEnv (chaosDivineRows 100) (JVal.str "chaos") JVal.undefined
        = some st
      ∧ incomeGroups sampleEnv (chaosDivineRows 100) = some g
      ∧ st.trades = 2 ∧ totalCount g.byDay = 2 ∧ totalCount g.byCategory = 2 := by
  obtain ⟨st, hst⟩ := (computeIncomeStats_counts sampleEnv (chaosDivineRows 100)
    (JVal.str "chaos") JVal.undefined).1 (by decide!)
  obtain ⟨htrades, g, hg, h1, _, h3, _⟩ := (computeIncomeStats_counts sampleEnv
    (chaosDivineRows 100) (JVal.str "chaos") JVal.undefined).2 st hst
  have hlen : ((chaosDivineRows 100).filter (isSold sampleEnv)).length = 2 := by decide!
  rw [hlen] at htrades
  exact ⟨st, g, hst, hg, htrades, by rw [h1, htrades], by rw [h3, htrades]⟩


/-! ### Conversion between chaos and divine -/

theorem normalizeCurrency_chaos {env : Env} (h : env.toLowerCase "chaos" = "chaos") :
    normalizeCurrency env (JVal.str "chaos") = "chaos" := by
  have ht : jsTrim "chaos" = "chaos" := by decide
  simp [normalizeCurrency, JVal.truthy, JVal.toStr, ht, h]

theorem normalizeCurrency_divine {env : Env} (h : env.toLowerCase "divine" = "divine") :
    normalizeCurrency env (JVal.str "divine") = "divine" := by
  have ht : jsTrim "divine" = "divine" := by decide
  simp [normalizeCurrency, JVal.truthy, JVal.toStr, ht, h]

theorem mem_nonZeroEntries {currencyMap : List (String × Num)} {e : String × Num} :
    e ∈ nonZeroEntries currencyMap ↔ e ∈ currencyMap ∧ ∃ q, e.2 = Num.fin q ∧ q ≠ 0 := by
  unfold nonZeroEntries
  rw [List.mem_filter]
  constructor
  · rintro ⟨h1, h2⟩
    refine ⟨h1, ?_⟩
    cases he : e.2 with
    | fin q =>
      rw [he] at h2
      simp only [Num.isFinite, Num.strictEq, Bool.true_and, Bool.not_eq_true',
        decide_eq_false_iff_not] at h2
      exact ⟨q, rfl, h2⟩
    | inf n =>
      rw [he] at h2
      simp [Num.isFinite] at h2
    | nan =>
      rw [he] at h2
      simp [Num.isFinite] at h2
  · rintro ⟨h1, q, hq, hne⟩
    refine ⟨h1, ?_⟩
    rw [hq]
    simp [Num.isFinite, Num.strictEq, hne]

theorem mem_of_mapGet {κ ν : Type} [DecidableEq κ] {entries : List (κ × ν)} {k : κ} {v : ν}
    (h : mapGet entries k = some v) : (k, v) ∈ entries := by
  induction entries with
  | nil => simp [mapGet] at h
  | cons e rest ih =>
    obtain ⟨k1, v1⟩ := e
    simp only [mapGet] at h
    by_cases hk : k1 = k
    · rw [if_pos hk] at h
      simp only [Option.some.injEq] at h
      rw [hk, h]
      exact List.mem_cons_self _ _
    · rw [if_neg hk] at h
      exact List.mem_cons_of_mem _ (ih h)

theorem orZero_of_all_zero {currencyMap : List (String × Num)} (k : String)
    (hnil : nonZeroEntries currencyMap = [])
    (hfin : ∀ e ∈ currencyMap, e.2.isFinite = true) :
    Num.orZero (mapGet currencyMap k) = Num.fin 0 := by
  cases hget : mapGet currencyMap k with
  | none => rfl
  | some v =>
    have hmem := mem_of_mapGet hget
    have hf := hfin _ hmem
    cases v with
    | fin q =>
      by_cases hq : q = 0
      · rw [hq]
        rfl
      · have : (k, Num.fin q) ∈ nonZeroEntries currencyMap :=
          mem_nonZeroEntries.mpr ⟨hmem, q, rfl, hq⟩
        rw [hnil] at this
        simp at this
    | inf n => simp [Num.isFinite] at hf
    | nan => rfl

theorem tryConvert_of_pair {env : Env} {currencyMap : List (String × Num)} (pc : JVal) {r : ℚ}
    (hr : 0 < r)
    (hkeys : ∀ e ∈ nonZeroEntries currencyMap,
      normalizeCurrency env (JVal.str e.1) = "chaos"
        ∨ normalizeCurrency env (JVal.str e.1) = "divine") :
    (nonZeroEntries currencyMap = [] →
        normalizeCurrency env pc = "chaos" ∨ normalizeCurrency env pc = "divine" →
        tryConvertChaosDivineOnly env currencyMap pc (JVal.num r) = some (Num.fin 0))
      ∧ (nonZeroEntries currencyMap ≠ [] →
        (normalizeCurrency env pc = "chaos" →
          tryConvertChaosDivineOnly env currencyMap pc (JVal.num r)
            = some ((Num.orZero (mapGet currencyMap "chaos")).add
                ((Num.orZero (mapGet currencyMap "divine")).mul (Num.fin r))))
        ∧ (normalizeCurrency env pc = "divine" →
          tryConvertChaosDivineOnly env currencyMap pc (JVal.num r)
            = some ((Num.orZero (mapGet currencyMap "divine")).add
                ((Num.orZero (mapGet currencyMap "chaos")).div (Num.fin r))))) := by
  have hany : (nonZeroEntries currencyMap).any (fun e =>
      decide (normalizeCurrency env (JVal.str e.1) ≠ "chaos"
        ∧ normalizeCurrency env (JVal.str e.1) ≠ "divine")) = false := by
    rw [List.any_eq_false]
    intro e he
    rcases hkeys e he with h | h
    · simp [h]
    · simp [h]
  have hcd : ("divine" : String) ≠ "chaos" := by decide
  refine ⟨?_, ?_⟩
  · intro hnil hp
    unfold tryConvertChaosDivineOnly
    simp only [toPositiveNumberOrNull, hr, if_true]
    have hp1 : ¬ (normalizeCurrency env pc ≠ "chaos" ∧ normalizeCurrency env pc ≠ "divine") := by
      rcases hp with h | h
      · simp [h]
      · simp [h]
    rw [if_neg hp1, hnil]
    rfl
  · intro hne
    have hlen : (nonZeroEntries currencyMap).length ≠ 0 := by
      intro hz
      exact hne (List.length_eq_zero.mp hz)
    constructor
    · intro hp
      unfold tryConvertChaosDivineOnly
      simp only [toPositiveNumberOrNull, hr, if_true, hp]
      rw [if_neg (by decide), if_neg hlen, hany]
      simp
    · intro hp
      unfold tryConvertChaosDivineOnly
      simp only [toPositiveNumberOrNull, hr, if_true, hp]
      rw [if_neg (by decide), if_neg hlen, hany]
      simp [hcd]

theorem isSold_bareRow {env : Env} {t a : ℚ} {c : String} (hc : c ≠ "")
    (hn : normalizeCurrency env (JVal.str c) ≠ "") : isSold env (bareRow t a c) = true := by
  simp [isSold, bareRow, JVal.isFiniteNumber, JVal.truthy, hc, hn]

theorem labelsOf_bareRow (env : Env) (t a : ℚ) (c : String) :
    labelsOf env (bareRow t a c)
      = some
          { dayKey := localDayKey env t
            weekKey := "Week of " ++ localWeekStartKey env t
            categoryKey := "Other"
            baseTypeKey := "Other"
            rarityKey := "Other" } := by
  simp [labelsOf, bareRow, trimOrEmpty, JVal.truthy, orOther, timeNum]

theorem fl_100 : fl 100 = Num.fin 100 := by decide!

theorem fl_1 : fl 1 = Num.fin 1 := by decide!

theorem incomeGroups_chaosDivine {env : Env} (hlc : env.toLowerCase "chaos" = "chaos")
    (hld : env.toLowerCase "divine" = "divine") (t : ℚ) :
    ∃ g, incomeGroups env (chaosDivineRows t) = some g
      ∧ g.totalByCurrency = [("chaos", Num.fin 100), ("divine", Num.fin 1)]
      ∧ g.byDay = [(localDayKey env t,
          { count := 2, byCurrency := [("chaos", Num.fin 100), ("divine", Num.fin 1)] })] := by
  have hc := normalizeCurrency_chaos hlc
  have hd := normalizeCurrency_divine hld
  have h1 : isSold env (bareRow t 100 "chaos") = true :=
    isSold_bareRow (by decide) (by rw [hc]; decide)
  have h2 : isSold env (bareRow t 1 "divine") = true :=
    isSold_bareRow (by decide) (by rw [hd]; decide)
  have hcd : ("chaos" : String) ≠ "divine" := by decide
  have hp1 : (bareRow t 100 "chaos").priceCurrency = JVal.str "chaos" := rfl
  have hp2 : (bareRow t 1 "divine").priceCurrency = JVal.str "divine" := rfl
  have ha1 : amountNum (bareRow t 100 "chaos") = 100 := rfl
  have ha2 : amountNum (bareRow t 1 "divine") = 1 := rfl
  simp only [incomeGroups, chaosDivineRows, List.filter_cons, h1, h2, if_true, List.filter_nil,
    incomeLoop, incomeStep, labelsOf_bareRow]
  refine ⟨_, rfl, ?_, ?_⟩
  · simp [IncomeGroups.empty, bumpBucket, hp1, hp2, ha1, ha2, hc, hd, mapGet, mapSet, hcd,
      Num.orZero, Num.add, fl_100, fl_1]
  · simp [IncomeGroups.empty, bumpCountOnly, bumpGroupBucket, bumpBucket, hp1, hp2, ha1, ha2, hc,
      hd, mapGet, mapSet, hcd, Num.orZero, Num.add, fl_100, fl_1]

theorem den_250 : (250 : ℚ).den = 1 := by decide!

/-- C6, counterexample: two records of `2^1023` chaos each have the chaos sum
plus infinity, the only sum of the currency map, so its non-zero currencies are
all chaos or divine; with the rate 150 and the preferred currency chaos,
`tryConvertChaosDivineOnly` returns 0, while `chaos + divine * r` is plus
infinity. -/
theorem tryConvertChaosDivineOnly_drops_infinite_sum :
    ∃ g, incomeGroups sampleEnv (hugeRows "chaos") = some g
      ∧ g.totalByCurrency = [("chaos", Num.inf false)]
      ∧ tryConvertChaosDivineOnly sampleEnv g.totalByCurrency (JVal.str "chaos") (JVal.num 150)
          = some (Num.fin 0)
      ∧ (Num.orZero (mapGet g.totalByCurrency "chaos")).add
          ((Num.orZero (mapGet g.totalByCurrency "divine")).mul (Num.fin 150)) = Num.inf false
      ∧ Num.inf false ≠ Num.fin 0 := by
  have hg : incomeGroups sampleEnv (hugeRows "chaos")
      = some
          { totalByCurrency := [("chaos", Num.inf false)]
            byCategory := [("Other", { count := 2, byCurrency := [("chaos", Num.inf false)] })]
            byBaseType := [("Other", { count := 2, byCurrency := [("chaos", Num.inf false)] })]
            byRarity := [("Other", { count := 2, byCurrency := [("chaos", Num.inf false)] })]
            byDay := [("1970-01-01", { count := 2, byCurrency := [("chaos", Num.inf false)] })]
            byWeek :=
              [("Week of 1969-12-29",
                { count := 2, byCurrency := [("chaos", Num.inf false)] })] } := by
    decide!
  refine ⟨_, hg, rfl, ?_, ?_, ?_⟩
  · decide!
  · decide!
  · decide

/-- C6, amended: let `r` be a positive rate and let every finite non-zero sum of
the currency map be filed under chaos or divine.  When no sum is finite and
non-zero, `tryConvertChaosDivineOnly` returns 0 for both preferred currencies.
When some sum is finite and non-zero, or all sums are finite, it returns
`chaos + divine * r` for the preferred currency chaos and `divine + chaos / r`
for divine, in the arithmetic of doubles, `chaos` and `divine` being the sums
filed under these names (0 when there is none).  For the two records 100 chaos
and 1 divine with the rate 150, `computeIncomeStats` with preferred chaos gives
`totalPreferredText` "250 chaos" (where 250 is printed in decimal), the chaos
total being 250, and the divine total of the same sums is the double that
`1 + 100 / 150` evaluates to, 3752999689475413 / 2^51.  The environment is
assumed to leave "chaos" and "divine" in lower case. -/
theorem tryConvertChaosDivineOnly_formula (env : Env) (currencyMap : List (String × Num))
    (pc : JVal) (r t : ℚ) (hr : 0 < r) (hlc : env.toLowerCase "chaos" = "chaos")
    (hld : env.toLowerCase "divine" = "divine")
    (hkeys : ∀ e ∈ currencyMap, (∃ q, e.2 = Num.fin q ∧ q ≠ 0) →
      e.1 = "chaos" ∨ e.1 = "divine") :
    ((∀ e ∈ currencyMap, ¬ ∃ q, e.2 = Num.fin q ∧ q ≠ 0) →
        normalizeCurrency env pc = "chaos" ∨ normalizeCurrency env pc = "divine" →
        tryConvertChaosDivineOnly env currencyMap pc (JVal.num r) = some (Num.fin 0))
      ∧ (((∃ e ∈ currencyMap, ∃ q, e.2 = Num.fin q ∧ q ≠ 0)
            ∨ ∀ e ∈ currencyMap, e.2.isFinite = true) →
          (normalizeCurrency env pc = "chaos" →
            tryConvertChaosDivineOnly env currencyMap pc (JVal.num r)
              = some ((Num.orZero (mapGet currencyMap "chaos")).add
                  ((Num.orZero (mapGet currencyMap "divine")).mul (Num.fin r))))
          ∧ (normalizeCurrency env pc = "divine" →
            tryConvertChaosDivineOnly env currencyMap pc (JVal.num r)
              = some ((Num.orZero (mapGet currencyMap "divine")).add
                  ((Num.orZero (mapGet currencyMap "chaos")).div (Num.fin r)))))
      ∧ ∃ st g, computeIncomeStats env (chaosDivineRows t) (JVal.str "chaos") (JVal.num 150)
            = some st
          ∧ incomeGroups env (chaosDivineRows t) = some g
          ∧ (env.numToString 250 = "250" → st.totalPreferredText = some "250 chaos")
          ∧ tryConvertChaosDivineOnly env g.totalByCurrency (JVal.str "chaos") (JVal.num 150)
              = some (Num.fin 250)
          ∧ tryConvertChaosDivineOnly env g.totalByCurrency (JVal.str "divine") (JVal.num 150)
              = some ((Num.fin 1).add ((Num.fin 100).div (Num.fin 150)))
          ∧ (Num.fin 1).add ((Num.fin 100).div (Num.fin 150))
              = Num.fin (3752999689475413 / 2 ^ 51) := by
  have hc := normalizeCurrency_chaos hlc
  have hd := normalizeCurrency_divine hld
  have hkeys1 : ∀ e ∈ nonZeroEntries currencyMap,
      normalizeCurrency env (JVal.str e.1) = "chaos"
        ∨ normalizeCurrency env (JVal.str e.1) = "divine" := by
    intro e he
    obtain ⟨hmem, hq⟩ := mem_nonZeroEntries.mp he
    rcases hkeys e hmem hq with h | h
    · left
      rw [h]
      exact hc
    · right
      rw [h]
      exact hd
  obtain ⟨f0, f1⟩ := tryConvert_of_pair pc hr hkeys1
  refine ⟨?_, ?_, ?_⟩
  · intro hnone hp
    apply f0 _ hp
    rw [List.eq_nil_iff_forall_not_mem]
    intro e he
    obtain ⟨hmem, hq⟩ := mem_nonZeroEntries.mp he
    exact hnone e hmem hq
  · intro hsome
    by_cases hnil : nonZeroEntries currencyMap = []
    · have hfin : ∀ e ∈ currencyMap, e.2.isFinite = true := by
        rcases hsome with ⟨e, he, hq⟩ | h
        · have := mem_nonZeroEntries.mpr ⟨he, hq⟩
          rw [hnil] at this
          simp at this
        · exact h
      have hz1 := orZero_of_all_zero "chaos" hnil hfin
      have hz2 := orZero_of_all_zero "divine" hnil hfin
      have hrne : r ≠ 0 := hr.ne'
      constructor
      · intro hp
        rw [f0 hnil (Or.inl hp), hz1, hz2]
        simp [Num.add, Num.mul, fl_zero]
      · intro hp
        rw [f0 hnil (Or.inr hp), hz1, hz2]
        simp [Num.add, Num.div, fl_zero, hrne]
    · exact f1 hnil
  obtain ⟨g, hg, htot, _⟩ := incomeGroups_chaosDivine hlc hld t
  have hpair : ∀ e ∈ nonZeroEntries g.totalByCurrency,
      normalizeCurrency env (JVal.str e.1) = "chaos"
        ∨ normalizeCurrency env (JVal.str e.1) = "divine" := by
    intro e he
    have he1 := (mem_nonZeroEntries.mp he).1
    rw [htot] at he1
    simp only [List.mem_cons, List.mem_singleton, List.not_mem_nil, or_false] at he1
    rcases he1 with h | h
    · left
      rw [h]
      exact hc
    · right
      rw [h]
      exact hd
  have hne : nonZeroEntries g.totalByCurrency ≠ [] := by
    rw [htot]
    decide!
  have h150 : (0 : ℚ) < 150 := by norm_num
  have hchaos : tryConvertChaosDivineOnly env g.totalByCurrency (JVal.str "chaos") (JVal.num 150)
      = some (Num.fin 250) := by
    rw [((tryConvert_of_pair (JVal.str "chaos") h150 hpair).2 hne).1 hc, htot]
    decide!
  have hdivine : tryConvertChaosDivineOnly env g.totalByCurrency (JVal.str "divine")
      (JVal.num 150) = some ((Num.fin 1).add ((Num.fin 100).div (Num.fin 150))) := by
    rw [((tryConvert_of_pair (JVal.str "divine") h150 hpair).2 hne).2 hd, htot]
    decide!
  have hst : ∃ st, computeIncomeStats env (chaosDivineRows t) (JVal.str "chaos") (JVal.num 150)
      = some st := by
    unfold incomeGroups at hg
    unfold computeIncomeStats
    simp only [hg]
    exact ⟨_, rfl⟩
  obtain ⟨st, hst⟩ := hst
  refine ⟨st, g, hst, hg, ?_, hchaos, hdivine, by decide!⟩
  intro hn
  have hpref : st.preferredCurrency = "chaos" := by
    unfold computeIncomeStats at hst
    unfold incomeGroups at hg
    simp only [hg, Option.some.injEq] at hst
    subst hst
    simp [hc]
  have hprice : st.divineChaosPrice = some 150 := by
    unfold computeIncomeStats at hst
    unfold incomeGroups at hg
    simp only [hg, Option.some.injEq] at hst
    subst hst
    simp [toPositiveNumberOrNull]
  obtain ⟨g1, hg1, _, _, htext, _⟩ := computeIncomeStats_some hst
  rw [hg] at hg1
  simp only [Option.some.injEq] at hg1
  subst hg1
  rw [htext, hpref, hprice]
  simp only [numOrNull, hchaos, Option.map_some', formatAmount, Num.toJVal, den_250, if_true, hn]
  rfl

/-- C6, witness: the currency map `{chaos: 100, divine: 1}` and the two records
100 chaos and 1 divine, with the rate 150, in the sample environment. -/
theorem tryConvertChaosDivineOnly_formula_witness :
    tryConvertChaosDivineOnly sampleEnv [("chaos", Num.fin 100), ("divine", Num.fin 1)]
          (JVal.str "chaos") (JVal.num 150)
        = some ((Num.fin 100).add ((Num.fin 1).mul (Num.fin 150)))
      ∧ (Num.fin 100).add ((Num.fin 1).mul (Num.fin 150)) = Num.fin 250
      ∧ ∃ st, computeIncomeStats sampleEnv (chaosDivineRows 100) (JVal.str "chaos")
            (JVal.num 150) = some st
          ∧ st.totalPreferredText = some "250 chaos" := by
  have hkeys : ∀ e ∈ [("chaos", Num.fin 100), ("divine", Num.fin 1)],
      (∃ q, e.2 = Num.fin q ∧ q ≠ 0) → e.1 = "chaos" ∨ e.1 = "divine" := by
    intro e he _
    simp only [List.mem_cons, List.mem_singleton, List.not_mem_nil, or_false] at he
    rcases he with h | h
    · left
      rw [h]
    · right
      rw [h]
  obtain ⟨_, h1, st, _, hst, _, htext, _⟩ :=
    tryConvertChaosDivineOnly_formula sampleEnv [("chaos", Num.fin 100), ("divine", Num.fin 1)]
      (JVal.str "chaos") 150 100 (by norm_num) (by decide) (by decide) hkeys
  exact ⟨(h1 (Or.inr (by decide))).1 (by decide), by decide!, st, hst, htext (by decide!)⟩

/-! ### Conversion fails closed -/

theorem tryConvert_none_of_no_rate {env : Env} {dp : JVal}
    (h : toPositiveNumberOrNull env dp = none) (currencyMap : List (String × Num)) (pc : JVal) :
    tryConvertChaosDivineOnly env currencyMap pc dp = none := by
  unfold tryConvertChaosDivineOnly
  rw [h]

theorem tryConvert_none_of_foreign {env : Env} {currencyMap : List (String × Num)}
    (h : hasForeign env currencyMap) (pc dp : JVal) :
    tryConvertChaosDivineOnly env currencyMap pc dp = none := by
  obtain ⟨e, he, hne, h1, h2⟩ := h
  have hmem : e ∈ nonZeroEntries currencyMap := mem_nonZeroEntries.mpr ⟨he, hne⟩
  have hlen : (nonZeroEntries currencyMap).length ≠ 0 := by
    intro hz
    rw [List.length_eq_zero.mp hz] at hmem
    simp at hmem
  have hany : (nonZeroEntries currencyMap).any (fun e =>
      decide (normalizeCurrency env (JVal.str e.1) ≠ "chaos"
        ∧ normalizeCurrency env (JVal.str e.1) ≠ "divine")) = true := by
    rw [List.any_eq_true]
    exact ⟨e, hmem, by simp [h1, h2]⟩
  unfold tryConvertChaosDivineOnly
  cases toPositiveNumberOrNull env dp with
  | none => rfl
  | some price =>
    simp only
    by_cases hp : normalizeCurrency env pc ≠ "chaos" ∧ normalizeCurrency env pc ≠ "divine"
    · rw [if_pos hp]
    · rw [if_neg hp, if_neg hlen, hany]
      rfl

theorem formatForPreferred_of_none {env : Env} {currencyMap : List (String × Num)}
    {pc dp : JVal}
    (h : tryConvertChaosDivineOnly env currencyMap
      (JVal.str (normalizeCurrency env pc)) dp = none) :
    formatCurrencyMapForPreferred env currencyMap pc dp = formatCurrencyMap env currencyMap := by
  unfold formatCurrencyMapForPreferred
  simp only [h]

theorem toPositive_numOrNull (env : Env) (dp : JVal) :
    toPositiveNumberOrNull env (numOrNull (toPositiveNumberOrNull env dp))
      = toPositiveNumberOrNull env dp := by
  cases h : toPositiveNumberOrNull env dp with
  | none => rfl
  | some q =>
    have hq : 0 < q := by
      unfold toPositiveNumberOrNull at h
      split at h
      · split at h
        · simp only [Option.some.injEq] at h
          subst h
          assumption
        · simp at h
      · simp only at h
        split at h
        · simp at h
        · split at h
          · split at h
            · simp only [Option.some.injEq] at h
              subst h
              assumption
            · simp at h
          · simp at h
      · simp at h
    simp [numOrNull, toPositiveNumberOrNull, hq]

theorem mem_toStatRows {env : Env} {groupMap : List (String × Group)} {keyDesc : Bool}
    {pc dp : JVal} {limit : Nat} {row : StatRow}
    (h : row ∈ toStatRows env groupMap keyDesc pc dp limit) :
    ∃ e ∈ groupMap, row.label = e.1 ∧ row.count = e.2.count
      ∧ row.incomeText = formatCurrencyMapForPreferred env e.2.byCurrency pc dp := by
  unfold toStatRows at h
  simp only at h
  have h1 := List.mem_of_mem_take h
  have h2 : row ∈ groupMap.map (fun e =>
      ({ label := e.1
         count := e.2.count
         countText := env.numToString e.2.count
         preferredAmount := preferredAmountForGroup env e.2.byCurrency pc dp
         incomeText := formatCurrencyMapForPreferred env e.2.byCurrency pc dp } : StatRow)) := by
    split at h1
    · exact (List.perm_insertionSort _ _).mem_iff.mp h1
    · exact (List.perm_insertionSort _ _).mem_iff.mp h1
  obtain ⟨e, he, rfl⟩ := List.mem_map.mp h2
  exact ⟨e, he, rfl, rfl, rfl⟩

theorem rawIncomeRows_toStatRows (env : Env) (groupMap : List (String × Group)) (keyDesc : Bool)
    (pc dp : JVal) (limit : Nat) (noRate : Prop)
    (hno : noRate → toPositiveNumberOrNull env dp = none) :
    RawIncomeRows env noRate (toStatRows env groupMap keyDesc pc dp limit) groupMap := by
  intro row hrow
  obtain ⟨e, he, hl, _, htext⟩ := mem_toStatRows hrow
  refine ⟨e, he, hl, ?_⟩
  rintro (h | h)
  · rw [htext]
    exact formatForPreferred_of_none (tryConvert_none_of_no_rate (hno h) _ _)
  · rw [htext]
    exact formatForPreferred_of_none (tryConvert_none_of_foreign h _ _)

theorem den_100 : (100 : ℚ).den = 1 := by decide!

theorem den_1 : (1 : ℚ).den = 1 := by decide!

theorem formatCurrencyMap_chaosDivine {env : Env} (h100 : env.numToString 100 = "100")
    (h1 : env.numToString 1 = "1") :
    formatCurrencyMap env [("chaos", Num.fin 100), ("divine", Num.fin 1)]
      = "100 chaos + 1 divine" := by
  have hsort : List.insertionSort
      (fun a b : String × Num => (b.2.sub a.2).notPositive = true)
      (nonZeroEntries [("chaos", Num.fin 100), ("divine", Num.fin 1)])
        = [("chaos", Num.fin 100), ("divine", Num.fin 1)] := by
    decide!
  have hlen : (nonZeroEntries [("chaos", Num.fin 100), ("divine", Num.fin 1)]).length ≠ 0 := by
    decide!
  unfold formatCurrencyMap
  simp only [hsort, if_neg hlen]
  simp only [List.map_cons, List.map_nil, formatAmount, Num.toJVal, den_100, den_1, if_true,
    h100, h1]
  decide

/-- C7, counterexample: two records of `2^1023` exalted each and one record of
100 chaos.  The exalted sum is plus infinity, a non-zero sum in a currency that
is neither chaos nor divine, and a rate of 150 is supplied; `totalPreferredText`
is "100 chaos", not `null`. -/
theorem conversion_ignores_infinite_foreign_sum :
    ∃ st g, computeIncomeStats sampleEnv (hugeRows "exalted" ++ [bareRow 100 100 "chaos"])
          (JVal.str "chaos") (JVal.num 150) = some st
      ∧ incomeGroups sampleEnv (hugeRows "exalted" ++ [bareRow 100 100 "chaos"]) = some g
      ∧ g.totalByCurrency = [("exalted", Num.inf false), ("chaos", Num.fin 100)]
      ∧ Num.inf false ≠ Num.fin 0
      ∧ normalizeCurrency sampleEnv (JVal.str "exalted") = "exalted"
      ∧ st.totalPreferredText = some "100 chaos" := by
  have hg : (incomeGroups sampleEnv (hugeRows "exalted" ++ [bareRow 100 100 "chaos"])).map
      (fun g => g.totalByCurrency) = some [("exalted", Num.inf false), ("chaos", Num.fin 100)] := by
    decide!
  have hst : (computeIncomeStats sampleEnv (hugeRows "exalted" ++ [bareRow 100 100 "chaos"])
      (JVal.str "chaos") (JVal.num 150)).map (fun st => st.totalPreferredText)
        = some (some "100 chaos") := by
    decide!
  cases h1 : computeIncomeStats sampleEnv (hugeRows "exalted" ++ [bareRow 100 100 "chaos"])
      (JVal.str "chaos") (JVal.num 150) with
  | none =>
    rw [h1] at hst
    simp at hst
  | some st =>
    rw [h1] at hst
    simp only [Option.map_some', Option.some.injEq] at hst
    cases h2 : incomeGroups sampleEnv (hugeRows "exalted" ++ [bareRow 100 100 "chaos"]) with
    | none =>
      rw [h2] at hg
      simp at hg
    | some g =>
      rw [h2] at hg
      simp only [Option.map_some', Option.some.injEq] at hg
      exact ⟨st, g, rfl, rfl, hg, by decide, by decide, hst⟩

/-- C7, amended: a bucket yields no converted amount when no positive rate is
supplied or it holds a finite non-zero sum in a currency other than chaos and
divine: `tryConvertChaosDivineOnly` returns `null` and the income text is the raw
breakdown `formatCurrencyMap`.  So in the result of `computeIncomeStats`,
`totalPreferredText` is `null` when this holds of the overall totals, and every
table row shows the raw breakdown of its group when no rate is supplied or the
group holds such a currency; for the records 100 chaos and 1 divine without a
rate the texts are "100 chaos + 1 divine" (in an environment that leaves
"chaos" and "divine" in lower case and prints 100 and 1 in decimal). -/
theorem conversion_fails_closed (env : Env) (rows : List Row) (pc dp : JVal) (t : ℚ) :
    (∀ (currencyMap : List (String × Num)) (pc1 : JVal),
        (toPositiveNumberOrNull env dp = none ∨ hasForeign env currencyMap) →
        tryConvertChaosDivineOnly env currencyMap pc1 dp = none
          ∧ formatCurrencyMapForPreferred env currencyMap pc1 dp
              = formatCurrencyMap env currencyMap)
      ∧ (∀ st, computeIncomeStats env rows pc dp = some st →
          ∃ g, incomeGroups env rows = some g
            ∧ ((toPositiveNumberOrNull env dp = none ∨ hasForeign env g.totalByCurrency) →
                st.totalPreferredText = none)
            ∧ RawIncomeRows env (toPositiveNumberOrNull env dp = none) st.byDay g.byDay
            ∧ RawIncomeRows env (toPositiveNumberOrNull env dp = none) st.byWeek g.byWeek
            ∧ RawIncomeRows env (toPositiveNumberOrNull env dp = none) st.byCategory g.byCategory
            ∧ RawIncomeRows env (toPositiveNumberOrNull env dp = none) st.byBaseType g.byBaseType
            ∧ RawIncomeRows env (toPositiveNumberOrNull env dp = none) st.byRarity g.byRarity)
      ∧ (env.toLowerCase "chaos" = "chaos" → env.toLowerCase "divine" = "divine" →
          env.numToString 100 = "100" → env.numToString 1 = "1" →
          ∃ st, computeIncomeStats env (chaosDivineRows t) (JVal.str "chaos") JVal.undefined
              = some st
            ∧ st.totalPreferredText = none ∧ st.totalText = "100 chaos + 1 divine"
            ∧ ∀ row ∈ st.byDay, row.incomeText = "100 chaos + 1 divine") := by
  have hbucket : ∀ (dp1 : JVal) (currencyMap : List (String × Num)) (pc1 : JVal),
      (toPositiveNumberOrNull env dp1 = none ∨ hasForeign env currencyMap) →
      tryConvertChaosDivineOnly env currencyMap pc1 dp1 = none := by
    intro dp1 currencyMap pc1 h
    rcases h with h | h
    · exact tryConvert_none_of_no_rate h _ _
    · exact tryConvert_none_of_foreign h _ _
  refine ⟨?_, ?_, ?_⟩
  · intro currencyMap pc1 h
    exact ⟨hbucket dp currencyMap pc1 h, formatForPreferred_of_none (hbucket dp _ _ h)⟩
  · intro st hst
    obtain ⟨g, hg, _, _, htext, hprice, hd, hw, hcat, hbase, hrar⟩ := computeIncomeStats_some hst
    have hno : toPositiveNumberOrNull env dp = none →
        toPositiveNumberOrNull env (numOrNull st.divineChaosPrice) = none := by
      intro h
      rw [hprice, toPositive_numOrNull]
      exact h
    refine ⟨g, hg, ?_, ?_, ?_, ?_, ?_, ?_⟩
    · intro h
      rw [htext]
      have : tryConvertChaosDivineOnly env g.totalByCurrency (JVal.str st.preferredCurrency)
          (numOrNull st.divineChaosPrice) = none := by
        rcases h with h | h
        · exact tryConvert_none_of_no_rate (hno h) _ _
        · exact tryConvert_none_of_foreign h _ _
      rw [this]
      rfl
    · rw [hd]
      exact rawIncomeRows_toStatRows env _ _ _ _ _ _ hno
    · rw [hw]
      exact rawIncomeRows_toStatRows env _ _ _ _ _ _ hno
    · rw [hcat]
      exact rawIncomeRows_toStatRows env _ _ _ _ _ _ hno
    · rw [hbase]
      exact rawIncomeRows_toStatRows env _ _ _ _ _ _ hno
    · rw [hrar]
      exact rawIncomeRows_toStatRows env _ _ _ _ _ _ hno
  · intro hlc hld h100 h1
    obtain ⟨g, hg, htot, hday⟩ := incomeGroups_chaosDivine hlc hld t
    have hst : ∃ st, computeIncomeStats env (chaosDivineRows t) (JVal.str "chaos") JVal.undefined
        = some st := by
      unfold incomeGroups at hg
      unfold computeIncomeStats
      simp only [hg]
      exact ⟨_, rfl⟩
    obtain ⟨st, hst⟩ := hst
    obtain ⟨g1, hg1, _, htotal, htext, hprice, hd, _⟩ := computeIncomeStats_some hst
    rw [hg] at hg1
    simp only [Option.some.injEq] at hg1
    subst hg1
    have hnone : toPositiveNumberOrNull env (numOrNull st.divineChaosPrice) = none := by
      rw [hprice]
      rfl
    refine ⟨st, hst, ?_, ?_, ?_⟩
    · rw [htext, tryConvert_none_of_no_rate hnone]
      rfl
    · rw [htotal, htot]
      exact formatCurrencyMap_chaosDivine h100 h1
    · intro row hrow
      rw [hd] at hrow
      obtain ⟨e, he, _, _, hinc⟩ := mem_toStatRows hrow
      rw [hday] at he
      simp only [List.mem_singleton] at he
      rw [hinc, formatForPreferred_of_none (tryConvert_none_of_no_rate hnone _ _), he]
      exact formatCurrencyMap_chaosDivine h100 h1

/-- C7, witness: the records 100 chaos and 1 divine without a rate in the sample
environment. -/
theorem conversion_fails_closed_witness :
    ∃ st, computeIncomeStats sampleEnv (chaosDivineRows 100) (JVal.str "chaos") JVal.undefined
        = some st
      ∧ st.totalPreferredText = none ∧ st.totalText = "100 chaos + 1 divine"
      ∧ ∀ row ∈ st.byDay, row.incomeText = "100 chaos + 1 divine" :=
  (conversion_fails_closed sampleEnv [] (JVal.str "chaos") JVal.undefined 100).2.2 (by decide)
    (by decide) (by decide!) (by decide!)


/-! ### The merged record list -/

/-- C11: whenever the batch is normalised, `persistHistoryBatch` returns a record
list whose trade keys are exactly the keys of the sanitised archive together with
the keys of the current batch, no key twice; a record whose key is a key of the
current batch is the record of the current batch, every other record is a record
of the archive; every `timeMs` is a finite number and the list is sorted by it,
newest first. -/
theorem persistHistoryBatch_merge_result (env : Env) (accepts : Nat → List Row → Bool)
    (clock : Nat → Int) (nowFetch nowGap : Int) (store : Storage) (league : JVal)
    (rawRows : List RawRow) (current : Batch)
    (hc : normalizeAndKeyBatch env clock league rawRows = some current) :
    ∃ res store1,
      persistHistoryBatch env accepts clock nowFetch nowGap store league rawRows
        = some (res, store1)
      ∧ (∀ k, k ∈ keysOf res.rows ↔
          k ∈ keysOf (readArchive env store league).rows ∨ k ∈ keysOf current.rows)
      ∧ (keysOf res.rows).Nodup
      ∧ (∀ r ∈ res.rows, r.tradeKey ∈ keysOf current.rows → r ∈ current.rows)
      ∧ (∀ r ∈ res.rows, r.tradeKey ∉ keysOf current.rows →
          r ∈ (readArchive env store league).rows)
      ∧ (∀ r ∈ res.rows, r.timeMs = JVal.num (timeNum r))
      ∧ res.rows.Sorted (fun a b => timeNum b ≤ timeNum a) := by
  have hp := persistHistoryBatch_eq accepts nowFetch nowGap store hc
  obtain ⟨hrows, -⟩ := persistHistoryBatch_rows hc hp
  obtain ⟨-, -, hcnd, hcb, -, -⟩ := normalizeAndKeyBatch_spec hc
  obtain ⟨hand, hav⟩ := readArchive_rows_spec env store league
  refine ⟨_, _, hp, ?_⟩
  rw [hrows]
  have hmem := fun r => mem_mergeRows hand hcnd r
  refine ⟨?_, nodup_mergeRows hand, ?_, ?_, ?_, sorted_mergeRows _ _⟩
  · intro k
    constructor
    · intro hk
      obtain ⟨r, hr, hrk⟩ := mem_keysOf.1 hk
      rcases (hmem r).1 hr with h1 | ⟨h1, -⟩
      · exact Or.inr (mem_keysOf.2 ⟨r, h1, hrk⟩)
      · exact Or.inl (mem_keysOf.2 ⟨r, h1, hrk⟩)
    · rintro (hk | hk)
      · by_cases hkc : k ∈ keysOf current.rows
        · obtain ⟨r, hr, hrk⟩ := mem_keysOf.1 hkc
          exact mem_keysOf.2 ⟨r, (hmem r).2 (Or.inl hr), hrk⟩
        · obtain ⟨r, hr, hrk⟩ := mem_keysOf.1 hk
          exact mem_keysOf.2 ⟨r, (hmem r).2 (Or.inr ⟨hr, by rw [hrk]; exact hkc⟩), hrk⟩
      · obtain ⟨r, hr, hrk⟩ := mem_keysOf.1 hk
        exact mem_keysOf.2 ⟨r, (hmem r).2 (Or.inl hr), hrk⟩
  · intro r hr hk
    rcases (hmem r).1 hr with h1 | ⟨-, h2⟩
    · exact h1
    · exact absurd hk h2
  · intro r hr hk
    rcases (hmem r).1 hr with h1 | ⟨h1, -⟩
    · exact absurd (mem_keysOf.2 ⟨r, h1, rfl⟩) hk
    · exact h1
  · intro r hr
    rcases (hmem r).1 hr with h1 | ⟨h1, -⟩
    · exact timeMs_eq_num_timeNum (hcb r h1).2.1
    · exact timeMs_eq_num_timeNum (validRow_timeMs (hav r h1))


theorem normalizeAndKeyBatch_sample_exists :
    ∃ current, normalizeAndKeyBatch sampleEnv sampleClock sampleLeague gapBatch = some current :=
  Option.isSome_iff_exists.mp (by decide!)

/-- C11, witness: the batch with sales at T200 and T150 persisted into the slot
whose previous fetch ended at T100. -/
theorem persistHistoryBatch_merge_result_witness :
    ∃ current res store1,
      normalizeAndKeyBatch sampleEnv sampleClock sampleLeague gapBatch = some current
        ∧ persistHistoryBatch sampleEnv acceptAll sampleClock 1000 1000 gapStorage sampleLeague
            gapBatch = some (res, store1)
        ∧ (∀ k, k ∈ keysOf res.rows ↔
            k ∈ keysOf (readArchive sampleEnv gapStorage sampleLeague).rows
              ∨ k ∈ keysOf current.rows)
        ∧ (keysOf res.rows).Nodup
        ∧ res.rows.Sorted (fun a b => timeNum b ≤ timeNum a) := by
  obtain ⟨current, hc⟩ := normalizeAndKeyBatch_sample_exists
  obtain ⟨res, store1, hp, hkeys, hnd, _, _, _, hsorted⟩ :=
    persistHistoryBatch_merge_result sampleEnv acceptAll sampleClock 1000 1000 gapStorage
      sampleLeague gapBatch current hc
  exact ⟨current, res, store1, hc, hp, hkeys, hnd, hsorted⟩


/-! ### The first entry producing a key -/

theorem makeTradeKey_ne_empty {env : Env} {league : JVal} {normalizedRow : Option Row}
    {k : String} (h : makeTradeKey env league normalizedRow = some k) : k ≠ "" := by
  unfold makeTradeKey at h
  cases normalizedRow with
  | none => simp at h
  | some norm =>
    simp only at h
    split at h
    · simp at h
    · intro hk
      have hlen := congrArg String.length (Option.some.inj h)
      rw [hk] at hlen
      simp only [String.length_append] at hlen
      have h1 : "|".length = 1 := rfl
      have h0 : "".length = 0 := rfl
      rw [h1, h0] at hlen
      omega

theorem makeTradeKey_some_iff {env : Env} {league : JVal} {norm : Row} :
    (∃ k, makeTradeKey env league (some norm) = some k)
      ↔ norm.priceAmount.isNullish = false ∧ norm.priceCurrency.truthy = true := by
  unfold makeTradeKey
  cases ha : norm.priceAmount.isNullish <;> cases hc : norm.priceCurrency.truthy <;> simp [ha, hc]

theorem keyBatchStep_cases {env : Env} {now : Int} {league : JVal} {acc acc1 : Batch}
    {row : RawRow} (h : keyBatchStep env now league acc row = some acc1) :
    (acc1 = acc ∧ ∀ norm k, normalizeRow env now row = some (some norm) →
        makeTradeKey env league (some norm) = some k → k ∈ acc.keySet)
      ∨ ∃ norm k, normalizeRow env now row = some (some norm)
        ∧ makeTradeKey env league (some norm) = some k ∧ k ∉ acc.keySet
        ∧ acc1 = { rows := acc.rows ++ [{ norm with tradeKey := JVal.str k }]
                   keySet := acc.keySet ++ [k] } := by
  unfold keyBatchStep at h
  cases hn : normalizeRow env now row with
  | none => rw [hn] at h; simp at h
  | some o =>
    cases o with
    | none =>
      rw [hn] at h
      simp only [Option.some.injEq] at h
      exact Or.inl ⟨h.symm, by intro norm k h1; simp at h1⟩
    | some norm =>
      rw [hn] at h
      simp only at h
      by_cases hsell : (norm.priceAmount.isNullish || !norm.priceCurrency.truthy) = true
      · rw [if_pos hsell] at h
        simp only [Option.some.injEq] at h
        refine Or.inl ⟨h.symm, ?_⟩
        intro norm1 k h1 h2
        simp only [Option.some.injEq] at h1
        subst h1
        have := (makeTradeKey_some_iff.1 ⟨k, h2⟩)
        rw [this.1, this.2] at hsell
        simp at hsell
      · rw [if_neg hsell] at h
        cases hk : makeTradeKey env league (some norm) with
        | none =>
          rw [hk] at h
          simp only [Option.some.injEq] at h
          refine Or.inl ⟨h.symm, ?_⟩
          intro norm1 k h1 h2
          simp only [Option.some.injEq] at h1
          subst h1
          rw [hk] at h2
          simp at h2
        | some tradeKey =>
          rw [hk] at h
          simp only at h
          by_cases hin : tradeKey = "" ∨ tradeKey ∈ acc.keySet
          · rw [if_pos hin] at h
            simp only [Option.some.injEq] at h
            refine Or.inl ⟨h.symm, ?_⟩
            intro norm1 k h1 h2
            simp only [Option.some.injEq] at h1
            subst h1
            rw [hk] at h2
            simp only [Option.some.injEq] at h2
            subst h2
            rcases hin with h0 | h0
            · exact absurd h0 (makeTradeKey_ne_empty hk)
            · exact h0
          · rw [if_neg hin] at h
            simp only [Option.some.injEq] at h
            exact Or.inr ⟨norm, tradeKey, rfl, hk, fun hmem => hin (Or.inr hmem), h.symm⟩

theorem keyBatchLoop_first (env : Env) (clock : Nat → Int) (league : JVal)
    (rawRows : List RawRow) :
    ∀ (rest : List RawRow) (s : Nat) (acc b : Batch), rawRows.drop s = rest →
      keyBatchLoop env clock league s acc rest = some b →
      FirstKept env clock league rawRows s acc →
      FirstKept env clock league rawRows rawRows.length b := by
  intro rest
  induction rest with
  | nil =>
    intro s acc b hdrop h hinv
    simp only [keyBatchLoop, Option.some.injEq] at h
    subst h
    have hlen : rawRows.length ≤ s := List.drop_eq_nil_iff.1 hdrop
    refine ⟨?_, ?_⟩
    · intro r hr
      obtain ⟨i, norm, k, -, hprod, hrest⟩ := hinv.1 r hr
      have hprod1 := hprod
      obtain ⟨row, hrow, -⟩ := hprod1
      obtain ⟨hi, -⟩ := List.getElem?_eq_some.1 hrow
      exact ⟨i, norm, k, hi, hprod, hrest⟩
    · intro i norm k hi hprod
      exact hinv.2 i norm k (by omega) hprod
  | cons row rest ih =>
    intro s acc b hdrop h hinv
    have hs : s < rawRows.length := by
      by_contra hcon
      have : rawRows.drop s = [] := List.drop_eq_nil_iff.2 (by omega)
      rw [this] at hdrop
      simp at hdrop
    have hrow : rawRows[s]? = some row := by
      rw [List.drop_eq_getElem_cons hs] at hdrop
      rw [List.getElem?_eq_getElem hs]
      exact congrArg some (List.cons.inj hdrop).1
    have hdrop1 : rawRows.drop (s + 1) = rest := by
      rw [List.drop_eq_getElem_cons hs] at hdrop
      exact (List.cons.inj hdrop).2
    simp only [keyBatchLoop] at h
    cases hstep : keyBatchStep env (clock s) league acc row with
    | none => rw [hstep] at h; simp at h
    | some acc1 =>
      rw [hstep] at h
      simp only at h
      refine ih (s + 1) acc1 b hdrop1 h ?_
      rcases keyBatchStep_cases hstep with ⟨heq, hkeys⟩ | ⟨norm, k, hn, hk, hfresh, heq⟩
      · subst heq
        refine ⟨?_, ?_⟩
        · intro r hr
          obtain ⟨i, norm, k, hi, hrest⟩ := hinv.1 r hr
          exact ⟨i, norm, k, by omega, hrest⟩
        · intro i norm k hi hprod
          rcases Nat.lt_succ_iff_lt_or_eq.1 hi with hlt | heq
          · exact hinv.2 i norm k hlt hprod
          · subst heq
            obtain ⟨row1, hrow1, hn1, hk1⟩ := hprod
            rw [hrow] at hrow1
            simp only [Option.some.injEq] at hrow1
            subst hrow1
            exact hkeys norm k hn1 hk1
      · subst heq
        refine ⟨?_, ?_⟩
        · intro r hr
          rcases List.mem_append.1 hr with hr | hr
          · obtain ⟨i, norm1, k1, hi, hrest⟩ := hinv.1 r hr
            exact ⟨i, norm1, k1, by omega, hrest⟩
          · simp only [List.mem_singleton] at hr
            refine ⟨s, norm, k, by omega, ⟨row, hrow, hn, hk⟩, hr, ?_⟩
            intro j hj norm1 hprod
            exact hfresh (hinv.2 j norm1 k hj hprod)
        · intro i norm1 k1 hi hprod
          rcases Nat.lt_succ_iff_lt_or_eq.1 hi with hlt | heq
          · exact List.mem_append_left _ (hinv.2 i norm1 k1 hlt hprod)
          · subst heq
            obtain ⟨row1, hrow1, hn1, hk1⟩ := hprod
            rw [hrow] at hrow1
            simp only [Option.some.injEq] at hrow1
            subst hrow1
            rw [hn] at hn1
            simp only [Option.some.injEq] at hn1
            subst hn1
            rw [hk] at hk1
            simp only [Option.some.injEq] at hk1
            subst hk1
            simp

/-! ### When `normalizeRow` returns -/

theorem trimOrEmpty_eq_none_iff (v : JVal) : trimOrEmpty v = none ↔ textLike v = false := by
  constructor
  · intro h
    cases ht : textLike v with
    | false => rfl
    | true =>
      obtain ⟨s, hs⟩ := trimOrEmpty_of_textLike ht
      rw [hs] at h
      simp at h
  · intro h
    unfold trimOrEmpty
    cases v <;> simp_all [textLike, JVal.isString, JVal.truthy]

theorem normalizeRow_eq_some_none_iff (env : Env) (now : Int) (row : RawRow) :
    normalizeRow env now row = some none ↔
      row.item_id.truthy = false ∨ row.time.truthy = false
        ∨ env.dateParse (row.time.toStr env) = none := by
  unfold normalizeRow
  simp only
  split
  · rename_i hcond
    simp only [Bool.or_eq_true, Bool.not_eq_true'] at hcond
    simp only [true_iff]
    rcases hcond with h | h
    · exact Or.inl h
    · exact Or.inr (Or.inl h)
  · rename_i hcond
    simp only [Bool.or_eq_true, Bool.not_eq_true', not_or, Bool.not_eq_false] at hcond
    split
    · rename_i hparse
      simp only [true_iff]
      exact Or.inr (Or.inr hparse)
    · rename_i t hparse
      split
      · simp [hcond.1, hcond.2, hparse]
      · simp [hcond.1, hcond.2, hparse]

theorem normalizeRow_eq_none_iff (env : Env) (now : Int) (row : RawRow) :
    normalizeRow env now row = none ↔
      row.item_id.truthy = true ∧ row.time.truthy = true
        ∧ (∃ t, env.dateParse (row.time.toStr env) = some t)
        ∧ (textLike row.item.typeLine = false ∨ textLike row.item.baseType = false) := by
  unfold normalizeRow
  simp only
  split
  · rename_i hcond
    simp only [Bool.or_eq_true, Bool.not_eq_true'] at hcond
    simp only [false_iff, reduceCtorEq]
    rintro ⟨h1, h2, -⟩
    rcases hcond with h | h
    · rw [h] at h1; simp at h1
    · rw [h] at h2; simp at h2
  · rename_i hcond
    simp only [Bool.or_eq_true, Bool.not_eq_true', not_or, Bool.not_eq_false] at hcond
    split
    · rename_i hparse
      simp [hparse]
    · rename_i t hparse
      split
      · rename_i tl bt htl hbt
        have h1 : textLike row.item.typeLine ≠ false := by
          intro hc
          rw [(trimOrEmpty_eq_none_iff _).2 hc] at htl
          simp at htl
        have h2 : textLike row.item.baseType ≠ false := by
          intro hc
          rw [(trimOrEmpty_eq_none_iff _).2 hc] at hbt
          simp at hbt
        simp [h1, h2]
      · rename_i hno
        simp only [true_iff]
        refine ⟨hcond.1, hcond.2, ⟨t, hparse⟩, ?_⟩
        by_contra hcon
        simp only [not_or, Bool.not_eq_false] at hcon
        obtain ⟨tl, htl⟩ := trimOrEmpty_of_textLike hcon.1
        obtain ⟨bt, hbt⟩ := trimOrEmpty_of_textLike hcon.2
        exact hno tl bt htl hbt

theorem keyBatchStep_isSome {env : Env} {now : Int} (league : JVal) (acc : Batch) {row : RawRow}
    (h : normalizeRow env now row ≠ none) :
    ∃ acc1, keyBatchStep env now league acc row = some acc1 := by
  unfold keyBatchStep
  cases hn : normalizeRow env now row with
  | none => exact absurd hn h
  | some o =>
    cases o with
    | none => exact ⟨acc, rfl⟩
    | some norm =>
      simp only
      split
      · exact ⟨acc, rfl⟩
      · split
        · exact ⟨acc, rfl⟩
        · split
          · exact ⟨acc, rfl⟩
          · exact ⟨_, rfl⟩

theorem keyBatchLoop_isSome (env : Env) (clock : Nat → Int) (league : JVal)
    (rawRows : List RawRow)
    (h : ∀ row ∈ rawRows, textLike row.item.typeLine = true ∧ textLike row.item.baseType = true) :
    ∀ (i : Nat) (acc : Batch), ∃ b, keyBatchLoop env clock league i acc rawRows = some b := by
  induction rawRows with
  | nil => intro i acc; exact ⟨acc, rfl⟩
  | cons row rest ih =>
    intro i acc
    have hrow := h row (by simp)
    have hne : normalizeRow env (clock i) row ≠ none := by
      intro hc
      obtain ⟨-, -, -, h4⟩ := (normalizeRow_eq_none_iff env (clock i) row).1 hc
      rcases h4 with h4 | h4
      · rw [hrow.1] at h4; simp at h4
      · rw [hrow.2] at h4; simp at h4
    obtain ⟨acc1, hacc1⟩ := keyBatchStep_isSome league acc hne
    obtain ⟨b, hb⟩ := ih (fun r hr => h r (List.mem_cons_of_mem _ hr)) (i + 1) acc1
    exact ⟨b, by simp only [keyBatchLoop, hacc1, hb]⟩

/-- C12: `normalizeAndKeyBatch` returns whenever the `typeLine` and `baseType` of
every entry are strings or falsy, and what it returns has these properties: the
trade keys of the rows are pairwise distinct strings; the key set has no
repetition and holds exactly the keys of the rows; every row has a finite price
amount and a non-empty string as currency; every row is the record that
`normalizeRow` builds from the first entry of the batch producing its key, with
that key added; every key produced by an entry is in the key set; and the rows
are sorted by their finite `timeMs`, newest first. -/
theorem normalizeAndKeyBatch_dedup (env : Env) (clock : Nat → Int) (league : JVal)
    (rawRows : List RawRow) :
    ((∀ row ∈ rawRows,
          textLike row.item.typeLine = true ∧ textLike row.item.baseType = true) →
        ∃ current, normalizeAndKeyBatch env clock league rawRows = some current)
      ∧ ∀ current, normalizeAndKeyBatch env clock league rawRows = some current →
          (keysOf current.rows).Nodup
            ∧ current.keySet.Nodup
            ∧ (∀ k, k ∈ current.keySet ↔ JVal.str k ∈ keysOf current.rows)
            ∧ (∀ r ∈ current.rows, ∃ k, r.tradeKey = JVal.str k)
            ∧ (∀ r ∈ current.rows, r.priceAmount.isFiniteNumber = true
                ∧ (r.priceCurrency.isString && r.priceCurrency.truthy) = true)
            ∧ (∀ r ∈ current.rows, ∃ i norm k, Produces env clock league rawRows i norm k
                ∧ r = { norm with tradeKey := JVal.str k }
                ∧ ∀ j, j < i → ∀ norm1, ¬ Produces env clock league rawRows j norm1 k)
            ∧ (∀ i norm k, Produces env clock league rawRows i norm k → k ∈ current.keySet)
            ∧ (∀ r ∈ current.rows, r.timeMs = JVal.num (timeNum r))
            ∧ current.rows.Sorted (fun a b => timeNum b ≤ timeNum a) := by
  constructor
  · intro h
    obtain ⟨b, hb⟩ := keyBatchLoop_isSome env clock league rawRows h 0 { rows := [], keySet := [] }
    exact ⟨{ rows := sortNewestFirst b.rows, keySet := b.keySet },
      by simp only [normalizeAndKeyBatch, hb, Option.map]⟩
  · intro current hc
    obtain ⟨hperm, hknd, hnd, hbatch, hsorted, -⟩ := normalizeAndKeyBatch_spec hc
    have hloop : ∃ b, keyBatchLoop env clock league 0 { rows := [], keySet := [] } rawRows
        = some b ∧ current = { rows := sortNewestFirst b.rows, keySet := b.keySet } := by
      unfold normalizeAndKeyBatch at hc
      cases hl : keyBatchLoop env clock league 0 { rows := [], keySet := [] } rawRows with
      | none => rw [hl] at hc; simp at hc
      | some b =>
        rw [hl] at hc
        simp only [Option.map, Option.some.injEq] at hc
        exact ⟨b, rfl, hc.symm⟩
    obtain ⟨b, hb, hcur⟩ := hloop
    have hfirst := keyBatchLoop_first env clock league rawRows rawRows 0 _ b (List.drop_zero _)
      hb ⟨by simp, by intro i norm k hi; omega⟩
    refine ⟨hnd, hknd, ?_, fun r hr => batchRow_tradeKey (hbatch r hr),
      fun r hr => ⟨(hbatch r hr).2.2.1, (hbatch r hr).2.2.2.1⟩, ?_, ?_,
      fun r hr => timeMs_eq_num_timeNum (hbatch r hr).2.1, hsorted⟩
    · intro k
      rw [hperm.mem_iff]
      simp
    · intro r hr
      rw [hcur] at hr
      obtain ⟨i, norm, k, -, hrest⟩ := hfirst.1 r (mem_sortNewestFirst.1 hr)
      exact ⟨i, norm, k, hrest⟩
    · intro i norm k hprod
      rw [hcur]
      have hprod1 := hprod
      obtain ⟨row, hrow, -⟩ := hprod1
      obtain ⟨hi, -⟩ := List.getElem?_eq_some.1 hrow
      exact hfirst.2 i norm k hi hprod

/-- C12, witness: the batch with sales at T200 and T150 is normalised, its two keys
are distinct and its rows are sorted. -/
theorem normalizeAndKeyBatch_dedup_witness :
    ∃ current, normalizeAndKeyBatch sampleEnv sampleClock sampleLeague gapBatch = some current
      ∧ (keysOf current.rows).Nodup
      ∧ (∀ k, k ∈ current.keySet ↔ JVal.str k ∈ keysOf current.rows)
      ∧ current.rows.Sorted (fun a b => timeNum b ≤ timeNum a) := by
  obtain ⟨current, hc⟩ :=
    (normalizeAndKeyBatch_dedup sampleEnv sampleClock sampleLeague gapBatch).1 (by decide)
  obtain ⟨h1, _, h3, _, _, _, _, _, h9⟩ :=
    (normalizeAndKeyBatch_dedup sampleEnv sampleClock sampleLeague gapBatch).2 current hc
  exact ⟨current, hc, h1, h3, h9⟩


/-! ### Trade keys and league names -/

theorem makeTradeKey_eq_none_iff (env : Env) (league : JVal) (normalizedRow : Option Row) :
    makeTradeKey env league normalizedRow = none ↔
      normalizedRow = none ∨ ∃ norm, normalizedRow = some norm
        ∧ (norm.priceAmount.isNullish = true ∨ norm.priceCurrency.truthy = false) := by
  unfold makeTradeKey
  cases normalizedRow with
  | none => simp
  | some norm =>
    cases ha : norm.priceAmount.isNullish <;> cases hc : norm.priceCurrency.truthy <;>
      simp [ha, hc]

theorem makeTradeKey_congr (env : Env) {league league1 : JVal} {norm norm1 : Row}
    (hl : normalizedLeague env league = normalizedLeague env league1)
    (hid : norm.itemId = norm1.itemId) (hiso : norm.timeIso = norm1.timeIso)
    (ha : norm.priceAmount = norm1.priceAmount) (hc : norm.priceCurrency = norm1.priceCurrency) :
    makeTradeKey env league (some norm) = makeTradeKey env league1 (some norm1) := by
  unfold normalizedLeague at hl
  unfold makeTradeKey
  simp only [hl, hid, hiso, ha, hc]

theorem falsy_currency_iff {c : JVal} (h : c.isString = true ∨ c.isNullish = true) :
    c.truthy = false ↔ c.isNullish = true ∨ c = JVal.str "" := by
  cases c <;> simp_all [JVal.isString, JVal.isNullish, JVal.truthy]

/-- C13: `makeTradeKey` returns `null` exactly when the record is absent, its
`priceAmount` is `null` or `undefined`, or its `priceCurrency` is falsy, which for
a currency that is a string, `null` or `undefined` (as in every record built by
`normalizeRow`) means absent or empty; and two records that agree on `itemId`,
`timeIso`, `priceAmount` and `priceCurrency` get equal results under leagues with
equal normalised names, whatever their other fields are. -/
theorem makeTradeKey_null_iff_and_pure (env : Env) :
    (∀ league normalizedRow, makeTradeKey env league normalizedRow = none ↔
        normalizedRow = none ∨ ∃ norm, normalizedRow = some norm
          ∧ (norm.priceAmount.isNullish = true ∨ norm.priceCurrency.truthy = false))
      ∧ (∀ c : JVal, c.isString = true ∨ c.isNullish = true →
          (c.truthy = false ↔ c.isNullish = true ∨ c = JVal.str ""))
      ∧ (∀ now row norm, normalizeRow env now row = some (some norm) →
          norm.priceCurrency.isString = true ∨ norm.priceCurrency.isNullish = true)
      ∧ (∀ league league1 norm norm1,
          normalizedLeague env league = normalizedLeague env league1 →
          norm.itemId = norm1.itemId → norm.timeIso = norm1.timeIso →
          norm.priceAmount = norm1.priceAmount → norm.priceCurrency = norm1.priceCurrency →
          makeTradeKey env league (some norm) = makeTradeKey env league1 (some norm1)) := by
  refine ⟨makeTradeKey_eq_none_iff env, fun c hc => falsy_currency_iff hc, ?_,
    fun league league1 norm norm1 hl hid hiso ha hc => makeTradeKey_congr env hl hid hiso ha hc⟩
  intro now row norm h
  unfold normalizeRow at h
  simp only at h
  split at h
  · simp at h
  · split at h
    · simp at h
    · split at h
      · simp only [Option.some.injEq] at h
        subst h
        cases row.priceCurrency <;> simp [JVal.isString, JVal.isNullish]
      · simp at h

/-- C13, witness: two records that differ in name, category and note but agree on
the five values get the same key, under the league names `Standard` and
` STANDARD `. -/
theorem makeTradeKey_null_iff_and_pure_witness :
    makeTradeKey sampleEnv (JVal.str "Standard") (some (labelledRow "a"))
        = makeTradeKey sampleEnv (JVal.str " STANDARD ") (some (labelledRow "b"))
      ∧ labelledRow "a" ≠ labelledRow "b"
      ∧ (makeTradeKey sampleEnv (JVal.str "Standard") (some (labelledRow "a"))).isSome = true :=
  ⟨(makeTradeKey_null_iff_and_pure sampleEnv).2.2.2 (JVal.str "Standard")
      (JVal.str " STANDARD ") (labelledRow "a") (labelledRow "b") (by decide) rfl rfl rfl rfl,
    by decide, by decide!⟩

/-- C14: two league names that are equal after trimming and lower-casing get the
same storage slot from `leagueStorageKey` and the same result from `makeTradeKey`
for every record. -/
theorem league_name_case_and_space_insensitive (env : Env) (name name1 : String)
    (h : env.toLowerCase (jsTrim name) = env.toLowerCase (jsTrim name1)) :
    leagueStorageKey env (JVal.str name) = leagueStorageKey env (JVal.str name1)
      ∧ ∀ normalizedRow, makeTradeKey env (JVal.str name) normalizedRow
          = makeTradeKey env (JVal.str name1) normalizedRow := by
  have hn : ∀ s : String,
      env.toLowerCase (jsTrim (if (JVal.str s).truthy then (JVal.str s).toStr env else ""))
        = env.toLowerCase (jsTrim s) := by
    intro s
    by_cases hs : s = ""
    · simp [JVal.truthy, hs]
    · simp [JVal.truthy, JVal.toStr, hs]
  refine ⟨?_, ?_⟩
  · unfold leagueStorageKey
    rw [hn, hn, h]
  · intro normalizedRow
    unfold makeTradeKey
    cases normalizedRow with
    | none => rfl
    | some norm =>
      simp only
      rw [hn, hn, h]

/-- C14, witness: the league names `Standard` and ` STANDARD `. -/
theorem league_name_case_and_space_insensitive_witness :
    leagueStorageKey sampleEnv (JVal.str "Standard")
        = leagueStorageKey sampleEnv (JVal.str " STANDARD ")
      ∧ leagueStorageKey sampleEnv (JVal.str "Standard") = "pthEnhancer.tradeArchive.v1.standard" :=
  ⟨(league_name_case_and_space_insensitive sampleEnv "Standard" " STANDARD " (by decide)).1,
    by decide⟩


/-! ### Sanitising loaded rows -/

theorem JVal.isString_and_truthy_iff (v : JVal) :
    (v.isString && v.truthy) = true ↔ ∃ s, v = JVal.str s ∧ s ≠ "" := by
  cases v <;> simp [JVal.isString, JVal.truthy]

theorem JVal.isFiniteNumber_iff (v : JVal) : v.isFiniteNumber = true ↔ ∃ q, v = JVal.num q := by
  cases v <;> simp [JVal.isFiniteNumber]

theorem validRow_iff_fields (r : Row) :
    validRow r = true ↔
      (∃ k, r.tradeKey = JVal.str k ∧ k ≠ "") ∧ (∃ s, r.itemId = JVal.str s ∧ s ≠ "")
        ∧ (∃ s, r.timeIso = JVal.str s ∧ s ≠ "") ∧ (∃ q, r.timeMs = JVal.num q)
        ∧ (∃ c, r.priceCurrency = JVal.str c ∧ c ≠ "") ∧ (∃ q, r.priceAmount = JVal.num q) := by
  constructor
  · intro h
    obtain ⟨k, hk, hk0⟩ := validRow_tradeKey h
    unfold validRow sanitizeKeeps at h
    rw [hk] at h
    simp only [hk0, if_false, List.not_mem_nil] at h
    cases h1 : (r.itemId.isString && r.itemId.truthy) <;>
    cases h2 : (r.timeIso.isString && r.timeIso.truthy) <;>
    cases h3 : r.timeMs.isFiniteNumber <;>
    cases h4 : (r.priceCurrency.isString && r.priceCurrency.truthy) <;>
    cases h5 : r.priceAmount.isFiniteNumber <;> simp [h1, h2, h3, h4, h5] at h
    exact ⟨⟨k, hk, hk0⟩, (JVal.isString_and_truthy_iff _).1 h1,
      (JVal.isString_and_truthy_iff _).1 h2, (JVal.isFiniteNumber_iff _).1 h3,
      (JVal.isString_and_truthy_iff _).1 h4, (JVal.isFiniteNumber_iff _).1 h5⟩
  · rintro ⟨hk, hid, hiso, hms, hcur, hamt⟩
    exact validRow_of_fields hk ((JVal.isString_and_truthy_iff _).2 hid)
      ((JVal.isString_and_truthy_iff _).2 hiso) ((JVal.isFiniteNumber_iff _).2 hms)
      ((JVal.isString_and_truthy_iff _).2 hcur) ((JVal.isFiniteNumber_iff _).2 hamt)

theorem sanitizeLoop_first (rows : List (Option Row)) :
    ∀ (rest : List (Option Row)) (s : Nat) (out : List Row) (keys : List String),
      rows.drop s = rest → keysOf out = keys.map JVal.str → SanitizedUpTo rows s out →
      SanitizedUpTo rows rows.length (sanitizeLoop out keys rest) := by
  intro rest
  induction rest with
  | nil =>
    intro s out keys hdrop hkeys hinv
    have hlen : rows.length ≤ s := List.drop_eq_nil_iff.1 hdrop
    simp only [sanitizeLoop]
    refine ⟨?_, ?_⟩
    · intro r
      rw [hinv.1 r]
      constructor
      · rintro ⟨i, -, hfirst⟩
        obtain ⟨hi, -⟩ := List.getElem?_eq_some.1 hfirst.1
        exact ⟨i, hi, hfirst⟩
      · rintro ⟨i, hi, hfirst⟩
        exact ⟨i, by omega, hfirst⟩
    · intro j hj
      exact hinv.2 j (by omega)
  | cons x rest ih =>
    intro s out keys hdrop hkeys hinv
    have hs : s < rows.length := by
      by_contra hcon
      have : rows.drop s = [] := List.drop_eq_nil_iff.2 (by omega)
      rw [this] at hdrop
      simp at hdrop
    have hx : rows[s]? = some x := by
      rw [List.drop_eq_getElem_cons hs] at hdrop
      rw [List.getElem?_eq_getElem hs]
      exact congrArg some (List.cons.inj hdrop).1
    have hdrop1 : rows.drop (s + 1) = rest := by
      rw [List.drop_eq_getElem_cons hs] at hdrop
      exact (List.cons.inj hdrop).2
    have hsame : (∀ r, rows[s]? = some (some r) → validRow r = true →
        r.tradeKey ∈ keysOf out) → SanitizedUpTo rows (s + 1) out := by
      intro hseen
      refine ⟨?_, ?_⟩
      · intro r
        rw [hinv.1 r]
        constructor
        · rintro ⟨i, hi, hfirst⟩
          exact ⟨i, by omega, hfirst⟩
        · rintro ⟨i, hi, hfirst⟩
          rcases Nat.lt_succ_iff_lt_or_eq.1 hi with hlt | heq
          · exact ⟨i, hlt, hfirst⟩
          · subst heq
            exfalso
            obtain ⟨r0, hr0, hr0k⟩ := mem_keysOf.1 (hseen r hfirst.1 hfirst.2.1)
            obtain ⟨i0, hi0, hfirst0⟩ := (hinv.1 r0).1 hr0
            exact hfirst.2.2 i0 hi0 r0 hfirst0.1 hfirst0.2.1 hr0k
      · intro j hj r1 hr1 hv1
        rcases Nat.lt_succ_iff_lt_or_eq.1 hj with hlt | heq
        · exact hinv.2 j hlt r1 hr1 hv1
        · subst heq
          exact hseen r1 hr1 hv1
    cases x with
    | none =>
      simp only [sanitizeLoop]
      refine ih (s + 1) out keys hdrop1 hkeys (hsame ?_)
      intro r hr
      rw [hx] at hr
      simp at hr
    | some r =>
      simp only [sanitizeLoop]
      cases hk : sanitizeKeeps keys r with
      | none =>
        simp only
        refine ih (s + 1) out keys hdrop1 hkeys (hsame ?_)
        intro r1 hr1 hv1
        rw [hx] at hr1
        simp only [Option.some.injEq] at hr1
        subst hr1
        obtain ⟨k, hk1, -⟩ := validRow_tradeKey hv1
        have hin : k ∈ keys := by
          by_contra hcon
          have := (sanitizeKeeps_eq_some_iff keys r k).2 ⟨hv1, hk1, hcon⟩
          rw [hk] at this
          simp at this
        rw [hkeys, hk1]
        exact List.mem_map_of_mem _ hin
      | some k =>
        simp only
        obtain ⟨hv, hkey, hfresh⟩ := (sanitizeKeeps_eq_some_iff keys r k).1 hk
        refine ih (s + 1) (out ++ [r]) (keys ++ [k]) hdrop1 ?_ ⟨?_, ?_⟩
        · simp only [keysOf, List.map_append, List.map_cons, List.map_nil] at hkeys ⊢
          rw [hkeys, hkey]
        · intro r1
          rw [List.mem_append, hinv.1 r1, List.mem_singleton]
          constructor
          · rintro (⟨i, hi, hfirst⟩ | heq)
            · exact ⟨i, by omega, hfirst⟩
            · subst heq
              refine ⟨s, by omega, hx, hv, ?_⟩
              intro j hj r2 hr2 hv2 hsamekey
              have hmem := hinv.2 j hj r2 hr2 hv2
              rw [hkeys, hsamekey, hkey] at hmem
              simp only [List.mem_map, JVal.str.injEq, exists_eq_right] at hmem
              exact hfresh hmem
          · rintro ⟨i, hi, hfirst⟩
            rcases Nat.lt_succ_iff_lt_or_eq.1 hi with hlt | heq
            · exact Or.inl ⟨i, hlt, hfirst⟩
            · subst heq
              have h1 := hfirst.1
              rw [hx] at h1
              simp only [Option.some.injEq] at h1
              exact Or.inr h1.symm
        · intro j hj r1 hr1 hv1
          rcases Nat.lt_succ_iff_lt_or_eq.1 hj with hlt | heq
          · have := hinv.2 j hlt r1 hr1 hv1
            simp only [keysOf, List.map_append, List.mem_append] at this ⊢
            exact Or.inl this
          · subst heq
            rw [hx] at hr1
            simp only [Option.some.injEq] at hr1
            subst hr1
            simp [keysOf]

theorem sanitizeArchiveRows_again (rows : List (Option Row)) :
    sanitizeArchiveRows ((sanitizeArchiveRows rows).map some) = sanitizeArchiveRows rows := by
  obtain ⟨hnd, hvalid, hsorted⟩ := sanitizeArchiveRows_spec rows
  have hloop := sanitizeLoop_of_nodup (sanitizeArchiveRows rows) [] [] hnd (by simp)
  show sortNewestFirst (sanitizeLoop [] [] ((sanitizeArchiveRows rows).map some)) = _
  rw [hloop, List.nil_append, filter_valid_of_all hvalid]
  exact sortNewestFirst_of_sorted hsorted

/-- C15: a record passes the field tests of `sanitizeArchiveRows` exactly when its
`tradeKey`, `itemId`, `timeIso` and `priceCurrency` are non-empty strings and its
`timeMs` and `priceAmount` are finite numbers; the output holds exactly the
records that are the first valid occurrence of their trade key in the input; its
trade keys are pairwise distinct; and sanitising the output again returns it
unchanged. -/
theorem sanitizeArchiveRows_exact (rows : List (Option Row)) :
    (∀ r, validRow r = true ↔
        (∃ k, r.tradeKey = JVal.str k ∧ k ≠ "") ∧ (∃ s, r.itemId = JVal.str s ∧ s ≠ "")
          ∧ (∃ s, r.timeIso = JVal.str s ∧ s ≠ "") ∧ (∃ q, r.timeMs = JVal.num q)
          ∧ (∃ c, r.priceCurrency = JVal.str c ∧ c ≠ "") ∧ (∃ q, r.priceAmount = JVal.num q))
      ∧ (∀ r, r ∈ sanitizeArchiveRows rows ↔ ∃ i, FirstValid rows i r)
      ∧ (keysOf (sanitizeArchiveRows rows)).Nodup
      ∧ sanitizeArchiveRows ((sanitizeArchiveRows rows).map some) = sanitizeArchiveRows rows := by
  refine ⟨validRow_iff_fields, ?_, (sanitizeArchiveRows_spec rows).1,
    sanitizeArchiveRows_again rows⟩
  intro r
  have hinv := sanitizeLoop_first rows rows 0 [] [] (List.drop_zero _) rfl
    ⟨by intro r; simp, by intro j hj; omega⟩
  unfold sanitizeArchiveRows
  rw [mem_sortNewestFirst, hinv.1 r]
  constructor
  · rintro ⟨i, -, hfirst⟩
    exact ⟨i, hfirst⟩
  · rintro ⟨i, hfirst⟩
    obtain ⟨hi, -⟩ := List.getElem?_eq_some.1 hfirst.1
    exact ⟨i, hi, hfirst⟩

/-- C15, witness: of two stored records with the key `k1` the first is kept and the
second is dropped. -/
theorem sanitizeArchiveRows_exact_witness :
    { labelledRow "first" with tradeKey := JVal.str "k1" } ∈ sanitizeArchiveRows repeatedKeySlot
      ∧ { labelledRow "second" with tradeKey := JVal.str "k1" } ∉
          sanitizeArchiveRows repeatedKeySlot
      ∧ (keysOf (sanitizeArchiveRows repeatedKeySlot)).Nodup :=
  ⟨((sanitizeArchiveRows_exact repeatedKeySlot).2.1 _).2 ⟨0, rfl, by decide!,
      fun j hj => absurd hj (Nat.not_lt_zero j)⟩,
    by decide!, (sanitizeArchiveRows_exact repeatedKeySlot).2.2.1⟩


/-! ### Termination of the write loop -/

theorem attemptRows_succ_left (rows : List Row) (i : Nat) :
    attemptRows rows (i + 1) = attemptRows (rows.take (rows.length * 9 / 10)) i := by
  induction i with
  | zero => rfl
  | succ i ih =>
    show (attemptRows rows (i + 1)).take ((attemptRows rows (i + 1)).length * 9 / 10) = _
    rw [ih]
    rfl

theorem attemptRows_initial (rows : List Row) (i : Nat) : attemptRows rows i <+: rows := by
  induction i with
  | zero => exact List.prefix_refl rows
  | succ i ih => exact List.IsPrefix.trans ⟨_, List.take_append_drop _ _⟩ ih

theorem writeLoop_spec (accepts : Nat → List Row → Bool) :
    ∀ (fuel i : Nat) (payloadRows : List Row), payloadRows.length < fuel →
      ∃ n, n ≤ payloadRows.length
        ∧ (∀ j, j < n → accepts (i + j) (attemptRows payloadRows j) = false
            ∧ attemptRows payloadRows j ≠ [])
        ∧ ((accepts (i + n) (attemptRows payloadRows n) = true
              ∧ writeLoop accepts fuel i payloadRows = some (some (attemptRows payloadRows n)))
            ∨ (accepts (i + n) (attemptRows payloadRows n) = false
              ∧ attemptRows payloadRows n = []
              ∧ writeLoop accepts fuel i payloadRows = some none)) := by
  intro fuel
  induction fuel with
  | zero => intro i payloadRows h; omega
  | succ fuel ih =>
    intro i payloadRows hlen
    by_cases hacc : accepts i payloadRows = true
    · refine ⟨0, Nat.zero_le _, fun j hj => absurd hj (Nat.not_lt_zero j), Or.inl ⟨hacc, ?_⟩⟩
      simp only [writeLoop, attemptRows, hacc, if_true]
    · have hrej : accepts i payloadRows = false := by simpa using hacc
      by_cases hzero : payloadRows.length = 0
      · refine ⟨0, Nat.zero_le _, fun j hj => absurd hj (Nat.not_lt_zero j),
          Or.inr ⟨hrej, List.length_eq_zero.1 hzero, ?_⟩⟩
        simp [writeLoop, hrej, hzero]
      · have hshort : (payloadRows.take (payloadRows.length * 9 / 10)).length < fuel := by
          rw [List.length_take]
          omega
        obtain ⟨n, hn, hbefore, hlast⟩ :=
          ih (i + 1) (payloadRows.take (payloadRows.length * 9 / 10)) hshort
        have hidx : i + (n + 1) = i + 1 + n := by omega
        have hloop : writeLoop accepts (fuel + 1) i payloadRows
            = writeLoop accepts fuel (i + 1) (payloadRows.take (payloadRows.length * 9 / 10)) := by
          simp [writeLoop, hrej, hzero]
        refine ⟨n + 1, ?_, ?_, ?_⟩
        · rw [List.length_take] at hn
          omega
        · intro j hj
          cases j with
          | zero =>
            refine ⟨hrej, ?_⟩
            intro hnil
            exact hzero (by rw [show payloadRows = [] from hnil]; rfl)
          | succ j =>
            rw [attemptRows_succ_left, show i + (j + 1) = i + 1 + j by omega]
            exact hbefore j (by omega)
        · rw [attemptRows_succ_left, hidx, hloop]
          exact hlast

/-- C16: `writeArchive` makes at most `n + 1` attempts for `n` rows, whatever the
storage rejects.  There is a last attempt, number `last`; every attempt before it
was rejected with at least one row, each attempt after the first writes the first
`floor(0.9 * k)` of the `k` rows of the attempt before it, and the rows of every
attempt are a prefix of the input.  Either the last attempt is accepted and its
rows are what the slot holds afterwards, or it is rejected with no rows and the
storage is left as it was; no failure is passed on. -/
theorem writeArchive_terminates (env : Env) (accepts : Nat → List Row → Bool) (store : Storage)
    (league : JVal) (rows : List Row) (meta : Meta) :
    ∃ last, last ≤ rows.length
      ∧ (∀ j, j < last → accepts j (attemptRows rows j) = false ∧ attemptRows rows j ≠ [])
      ∧ (∀ j, attemptRows rows (j + 1)
          = (attemptRows rows j).take ((attemptRows rows j).length * 9 / 10))
      ∧ (∀ j, attemptRows rows j <+: rows)
      ∧ ((accepts last (attemptRows rows last) = true
            ∧ writeLoop accepts (rows.length + 1) 0 rows = some (some (attemptRows rows last))
            ∧ writeArchive env accepts store league rows meta
                = Function.update store (leagueStorageKey env league)
                    { rows := (attemptRows rows last).map (fun r => some r.json)
                      meta := meta.json })
          ∨ (accepts last (attemptRows rows last) = false ∧ attemptRows rows last = []
            ∧ writeLoop accepts (rows.length + 1) 0 rows = some none
            ∧ writeArchive env accepts store league rows meta = store)) := by
  obtain ⟨n, hn, hbefore, hlast⟩ :=
    writeLoop_spec accepts (rows.length + 1) 0 rows (Nat.lt_succ_self _)
  simp only [Nat.zero_add] at hbefore hlast
  refine ⟨n, hn, hbefore, fun j => rfl, attemptRows_initial rows, ?_⟩
  rcases hlast with ⟨hacc, hloop⟩ | ⟨hrej, hnil, hloop⟩
  · exact Or.inl ⟨hacc, hloop, by simp only [writeArchive, hloop]⟩
  · exact Or.inr ⟨hrej, hnil, hloop, by simp only [writeArchive, hloop]⟩

/-- C16, witness: two rows offered to a storage that rejects every write; the
third attempt has no rows and the storage stays as it was. -/
theorem writeArchive_terminates_witness :
    attemptRows (chaosDivineRows 100) 1 = [bareRow 100 100 "chaos"]
      ∧ attemptRows (chaosDivineRows 100) 2 = []
      ∧ writeArchive sampleEnv rejectAll emptyStorage sampleLeague (chaosDivineRows 100)
          Meta.empty = emptyStorage := by
  obtain ⟨last, _, _, _, _, hlast⟩ := writeArchive_terminates sampleEnv rejectAll emptyStorage
    sampleLeague (chaosDivineRows 100) Meta.empty
  refine ⟨by decide!, by decide!, ?_⟩
  rcases hlast with ⟨hacc, _⟩ | ⟨_, _, _, hstore⟩
  · simp [rejectAll] at hacc
  · exact hstore


/-! ### The fields built by `normalizeRow` -/

/-- C17: the entry `{ item_id: "item-a", time: T100, item: { typeLine: 5 } }` has
an identifier and a time stamp that parses, yet `normalizeRow` neither returns
`null` nor a record: `(5).trim` is not a function and the `TypeError` leaves
`normalizeRow` and `persistHistoryBatch`. -/
theorem normalizeRow_throws_on_numeric_typeLine :
    (namedEntry (JVal.num 5) JVal.undefined).item_id.truthy = true
      ∧ sampleEnv.dateParse ((namedEntry (JVal.num 5) JVal.undefined).time.toStr sampleEnv)
          = some 100
      ∧ normalizeRow sampleEnv 1000 (namedEntry (JVal.num 5) JVal.undefined) = none
      ∧ persistHistoryBatch sampleEnv acceptAll sampleClock 1000 1000 emptyStorage sampleLeague
          [namedEntry (JVal.num 5) JVal.undefined] = none := by
  refine ⟨by decide, by decide, ?_, ?_⟩
  · exact (normalizeRow_eq_none_iff sampleEnv 1000 _).2
      ⟨by decide, by decide, ⟨100, by decide⟩, Or.inl (by decide)⟩
  · have h : normalizeRow sampleEnv (sampleClock 0) (namedEntry (JVal.num 5) JVal.undefined)
        = none :=
      (normalizeRow_eq_none_iff sampleEnv _ _).2
        ⟨by decide, by decide, ⟨100, by decide⟩, Or.inl (by decide)⟩
    simp only [persistHistoryBatch, normalizeAndKeyBatch, keyBatchLoop, keyBatchStep, h,
      Option.map]

theorem trimOrEmpty_eq_some {v : JVal} {s : String} (h : trimOrEmpty v = some s) :
    s = trimmedText v := by
  have hempty : jsTrim "" = "" := by decide
  unfold trimOrEmpty at h
  cases v with
  | str t =>
    by_cases ht : t = ""
    · subst ht
      simp [JVal.truthy] at h
      subst h
      simp [trimmedText, hempty]
    · simp [JVal.truthy, ht] at h
      simp [trimmedText, h]
  | bool b =>
    cases b <;> simp [JVal.truthy] at h
    simp [trimmedText, h]
  | num q =>
    by_cases hq : q = 0
    · simp [JVal.truthy, hq] at h
      simp [trimmedText, h]
    · simp [JVal.truthy, hq] at h
  | undefined => simp [JVal.truthy] at h; simp [trimmedText, h]
  | null => simp [JVal.truthy] at h; simp [trimmedText, h]
  | nan => simp [JVal.truthy] at h; simp [trimmedText, h]
  | inf n => simp [JVal.truthy] at h
  | obj t => simp [JVal.truthy] at h

/-- C18, counter-example: the `typeLine` `" "` is not empty, yet the display name
is the `baseType`. -/
theorem normalizeRow_blank_typeLine_name :
    (normalizeRow sampleEnv 1000 (namedEntry (JVal.str " ") (JVal.str "Sword"))).map
        (Option.map (fun norm => norm.name)) = some (some (JVal.str "Sword")) := by
  decide!

/-- C18: for every entry that `normalizeRow` turns into a record, the display name
is the trimmed `typeLine` if that is non-empty, else the trimmed `baseType` if
that is non-empty, else `(unknown)`; the name is a non-empty string. -/
theorem normalizeRow_name (env : Env) (now : Int) (row : RawRow) (norm : Row)
    (h : normalizeRow env now row = some (some norm)) :
    norm.name = JVal.str
        (if trimmedText row.item.typeLine ≠ "" then trimmedText row.item.typeLine
         else if trimmedText row.item.baseType ≠ "" then trimmedText row.item.baseType
         else "(unknown)")
      ∧ ∃ s, norm.name = JVal.str s ∧ s ≠ "" := by
  unfold normalizeRow at h
  simp only at h
  split at h
  · simp at h
  · split at h
    · simp at h
    · split at h
      · rename_i typeLine baseType htl hbt
        simp only [Option.some.injEq] at h
        subst h
        have h1 := trimOrEmpty_eq_some htl
        have h2 := trimOrEmpty_eq_some hbt
        subst h1
        subst h2
        refine ⟨rfl, _, rfl, ?_⟩
        by_cases ht : trimmedText row.item.typeLine = ""
        · by_cases hb : trimmedText row.item.baseType = ""
          · simp [ht, hb]
          · simp [ht, hb]
        · simp [ht]
      · simp at h

/-- C18, witness: the entry with the `typeLine` `" "` and the `baseType` `"Sword"`. -/
theorem normalizeRow_name_witness :
    ∃ norm, normalizeRow sampleEnv 1000 (namedEntry (JVal.str " ") (JVal.str "Sword"))
        = some (some norm)
      ∧ norm.name = JVal.str "Sword" := by
  have hsome : ((normalizeRow sampleEnv 1000
      (namedEntry (JVal.str " ") (JVal.str "Sword"))).bind id).isSome = true := by decide!
  obtain ⟨norm, hnorm⟩ := Option.isSome_iff_exists.mp hsome
  have hn : normalizeRow sampleEnv 1000 (namedEntry (JVal.str " ") (JVal.str "Sword"))
      = some (some norm) := by
    cases hx : normalizeRow sampleEnv 1000 (namedEntry (JVal.str " ") (JVal.str "Sword")) with
    | none => rw [hx] at hnorm; simp at hnorm
    | some o => rw [hx] at hnorm; simp only [Option.bind, id] at hnorm; rw [hnorm]
  refine ⟨norm, hn, ?_⟩
  rw [(normalizeRow_name sampleEnv 1000 _ norm hn).1]
  decide

/-! ### The category label -/

theorem categoryFromEntries_eq (env : Env) (entries : List (String × Option (List JVal))) :
    categoryFromEntries env entries
      = (entries.find? (fun e => decide (e.1 ≠ ""))).map (fun e =>
          match e.2 with
          | some (JVal.str sub :: _) =>
            if sub ≠ "" then
              humanizeCategoryToken env (JVal.str e.1) ++ ": "
                ++ humanizeCategoryToken env (JVal.str sub)
            else humanizeCategoryToken env (JVal.str e.1)
          | _ => humanizeCategoryToken env (JVal.str e.1)) := by
  induction entries with
  | nil => rfl
  | cons e rest ih =>
    obtain ⟨k, v⟩ := e
    by_cases hk : k = ""
    · simp only [categoryFromEntries, hk, if_true, List.find?_cons, ne_eq, not_true_eq_false,
        decide_False]
      exact ih
    · simp only [categoryFromEntries, hk, if_false, List.find?_cons, ne_eq, not_false_eq_true,
        decide_True, Option.map_some']
      cases v with
      | none => rfl
      | some xs =>
        cases xs with
        | nil => rfl
        | cons x xs => cases x <;> simp

theorem itemCategoryLabel_eq (env : Env) (item : RawItem) (itemText : Option String) :
    itemCategoryLabel env item itemText
      = match item.extendedCategory with
        | JVal.str s =>
          if jsTrim s ≠ "" then humanizeCategoryToken env item.extendedCategory
          else labelFromMap env item itemText
        | _ => labelFromMap env item itemText := by
  unfold itemCategoryLabel labelFromMap labelFromText
  cases item.extendedCategory <;> rfl

/-- C19, counter-example: the first key of the category map is the empty string,
whose humanised form is empty, and the label is taken from the second key. -/
theorem itemCategoryLabel_skips_empty_key :
    emptyKeyItem.category = some [("", some [JVal.str "x"]), ("weapons", some [JVal.str "sword"])]
      ∧ humanizeCategoryToken sampleEnv (JVal.str "") = ""
      ∧ humanizeCategoryToken sampleEnv (JVal.str "x") = "X"
      ∧ itemCategoryLabel sampleEnv emptyKeyItem none = "Weapons: Sword" := by
  decide

/-- C19: the label is (a) the humanised explicit category when that is a string
that is not blank; otherwise (b), when the category map has a key that is not
empty, the humanised first such key, followed by `": "` and the humanised first
element of its array when that element is a non-empty string; otherwise (c) the
trimmed first capture of the `Item Class:` pattern in a non-empty item text that
matches it; otherwise (d) the empty string. -/
theorem itemCategoryLabel_order (env : Env) (item : RawItem) (itemText : Option String) :
    (∀ s, item.extendedCategory = JVal.str s → jsTrim s ≠ "" →
        itemCategoryLabel env item itemText = humanizeCategoryToken env (JVal.str s))
      ∧ ((∀ s, item.extendedCategory = JVal.str s → jsTrim s = "") →
          (∀ entries k v, item.category = some entries →
              entries.find? (fun e => decide (e.1 ≠ "")) = some (k, v) →
              itemCategoryLabel env item itemText
                = match v with
                  | some (JVal.str sub :: _) =>
                    if sub ≠ "" then
                      humanizeCategoryToken env (JVal.str k) ++ ": "
                        ++ humanizeCategoryToken env (JVal.str sub)
                    else humanizeCategoryToken env (JVal.str k)
                  | _ => humanizeCategoryToken env (JVal.str k))
            ∧ ((∀ entries, item.category = some entries →
                  entries.find? (fun e => decide (e.1 ≠ "")) = none) →
                (∀ t g, itemText = some t → t ≠ "" → env.matchItemClass t = some g →
                    itemCategoryLabel env item itemText = jsTrim g)
                  ∧ ((itemText = none ∨ itemText = some ""
                      ∨ ∃ t, itemText = some t ∧ env.matchItemClass t = none) →
                    itemCategoryLabel env item itemText = ""))) := by
  have hempty : jsTrim "" = "" := by decide
  refine ⟨?_, ?_⟩
  · intro s hs hne
    unfold itemCategoryLabel
    simp only [hs, hne, ne_eq, not_false_eq_true, if_true]
  · intro hdirect
    have hmap : itemCategoryLabel env item itemText = labelFromMap env item itemText := by
      rw [itemCategoryLabel_eq]
      cases hd : item.extendedCategory with
      | str s => simp only [hdirect s hd, ne_eq, not_true_eq_false, if_false]
      | _ => rfl
    rw [hmap]
    refine ⟨?_, ?_⟩
    · intro entries k v hc hfind
      unfold labelFromMap
      rw [hc]
      simp only [categoryFromEntries_eq, hfind, Option.map_some']
    · intro hnone
      have htext : labelFromMap env item itemText = labelFromText env itemText := by
        unfold labelFromMap
        cases hc : item.category with
        | none => rfl
        | some entries => simp only [categoryFromEntries_eq, hnone entries hc, Option.map_none']
      rw [htext]
      refine ⟨?_, ?_⟩
      · intro t g ht hne hg
        unfold labelFromText
        rw [ht]
        simp only [hne, ne_eq, not_false_eq_true, if_true, hg]
        by_cases hg0 : g = ""
        · simp [hg0, hempty]
        · simp [hg0]
      · intro h
        unfold labelFromText
        rcases h with h | h | ⟨t, ht, hm⟩
        · rw [h]
        · rw [h]
          simp
        · rw [ht]
          simp only [hm]
          by_cases ht0 : t = ""
          · simp [ht0]
          · simp [ht0]

/-- C19, witness: the item whose category map has an empty first key gets its label
from the key `weapons` and the first element of its array. -/
theorem itemCategoryLabel_order_witness :
    itemCategoryLabel sampleEnv emptyKeyItem none
        = humanizeCategoryToken sampleEnv (JVal.str "weapons") ++ ": "
            ++ humanizeCategoryToken sampleEnv (JVal.str "sword") :=
  ((itemCategoryLabel_order sampleEnv emptyKeyItem none).2
    (by intro s hs; simp [emptyKeyItem, RawItem.absent] at hs)).1
    [("", some [JVal.str "x"]), ("weapons", some [JVal.str "sword"])] "weapons"
    (some [JVal.str "sword"]) rfl rfl

/-! ### The mod lists -/

theorem isModText_iff (v : JVal) : isModText v = true ↔ ∃ s, v = JVal.str s ∧ jsTrim s ≠ "" := by
  cases v <;> simp [isModText]

/-- C20: for every entry that `normalizeRow` turns into a record, `mods` is the
concatenation of the implicit, explicit, utility, fractured, crafted and enchant
arrays, in this order and a field that is not an array counting as empty, from
which every element that is not a non-blank string is removed, the others keeping
their order; `fracturedMods` is the fractured array filtered in the same way, and
each of its elements occurs in `mods`. -/
theorem normalizeRow_mods (env : Env) (now : Int) (row : RawRow) (norm : Row)
    (h : normalizeRow env now row = some (some norm)) :
    norm.mods
        = (arrayOrEmpty row.item.implicitMods ++ arrayOrEmpty row.item.explicitMods
            ++ arrayOrEmpty row.item.utilityMods ++ arrayOrEmpty row.item.fracturedMods
            ++ arrayOrEmpty row.item.craftedMods ++ arrayOrEmpty row.item.enchantMods).filter
          isModText
      ∧ norm.mods.Sublist
          (arrayOrEmpty row.item.implicitMods ++ arrayOrEmpty row.item.explicitMods
            ++ arrayOrEmpty row.item.utilityMods ++ arrayOrEmpty row.item.fracturedMods
            ++ arrayOrEmpty row.item.craftedMods ++ arrayOrEmpty row.item.enchantMods)
      ∧ (∀ v, isModText v = true ↔ ∃ s, v = JVal.str s ∧ jsTrim s ≠ "")
      ∧ norm.fracturedMods = (arrayOrEmpty row.item.fracturedMods).filter isModText
      ∧ ∀ m ∈ norm.fracturedMods, m ∈ norm.mods := by
  have hmods : norm.mods
        = (arrayOrEmpty row.item.implicitMods ++ arrayOrEmpty row.item.explicitMods
            ++ arrayOrEmpty row.item.utilityMods ++ arrayOrEmpty row.item.fracturedMods
            ++ arrayOrEmpty row.item.craftedMods ++ arrayOrEmpty row.item.enchantMods).filter
          isModText
      ∧ norm.fracturedMods = (arrayOrEmpty row.item.fracturedMods).filter isModText := by
    unfold normalizeRow at h
    simp only at h
    split at h
    · simp at h
    · split at h
      · simp at h
      · split at h
        · simp only [Option.some.injEq] at h
          subst h
          refine ⟨?_, rfl⟩
          simp only [List.filter_append, List.filter_filter, Bool.and_self]
        · simp at h
  refine ⟨hmods.1, ?_, isModText_iff, hmods.2, ?_⟩
  · rw [hmods.1]
    exact List.filter_sublist _
  · intro m hm
    rw [hmods.2] at hm
    rw [hmods.1]
    simp only [List.filter_append, List.mem_append]
    exact Or.inl (Or.inl (Or.inr hm))

/-- C20, witness: an entry with implicit, fractured and enchant mods, two of them
not strings and one blank. -/
theorem normalizeRow_mods_witness :
    ∃ norm, normalizeRow sampleEnv 1000 modsEntry = some (some norm)
      ∧ norm.mods = [JVal.str "a", JVal.str "f", JVal.str "e"]
      ∧ norm.fracturedMods = [JVal.str "f"] := by
  have hsome : ((normalizeRow sampleEnv 1000 modsEntry).bind id).isSome = true := by decide!
  obtain ⟨norm, hnorm⟩ := Option.isSome_iff_exists.mp hsome
  have hn : normalizeRow sampleEnv 1000 modsEntry = some (some norm) := by
    cases hx : normalizeRow sampleEnv 1000 modsEntry with
    | none => rw [hx] at hnorm; simp at hnorm
    | some o => rw [hx] at hnorm; simp only [Option.bind, id] at hnorm; rw [hnorm]
  obtain ⟨h1, _, _, h4, _⟩ := normalizeRow_mods sampleEnv 1000 modsEntry norm hn
  refine ⟨norm, hn, ?_, ?_⟩
  · rw [h1]
    decide
  · rw [h4]
    decide


/-! ### The records that `computeIncomeStats` counts -/

theorem normalizeCurrency_orEmpty (env : Env) (c : JVal) :
    normalizeCurrency env (if c.truthy then c else JVal.str "") = normalizeCurrency env c := by
  by_cases hc : c.truthy = true
  · simp only [hc, if_true]
  · rw [if_neg hc]
    unfold normalizeCurrency
    rw [if_neg hc]
    have hempty : (JVal.str "").truthy = false := by decide
    rw [hempty]
    rfl

theorem isSold_iff (env : Env) (r : Row) :
    isSold env r = true ↔
      r.timeMs.isFiniteNumber = true ∧ r.priceAmount.isFiniteNumber = true
        ∧ normalizeCurrency env r.priceCurrency ≠ "" := by
  unfold isSold
  rw [normalizeCurrency_orEmpty]
  simp [and_assoc]

theorem computeIncomeStats_returns {env : Env} {rows : List Row} (pc dp : JVal)
    (h : ∀ r ∈ rows, isSold env r = true →
      textLike r.category = true ∧ textLike r.baseType = true ∧ textLike r.name = true
        ∧ textLike r.rarity = true) :
    ∃ st, computeIncomeStats env rows pc dp = some st := by
  have hl : ∀ r ∈ rows.filter (isSold env), ∃ l, labelsOf env r = some l := by
    intro r hr
    obtain ⟨hr1, hr2⟩ := List.mem_filter.1 hr
    obtain ⟨h1, h2, h3, h4⟩ := h r hr1 hr2
    exact labelsOf_isSome h1 h2 h3 h4
  obtain ⟨g, hg⟩ := incomeLoop_isSome env _ hl IncomeGroups.empty
  unfold computeIncomeStats
  simp only [hg]
  exact ⟨_, rfl⟩

theorem isJsSpace_toLower (c : Char) : isJsSpace c.toLower = isJsSpace c := by
  unfold Char.toLower
  simp only
  split
  · rename_i h
    have h1 : isJsSpace c = false := by
      unfold isJsSpace
      simp only
      generalize c.toNat = n at h
      obtain ⟨h65, h90⟩ := h
      interval_cases n <;> decide
    have h2 : isJsSpace (Char.ofNat (c.toNat + 32)) = false := by
      generalize c.toNat = n at h
      obtain ⟨h65, h90⟩ := h
      interval_cases n <;> decide
    rw [h1, h2]
  · rfl

theorem trimChars_ne_nil_iff (cs : List Char) :
    trimChars cs ≠ [] ↔ ∃ x ∈ cs, isJsSpace x = false := by
  unfold trimChars
  constructor
  · intro h
    by_contra hcon
    push_neg at hcon
    have hall : ∀ x ∈ cs, isJsSpace x = true := fun x hx => by simpa using hcon x hx
    have : cs.dropWhile isJsSpace = [] := List.dropWhile_eq_nil_iff.2 hall
    rw [this] at h
    simp at h
  · rintro ⟨x, hx, hxs⟩
    have hd : cs.dropWhile isJsSpace ≠ [] := by
      intro h0
      have := List.dropWhile_eq_nil_iff.1 h0 x hx
      rw [hxs] at this
      simp at this
    have hhead := List.head_dropWhile_not isJsSpace cs hd
    intro h0
    rw [List.reverse_eq_nil_iff, List.dropWhile_eq_nil_iff] at h0
    have := h0 _ (List.mem_reverse.2 (List.head_mem hd))
    rw [this] at hhead
    simp at hhead

theorem keepsCurrency_sampleEnv : KeepsCurrency sampleEnv := by
  have hnorm : ∀ s : String, normalizeCurrency sampleEnv (JVal.str s)
      = String.mk ((trimChars s.data).map Char.toLower) := by
    intro s
    by_cases hs : s = ""
    · subst hs
      decide
    · simp [normalizeCurrency, JVal.truthy, JVal.toStr, hs, sampleEnv, asciiLower, jsTrim]
  have hne : ∀ cs : List Char, String.mk cs ≠ "" ↔ cs ≠ [] := by
    intro cs
    constructor
    · intro h h0
      exact h (by rw [h0])
    · intro h h0
      exact h (congrArg String.data h0)
  intro s h
  rw [hnorm] at h ⊢
  rw [hnorm]
  rw [hne] at h ⊢
  simp only [ne_eq, List.map_eq_nil_iff] at h ⊢
  obtain ⟨x, hx, hxs⟩ := (trimChars_ne_nil_iff _).1 h
  have hsub : ∀ y ∈ trimChars s.data, y ∈ s.data := by
    intro y hy
    unfold trimChars at hy
    exact (List.dropWhile_sublist _).subset
      (List.mem_reverse.1 ((List.dropWhile_sublist _).subset (List.mem_reverse.1 hy)))
  have hin : ∃ y ∈ trimChars s.data, isJsSpace y = false := by
    by_contra hcon
    push_neg at hcon
    have hall : ∀ y ∈ trimChars s.data, isJsSpace y = true := fun y hy => by simpa using hcon y hy
    have hT : trimChars s.data ≠ [] := h
    unfold trimChars at hT hall
    rw [ne_eq, List.reverse_eq_nil_iff] at hT
    have hhead := List.head_dropWhile_not isJsSpace _ hT
    have := hall _ (List.mem_reverse.2 (List.head_mem hT))
    rw [this] at hhead
    simp at hhead
  obtain ⟨y, hy, hys⟩ := hin
  exact (trimChars_ne_nil_iff _).2 ⟨y.toLower, List.mem_map_of_mem _ hy,
    by rw [isJsSpace_toLower]; exact hys⟩

theorem normalizeRow_currency {env : Env} {now : Int} {row : RawRow} {norm : Row}
    (h : normalizeRow env now row = some (some norm)) :
    norm.priceCurrency = JVal.null
      ∨ ∃ s, norm.priceCurrency = JVal.str (normalizeCurrency env (JVal.str s)) := by
  unfold normalizeRow at h
  simp only at h
  split at h
  · simp at h
  · split at h
    · simp at h
    · split at h
      · simp only [Option.some.injEq] at h
        subst h
        cases row.priceCurrency with
        | str s => exact Or.inr ⟨s, rfl⟩
        | _ => exact Or.inl rfl
      · simp at h

/-- C21, counter-example: a record with the finite price amount 1 and the currency
`chaos` but without `timeMs` is not counted. -/
theorem computeIncomeStats_skips_untimed_record :
    untimedRow.priceAmount.isFiniteNumber = true
      ∧ normalizeCurrency sampleEnv untimedRow.priceCurrency = "chaos"
      ∧ (computeIncomeStats sampleEnv [untimedRow] (JVal.str "chaos") JVal.undefined).map
          (fun st => st.trades) = some 0 := by
  decide!

/-- C21: `computeIncomeStats` returns whenever the category, base type, name and
rarity of every counted record are strings or falsy, and the `trades` it returns
is the number of input records whose `timeMs` is a finite number, whose price
amount is a finite number and whose price currency is non-empty after
normalisation.  When normalising a normalised currency does not empty it, it is
the length of the input as soon as every record was built by `normalizeRow` and
has a price. -/
theorem computeIncomeStats_trades (env : Env) (rows : List Row) (pc dp : JVal) :
    ((∀ r ∈ rows, isSold env r = true →
        textLike r.category = true ∧ textLike r.baseType = true ∧ textLike r.name = true
          ∧ textLike r.rarity = true) →
      ∃ st, computeIncomeStats env rows pc dp = some st)
    ∧ ∀ st, computeIncomeStats env rows pc dp = some st →
        st.trades = (rows.filter (fun r => r.timeMs.isFiniteNumber
            && r.priceAmount.isFiniteNumber
            && decide (normalizeCurrency env r.priceCurrency ≠ ""))).length
          ∧ (KeepsCurrency env →
              (∀ r ∈ rows, (∃ now raw, normalizeRow env now raw = some (some r))
                ∧ r.priceAmount.isNullish = false ∧ r.priceCurrency.truthy = true) →
              st.trades = rows.length) := by
  have hfilter : rows.filter (isSold env) = rows.filter (fun r => r.timeMs.isFiniteNumber
      && r.priceAmount.isFiniteNumber
      && decide (normalizeCurrency env r.priceCurrency ≠ "")) := by
    apply List.filter_congr
    intro r _
    unfold isSold
    rw [normalizeCurrency_orEmpty]
  refine ⟨?_, ?_⟩
  · exact computeIncomeStats_returns pc dp
  · intro st hst
    obtain ⟨g, -, htrades, -⟩ := computeIncomeStats_some hst
    rw [htrades, hfilter]
    refine ⟨rfl, ?_⟩
    intro hkeeps h
    rw [List.filter_eq_self.2]
    intro r hr
    obtain ⟨⟨now, raw, hn⟩, ha, hc⟩ := h r hr
    obtain ⟨-, -, -, -, hms, hamt, -⟩ := normalizeRow_some hn
    have hcur : normalizeCurrency env r.priceCurrency ≠ "" := by
      rcases normalizeRow_currency hn with hnull | ⟨s, hs⟩
      · rw [hnull] at hc
        simp [JVal.truthy] at hc
      · rw [hs] at hc ⊢
        exact hkeeps s (by simpa [JVal.truthy] using hc)
    simp [hms, hamt ha, hcur]

theorem normalizeRow_textLike {env : Env} {now : Int} {row : RawRow} {norm : Row}
    (h : normalizeRow env now row = some (some norm)) :
    textLike norm.category = true ∧ textLike norm.baseType = true ∧ textLike norm.name = true
      ∧ textLike norm.rarity = true := by
  unfold normalizeRow at h
  simp only at h
  split at h
  · simp at h
  · split at h
    · simp at h
    · split at h
      · simp only [Option.some.injEq] at h
        subst h
        exact ⟨rfl, rfl, rfl, rfl⟩
      · simp at h

/-- C21, witness: the two records `{100 chaos, 1 divine}` of the unit tests and the
record without `timeMs` give two trades, and the record that `normalizeRow`
builds from a sale for 1 chaos gives one. -/
theorem computeIncomeStats_trades_witness :
    (∃ st, computeIncomeStats sampleEnv (untimedRow :: chaosDivineRows 100) (JVal.str "chaos")
        JVal.undefined = some st
      ∧ st.trades = 2)
    ∧ ∃ norm st, normalizeRow sampleEnv 1000 (rawEntry (JVal.str "item-a") t100 (JVal.num 1)
          (JVal.str "chaos")) = some (some norm)
        ∧ computeIncomeStats sampleEnv [norm] (JVal.str "chaos") JVal.undefined = some st
        ∧ st.trades = 1 := by
  constructor
  · obtain ⟨st, hst⟩ := (computeIncomeStats_trades sampleEnv (untimedRow :: chaosDivineRows 100)
      (JVal.str "chaos") JVal.undefined).1 (by decide!)
    refine ⟨st, hst, ?_⟩
    rw [((computeIncomeStats_trades sampleEnv (untimedRow :: chaosDivineRows 100)
      (JVal.str "chaos") JVal.undefined).2 st hst).1]
    decide!
  · have hsome : ((normalizeRow sampleEnv 1000 (rawEntry (JVal.str "item-a") t100 (JVal.num 1)
        (JVal.str "chaos"))).bind id).isSome = true := by decide!
    obtain ⟨norm, hnorm⟩ := Option.isSome_iff_exists.mp hsome
    have hn : normalizeRow sampleEnv 1000 (rawEntry (JVal.str "item-a") t100 (JVal.num 1)
        (JVal.str "chaos")) = some (some norm) := by
      cases hx : normalizeRow sampleEnv 1000 (rawEntry (JVal.str "item-a") t100 (JVal.num 1)
          (JVal.str "chaos")) with
      | none => rw [hx] at hnorm; simp at hnorm
      | some o => rw [hx] at hnorm; simp only [Option.bind, id] at hnorm; rw [hnorm]
    have hprice : (normalizeRow sampleEnv 1000 (rawEntry (JVal.str "item-a") t100 (JVal.num 1)
        (JVal.str "chaos"))).map (Option.map (fun r => (r.priceAmount.isNullish,
          r.priceCurrency.truthy))) = some (some (false, true)) := by decide!
    rw [hn] at hprice
    simp only [Option.map_some', Option.some.injEq, Prod.mk.injEq] at hprice
    have htext := normalizeRow_textLike hn
    obtain ⟨st, hst⟩ := (computeIncomeStats_trades sampleEnv [norm] (JVal.str "chaos")
      JVal.undefined).1 (by
        intro r hr _
        rw [List.mem_singleton] at hr
        rw [hr]
        exact htext)
    refine ⟨norm, st, hn, hst, ?_⟩
    exact ((computeIncomeStats_trades sampleEnv [norm] (JVal.str "chaos") JVal.undefined).2 st
      hst).2 keepsCurrency_sampleEnv (by
        intro r hr
        rw [List.mem_singleton] at hr
        rw [hr]
        exact ⟨⟨1000, _, hn⟩, hprice.1, hprice.2⟩)

/-! ### The totals per currency -/

theorem mapGet_mapSet {κ ν : Type} [DecidableEq κ] (entries : List (κ × ν)) (k c : κ) (v : ν) :
    mapGet (mapSet entries k v) c = if k = c then some v else mapGet entries c := by
  induction entries with
  | nil =>
    by_cases h : k = c <;> simp [mapSet, mapGet, h]
  | cons e rest ih =>
    obtain ⟨k1, v1⟩ := e
    by_cases h1 : k1 = k
    · subst h1
      by_cases h : k1 = c <;> simp [mapSet, mapGet, h]
    · by_cases h2 : k1 = c
      · subst h2
        simp [mapSet, mapGet, h1, Ne.symm h1]
      · simp only [mapSet, mapGet, h1, h2, if_false]
        exact ih

theorem bumpBucket_of_named {env : Env} {currency : JVal}
    (h : normalizeCurrency env currency ≠ "") (currencyMap : List (String × Num)) (amount : ℚ) :
    bumpBucket env currencyMap currency amount
      = mapSet currencyMap (normalizeCurrency env currency)
          ((Num.orZero (mapGet currencyMap (normalizeCurrency env currency))).add
            (Num.fin amount)) := by
  simp only [bumpBucket, h, if_false]

theorem incomeStep_totals {env : Env} {g g1 : IncomeGroups} {r : Row}
    (h : incomeStep env g r = some g1) :
    g1.totalByCurrency = bumpBucket env g.totalByCurrency r.priceCurrency (amountNum r) := by
  unfold incomeStep at h
  cases hl : labelsOf env r with
  | none => rw [hl] at h; simp at h
  | some l =>
    rw [hl] at h
    simp only [Option.some.injEq] at h
    rw [← h]

theorem incomeLoop_totals (env : Env) (rows : List Row) :
    ∀ g g1 : IncomeGroups, incomeLoop env g rows = some g1 →
      (∀ r ∈ rows, normalizeCurrency env r.priceCurrency ≠ "") →
      g1.totalByCurrency
        = rows.foldl (fun m r =>
            mapSet m (normalizeCurrency env r.priceCurrency)
              ((Num.orZero (mapGet m (normalizeCurrency env r.priceCurrency))).add
                (Num.fin (amountNum r))))
            g.totalByCurrency := by
  induction rows with
  | nil =>
    intro g g1 h _
    simp only [incomeLoop, Option.some.injEq] at h
    subst h
    rfl
  | cons r rest ih =>
    intro g g1 h hcur
    simp only [incomeLoop] at h
    cases hs : incomeStep env g r with
    | none => rw [hs] at h; simp at h
    | some g2 =>
      rw [hs] at h
      simp only at h
      rw [ih g2 g1 h (fun r1 hr1 => hcur r1 (List.mem_cons_of_mem _ hr1)), incomeStep_totals hs,
        bumpBucket_of_named (hcur r (List.mem_cons_self _ _))]
      rfl

theorem orZero_add (o : Option Num) (a : ℚ) :
    Num.orZero (some ((Num.orZero o).add (Num.fin a))) = (Num.orZero o).add (Num.fin a) :=
  orZero_of_ne_nan (numAdd_ne_nan (orZero_ne_nan o) a)

theorem foldl_totals_get (env : Env) (c : String) (rows : List Row) :
    ∀ m : List (String × Num),
      Num.orZero (mapGet (rows.foldl (fun m r =>
          mapSet m (normalizeCurrency env r.priceCurrency)
            ((Num.orZero (mapGet m (normalizeCurrency env r.priceCurrency))).add
              (Num.fin (amountNum r)))) m) c)
        = ((rows.filter (fun r => decide (normalizeCurrency env r.priceCurrency = c))).map
              amountNum).foldl (fun acc a => acc.add (Num.fin a)) (Num.orZero (mapGet m c)) := by
  induction rows with
  | nil => intro m; simp
  | cons r rest ih =>
    intro m
    rw [List.foldl_cons, ih, mapGet_mapSet]
    by_cases hc : normalizeCurrency env r.priceCurrency = c
    · subst hc
      simp [List.filter_cons, orZero_add]
    · simp [List.filter_cons, hc]

theorem foldl_totals_nodup (env : Env) (rows : List Row) :
    ∀ m : List (String × Num), (m.map Prod.fst).Nodup →
      ((rows.foldl (fun m r =>
          mapSet m (normalizeCurrency env r.priceCurrency)
            ((Num.orZero (mapGet m (normalizeCurrency env r.priceCurrency))).add
              (Num.fin (amountNum r)))) m).map
        Prod.fst).Nodup := by
  induction rows with
  | nil => intro m h; exact h
  | cons r rest ih =>
    intro m h
    rw [List.foldl_cons]
    exact ih _ (mapSet_keys_nodup m _ _ h)

theorem mem_mapSet_value {κ ν : Type} [DecidableEq κ] {entries : List (κ × ν)} {k : κ} {v : ν}
    {e : κ × ν} (h : e ∈ mapSet entries k v) : e ∈ entries ∨ e.2 = v := by
  induction entries with
  | nil =>
    simp only [mapSet, List.mem_singleton] at h
    right
    rw [h]
  | cons e1 rest ih =>
    obtain ⟨k1, v1⟩ := e1
    simp only [mapSet] at h
    split at h
    · rcases List.mem_cons.mp h with h1 | h1
      · right
        rw [h1]
      · left
        exact List.mem_cons_of_mem _ h1
    · rcases List.mem_cons.mp h with h1 | h1
      · left
        rw [h1]
        exact List.mem_cons_self _ _
      · rcases ih h1 with h2 | h2
        · left
          exact List.mem_cons_of_mem _ h2
        · right
          exact h2

theorem foldl_totals_grid (env : Env) (rows : List Row) :
    ∀ m : List (String × Num), (∀ e ∈ m, e.2.OnGrid ∧ e.2 ≠ Num.nan) →
      ∀ e ∈ rows.foldl (fun m r =>
          mapSet m (normalizeCurrency env r.priceCurrency)
            ((Num.orZero (mapGet m (normalizeCurrency env r.priceCurrency))).add
              (Num.fin (amountNum r)))) m, e.2.OnGrid ∧ e.2 ≠ Num.nan := by
  induction rows with
  | nil => intro m h; exact h
  | cons r rest ih =>
    intro m h
    rw [List.foldl_cons]
    apply ih
    intro e he
    rcases mem_mapSet_value he with h1 | h1
    · exact h e h1
    · rw [h1]
      exact ⟨numAdd_grid _ _, numAdd_ne_nan (orZero_ne_nan _) _⟩

theorem formatCurrencyMap_eq (env : Env) (currencyMap : List (String × Num)) :
    formatCurrencyMap env currencyMap
      = String.intercalate " + "
          (((nonZeroEntries currencyMap).insertionSort
              (fun a b => (b.2.sub a.2).notPositive = true)).map
            (fun e => formatAmount env e.2.toJVal ++ " " ++ e.1)) := by
  unfold formatCurrencyMap
  simp only
  split
  · rename_i h
    rw [List.length_eq_zero.1 h]
    rfl
  · rfl

theorem numLe_total {a b : Num} (ha : a ≠ Num.nan) (hb : b ≠ Num.nan) :
    a.le b = true ∨ b.le a = true := by
  rw [numLe_iff ha, numLe_iff hb]
  rcases numLt_trichotomy ha hb with h | h | h
  · exact Or.inl (Or.inl h)
  · exact Or.inl (Or.inr h)
  · exact Or.inr (Or.inl h)

theorem numLe_trans {a b c : Num} (ha : a ≠ Num.nan) (hb : b ≠ Num.nan)
    (h1 : a.le b = true) (h2 : b.le c = true) : a.le c = true := by
  rw [numLe_iff ha] at h1 ⊢
  rw [numLe_iff hb] at h2
  rcases h1 with h1 | h1
  · rcases h2 with h2 | h2
    · exact Or.inl (numLt_trans h1 h2)
    · rw [← h2]
      exact Or.inl h1
  · rw [h1]
    exact h2

theorem sorted_entries {entries : List (String × Num)}
    (h : ∀ e ∈ entries, e.2.OnGrid ∧ e.2 ≠ Num.nan) :
    (entries.insertionSort (fun a b => (b.2.sub a.2).notPositive = true)).Sorted
      (fun a b => b.2.le a.2 = true) := by
  have hs := sorted_insertionSort_of (fun a b : String × Num => (b.2.sub a.2).notPositive = true)
    (fun e => e.2.OnGrid ∧ e.2 ≠ Num.nan)
    (fun a b ha hb => by
      show (b.2.sub a.2).notPositive = true ∨ (a.2.sub b.2).notPositive = true
      rw [notPositive_sub_iff ha.1 hb.1 ha.2 hb.2, notPositive_sub_iff hb.1 ha.1 hb.2 ha.2]
      exact (numLe_total ha.2 hb.2).symm)
    (fun a b c ha hb hc hab hbc => by
      show (c.2.sub a.2).notPositive = true
      have hab1 : (b.2.sub a.2).notPositive = true := hab
      have hbc1 : (c.2.sub b.2).notPositive = true := hbc
      rw [notPositive_sub_iff ha.1 hb.1 ha.2 hb.2] at hab1
      rw [notPositive_sub_iff hb.1 hc.1 hb.2 hc.2] at hbc1
      rw [notPositive_sub_iff ha.1 hc.1 ha.2 hc.2]
      exact numLe_trans hc.2 hb.2 hbc1 hab1)
    entries h
  refine List.Pairwise.imp_of_mem ?_ hs
  intro a b ha hb hab
  have ha1 := h a ((List.perm_insertionSort _ _).mem_iff.mp ha)
  have hb1 := h b ((List.perm_insertionSort _ _).mem_iff.mp hb)
  exact (notPositive_sub_iff ha1.1 hb1.1 ha1.2 hb1.2).mp hab

/-- C22, counterexample: for two records of `2^1023` chaos each, the chaos sum of
the totals is plus infinity, which is not zero, and `totalText` is empty: the
sum is omitted. -/
theorem computeIncomeStats_omits_infinite_total :
    ∃ st, computeIncomeStats sampleEnv (hugeRows "chaos") (JVal.str "chaos") JVal.undefined
        = some st
      ∧ (hugeRows "chaos").filter (isSold sampleEnv) = hugeRows "chaos"
      ∧ expectedTotals sampleEnv (hugeRows "chaos") = [("chaos", Num.inf false)]
      ∧ st.totalText = "" := by
  have hst : (computeIncomeStats sampleEnv (hugeRows "chaos") (JVal.str "chaos")
      JVal.undefined).map (fun st => st.totalText) = some "" := by
    decide!
  cases h1 : computeIncomeStats sampleEnv (hugeRows "chaos") (JVal.str "chaos")
      JVal.undefined with
  | none =>
    rw [h1] at hst
    simp at hst
  | some st =>
    rw [h1] at hst
    simp only [Option.map_some', Option.some.injEq] at hst
    exact ⟨st, rfl, by decide!, by decide!, hst⟩

/-- C22, amended: `totalText` is `formatCurrencyMap` of the map that files under
each normalised currency, in the order in which the currencies first occur among
the counted records, the sum of the price amounts of the counted records of that
currency, added up from 0 in input order in the arithmetic of doubles.
`formatCurrencyMap` of a map of doubles joins with `" + "` the items
`"<amount> <currency>"` of the entries whose sum is finite and not zero (the
entries `nonZeroEntries` keeps), ordered by sum descending; the sums of the
totals are such doubles. -/
theorem computeIncomeStats_totalText (env : Env) (rows : List Row) (pc dp : JVal) (st : Stats)
    (h : computeIncomeStats env rows pc dp = some st) :
    st.totalText = formatCurrencyMap env (expectedTotals env (rows.filter (isSold env)))
      ∧ ((expectedTotals env (rows.filter (isSold env))).map Prod.fst).Nodup
      ∧ (∀ c, Num.orZero (mapGet (expectedTotals env (rows.filter (isSold env))) c)
          = sumInOrder (((rows.filter (isSold env)).filter
                (fun r => decide (normalizeCurrency env r.priceCurrency = c))).map amountNum))
      ∧ (∀ e ∈ expectedTotals env (rows.filter (isSold env)), e.2.OnGrid ∧ e.2 ≠ Num.nan)
      ∧ ∀ currencyMap : List (String × Num), (∀ e ∈ currencyMap, e.2.OnGrid) →
          ∃ items : List (String × Num),
            (∀ e, e ∈ items ↔ e ∈ currencyMap ∧ ∃ q, e.2 = Num.fin q ∧ q ≠ 0)
              ∧ items.Perm (nonZeroEntries currencyMap)
              ∧ items.Sorted (fun a b => b.2.le a.2 = true)
              ∧ formatCurrencyMap env currencyMap
                  = String.intercalate " + "
                      (items.map (fun e => formatAmount env e.2.toJVal ++ " " ++ e.1)) := by
  obtain ⟨g, hg, -, htext, -⟩ := computeIncomeStats_some h
  unfold incomeGroups at hg
  have hcur : ∀ r ∈ rows.filter (isSold env), normalizeCurrency env r.priceCurrency ≠ "" :=
    fun r hr => ((isSold_iff env r).1 (List.mem_filter.1 hr).2).2.2
  refine ⟨?_, foldl_totals_nodup env _ [] (by simp), ?_, ?_, ?_⟩
  · rw [htext, incomeLoop_totals env _ _ _ hg hcur]
    rfl
  · intro c
    unfold expectedTotals sumInOrder
    rw [foldl_totals_get]
    rfl
  · exact foldl_totals_grid env _ [] (by simp)
  · intro currencyMap hgrid
    refine ⟨_, ?_, List.perm_insertionSort _ _, ?_, formatCurrencyMap_eq env currencyMap⟩
    · intro e
      rw [(List.perm_insertionSort _ _).mem_iff]
      exact mem_nonZeroEntries
    apply sorted_entries
    intro e he
    obtain ⟨hmem, q, hq, -⟩ := mem_nonZeroEntries.mp he
    refine ⟨hgrid e hmem, ?_⟩
    rw [hq]
    simp

/-- C22, witness: the two records `{100 chaos, 1 divine}` of the unit tests. -/
theorem computeIncomeStats_totalText_witness :
    ∃ st, computeIncomeStats sampleEnv (chaosDivineRows 100) (JVal.str "chaos") JVal.undefined
        = some st
      ∧ st.totalText = "100 chaos + 1 divine" := by
  obtain ⟨st, hst⟩ := computeIncomeStats_returns (JVal.str "chaos") JVal.undefined
    (show ∀ r ∈ chaosDivineRows 100, isSold sampleEnv r = true →
      textLike r.category = true ∧ textLike r.baseType = true ∧ textLike r.name = true
        ∧ textLike r.rarity = true by decide!)
  refine ⟨st, hst, ?_⟩
  rw [(computeIncomeStats_totalText sampleEnv (chaosDivineRows 100) (JVal.str "chaos")
    JVal.undefined st hst).1]
  decide!

/-! ### The groups of `computeIncomeStats` -/

theorem mem_keys_mapSet {κ ν : Type} [DecidableEq κ] (entries : List (κ × ν)) (k c : κ) (v : ν) :
    c ∈ (mapSet entries k v).map Prod.fst ↔ c = k ∨ c ∈ entries.map Prod.fst := by
  induction entries with
  | nil => simp [mapSet]
  | cons e rest ih =>
    obtain ⟨k1, v1⟩ := e
    by_cases h1 : k1 = k
    · subst h1
      simp [mapSet]
    · simp only [mapSet, h1, if_false, List.map_cons, List.mem_cons, ih]
      tauto

theorem mem_keys_of_mapGet {κ ν : Type} [DecidableEq κ] {entries : List (κ × ν)} {k : κ} {v : ν}
    (h : mapGet entries k = some v) : k ∈ entries.map Prod.fst := by
  induction entries with
  | nil => simp [mapGet] at h
  | cons e rest ih =>
    obtain ⟨k1, v1⟩ := e
    by_cases h1 : k1 = k
    · subst h1
      simp
    · simp only [mapGet, h1, if_false] at h
      simp [ih h]

theorem mapGet_bumpCountOnly (groupMap : List (String × Group)) (key c : String) :
    (mapGet (bumpCountOnly groupMap key) c).map (fun g => g.count)
      = if key = c then some (groupCount groupMap key + 1)
        else (mapGet groupMap c).map (fun g => g.count) := by
  unfold bumpCountOnly groupCount
  cases hg : mapGet groupMap key with
  | none =>
    simp only [mapGet_mapSet]
    by_cases h : key = c <;> simp [h]
  | some g =>
    simp only [mapGet_mapSet]
    by_cases h : key = c <;> simp [h]

theorem mapGet_bumpGroupBucket (env : Env) (groupMap : List (String × Group)) (key c : String)
    (currency : JVal) (amount : ℚ) :
    (mapGet (bumpGroupBucket env groupMap key currency amount) c).map (fun g => g.count)
      = (mapGet groupMap c).map (fun g => g.count) := by
  unfold bumpGroupBucket
  cases hg : mapGet groupMap key with
  | none => rfl
  | some g =>
    simp only [mapGet_mapSet]
    by_cases h : key = c
    · subst h
      simp [hg]
    · simp [h]

theorem groupCount_update (env : Env) (groupMap : List (String × Group)) (key c : String)
    (currency : JVal) (amount : ℚ) :
    groupCount (bumpGroupBucket env (bumpCountOnly groupMap key) key currency amount) c
      = groupCount groupMap c + if key = c then 1 else 0 := by
  unfold groupCount
  rw [mapGet_bumpGroupBucket, mapGet_bumpCountOnly]
  by_cases h : key = c
  · subst h
    simp [groupCount]
  · simp [h]

theorem keys_bumpCountOnly (groupMap : List (String × Group)) (key : String)
    (h : (groupMap.map Prod.fst).Nodup) :
    ((bumpCountOnly groupMap key).map Prod.fst).Nodup
      ∧ ∀ c, c ∈ (bumpCountOnly groupMap key).map Prod.fst ↔ c = key ∨ c ∈ groupMap.map Prod.fst := by
  unfold bumpCountOnly
  cases mapGet groupMap key with
  | none => exact ⟨mapSet_keys_nodup _ _ _ h, fun c => mem_keys_mapSet _ _ _ _⟩
  | some g => exact ⟨mapSet_keys_nodup _ _ _ h, fun c => mem_keys_mapSet _ _ _ _⟩

theorem keys_bumpGroupBucket (env : Env) (groupMap : List (String × Group)) (key : String)
    (currency : JVal) (amount : ℚ) (h : (groupMap.map Prod.fst).Nodup) :
    ((bumpGroupBucket env groupMap key currency amount).map Prod.fst).Nodup
      ∧ ∀ c, c ∈ (bumpGroupBucket env groupMap key currency amount).map Prod.fst
          ↔ c ∈ groupMap.map Prod.fst := by
  unfold bumpGroupBucket
  cases hg : mapGet groupMap key with
  | none => exact ⟨h, fun c => Iff.rfl⟩
  | some g =>
    refine ⟨mapSet_keys_nodup _ _ _ h, fun c => ?_⟩
    rw [mem_keys_mapSet]
    constructor
    · rintro (hc | hc)
      · rw [hc]
        exact mem_keys_of_mapGet hg
      · exact hc
    · exact Or.inr

theorem keys_update (env : Env) (groupMap : List (String × Group)) (key : String)
    (currency : JVal) (amount : ℚ) (h : (groupMap.map Prod.fst).Nodup) :
    ((bumpGroupBucket env (bumpCountOnly groupMap key) key currency amount).map Prod.fst).Nodup
      ∧ ∀ c, c ∈ (bumpGroupBucket env (bumpCountOnly groupMap key) key currency amount).map
            Prod.fst ↔ c = key ∨ c ∈ groupMap.map Prod.fst := by
  obtain ⟨h1, h2⟩ := keys_bumpCountOnly groupMap key h
  obtain ⟨h3, h4⟩ := keys_bumpGroupBucket env _ key currency amount h1
  exact ⟨h3, fun c => (h4 c).trans (h2 c)⟩

theorem incomeLoop_groups (env : Env) (proj : IncomeGroups → List (String × Group))
    (label : Row → String)
    (hstep : ∀ g r g1, incomeStep env g r = some g1 →
      proj g1 = bumpGroupBucket env (bumpCountOnly (proj g) (label r)) (label r) r.priceCurrency
        (amountNum r))
    (rows : List Row) :
    ∀ g g1 : IncomeGroups, incomeLoop env g rows = some g1 → ((proj g).map Prod.fst).Nodup →
      ((proj g1).map Prod.fst).Nodup
        ∧ (∀ c, c ∈ (proj g1).map Prod.fst
            ↔ c ∈ (proj g).map Prod.fst ∨ ∃ r ∈ rows, label r = c)
        ∧ ∀ c, groupCount (proj g1) c
            = groupCount (proj g) c + (rows.filter (fun r => decide (label r = c))).length := by
  induction rows with
  | nil =>
    intro g g1 h hnd
    simp only [incomeLoop, Option.some.injEq] at h
    subst h
    exact ⟨hnd, by simp, by simp⟩
  | cons r rest ih =>
    intro g g1 h hnd
    simp only [incomeLoop] at h
    cases hs : incomeStep env g r with
    | none => rw [hs] at h; simp at h
    | some g2 =>
      rw [hs] at h
      simp only at h
      have hproj := hstep g r g2 hs
      obtain ⟨hnd2, hkeys2⟩ := keys_update env (proj g) (label r) r.priceCurrency (amountNum r) hnd
      rw [← hproj] at hnd2 hkeys2
      obtain ⟨h1, h2, h3⟩ := ih g2 g1 h hnd2
      refine ⟨h1, ?_, ?_⟩
      · intro c
        rw [h2 c, hkeys2 c]
        simp only [List.mem_cons, exists_eq_or_imp]
        constructor
        · rintro ((hc | hc) | hc)
          · exact Or.inr (Or.inl hc.symm)
          · exact Or.inl hc
          · exact Or.inr (Or.inr hc)
        · rintro (hc | hc | hc)
          · exact Or.inl (Or.inr hc)
          · exact Or.inl (Or.inl hc.symm)
          · exact Or.inr hc
      · intro c
        rw [h3 c, hproj, groupCount_update]
        by_cases hc : label r = c
        · simp [List.filter_cons, hc]
          omega
        · simp [List.filter_cons, hc]

theorem labelsOf_eq {env : Env} {r : Row} {l : Labels} (h : labelsOf env r = some l) :
    l.dayKey = localDayKey env (timeNum r)
      ∧ l.weekKey = "Week of " ++ localWeekStartKey env (timeNum r)
      ∧ l.categoryKey = labelOrOther r.category
      ∧ l.baseTypeKey = baseTypeLabel r
      ∧ l.rarityKey = labelOrOther r.rarity := by
  unfold labelsOf at h
  simp only at h
  cases hc : trimOrEmpty r.category with
  | none => rw [hc] at h; simp at h
  | some category =>
    rw [hc] at h
    simp only at h
    cases hb : trimOrEmpty r.baseType with
    | none => rw [hb] at h; simp at h
    | some baseType =>
      rw [hb] at h
      simp only at h
      have hcat := trimOrEmpty_eq_some hc
      have hbase := trimOrEmpty_eq_some hb
      subst hcat
      subst hbase
      by_cases hbe : trimmedText r.baseType = ""
      · simp only [hbe, ne_eq, not_true_eq_false, if_false] at h
        cases hn : trimOrEmpty r.name with
        | none => rw [hn] at h; simp at h
        | some name =>
          rw [hn] at h
          simp only at h
          have hname := trimOrEmpty_eq_some hn
          subst hname
          cases hr : trimOrEmpty r.rarity with
          | none => rw [hr] at h; simp at h
          | some rarity =>
            rw [hr] at h
            simp only [Option.some.injEq] at h
            have hrar := trimOrEmpty_eq_some hr
            subst hrar
            subst h
            simp [labelOrOther, baseTypeLabel, orOther, hbe]
      · simp only [hbe, ne_eq, not_false_eq_true, if_true] at h
        cases hr : trimOrEmpty r.rarity with
        | none => rw [hr] at h; simp at h
        | some rarity =>
          rw [hr] at h
          simp only [Option.some.injEq] at h
          have hrar := trimOrEmpty_eq_some hr
          subst hrar
          subst h
          simp [labelOrOther, baseTypeLabel, orOther, hbe]

theorem incomeStep_groups {env : Env} {g g1 : IncomeGroups} {r : Row}
    (h : incomeStep env g r = some g1) :
    g1.byDay = bumpGroupBucket env (bumpCountOnly g.byDay (localDayKey env (timeNum r)))
        (localDayKey env (timeNum r)) r.priceCurrency (amountNum r)
      ∧ g1.byWeek
        = bumpGroupBucket env
            (bumpCountOnly g.byWeek ("Week of " ++ localWeekStartKey env (timeNum r)))
            ("Week of " ++ localWeekStartKey env (timeNum r)) r.priceCurrency (amountNum r)
      ∧ g1.byCategory = bumpGroupBucket env (bumpCountOnly g.byCategory (labelOrOther r.category))
        (labelOrOther r.category) r.priceCurrency (amountNum r)
      ∧ g1.byBaseType = bumpGroupBucket env (bumpCountOnly g.byBaseType (baseTypeLabel r))
        (baseTypeLabel r) r.priceCurrency (amountNum r)
      ∧ g1.byRarity = bumpGroupBucket env (bumpCountOnly g.byRarity (labelOrOther r.rarity))
        (labelOrOther r.rarity) r.priceCurrency (amountNum r) := by
  unfold incomeStep at h
  cases hl : labelsOf env r with
  | none => rw [hl] at h; simp at h
  | some l =>
    rw [hl] at h
    simp only [Option.some.injEq] at h
    obtain ⟨h1, h2, h3, h4, h5⟩ := labelsOf_eq hl
    rw [← h, ← h1, ← h2, ← h3, ← h4, ← h5]
    exact ⟨rfl, rfl, rfl, rfl, rfl⟩

theorem mapGet_of_mem {κ ν : Type} [DecidableEq κ] {entries : List (κ × ν)}
    (h : (entries.map Prod.fst).Nodup) {e : κ × ν} (he : e ∈ entries) :
    mapGet entries e.1 = some e.2 := by
  induction entries with
  | nil => simp at he
  | cons e1 rest ih =>
    obtain ⟨k1, v1⟩ := e1
    simp only [List.map_cons, List.nodup_cons] at h
    rcases List.mem_cons.1 he with heq | hmem
    · subst heq
      simp [mapGet]
    · have hne : k1 ≠ e.1 := by
        intro hk
        exact h.1 (by rw [hk]; exact List.mem_map_of_mem Prod.fst hmem)
      simp only [mapGet, hne, if_false]
      exact ih h.2 hmem

theorem incomeGroups_spec {env : Env} {rows : List Row} {g : IncomeGroups}
    (h : incomeGroups env rows = some g) (proj : IncomeGroups → List (String × Group))
    (label : Row → String) (hempty : proj IncomeGroups.empty = [])
    (hstep : ∀ g r g1, incomeStep env g r = some g1 →
      proj g1 = bumpGroupBucket env (bumpCountOnly (proj g) (label r)) (label r) r.priceCurrency
        (amountNum r)) :
    ((proj g).map Prod.fst).Nodup
      ∧ (∀ c, c ∈ (proj g).map Prod.fst ↔ ∃ r ∈ rows.filter (isSold env), label r = c)
      ∧ ∀ c, groupCount (proj g) c
          = ((rows.filter (isSold env)).filter (fun r => decide (label r = c))).length := by
  unfold incomeGroups at h
  obtain ⟨h1, h2, h3⟩ := incomeLoop_groups env proj label hstep _ _ _ h
    (by rw [hempty]; exact List.nodup_nil)
  refine ⟨h1, ?_, ?_⟩
  · intro c
    rw [h2 c, hempty]
    simp
  · intro c
    rw [h3 c, hempty]
    simp [groupCount, mapGet]

/-- C23: the label fields are read without error when they are strings or falsy.
The base-type label of a counted record is its trimmed `baseType` if that is
non-empty, else its trimmed `name` if that is non-empty, else `Other`, with
`(unknown)` turned into `Other`; the category and rarity labels are the trimmed
field, or `Other` if that is empty.  So a record with empty `baseType` and the
name `(unknown)` has the base-type label `Other`.  Each grouping counts under a
label exactly the counted records with that label, and so does each row of the
three tables. -/
theorem computeIncomeStats_group_labels (env : Env) (rows : List Row) :
    (∀ r, textLike r.category = true → textLike r.baseType = true → textLike r.name = true →
        textLike r.rarity = true → ∃ l, labelsOf env r = some l)
      ∧ (∀ r l, labelsOf env r = some l →
          l.baseTypeKey = baseTypeLabel r ∧ l.categoryKey = labelOrOther r.category
            ∧ l.rarityKey = labelOrOther r.rarity)
      ∧ (∀ r, trimmedText r.baseType = "" → trimmedText r.name = "(unknown)" →
          baseTypeLabel r = "Other")
      ∧ (∀ v, trimmedText v = "" → labelOrOther v = "Other")
      ∧ (∀ g, incomeGroups env rows = some g → ∀ c,
          groupCount g.byBaseType c
              = ((rows.filter (isSold env)).filter
                  (fun r => decide (baseTypeLabel r = c))).length
            ∧ groupCount g.byCategory c
              = ((rows.filter (isSold env)).filter
                  (fun r => decide (labelOrOther r.category = c))).length
            ∧ groupCount g.byRarity c
              = ((rows.filter (isSold env)).filter
                  (fun r => decide (labelOrOther r.rarity = c))).length)
      ∧ ∀ pc dp st, computeIncomeStats env rows pc dp = some st →
          (∀ row ∈ st.byBaseType, row.count
              = ((rows.filter (isSold env)).filter
                  (fun r => decide (baseTypeLabel r = row.label))).length)
            ∧ (∀ row ∈ st.byCategory, row.count
              = ((rows.filter (isSold env)).filter
                  (fun r => decide (labelOrOther r.category = row.label))).length)
            ∧ (∀ row ∈ st.byRarity, row.count
              = ((rows.filter (isSold env)).filter
                  (fun r => decide (labelOrOther r.rarity = row.label))).length) := by
  have hbase := fun g (hg : incomeGroups env rows = some g) =>
    incomeGroups_spec hg (fun g => g.byBaseType) baseTypeLabel rfl
      (fun g r g1 h => (incomeStep_groups h).2.2.2.1)
  have hcat := fun g (hg : incomeGroups env rows = some g) =>
    incomeGroups_spec hg (fun g => g.byCategory) (fun r => labelOrOther r.category) rfl
      (fun g r g1 h => (incomeStep_groups h).2.2.1)
  have hrar := fun g (hg : incomeGroups env rows = some g) =>
    incomeGroups_spec hg (fun g => g.byRarity) (fun r => labelOrOther r.rarity) rfl
      (fun g r g1 h => (incomeStep_groups h).2.2.2.2)
  refine ⟨fun r h1 h2 h3 h4 => labelsOf_isSome h1 h2 h3 h4, ?_, ?_, ?_, ?_, ?_⟩
  · intro r l hl
    obtain ⟨-, -, h3, h4, h5⟩ := labelsOf_eq hl
    exact ⟨h4, h3, h5⟩
  · intro r hb hn
    simp [baseTypeLabel, labelOrOther, hb, hn]
  · intro v hv
    simp [labelOrOther, hv]
  · intro g hg c
    exact ⟨(hbase g hg).2.2 c, (hcat g hg).2.2 c, (hrar g hg).2.2 c⟩
  · intro pc dp st hst
    obtain ⟨g, hg, -, -, -, -, -, -, h3, h4, h5⟩ := computeIncomeStats_some hst
    refine ⟨?_, ?_, ?_⟩
    · intro row hrow
      rw [h4] at hrow
      obtain ⟨e, he, hlabel, hcount, -⟩ := mem_toStatRows hrow
      have hget := mapGet_of_mem (hbase g hg).1 he
      rw [← (hbase g hg).2.2 row.label, hlabel, hcount]
      simp [groupCount, hget]
    · intro row hrow
      rw [h3] at hrow
      obtain ⟨e, he, hlabel, hcount, -⟩ := mem_toStatRows hrow
      have hget := mapGet_of_mem (hcat g hg).1 he
      rw [← (hcat g hg).2.2 row.label, hlabel, hcount]
      simp [groupCount, hget]
    · intro row hrow
      rw [h5] at hrow
      obtain ⟨e, he, hlabel, hcount, -⟩ := mem_toStatRows hrow
      have hget := mapGet_of_mem (hrar g hg).1 he
      rw [← (hrar g hg).2.2 row.label, hlabel, hcount]
      simp [groupCount, hget]

/-- C23, witness: the record without base type and with the name `(unknown)` is
counted under `Other` in the base-type, category and rarity groupings. -/
theorem computeIncomeStats_group_labels_witness :
    ∃ g, incomeGroups sampleEnv [unknownNameRow] = some g
      ∧ groupCount g.byBaseType "Other" = 1 ∧ groupCount g.byBaseType "(unknown)" = 0
      ∧ groupCount g.byCategory "Other" = 1 ∧ groupCount g.byRarity "Other" = 1 := by
  have hsome : (incomeGroups sampleEnv [unknownNameRow]).isSome = true := by decide!
  obtain ⟨g, hg⟩ := Option.isSome_iff_exists.mp hsome
  have h := (computeIncomeStats_group_labels sampleEnv [unknownNameRow]).2.2.2.2.1 g hg
  refine ⟨g, hg, ?_, ?_, ?_, ?_⟩
  · rw [(h "Other").1]
    decide!
  · rw [(h "(unknown)").1]
    decide!
  · rw [(h "Other").2.1]
    decide!
  · rw [(h "Other").2.2]
    decide!


/-! ### Order and length of the tables -/

theorem toStatRows_eq (env : Env) (groupMap : List (String × Group)) (keyDesc : Bool)
    (pc dp : JVal) (limit : Nat) :
    toStatRows env groupMap keyDesc pc dp limit
      = ((if keyDesc then
            (groupMap.map (statRowOf env pc dp)).insertionSort
              (fun a b => env.localeCompare b.label a.label ≤ 0)
          else
            (groupMap.map (statRowOf env pc dp)).insertionSort
              (fun a b => (preferredThenCount env a b).notPositive = true))).take limit := rfl

theorem numAdd_grid_all (a b : Num) : (a.add b).OnGrid := by
  cases a with
  | fin p =>
    cases b with
    | fin q => exact fl_grid _
    | inf n => trivial
    | nan => trivial
  | inf m =>
    cases b with
    | fin q => trivial
    | inf n =>
      by_cases hmn : m = n
      · simp only [Num.add, if_pos hmn]
        trivial
      · simp only [Num.add, if_neg hmn]
        trivial
    | nan => trivial
  | nan => cases b <;> trivial

theorem tryConvert_grid {env : Env} {currencyMap : List (String × Num)} {pc dp : JVal}
    {c : Num} (h : tryConvertChaosDivineOnly env currencyMap pc dp = some c) : c.OnGrid := by
  unfold tryConvertChaosDivineOnly at h
  split at h
  · simp at h
  · simp only at h
    split at h
    · simp at h
    · split at h
      · simp only [Option.some.injEq] at h
        rw [← h]
        exact ⟨0, by simp⟩
      · split at h
        · simp at h
        · split at h
          · simp only [Option.some.injEq] at h
            rw [← h]
            exact numAdd_grid_all _ _
          · simp only [Option.some.injEq] at h
            rw [← h]
            exact numAdd_grid_all _ _

theorem preferredAmount_grid {env : Env} {currencyMap : List (String × Num)} (pc dp : JVal)
    (h : ∀ c ∈ currencyMap, c.2.OnGrid) :
    (preferredAmountForGroup env currencyMap pc dp).OnGrid := by
  unfold preferredAmountForGroup
  simp only
  split
  · rename_i c hc
    exact tryConvert_grid hc
  · apply orZero_grid
    intro v hv
    exact h _ (mem_of_mapGet hv)

theorem numAdd_fin_ne_nan (p : ℚ) {b : Num} (hb : b ≠ Num.nan) :
    (Num.fin p).add b ≠ Num.nan := by
  cases b with
  | fin q => exact fl_ne_nan _
  | inf n => simp [Num.add]
  | nan => exact absurd rfl hb

theorem orZero_finite {currencyMap : List (String × Num)}
    (h : ∀ c ∈ currencyMap, c.2.isFinite = true) (k : String) :
    ∃ q, Num.orZero (mapGet currencyMap k) = Num.fin q := by
  cases hget : mapGet currencyMap k with
  | none => exact ⟨0, rfl⟩
  | some v =>
    have hf := h _ (mem_of_mapGet hget)
    cases v with
    | fin q => exact ⟨q, rfl⟩
    | inf n => simp [Num.isFinite] at hf
    | nan => exact ⟨0, rfl⟩

theorem preferredAmount_ne_nan {env : Env} {currencyMap : List (String × Num)} (pc dp : JVal)
    (h : toPositiveNumberOrNull env dp = none ∨ ∀ c ∈ currencyMap, c.2.isFinite = true) :
    preferredAmountForGroup env currencyMap pc dp ≠ Num.nan := by
  unfold preferredAmountForGroup
  simp only
  split
  · rename_i c hc
    rcases h with h | h
    · unfold tryConvertChaosDivineOnly at hc
      rw [h] at hc
      simp at hc
    · obtain ⟨x, hx⟩ := orZero_finite h "chaos"
      obtain ⟨y, hy⟩ := orZero_finite h "divine"
      unfold tryConvertChaosDivineOnly at hc
      split at hc
      · simp at hc
      · rename_i price hprice
        have hpos : price ≠ 0 := by
          intro h0
          unfold toPositiveNumberOrNull at hprice
          split at hprice
          · split at hprice
            · simp only [Option.some.injEq] at hprice
              subst hprice
              rename_i hq
              rw [h0] at hq
              exact lt_irrefl _ hq
            · simp at hprice
          · simp only at hprice
            split at hprice
            · simp at hprice
            · split at hprice
              · split at hprice
                · simp only [Option.some.injEq] at hprice
                  subst hprice
                  rename_i hq
                  rw [h0] at hq
                  exact lt_irrefl _ hq
                · simp at hprice
              · simp at hprice
          · simp at hprice
        simp only at hc
        split at hc
        · simp at hc
        · split at hc
          · simp only [Option.some.injEq] at hc
            rw [← hc]
            simp
          · split at hc
            · simp at hc
            · split at hc
              · simp only [Option.some.injEq] at hc
                rw [← hc, hx, hy]
                apply numAdd_fin_ne_nan
                exact fl_ne_nan _
              · simp only [Option.some.injEq] at hc
                rw [← hc, hx, hy]
                apply numAdd_fin_ne_nan
                simp only [Num.div, if_neg hpos]
                exact fl_ne_nan _
  · exact orZero_ne_nan _

theorem grid_bumpBucket {env : Env} {currencyMap : List (String × Num)} (currency : JVal)
    (amount : ℚ) (h : ∀ c ∈ currencyMap, c.2.OnGrid) :
    ∀ c ∈ bumpBucket env currencyMap currency amount, c.2.OnGrid := by
  unfold bumpBucket
  simp only
  split
  · exact h
  · intro c hc
    rcases mem_mapSet_value hc with h1 | h1
    · exact h c h1
    · rw [h1]
      exact numAdd_grid _ _

theorem grid_update {env : Env} {groupMap : List (String × Group)} (key : String)
    (currency : JVal) (amount : ℚ)
    (h : ∀ e ∈ groupMap, ∀ c ∈ e.2.byCurrency, c.2.OnGrid) :
    ∀ e ∈ bumpGroupBucket env (bumpCountOnly groupMap key) key currency amount,
      ∀ c ∈ e.2.byCurrency, c.2.OnGrid := by
  have h1 : ∀ e ∈ bumpCountOnly groupMap key, ∀ c ∈ e.2.byCurrency, c.2.OnGrid := by
    unfold bumpCountOnly
    cases hg : mapGet groupMap key with
    | none =>
      intro e he
      rcases mem_mapSet_value he with h2 | h2
      · exact h e h2
      · rw [h2]
        intro c hc
        simp at hc
    | some g =>
      intro e he
      rcases mem_mapSet_value he with h2 | h2
      · exact h e h2
      · rw [h2]
        exact h _ (mem_of_mapGet hg)
  unfold bumpGroupBucket
  cases hg : mapGet (bumpCountOnly groupMap key) key with
  | none => exact h1
  | some g =>
    intro e he
    rcases mem_mapSet_value he with h2 | h2
    · exact h1 e h2
    · rw [h2]
      exact grid_bumpBucket currency amount (h1 _ (mem_of_mapGet hg))

theorem incomeLoop_grid (env : Env) (proj : IncomeGroups → List (String × Group))
    (label : Row → String)
    (hstep : ∀ g r g1, incomeStep env g r = some g1 →
      proj g1 = bumpGroupBucket env (bumpCountOnly (proj g) (label r)) (label r) r.priceCurrency
        (amountNum r))
    (rows : List Row) :
    ∀ g g1 : IncomeGroups, incomeLoop env g rows = some g1 →
      (∀ e ∈ proj g, ∀ c ∈ e.2.byCurrency, c.2.OnGrid) →
      ∀ e ∈ proj g1, ∀ c ∈ e.2.byCurrency, c.2.OnGrid := by
  induction rows with
  | nil =>
    intro g g1 h hg
    simp only [incomeLoop, Option.some.injEq] at h
    subst h
    exact hg
  | cons r rest ih =>
    intro g g1 h hg
    simp only [incomeLoop] at h
    cases hs : incomeStep env g r with
    | none => rw [hs] at h; simp at h
    | some g2 =>
      rw [hs] at h
      simp only at h
      apply ih g2 g1 h
      rw [hstep g r g2 hs]
      exact grid_update _ _ _ hg

theorem incomeGroups_grid {env : Env} {rows : List Row} {g : IncomeGroups}
    (h : incomeGroups env rows = some g) (proj : IncomeGroups → List (String × Group))
    (label : Row → String) (hempty : proj IncomeGroups.empty = [])
    (hstep : ∀ g r g1, incomeStep env g r = some g1 →
      proj g1 = bumpGroupBucket env (bumpCountOnly (proj g) (label r)) (label r) r.priceCurrency
        (amountNum r)) :
    ∀ e ∈ proj g, ∀ c ∈ e.2.byCurrency, c.2.OnGrid := by
  unfold incomeGroups at h
  exact incomeLoop_grid env proj label hstep _ _ _ h (by rw [hempty]; simp)

theorem notPositive_fin (x : ℚ) : (Num.fin x).notPositive = true ↔ x ≤ 0 := by
  simp [Num.notPositive, Num.lt]

theorem preferredThenCount_iff (env : Env) {a b : StatRow}
    (ha : a.preferredAmount.OnGrid ∧ a.preferredAmount ≠ Num.nan)
    (hb : b.preferredAmount.OnGrid ∧ b.preferredAmount ≠ Num.nan) :
    (preferredThenCount env a b).notPositive = true ↔ RanksBefore env a b := by
  unfold preferredThenCount RanksBefore
  by_cases hs : b.preferredAmount.strictEq a.preferredAmount = false
  · have hne : b.preferredAmount ≠ a.preferredAmount := by
      intro heq
      have := (strictEq_iff hb.2).mpr heq
      rw [this] at hs
      simp at hs
    rw [if_pos hs, notPositive_sub_iff ha.1 hb.1 ha.2 hb.2, numLe_iff hb.2]
    constructor
    · rintro (h | h)
      · exact Or.inl h
      · exact absurd h hne
    · rintro (h | ⟨h, -⟩)
      · exact Or.inl h
      · exact absurd h hne
  · have heq : b.preferredAmount = a.preferredAmount := by
      apply (strictEq_iff hb.2).mp
      simpa using hs
    have hlt : a.preferredAmount.lt a.preferredAmount = false := numLt_irrefl _
    rw [if_neg hs]
    by_cases hc : b.count = a.count
    · simp [hc, heq, hlt, notPositive_fin]
    · have hc1 : ((b.count : ℚ) - (a.count : ℚ) ≤ 0) ↔ b.count < a.count := by
        rw [sub_nonpos, Nat.cast_le]
        omega
      simp [hc, heq, hlt, notPositive_fin, hc1]

theorem ranksBefore_total {env : Env} (h : OrdersLabels env) {a b : StatRow}
    (ha : a.preferredAmount ≠ Num.nan) (hb : b.preferredAmount ≠ Num.nan) :
    RanksBefore env a b ∨ RanksBefore env b a := by
  unfold RanksBefore
  rcases numLt_trichotomy ha hb with hp | hp | hp
  · exact Or.inr (Or.inl hp)
  · rcases lt_trichotomy a.count b.count with hc | hc | hc
    · exact Or.inr (Or.inr ⟨hp, Or.inl hc⟩)
    · rcases h.1 a.label b.label with hl | hl
      · exact Or.inl (Or.inr ⟨hp.symm, Or.inr ⟨hc.symm, hl⟩⟩)
      · exact Or.inr (Or.inr ⟨hp, Or.inr ⟨hc, hl⟩⟩)
    · exact Or.inl (Or.inr ⟨hp.symm, Or.inl hc⟩)
  · exact Or.inl (Or.inl hp)

theorem ranksBefore_trans {env : Env} (h : OrdersLabels env) {a b c : StatRow}
    (hab : RanksBefore env a b) (hbc : RanksBefore env b c) : RanksBefore env a c := by
  unfold RanksBefore at hab hbc ⊢
  rcases hab with hab | ⟨hab, hab1⟩
  · rcases hbc with hbc | ⟨hbc, -⟩
    · exact Or.inl (numLt_trans hbc hab)
    · exact Or.inl (by rw [hbc]; exact hab)
  · rcases hbc with hbc | ⟨hbc, hbc1⟩
    · exact Or.inl (by rw [← hab]; exact hbc)
    · refine Or.inr ⟨hbc.trans hab, ?_⟩
      rcases hab1 with hab1 | ⟨hab1, hab2⟩
      · rcases hbc1 with hbc1 | ⟨hbc1, -⟩
        · exact Or.inl (lt_trans hbc1 hab1)
        · exact Or.inl (by rw [hbc1]; exact hab1)
      · rcases hbc1 with hbc1 | ⟨hbc1, hbc2⟩
        · exact Or.inl (by rw [← hab1]; exact hbc1)
        · exact Or.inr ⟨hbc1.trans hab1, h.2 _ _ _ hab2 hbc2⟩

theorem sorted_ranked {env : Env} (h : OrdersLabels env) (rows : List StatRow)
    (hrows : ∀ row ∈ rows, row.preferredAmount.OnGrid ∧ row.preferredAmount ≠ Num.nan) :
    (rows.insertionSort (fun a b => (preferredThenCount env a b).notPositive = true)).Sorted
      (RanksBefore env) := by
  have hs := sorted_insertionSort_of
    (fun a b : StatRow => (preferredThenCount env a b).notPositive = true)
    (fun row => row.preferredAmount.OnGrid ∧ row.preferredAmount ≠ Num.nan)
    (fun a b ha hb => by
      show (preferredThenCount env a b).notPositive = true
        ∨ (preferredThenCount env b a).notPositive = true
      rw [preferredThenCount_iff env ha hb, preferredThenCount_iff env hb ha]
      exact ranksBefore_total h ha.2 hb.2)
    (fun a b c ha hb hc hab hbc => by
      show (preferredThenCount env a c).notPositive = true
      have hab1 : (preferredThenCount env a b).notPositive = true := hab
      have hbc1 : (preferredThenCount env b c).notPositive = true := hbc
      rw [preferredThenCount_iff env ha hb] at hab1
      rw [preferredThenCount_iff env hb hc] at hbc1
      rw [preferredThenCount_iff env ha hc]
      exact ranksBefore_trans h hab1 hbc1)
    rows hrows
  refine List.Pairwise.imp_of_mem ?_ hs
  intro a b ha hb hab
  exact (preferredThenCount_iff env
    (hrows a ((List.perm_insertionSort _ _).mem_iff.mp ha))
    (hrows b ((List.perm_insertionSort _ _).mem_iff.mp hb))).mp hab

theorem keys_map_statRowOf (env : Env) (pc dp : JVal) (groupMap : List (String × Group)) :
    (groupMap.map (statRowOf env pc dp)).map (fun row => row.label) = groupMap.map Prod.fst := by
  rw [List.map_map]
  rfl

theorem rankedTable_toStatRows {env : Env} (h : OrdersLabels env) (pc dp : JVal)
    {groupMap : List (String × Group)} {labels : List String} (limit : Nat)
    (hnd : (groupMap.map Prod.fst).Nodup)
    (hkeys : ∀ c, c ∈ groupMap.map Prod.fst ↔ c ∈ labels)
    (hgrid : ∀ e ∈ groupMap, ∀ c ∈ e.2.byCurrency, c.2.OnGrid) :
    RankedTable env pc dp groupMap labels limit (toStatRows env groupMap false pc dp limit) := by
  have hperm : (groupMap.map Prod.fst).Perm labels.dedup :=
    (List.perm_ext_iff_of_nodup hnd (List.nodup_dedup _)).2
      (fun c => by rw [hkeys c, List.mem_dedup])
  have hsort := List.perm_insertionSort
    (fun a b => (preferredThenCount env a b).notPositive = true)
    (groupMap.map (statRowOf env pc dp))
  rw [toStatRows_eq]
  simp only [Bool.false_eq_true, if_false]
  refine ⟨?_, _, hsort, ?_, ?_, rfl⟩
  · rw [List.length_take, hsort.length_eq, List.length_map, ← hperm.length_eq, List.length_map]
  · have := (hsort.map (fun row => row.label))
    rw [keys_map_statRowOf] at this
    exact this.trans hperm
  · intro hnan
    apply sorted_ranked h
    intro row hrow
    obtain ⟨e, he, rfl⟩ := List.mem_map.mp hrow
    exact ⟨preferredAmount_grid pc dp (hgrid e he), hnan e he⟩

theorem recentTable_toStatRows {env : Env} (h : OrdersLabels env) (pc dp : JVal)
    {groupMap : List (String × Group)} (limit : Nat) (hnd : (groupMap.map Prod.fst).Nodup)
    (hsep : SeparatesLabels env (groupMap.map Prod.fst)) :
    RecentTable env pc dp groupMap limit (toStatRows env groupMap true pc dp limit) := by
  have hsort := List.perm_insertionSort (fun a b => env.localeCompare b.label a.label ≤ 0)
    (groupMap.map (statRowOf env pc dp))
  have hsorted := @List.sorted_insertionSort StatRow
    (fun a b => env.localeCompare b.label a.label ≤ 0) _
    ⟨fun a b => (h.1 b.label a.label)⟩
    ⟨fun a b c hab hbc => h.2 _ _ _ hbc hab⟩ (groupMap.map (statRowOf env pc dp))
  have hlabels : ((List.insertionSort (fun a b => env.localeCompare b.label a.label ≤ 0)
      (groupMap.map (statRowOf env pc dp))).map (fun row => row.label)).Nodup := by
    have := (hsort.map (fun row => row.label))
    rw [keys_map_statRowOf] at this
    exact this.nodup_iff.2 hnd
  have hstrict : (List.insertionSort (fun a b => env.localeCompare b.label a.label ≤ 0)
      (groupMap.map (statRowOf env pc dp))).Pairwise
        (fun a b => env.localeCompare b.label a.label < 0) := by
    have hne := (List.pairwise_map.1 hlabels)
    refine (hsorted.and hne).imp_of_mem ?_
    rintro a b ha hb ⟨hle, hne⟩
    have hkey : ∀ x ∈ List.insertionSort (fun a b => env.localeCompare b.label a.label ≤ 0)
        (groupMap.map (statRowOf env pc dp)), x.label ∈ groupMap.map Prod.fst := by
      intro x hx
      rw [← keys_map_statRowOf env pc dp]
      exact List.mem_map_of_mem (fun row => row.label) (hsort.mem_iff.1 hx)
    exact lt_of_le_of_ne hle (fun h0 => hne (hsep _ (hkey b hb) _ (hkey a ha) h0).symm)
  rw [toStatRows_eq]
  simp only [if_true]
  generalize hs : List.insertionSort (fun a b => env.localeCompare b.label a.label ≤ 0)
      (groupMap.map (statRowOf env pc dp)) = sorted at hsort hstrict hlabels
  refine ⟨List.length_take_le _ _, ?_, ?_, ?_, ?_⟩
  · rw [List.length_take, hsort.length_eq, List.length_map]
  · intro row hrow
    have hmem := hsort.mem_iff.1 (List.mem_of_mem_take hrow)
    obtain ⟨e, he, heq⟩ := List.mem_map.1 hmem
    exact ⟨e, he, heq.symm⟩
  · exact hstrict.sublist (List.take_sublist _ _)
  · intro e he hout row hrow
    have hmem : statRowOf env pc dp e ∈ sorted :=
      hsort.mem_iff.2 (List.mem_map_of_mem _ he)
    rw [← List.take_append_drop limit sorted] at hmem hstrict
    rcases List.mem_append.1 hmem with hin | hin
    · exact absurd (List.mem_map_of_mem (fun row => row.label) hin) hout
    · exact (List.pairwise_append.1 hstrict).2.2 row hrow _ hin

theorem ordersLabels_sampleEnv : OrdersLabels sampleEnv := by
  have hle : ∀ a b : String, sampleEnv.localeCompare a b ≤ 0 ↔ a ≤ b := by
    intro a b
    show (if a < b then (-1 : Int) else if a = b then 0 else 1) ≤ 0 ↔ a ≤ b
    by_cases h1 : a < b
    · simp [h1, le_of_lt h1]
    · by_cases h2 : a = b
      · simp [h2]
      · have : ¬ a ≤ b := fun hab => h1 (lt_of_le_of_ne hab h2)
        simp [h1, h2, this]
  refine ⟨?_, ?_⟩
  · intro a b
    rw [hle, hle]
    exact le_total a b
  · intro a b c
    rw [hle, hle, hle]
    exact le_trans

theorem separatesLabels_sampleEnv (labels : List String) : SeparatesLabels sampleEnv labels := by
  intro a _ b _
  show (if a < b then (-1 : Int) else if a = b then 0 else 1) = 0 → a = b
  by_cases h1 : a < b
  · simp [h1]
  · by_cases h2 : a = b
    · simp [h2]
    · simp [h1, h2]

/-- C24, counterexample: with the rate 150 and the preferred currency chaos, the
category `a` of `nanCategoryRows` has the preferred amount `NaN` (minus infinity
plus infinity), and `byCategory` lists the category `b` with the amount 5 before
the category `c` with the amount 7. -/
theorem computeIncomeStats_ranks_around_nan :
    ∃ st, computeIncomeStats sampleEnv nanCategoryRows (JVal.str "chaos") (JVal.num 150)
        = some st
      ∧ st.byCategory.map (fun row => (row.label, row.preferredAmount))
          = [("b", Num.fin 5), ("a", Num.nan), ("c", Num.fin 7)]
      ∧ (Num.fin 5).lt (Num.fin 7) = true := by
  have hval : (computeIncomeStats sampleEnv nanCategoryRows (JVal.str "chaos")
      (JVal.num 150)).map
        (fun st => st.byCategory.map (fun row => (row.label, row.preferredAmount)))
      = some [("b", Num.fin 5), ("a", Num.nan), ("c", Num.fin 7)] := by decide!
  cases h1 : computeIncomeStats sampleEnv nanCategoryRows (JVal.str "chaos")
      (JVal.num 150) with
  | none =>
    rw [h1] at hval
    simp at hval
  | some st =>
    rw [h1] at hval
    exact ⟨st, rfl, Option.some.inj hval, by decide!⟩

/-- C24, amended: when `localeCompare` orders the labels, each of the tables
`byCategory`, `byBaseType` and `byRarity` has exactly `min(12, d)` rows, `d` being
the number of distinct labels of the counted records, and consists of the first
12 rows of a list that holds one row for each group; when no preferred amount of
the grouping is `NaN`, that list is ordered by preferred amount descending, then
trade count descending, then label ascending.  No preferred amount is `NaN` when
no rate is supplied or all sums of the grouping are finite. -/
theorem computeIncomeStats_ranked_tables (env : Env) (horder : OrdersLabels env)
    (rows : List Row) (pc dp : JVal) (st : Stats)
    (h : computeIncomeStats env rows pc dp = some st) :
    ∃ g, incomeGroups env rows = some g
      ∧ RankedTable env (JVal.str st.preferredCurrency) (numOrNull st.divineChaosPrice)
          g.byCategory ((rows.filter (isSold env)).map (fun r => labelOrOther r.category)) 12
          st.byCategory
      ∧ RankedTable env (JVal.str st.preferredCurrency) (numOrNull st.divineChaosPrice)
          g.byBaseType ((rows.filter (isSold env)).map baseTypeLabel) 12 st.byBaseType
      ∧ RankedTable env (JVal.str st.preferredCurrency) (numOrNull st.divineChaosPrice)
          g.byRarity ((rows.filter (isSold env)).map (fun r => labelOrOther r.rarity)) 12
          st.byRarity
      ∧ ∀ groupMap : List (String × Group),
          (st.divineChaosPrice = none
            ∨ ∀ e ∈ groupMap, ∀ c ∈ e.2.byCurrency, c.2.isFinite = true) →
          NanFree env (JVal.str st.preferredCurrency) (numOrNull st.divineChaosPrice)
            groupMap := by
  obtain ⟨g, hg, -, -, -, -, -, -, h3, h4, h5⟩ := computeIncomeStats_some h
  obtain ⟨b1, b2, -⟩ := incomeGroups_spec hg (fun g => g.byBaseType) baseTypeLabel rfl
    (fun g r g1 h => (incomeStep_groups h).2.2.2.1)
  obtain ⟨c1, c2, -⟩ := incomeGroups_spec hg (fun g => g.byCategory)
    (fun r => labelOrOther r.category) rfl (fun g r g1 h => (incomeStep_groups h).2.2.1)
  obtain ⟨r1, r2, -⟩ := incomeGroups_spec hg (fun g => g.byRarity)
    (fun r => labelOrOther r.rarity) rfl (fun g r g1 h => (incomeStep_groups h).2.2.2.2)
  have b3 := incomeGroups_grid hg (fun g => g.byBaseType) baseTypeLabel rfl
    (fun g r g1 h => (incomeStep_groups h).2.2.2.1)
  have c3 := incomeGroups_grid hg (fun g => g.byCategory)
    (fun r => labelOrOther r.category) rfl (fun g r g1 h => (incomeStep_groups h).2.2.1)
  have r3 := incomeGroups_grid hg (fun g => g.byRarity)
    (fun r => labelOrOther r.rarity) rfl (fun g r g1 h => (incomeStep_groups h).2.2.2.2)
  refine ⟨g, hg, ?_, ?_, ?_, ?_⟩
  · rw [h3]
    exact rankedTable_toStatRows horder _ _ 12 c1 (fun c => by rw [c2 c]; simp) c3
  · rw [h4]
    exact rankedTable_toStatRows horder _ _ 12 b1 (fun c => by rw [b2 c]; simp) b3
  · rw [h5]
    exact rankedTable_toStatRows horder _ _ 12 r1 (fun c => by rw [r2 c]; simp) r3
  · intro groupMap hfree e he
    apply preferredAmount_ne_nan
    rcases hfree with hf | hf
    · left
      rw [hf]
      rfl
    · right
      exact hf e he

/-- C24, witness: twenty categories with one trade each at the prices 1 to 20 chaos
give the twelve rows with the largest amounts, in descending order. -/
theorem computeIncomeStats_ranked_tables_witness :
    ∃ st, computeIncomeStats sampleEnv twentyCategories (JVal.str "chaos") JVal.undefined
        = some st
      ∧ st.byCategory.length = 12
      ∧ st.byCategory.Sorted (RanksBefore sampleEnv)
      ∧ st.byCategory.map (fun row => (row.label, row.preferredAmount))
        = [("t", Num.fin 20), ("s", Num.fin 19), ("r", Num.fin 18), ("q", Num.fin 17),
            ("p", Num.fin 16), ("o", Num.fin 15), ("n", Num.fin 14), ("m", Num.fin 13),
            ("l", Num.fin 12), ("k", Num.fin 11), ("j", Num.fin 10), ("i", Num.fin 9)] := by
  obtain ⟨st, hst⟩ := computeIncomeStats_returns (JVal.str "chaos") JVal.undefined
    (show ∀ r ∈ twentyCategories, isSold sampleEnv r = true →
      textLike r.category = true ∧ textLike r.baseType = true ∧ textLike r.name = true
        ∧ textLike r.rarity = true by decide!)
  obtain ⟨g, -, ⟨hlen, ranked, -, -, hsorted, htable⟩, -, -, hfree⟩ :=
    computeIncomeStats_ranked_tables sampleEnv ordersLabels_sampleEnv twentyCategories
      (JVal.str "chaos") JVal.undefined st hst
  have hprice : st.divineChaosPrice = none := by
    have hp : (computeIncomeStats sampleEnv twentyCategories (JVal.str "chaos")
        JVal.undefined).map (fun st => st.divineChaosPrice) = some none := by decide!
    rw [hst] at hp
    exact Option.some.inj hp
  have hd : ((twentyCategories.filter (isSold sampleEnv)).map
      (fun r => labelOrOther r.category)).dedup.length = 20 := by decide!
  have hval : (computeIncomeStats sampleEnv twentyCategories (JVal.str "chaos")
      JVal.undefined).map
        (fun st => st.byCategory.map (fun row => (row.label, row.preferredAmount)))
      = some [("t", Num.fin 20), ("s", Num.fin 19), ("r", Num.fin 18), ("q", Num.fin 17),
          ("p", Num.fin 16), ("o", Num.fin 15), ("n", Num.fin 14), ("m", Num.fin 13),
          ("l", Num.fin 12), ("k", Num.fin 11), ("j", Num.fin 10), ("i", Num.fin 9)] := by
    decide!
  rw [hst] at hval
  rw [hd] at hlen
  refine ⟨st, hst, hlen, ?_, Option.some.inj hval⟩
  rw [htable]
  exact (hsorted (hfree _ (Or.inl hprice))).sublist (List.take_sublist _ _)

/-- C25: when `localeCompare` orders the labels and tells different day keys and
different week keys of the counted records apart, `byDay` has at most 14 rows and
`byWeek` at most 12, one row per group of `min(limit, groups)` groups; in each
table every row has a label strictly greater than the labels of the rows after
it, and every group left out of a table has a label smaller than that of each
row of the table.  The groups are the day keys and the week keys of the counted
records. -/
theorem computeIncomeStats_recent_tables (env : Env) (horder : OrdersLabels env)
    (rows : List Row) (pc dp : JVal) (st : Stats)
    (hday : SeparatesLabels env
      ((rows.filter (isSold env)).map (fun r => localDayKey env (timeNum r))))
    (hweek : SeparatesLabels env
      ((rows.filter (isSold env)).map
        (fun r => "Week of " ++ localWeekStartKey env (timeNum r))))
    (h : computeIncomeStats env rows pc dp = some st) :
    ∃ g, incomeGroups env rows = some g
      ∧ RecentTable env (JVal.str st.preferredCurrency) (numOrNull st.divineChaosPrice)
          g.byDay 14 st.byDay
      ∧ RecentTable env (JVal.str st.preferredCurrency) (numOrNull st.divineChaosPrice)
          g.byWeek 12 st.byWeek
      ∧ (∀ c, c ∈ g.byDay.map Prod.fst
          ↔ ∃ r ∈ rows.filter (isSold env), localDayKey env (timeNum r) = c)
      ∧ ∀ c, c ∈ g.byWeek.map Prod.fst
          ↔ ∃ r ∈ rows.filter (isSold env),
              "Week of " ++ localWeekStartKey env (timeNum r) = c := by
  obtain ⟨g, hg, -, -, -, -, h1, h2, -⟩ := computeIncomeStats_some h
  obtain ⟨d1, d2, -⟩ := incomeGroups_spec hg (fun g => g.byDay)
    (fun r => localDayKey env (timeNum r)) rfl (fun g r g1 h => (incomeStep_groups h).1)
  obtain ⟨w1, w2, -⟩ := incomeGroups_spec hg (fun g => g.byWeek)
    (fun r => "Week of " ++ localWeekStartKey env (timeNum r)) rfl
    (fun g r g1 h => (incomeStep_groups h).2.1)
  refine ⟨g, hg, ?_, ?_, d2, w2⟩
  · rw [h1]
    refine recentTable_toStatRows horder _ _ 14 d1 ?_
    intro a ha b hb
    exact hday a (by simpa using (d2 a).1 ha) b (by simpa using (d2 b).1 hb)
  · rw [h2]
    refine recentTable_toStatRows horder _ _ 12 w1 ?_
    intro a ha b hb
    exact hweek a (by simpa using (w2 a).1 ha) b (by simpa using (w2 b).1 hb)

/-- C25, witness: sixteen records sold on sixteen days of fourteen weeks give the
fourteen latest days and the twelve latest weeks, the latest first; the day
1970-01-02 and the week of 1970-01-05 are left out and are smaller than every
label kept. -/
theorem computeIncomeStats_recent_tables_witness :
    ∃ st, computeIncomeStats sampleEnv sixteenDays (JVal.str "chaos") JVal.undefined = some st
      ∧ st.byDay.map (fun row => row.label)
          = ["1970-04-02", "1970-03-26", "1970-03-19", "1970-03-12", "1970-03-05",
              "1970-02-26", "1970-02-19", "1970-02-12", "1970-02-05", "1970-01-29",
              "1970-01-22", "1970-01-15", "1970-01-08", "1970-01-03"]
      ∧ st.byWeek.map (fun row => row.label)
          = ["Week of 1970-03-30", "Week of 1970-03-23", "Week of 1970-03-16",
              "Week of 1970-03-09", "Week of 1970-03-02", "Week of 1970-02-23",
              "Week of 1970-02-16", "Week of 1970-02-09", "Week of 1970-02-02",
              "Week of 1970-01-26", "Week of 1970-01-19", "Week of 1970-01-12"]
      ∧ (∀ row ∈ st.byDay, sampleEnv.localeCompare "1970-01-02" row.label < 0)
      ∧ ∀ row ∈ st.byWeek, sampleEnv.localeCompare "Week of 1970-01-05" row.label < 0 := by
  obtain ⟨st, hst⟩ := computeIncomeStats_returns (JVal.str "chaos") JVal.undefined
    (show ∀ r ∈ sixteenDays, isSold sampleEnv r = true →
      textLike r.category = true ∧ textLike r.baseType = true ∧ textLike r.name = true
        ∧ textLike r.rarity = true by decide!)
  obtain ⟨g, -, hday, hweek, hd, hw⟩ := computeIncomeStats_recent_tables sampleEnv
    ordersLabels_sampleEnv sixteenDays (JVal.str "chaos") JVal.undefined st
    (separatesLabels_sampleEnv _) (separatesLabels_sampleEnv _) hst
  have hdays : (computeIncomeStats sampleEnv sixteenDays (JVal.str "chaos") JVal.undefined).map
      (fun st => st.byDay.map (fun row => row.label))
        = some ["1970-04-02", "1970-03-26", "1970-03-19", "1970-03-12", "1970-03-05",
            "1970-02-26", "1970-02-19", "1970-02-12", "1970-02-05", "1970-01-29",
            "1970-01-22", "1970-01-15", "1970-01-08", "1970-01-03"] := by decide!
  have hweeks : (computeIncomeStats sampleEnv sixteenDays (JVal.str "chaos") JVal.undefined).map
      (fun st => st.byWeek.map (fun row => row.label))
        = some ["Week of 1970-03-30", "Week of 1970-03-23", "Week of 1970-03-16",
            "Week of 1970-03-09", "Week of 1970-03-02", "Week of 1970-02-23",
            "Week of 1970-02-16", "Week of 1970-02-09", "Week of 1970-02-02",
            "Week of 1970-01-26", "Week of 1970-01-19", "Week of 1970-01-12"] := by decide!
  rw [hst] at hdays hweeks
  have hdays1 : st.byDay.map (fun row => row.label)
      = ["1970-04-02", "1970-03-26", "1970-03-19", "1970-03-12", "1970-03-05",
          "1970-02-26", "1970-02-19", "1970-02-12", "1970-02-05", "1970-01-29",
          "1970-01-22", "1970-01-15", "1970-01-08", "1970-01-03"] := Option.some.inj hdays
  have hweeks1 : st.byWeek.map (fun row => row.label)
      = ["Week of 1970-03-30", "Week of 1970-03-23", "Week of 1970-03-16",
          "Week of 1970-03-09", "Week of 1970-03-02", "Week of 1970-02-23",
          "Week of 1970-02-16", "Week of 1970-02-09", "Week of 1970-02-02",
          "Week of 1970-01-26", "Week of 1970-01-19", "Week of 1970-01-12"] :=
    Option.some.inj hweeks
  have hkd : "1970-01-02" ∈ g.byDay.map Prod.fst :=
    (hd _).2 ⟨bareRow (1 * 86400000 + 100) 1 "chaos", by decide!, by decide!⟩
  have hkw : "Week of 1970-01-05" ∈ g.byWeek.map Prod.fst :=
    (hw _).2 ⟨bareRow (7 * 86400000 + 100) 1 "chaos", by decide!, by decide!⟩
  obtain ⟨ed, hed, hed1⟩ := List.mem_map.mp hkd
  obtain ⟨ew, hew, hew1⟩ := List.mem_map.mp hkw
  refine ⟨st, hst, hdays1, hweeks1, ?_, ?_⟩
  · have := hday.2.2.2.2 ed hed (by rw [hed1, hdays1]; decide)
    rw [hed1] at this
    exact this
  · have := hweek.2.2.2.2 ew hew (by rw [hew1, hweeks1]; decide)
    rw [hew1] at this
    exact this

/-! ### The best and the worst day -/

theorem bestWorstLoop_cons (env : Env) (pc dp : JVal) (best worst : Option DayRow)
    (e : String × Group) (rest : List (String × Group)) :
    bestWorstLoop env pc dp (best, worst) (e :: rest)
      = bestWorstLoop env pc dp
          ((match best with
            | none => some (dayRowOf env pc dp e)
            | some b =>
              if b.preferredAmount.lt (dayRowOf env pc dp e).preferredAmount then
                some (dayRowOf env pc dp e)
              else some b),
           (match worst with
            | none => some (dayRowOf env pc dp e)
            | some w =>
              if (dayRowOf env pc dp e).preferredAmount.lt w.preferredAmount then
                some (dayRowOf env pc dp e)
              else some w)) rest := by
  obtain ⟨dayKey, g⟩ := e
  rfl

theorem numLe_refl {a : Num} (ha : a ≠ Num.nan) : a.le a = true :=
  (numLe_iff ha).mpr (Or.inr rfl)

theorem numLe_of_lt {a b : Num} (h : a.lt b = true) : a.le b = true := by
  unfold Num.le
  rw [h]
  rfl

theorem numLt_of_le_of_lt {a b c : Num} (ha : a ≠ Num.nan) (h1 : a.le b = true)
    (h2 : b.lt c = true) : a.lt c = true := by
  rcases (numLe_iff ha).mp h1 with h | h
  · exact numLt_trans h h2
  · rw [h]
    exact h2

theorem numLt_of_lt_of_le {a b c : Num} (hb : b ≠ Num.nan) (h1 : a.lt b = true)
    (h2 : b.le c = true) : a.lt c = true := by
  rcases (numLe_iff hb).mp h2 with h | h
  · exact numLt_trans h1 h
  · rw [← h]
    exact h1

theorem bestWorstLoop_spec (env : Env) (pc dp : JVal) (byDay : List (String × Group))
    (hnan : NanFree env pc dp byDay) :
    ∀ (rest : List (String × Group)) (s : Nat) (best worst : Option DayRow),
      byDay.drop s = rest → BestUpTo env pc dp byDay s best →
      WorstUpTo env pc dp byDay s worst →
      BestUpTo env pc dp byDay byDay.length (bestWorstLoop env pc dp (best, worst) rest).1
        ∧ WorstUpTo env pc dp byDay byDay.length
            (bestWorstLoop env pc dp (best, worst) rest).2 := by
  intro rest
  induction rest with
  | nil =>
    intro s best worst hdrop hb hw
    have hlen : byDay.length ≤ s := List.drop_eq_nil_iff.1 hdrop
    simp only [bestWorstLoop]
    refine ⟨?_, ?_⟩
    · cases best with
      | none =>
        simp only [BestUpTo] at hb ⊢
        omega
      | some b =>
        obtain ⟨i, e, hi, hie, hbe, hmax, hfirst⟩ := hb
        obtain ⟨hi1, -⟩ := List.getElem?_eq_some.1 hie
        exact ⟨i, e, hi1, hie, hbe, fun k e1 hk hk1 => hmax k e1 (by omega) hk1, hfirst⟩
    · cases worst with
      | none =>
        simp only [WorstUpTo] at hw ⊢
        omega
      | some w =>
        obtain ⟨i, e, hi, hie, hwe, hmin, hfirst⟩ := hw
        obtain ⟨hi1, -⟩ := List.getElem?_eq_some.1 hie
        exact ⟨i, e, hi1, hie, hwe, fun k e1 hk hk1 => hmin k e1 (by omega) hk1, hfirst⟩
  | cons e rest ih =>
    intro s best worst hdrop hb hw
    have hs : s < byDay.length := by
      by_contra hcon
      have : byDay.drop s = [] := List.drop_eq_nil_iff.2 (by omega)
      rw [this] at hdrop
      simp at hdrop
    have he : byDay[s]? = some e := by
      rw [List.drop_eq_getElem_cons hs] at hdrop
      rw [List.getElem?_eq_getElem hs]
      exact congrArg some (List.cons.inj hdrop).1
    have hdrop1 : byDay.drop (s + 1) = rest := by
      rw [List.drop_eq_getElem_cons hs] at hdrop
      exact (List.cons.inj hdrop).2
    have hat : ∀ k e1, k < s + 1 → byDay[k]? = some e1 → k < s ∨ e1 = e := by
      intro k e1 hk hk1
      rcases Nat.lt_succ_iff_lt_or_eq.1 hk with hlt | heq
      · exact Or.inl hlt
      · subst heq
        rw [he] at hk1
        exact Or.inr (Option.some.inj hk1).symm
    have hne : (dayRowOf env pc dp e).preferredAmount ≠ Num.nan :=
      hnan e (List.getElem?_mem he)
    have hnk : ∀ k e1, byDay[k]? = some e1 → (dayRowOf env pc dp e1).preferredAmount ≠ Num.nan :=
      fun k e1 hk1 => hnan e1 (List.getElem?_mem hk1)
    rw [bestWorstLoop_cons]
    refine ih (s + 1) _ _ hdrop1 ?_ ?_
    · cases best with
      | none =>
        simp only [BestUpTo] at hb
        subst hb
        refine ⟨0, e, by omega, he, rfl, ?_, fun k e1 hk => absurd hk (Nat.not_lt_zero k)⟩
        intro k e1 hk hk1
        rcases hat k e1 hk hk1 with hlt | heq
        · omega
        · rw [heq]
          exact numLe_refl hne
      | some b =>
        obtain ⟨i, eb, hi, hie, hbe, hmax, hfirst⟩ := hb
        have hbn : b.preferredAmount ≠ Num.nan := by
          rw [hbe]
          exact hnk i eb hie
        by_cases hlt : b.preferredAmount.lt (dayRowOf env pc dp e).preferredAmount = true
        · simp only [hlt, if_true]
          refine ⟨s, e, by omega, he, rfl, ?_, ?_⟩
          · intro k e1 hk hk1
            rcases hat k e1 hk hk1 with hks | heq
            · exact numLe_of_lt (numLt_of_le_of_lt (hnk k e1 hk1) (hmax k e1 hks hk1) hlt)
            · rw [heq]
              exact numLe_refl hne
          · intro k e1 hk hk1
            exact numLt_of_le_of_lt (hnk k e1 hk1) (hmax k e1 hk hk1) hlt
        · simp only [hlt, if_false]
          refine ⟨i, eb, by omega, hie, hbe, ?_, hfirst⟩
          intro k e1 hk hk1
          rcases hat k e1 hk hk1 with hks | heq
          · exact hmax k e1 hks hk1
          · rw [heq]
            exact numLe_of_not_lt hbn hne (by simpa using hlt)
    · cases worst with
      | none =>
        simp only [WorstUpTo] at hw
        subst hw
        refine ⟨0, e, by omega, he, rfl, ?_, fun k e1 hk => absurd hk (Nat.not_lt_zero k)⟩
        intro k e1 hk hk1
        rcases hat k e1 hk hk1 with hlt | heq
        · omega
        · rw [heq]
          exact numLe_refl hne
      | some w =>
        obtain ⟨i, ew, hi, hie, hwe, hmin, hfirst⟩ := hw
        have hwn : w.preferredAmount ≠ Num.nan := by
          rw [hwe]
          exact hnk i ew hie
        by_cases hlt : (dayRowOf env pc dp e).preferredAmount.lt w.preferredAmount = true
        · simp only [hlt, if_true]
          refine ⟨s, e, by omega, he, rfl, ?_, ?_⟩
          · intro k e1 hk hk1
            rcases hat k e1 hk hk1 with hks | heq
            · exact numLe_of_lt (numLt_of_lt_of_le hwn hlt (hmin k e1 hks hk1))
            · rw [heq]
              exact numLe_refl hne
          · intro k e1 hk hk1
            exact numLt_of_lt_of_le hwn hlt (hmin k e1 hk hk1)
        · simp only [hlt, if_false]
          refine ⟨i, ew, by omega, hie, hwe, ?_, hfirst⟩
          intro k e1 hk hk1
          rcases hat k e1 hk hk1 with hks | heq
          · exact hmin k e1 hks hk1
          · rw [heq]
            exact numLe_of_not_lt hne hwn (by simpa using hlt)

theorem computeIncomeStats_bestWorst {env : Env} {rows : List Row} {pc dp : JVal} {st : Stats}
    (h : computeIncomeStats env rows pc dp = some st) :
    ∃ g, incomeGroups env rows = some g
      ∧ st.bestWorstHtml
        = (computeBestWorstDay env g.byDay (JVal.str st.preferredCurrency)
            (numOrNull st.divineChaosPrice)).html := by
  unfold computeIncomeStats at h
  simp only at h
  unfold incomeGroups
  cases hg : incomeLoop env IncomeGroups.empty (rows.filter (isSold env)) with
  | none => rw [hg] at h; simp at h
  | some g =>
    rw [hg] at h
    simp only [Option.some.injEq] at h
    subst h
    exact ⟨g, rfl, rfl⟩

/-- C26, counterexample: with the rate 150 and the preferred currency chaos, the
days of `nanDayRows` have the preferred amounts `NaN`, 5 and 7 in encounter
order, and `computeBestWorstDay` returns the first day, with the amount `NaN`,
both as best and as worst, although the amount 7 of the third day is not at most
`NaN` and `NaN` is not at most the amount 5 of the second day. -/
theorem computeBestWorstDay_keeps_nan_day :
    ∃ g, incomeGroups sampleEnv nanDayRows = some g
      ∧ g.byDay.map (fun e =>
            (e.1, (dayRowOf sampleEnv (JVal.str "chaos") (JVal.num 150) e).preferredAmount))
          = [("1970-01-01", Num.nan), ("1970-01-02", Num.fin 5), ("1970-01-03", Num.fin 7)]
      ∧ (computeBestWorstDay sampleEnv g.byDay (JVal.str "chaos") (JVal.num 150)).best.map
            (fun row => (row.dayKey, row.preferredAmount)) = some ("1970-01-01", Num.nan)
      ∧ (computeBestWorstDay sampleEnv g.byDay (JVal.str "chaos") (JVal.num 150)).worst.map
            (fun row => (row.dayKey, row.preferredAmount)) = some ("1970-01-01", Num.nan)
      ∧ (Num.fin 7).le Num.nan = false ∧ Num.nan.le (Num.fin 5) = false := by
  have h1 : (incomeGroups sampleEnv nanDayRows).map (fun g =>
      (g.byDay.map (fun e =>
          (e.1, (dayRowOf sampleEnv (JVal.str "chaos") (JVal.num 150) e).preferredAmount)),
        (computeBestWorstDay sampleEnv g.byDay (JVal.str "chaos") (JVal.num 150)).best.map
          (fun row => (row.dayKey, row.preferredAmount)),
        (computeBestWorstDay sampleEnv g.byDay (JVal.str "chaos") (JVal.num 150)).worst.map
          (fun row => (row.dayKey, row.preferredAmount))))
      = some ([("1970-01-01", Num.nan), ("1970-01-02", Num.fin 5), ("1970-01-03", Num.fin 7)],
          some ("1970-01-01", Num.nan), some ("1970-01-01", Num.nan)) := by
    decide!
  cases hg : incomeGroups sampleEnv nanDayRows with
  | none =>
    rw [hg] at h1
    simp at h1
  | some g =>
    rw [hg] at h1
    simp only [Option.map_some', Option.some.injEq, Prod.mk.injEq] at h1
    exact ⟨g, rfl, h1.1, h1.2.1, h1.2.2, by decide, by decide⟩

/-- C26, amended: for a day grouping that is not empty and in which no preferred
amount is `NaN`, `computeBestWorstDay` returns as `best` the row of the first day
whose preferred amount is the largest of all days, and as `worst` the row of the
first day whose preferred amount is the smallest of all days; for an empty day
grouping both are `null` and both texts are the placeholder.  No preferred amount
is `NaN` when no rate is supplied or all sums of the grouping are finite.
`computeIncomeStats` passes it the whole day grouping, not the rows of the day
table. -/
theorem computeBestWorstDay_first_extremes (env : Env) (byDay : List (String × Group))
    (pc dp : JVal) :
    (byDay = [] →
        (computeBestWorstDay env byDay pc dp).best = none
          ∧ (computeBestWorstDay env byDay pc dp).worst = none
          ∧ dayRowText env pc (computeBestWorstDay env byDay pc dp).best = "—"
          ∧ dayRowText env pc (computeBestWorstDay env byDay pc dp).worst = "—")
      ∧ (byDay ≠ [] → NanFree env pc dp byDay →
          ∃ (i j : Nat) (eb ew : String × Group), byDay[i]? = some eb ∧ byDay[j]? = some ew
            ∧ (computeBestWorstDay env byDay pc dp).best = some (dayRowOf env pc dp eb)
            ∧ (computeBestWorstDay env byDay pc dp).worst = some (dayRowOf env pc dp ew)
            ∧ (∀ e ∈ byDay, (dayRowOf env pc dp e).preferredAmount.le
                (dayRowOf env pc dp eb).preferredAmount = true)
            ∧ (∀ (k : Nat) (e : String × Group), k < i → byDay[k]? = some e →
                (dayRowOf env pc dp e).preferredAmount.lt
                  (dayRowOf env pc dp eb).preferredAmount = true)
            ∧ (∀ e ∈ byDay, (dayRowOf env pc dp ew).preferredAmount.le
                (dayRowOf env pc dp e).preferredAmount = true)
            ∧ ∀ (k : Nat) (e : String × Group), k < j → byDay[k]? = some e →
                (dayRowOf env pc dp ew).preferredAmount.lt
                  (dayRowOf env pc dp e).preferredAmount = true)
      ∧ ((toPositiveNumberOrNull env dp = none
            ∨ ∀ e ∈ byDay, ∀ c ∈ e.2.byCurrency, c.2.isFinite = true) →
          NanFree env pc dp byDay)
      ∧ ∀ rows pc1 dp1 st, computeIncomeStats env rows pc1 dp1 = some st →
          ∃ g, incomeGroups env rows = some g
            ∧ st.bestWorstHtml
              = (computeBestWorstDay env g.byDay (JVal.str st.preferredCurrency)
                  (numOrNull st.divineChaosPrice)).html := by
  refine ⟨?_, ?_, ?_, fun rows pc1 dp1 st h => computeIncomeStats_bestWorst h⟩
  · intro h
    subst h
    exact ⟨rfl, rfl, rfl, rfl⟩
  · intro hne hnan
    obtain ⟨hb, hw⟩ := bestWorstLoop_spec env pc dp byDay hnan byDay 0 none none
      (List.drop_zero _) rfl rfl
    have hpos : 0 < byDay.length := List.length_pos.2 hne
    have hbest : (computeBestWorstDay env byDay pc dp).best
        = (bestWorstLoop env pc dp (none, none) byDay).1 := rfl
    have hworst : (computeBestWorstDay env byDay pc dp).worst
        = (bestWorstLoop env pc dp (none, none) byDay).2 := rfl
    rw [hbest, hworst]
    cases hb1 : (bestWorstLoop env pc dp (none, none) byDay).1 with
    | none =>
      rw [hb1] at hb
      simp only [BestUpTo] at hb
      omega
    | some b =>
      cases hw1 : (bestWorstLoop env pc dp (none, none) byDay).2 with
      | none =>
        rw [hw1] at hw
        simp only [WorstUpTo] at hw
        omega
      | some w =>
        rw [hb1] at hb
        rw [hw1] at hw
        obtain ⟨i, eb, -, hie, hbe, hmax, hfirst⟩ := hb
        obtain ⟨j, ew, -, hje, hwe, hmin, hfirstw⟩ := hw
        subst hbe
        subst hwe
        refine ⟨i, j, eb, ew, hie, hje, rfl, rfl, ?_, hfirst, ?_, hfirstw⟩
        · intro e he
          obtain ⟨k, hk, hke⟩ := List.getElem_of_mem he
          exact hmax k e hk (by rw [List.getElem?_eq_getElem hk, hke])
        · intro e he
          obtain ⟨k, hk, hke⟩ := List.getElem_of_mem he
          exact hmin k e hk (by rw [List.getElem?_eq_getElem hk, hke])
  · intro hfree e he
    apply preferredAmount_ne_nan
    rcases hfree with hf | hf
    · exact Or.inl hf
    · exact Or.inr (hf e he)

/-- C26, witness: of four days with the sums 5, 7, 7 and 5 the second is the best
and the first is the worst. -/
theorem computeBestWorstDay_first_extremes_witness :
    fourDays ≠ [] ∧ NanFree sampleEnv (JVal.str "chaos") JVal.null fourDays
      ∧ ∃ (i j : Nat) (eb ew : String × Group), fourDays[i]? = some eb ∧ fourDays[j]? = some ew
        ∧ (computeBestWorstDay sampleEnv fourDays (JVal.str "chaos") JVal.null).best
            = some (dayRowOf sampleEnv (JVal.str "chaos") JVal.null eb)
        ∧ (computeBestWorstDay sampleEnv fourDays (JVal.str "chaos") JVal.null).worst
            = some (dayRowOf sampleEnv (JVal.str "chaos") JVal.null ew)
        ∧ ((computeBestWorstDay sampleEnv fourDays (JVal.str "chaos") JVal.null).best.map
            (fun row => row.dayKey)) = some "d2"
        ∧ ((computeBestWorstDay sampleEnv fourDays (JVal.str "chaos") JVal.null).worst.map
            (fun row => row.dayKey)) = some "d1" := by
  have hne : fourDays ≠ [] := by simp [fourDays]
  have hnan : NanFree sampleEnv (JVal.str "chaos") JVal.null fourDays :=
    (computeBestWorstDay_first_extremes sampleEnv fourDays (JVal.str "chaos") JVal.null).2.2.1
      (Or.inl rfl)
  obtain ⟨i, j, eb, ew, h1, h2, h3, h4, -⟩ :=
    (computeBestWorstDay_first_extremes sampleEnv fourDays (JVal.str "chaos") JVal.null).2.1
      hne hnan
  exact ⟨hne, hnan, i, j, eb, ew, h1, h2, h3, h4, by decide!, by decide!⟩

/-! ### The text of an amount -/

theorem digitChar_ne_dot {d : Nat} (h : d < 10) : Nat.digitChar d ≠ '.' := by
  interval_cases d <;> decide

theorem toDigitsCore_no_dot (fuel : Nat) :
    ∀ (n : Nat) (ds : List Char), (∀ c ∈ ds, c ≠ '.') →
      ∀ c ∈ Nat.toDigitsCore 10 fuel n ds, c ≠ '.' := by
  induction fuel with
  | zero =>
    intro n ds h c hc
    exact h c hc
  | succ fuel ih =>
    intro n ds h c hc
    have hds : ∀ c ∈ Nat.digitChar (n % 10) :: ds, c ≠ '.' := by
      intro c1 hc1
      rcases List.mem_cons.1 hc1 with h1 | h1
      · rw [h1]
        exact digitChar_ne_dot (Nat.mod_lt _ (by decide))
      · exact h c1 h1
    simp only [Nat.toDigitsCore] at hc
    split at hc
    · exact hds c hc
    · exact ih _ _ hds c hc

theorem natText_no_dot (n : Nat) : ∀ c ∈ (toString n).data, c ≠ '.' := by
  intro c hc
  exact toDigitsCore_no_dot (n + 1) n [] (by simp) c hc

theorem intText_no_dot (z : Int) : ∀ c ∈ (toString z).data, c ≠ '.' := by
  intro c hc
  cases z with
  | ofNat m => exact natText_no_dot m c hc
  | negSucc m =>
    have hdata : (toString (Int.negSucc m)).data = '-' :: (toString (m + 1)).data := rfl
    rw [hdata] at hc
    rcases List.mem_cons.1 hc with h1 | h1
    · rw [h1]
      decide
    · exact natText_no_dot (m + 1) c h1

theorem fractionDigits_of_no_dot {s : String} (h : ∀ c ∈ s.data, c ≠ '.') :
    fractionDigits s = [] := by
  unfold fractionDigits
  have : s.data.dropWhile (fun c => c != '.') = [] := by
    rw [List.dropWhile_eq_nil_iff]
    intro c hc
    simpa using h c hc
  rw [this]
  rfl

theorem fractionDigits_append (a b : String) (h : ∀ c ∈ a.data, c ≠ '.') :
    fractionDigits (a ++ "." ++ b) = b.data := by
  unfold fractionDigits
  have hdata : (a ++ "." ++ b).data = a.data ++ '.' :: b.data := by
    simp only [String.data_append, List.append_assoc]
    rfl
  rw [hdata]
  have hdrop : ∀ xs : List Char, (∀ c ∈ xs, c ≠ '.') →
      (xs ++ '.' :: b.data).dropWhile (fun c => c != '.') = '.' :: b.data := by
    intro xs
    induction xs with
    | nil => intro _; simp [List.dropWhile]
    | cons x xs ih =>
      intro hx
      have hx1 : x ≠ '.' := hx x (List.mem_cons_self _ _)
      simp only [List.cons_append, List.dropWhile_cons, bne_iff_ne, ne_eq, hx1, not_false_eq_true,
        if_true]
      exact ih (fun c hc => hx c (List.mem_cons_of_mem _ hc))
  rw [hdrop a.data h]
  rfl

theorem fraction_text_short :
    ∀ frac : Nat, frac < 100 → frac ≠ 0 →
      ((if frac % 10 = 0 then toString (frac / 10)
          else (if frac < 10 then "0" else "") ++ toString frac).data.length ≤ 2
        ∧ (if frac % 10 = 0 then toString (frac / 10)
          else (if frac < 10 then "0" else "") ++ toString frac).data.getLast? ≠ some '0') := by
  decide!

theorem hundredthsText_fraction (k : ℤ) :
    (fractionDigits (hundredthsText k)).length ≤ 2
      ∧ (fractionDigits (hundredthsText k)).getLast? ≠ some '0' := by
  unfold hundredthsText
  by_cases hdvd : (100 : ℤ) ∣ k
  · rw [if_pos hdvd]
    have : fractionDigits (toString (k / 100)) = [] :=
      fractionDigits_of_no_dot (intText_no_dot _)
    rw [this]
    simp
  · rw [if_neg hdvd]
    have hfrac : k.natAbs % 100 ≠ 0 := by
      intro h0
      apply hdvd
      have : (100 : Nat) ∣ k.natAbs := Nat.dvd_of_mod_eq_zero h0
      exact Int.natCast_dvd.2 this
    have hshape : decimalText k
        = ((if k < 0 then "-" else "") ++ toString (k.natAbs / 100)) ++ "."
          ++ (if k.natAbs % 100 % 10 = 0 then toString (k.natAbs % 100 / 10)
              else (if k.natAbs % 100 < 10 then "0" else "") ++ toString (k.natAbs % 100)) :=
      rfl
    rw [hshape, fractionDigits_append]
    · exact fraction_text_short _ (Nat.mod_lt _ (by decide)) hfrac
    · intro c hc
      rw [String.data_append] at hc
      rcases List.mem_append.1 hc with h1 | h1
      · by_cases hneg : k < 0
        · simp only [hneg, if_true, List.mem_singleton] at h1
          rw [h1]
          decide
        · simp only [hneg, if_false] at h1
          simp at h1
      · exact natText_no_dot _ c h1

theorem roundFixed2_eq {q : ℚ} (h : |q| < 10 ^ 21) :
    roundFixed2 q = (nearestHundredth q : ℚ) / 100 := by
  unfold roundFixed2 nearestHundredth
  rw [if_neg (not_le.2 h)]
  by_cases hq : 0 ≤ q
  · rw [if_pos hq, if_pos hq]
  · rw [if_neg hq, if_neg hq]
    push_cast
    ring

theorem nearestHundredth_near (q : ℚ) : |q - (nearestHundredth q : ℚ) / 100| ≤ 1 / 200 := by
  unfold nearestHundredth
  by_cases hq : 0 ≤ q
  · rw [if_pos hq]
    have hle := Int.floor_le (q * 100 + 1 / 2)
    have hlt := Int.lt_floor_add_one (q * 100 + 1 / 2)
    rw [abs_le]
    constructor <;> linarith
  · rw [if_neg hq]
    have hle := Int.floor_le (-q * 100 + 1 / 2)
    have hlt := Int.lt_floor_add_one (-q * 100 + 1 / 2)
    push_cast
    rw [abs_le]
    constructor <;> linarith

theorem roundHalfEven_intCast (z : ℤ) : roundHalfEven (z : ℚ) = z := by
  unfold roundHalfEven
  rw [Int.floor_intCast, sub_self, if_pos (by norm_num)]

theorem nearestMagnitude_natCast {n : ℕ} (h1 : 1 ≤ n) (h2 : n < 2 ^ 53) :
    nearestMagnitude (n : ℚ) = n := by
  have hpos : (0 : ℚ) < n := by exact_mod_cast h1
  obtain ⟨hl1, hl2⟩ := log2Floor_spec hpos
  have hge : 0 ≤ log2Floor (n : ℚ) := by
    have : pow2 0 < pow2 (log2Floor (n : ℚ) + 1) := by
      refine lt_of_le_of_lt ?_ hl2
      rw [pow2_eq, zpow_zero]
      exact_mod_cast h1
    have := pow2_lt_iff.mp this
    omega
  have hle : log2Floor (n : ℚ) < 53 := by
    have : pow2 (log2Floor (n : ℚ)) < pow2 53 := by
      refine lt_of_le_of_lt hl1 ?_
      rw [pow2_eq]
      exact_mod_cast h2
    exact pow2_lt_iff.mp this
  have hu : ulpExponent (n : ℚ) = -((52 - log2Floor (n : ℚ)).toNat : ℤ) := by
    unfold ulpExponent
    rw [max_eq_left (by omega), Int.toNat_of_nonneg (by omega)]
    ring
  have hp : pow2 (ulpExponent (n : ℚ)) = 1 / (2 : ℚ) ^ (52 - log2Floor (n : ℚ)).toNat := by
    rw [hu, pow2_eq, zpow_neg, zpow_natCast, one_div]
  have hdiv : (n : ℚ) / pow2 (ulpExponent (n : ℚ))
      = ((n * 2 ^ (52 - log2Floor (n : ℚ)).toNat : ℕ) : ℤ) := by
    rw [hp]
    push_cast
    field_simp
  unfold nearestMagnitude
  rw [hdiv, roundHalfEven_intCast, hp]
  push_cast
  field_simp

theorem fl_intCast {m : ℤ} (h : |m| < 2 ^ 53) : fl (m : ℚ) = Num.fin m := by
  by_cases h0 : m = 0
  · subst h0
    simp [fl]
  have hn1 : 1 ≤ m.natAbs := Int.natAbs_pos.mpr h0
  have hn2 : m.natAbs < 2 ^ 53 := by
    have : (m.natAbs : ℤ) < 2 ^ 53 := by
      rw [Int.natCast_natAbs]
      exact h
    exact_mod_cast this
  have habs : |(m : ℚ)| = (m.natAbs : ℚ) := by
    rw [← Int.cast_abs, Int.abs_eq_natAbs]
    rfl
  have hm0 : (m : ℚ) ≠ 0 := by exact_mod_cast h0
  have hnm := nearestMagnitude_natCast hn1 hn2
  have hfin : ¬ (2 : ℚ) ^ 1024 ≤ (m.natAbs : ℚ) := by
    rw [not_le]
    have : (m.natAbs : ℚ) < 2 ^ 53 := by exact_mod_cast hn2
    exact lt_trans this (by norm_num)
  unfold fl
  rw [if_neg hm0, habs, hnm, if_neg hfin]
  by_cases hneg : (m : ℚ) < 0
  · rw [if_pos hneg]
    congr 1
    rw [← habs, abs_of_neg hneg, neg_neg]
  · rw [if_neg hneg]
    congr 1
    rw [← habs, abs_of_nonneg (not_lt.mp hneg)]

/-- C27, counter-example: the integer 1500000000000000000000 is printed in exponent
notation, with a decimal point. -/
theorem formatAmount_exponent_notation :
    (1500000000000000000000 : ℚ).den = 1
      ∧ formatAmount exponentEnv (JVal.num 1500000000000000000000) = "1.5e+21"
      ∧ '.' ∈ (formatAmount exponentEnv (JVal.num 1500000000000000000000)).data := by
  decide!

/-- C27, amended: when the number-to-string conversion prints as `String` does in
the ranges of `PrintsDecimals`, the text of an integer amount of magnitude below
`2^53` is its decimal representation and has no decimal point; the text of a
non-integer amount of magnitude below `2^46 - 1` is the decimal text of the
multiple of `1/100` nearest to it (halves away from zero), which has at most two
fractional digits, the last of them not `0`; and the text of a value that is not
a finite number is empty. -/
theorem formatAmount_text (env : Env) (hprint : PrintsDecimals env) :
    (∀ q : ℚ, q.den = 1 → |q| < 2 ^ 53 →
        formatAmount env (JVal.num q) = toString q.num
          ∧ ∀ c ∈ (formatAmount env (JVal.num q)).data, c ≠ '.')
      ∧ (∀ q : ℚ, q.den ≠ 1 → |q| < 2 ^ 46 - 1 →
          formatAmount env (JVal.num q) = hundredthsText (nearestHundredth q)
            ∧ |q - (nearestHundredth q : ℚ) / 100| ≤ 1 / 200
            ∧ (fractionDigits (formatAmount env (JVal.num q))).length ≤ 2
            ∧ (fractionDigits (formatAmount env (JVal.num q))).getLast? ≠ some '0')
      ∧ ∀ v : JVal, v.isFiniteNumber = false → formatAmount env v = "" := by
  refine ⟨?_, ?_, ?_⟩
  · intro q hden hq
    have hqn : q = (q.num : ℚ) := ((Rat.den_eq_one_iff q).1 hden).symm
    have hn : |q.num| < 2 ^ 53 := by
      have : |(q.num : ℚ)| < 2 ^ 53 := by
        rw [← hqn]
        exact hq
      exact_mod_cast this
    have htext : formatAmount env (JVal.num q) = toString q.num := by
      simp only [formatAmount, hden, if_true]
      conv_lhs => rw [hqn]
      exact hprint.1 q.num hn
    rw [htext]
    exact ⟨rfl, intText_no_dot _⟩
  · intro q hden hq
    have hq21 : |q| < 10 ^ 21 := lt_trans hq (by norm_num)
    have hnear := nearestHundredth_near q
    have hr : |(nearestHundredth q : ℚ) / 100| < 2 ^ 46 := by
      have h1 : |(nearestHundredth q : ℚ) / 100| ≤ |q| + |q - (nearestHundredth q : ℚ) / 100| := by
        have := abs_sub_abs_le_abs_sub ((nearestHundredth q : ℚ) / 100) q
        rw [abs_sub_comm] at this
        linarith
      linarith
    have hk : |nearestHundredth q| < 100 * 2 ^ 46 := by
      have h2 : |(nearestHundredth q : ℚ)| < 100 * 2 ^ 46 := by
        rw [abs_div, abs_of_pos (show (0 : ℚ) < 100 by norm_num), div_lt_iff₀ (by norm_num)] at hr
        linarith
      exact_mod_cast h2
    have htext : formatAmount env (JVal.num q) = hundredthsText (nearestHundredth q) := by
      simp only [formatAmount, hden, if_false]
      rw [roundFixed2_eq hq21]
      unfold hundredthsText
      by_cases hdvd : (100 : ℤ) ∣ nearestHundredth q
      · rw [if_pos hdvd]
        obtain ⟨m, hm⟩ := hdvd
        have hm1 : (nearestHundredth q : ℚ) / 100 = (m : ℚ) := by
          rw [hm]
          push_cast
          field_simp
        have hm2 : nearestHundredth q / 100 = m := by
          rw [hm]
          exact Int.mul_ediv_cancel_left m (by norm_num)
        have hmb : |m| < 2 ^ 53 := by
          have h3 : |(m : ℚ)| < 2 ^ 46 := by
            rw [← hm1]
            exact hr
          have h4 : |(m : ℚ)| < 2 ^ 53 := lt_trans h3 (by norm_num)
          exact_mod_cast h4
        rw [hm1, fl_intCast hmb, hm2]
        exact hprint.1 m hmb
      · rw [if_neg hdvd]
        obtain ⟨v, hv, -⟩ := fl_near hr
        rw [hv]
        exact hprint.2 _ v hk hdvd hv
    rw [htext]
    exact ⟨rfl, hnear, hundredthsText_fraction _⟩
  · intro v hv
    cases v <;> simp [JVal.isFiniteNumber] at hv <;> rfl

theorem sampleNumToString_intCast (n : ℤ) : sampleNumToString (n : ℚ) = toString n := by
  simp [sampleNumToString]

theorem nearestHundredth_of_near {v : ℚ} {k : ℤ} (h : |v - (k : ℚ) / 100| ≤ 1 / 256)
    (hk : ¬ (100 : ℤ) ∣ k) : v.den ≠ 1 ∧ nearestHundredth v = k := by
  rw [abs_le] at h
  obtain ⟨h1, h2⟩ := h
  constructor
  · intro hden
    have hv : v = (v.num : ℚ) := ((Rat.den_eq_one_iff v).1 hden).symm
    apply hk
    have hd : |((100 * v.num - k : ℤ) : ℚ)| < 1 := by
      rw [abs_lt]
      push_cast
      constructor
      · rw [← hv]
        linarith
      · rw [← hv]
        linarith
    have hz : |100 * v.num - k| < 1 := by exact_mod_cast hd
    have : 100 * v.num - k = 0 := Int.abs_lt_one_iff.mp hz
    exact ⟨v.num, by omega⟩
  · unfold nearestHundredth
    by_cases hv : 0 ≤ v
    · rw [if_pos hv, Int.floor_eq_iff]
      constructor <;> linarith
    · rw [if_neg hv]
      have : ⌊-v * 100 + 1 / 2⌋ = -k := by
        rw [Int.floor_eq_iff]
        push_cast
        constructor <;> linarith
      rw [this, neg_neg]

theorem printsDecimals_sampleEnv : PrintsDecimals sampleEnv := by
  refine ⟨fun n _ => sampleNumToString_intCast n, ?_⟩
  intro k v hk hdvd hv
  have hr : |(k : ℚ) / 100| < 2 ^ 46 := by
    have h1 : |(k : ℚ)| < 100 * 2 ^ 46 := by exact_mod_cast hk
    rw [abs_div, abs_of_pos (show (0 : ℚ) < 100 by norm_num), div_lt_iff₀ (by norm_num)]
    linarith
  obtain ⟨v1, hv1, hnear⟩ := fl_near hr
  rw [hv1] at hv
  simp only [Num.fin.injEq] at hv
  subst hv
  obtain ⟨hden, hkk⟩ := nearestHundredth_of_near hnear hdvd
  show sampleNumToString v1 = decimalText k
  unfold sampleNumToString
  rw [if_neg hden, hkk]

/-- C27, witness: 1.239 is printed as `1.24`, 2.5 as `2.5`, 1.999 as `2` and 42 as
`42`. -/
theorem formatAmount_text_witness :
    formatAmount sampleEnv (JVal.num (1239 / 1000)) = "1.24"
      ∧ formatAmount sampleEnv (JVal.num (5 / 2)) = "2.5"
      ∧ formatAmount sampleEnv (JVal.num (1999 / 1000)) = "2"
      ∧ formatAmount sampleEnv (JVal.num 42) = "42"
      ∧ (fractionDigits (formatAmount sampleEnv (JVal.num (1239 / 1000)))).length ≤ 2 :=
  ⟨by decide!, by decide!, by decide!, by decide!,
    ((formatAmount_text sampleEnv printsDecimals_sampleEnv).2.1 (1239 / 1000) (by decide!)
      (by rw [abs_of_nonneg (by norm_num)]; norm_num)).2.2.1⟩

/-! ### The gap report of a call -/

theorem mergeRows_nil {archiveRows : List Row} (hnd : (keysOf archiveRows).Nodup)
    (hsorted : archiveRows.Sorted (fun a b => timeNum b ≤ timeNum a)) :
    mergeRows archiveRows [] = archiveRows := by
  unfold mergeRows
  have h1 : setAll (setAll [] archiveRows) [] = setAll [] archiveRows := rfl
  rw [h1, setAll_nil_of_nodup archiveRows hnd, values_archive]
  exact sortNewestFirst_of_sorted hsorted

theorem persistHistoryBatch_gapInfo {env : Env} {accepts : Nat → List Row → Bool}
    {clock : Nat → Int} {nowFetch nowGap : Int} {store : Storage} {league : JVal}
    {rawRows : List RawRow} {current : Batch} {res : Persisted} {store1 : Storage}
    (hc : normalizeAndKeyBatch env clock league rawRows = some current)
    (h : persistHistoryBatch env accepts clock nowFetch nowGap store league rawRows
      = some (res, store1)) :
    res.gapInfo = detectGap env (storedMeta env store league) current.rows current.keySet := by
  rw [persistHistoryBatch_eq accepts nowFetch nowGap store hc] at h
  simp only [Option.some.injEq, Prod.mk.injEq] at h
  rw [← h.1]
  rfl

theorem detectGap_of_no_watermark (env : Env) {lastMeta : Meta}
    (h : lastMeta.lastFetchNewestMs = JVal.null) (currentRows : List Row)
    (currentKeySet : List String) :
    (detectGap env lastMeta currentRows currentKeySet).detected = false := by
  unfold detectGap
  rw [h]
  cases currentRows.getLast? <;> rfl


/-! ### Shared keys and the watermark -/

theorem eq_of_append_sep {α : Type} {sep : α} :
    ∀ {xs xs1 ys ys1 : List α}, sep ∉ xs → sep ∉ xs1 →
      xs ++ sep :: ys = xs1 ++ sep :: ys1 → xs = xs1 ∧ ys = ys1 := by
  intro xs
  induction xs with
  | nil =>
    intro xs1 ys ys1 _ h1 h
    cases xs1 with
    | nil =>
      simp only [List.nil_append, List.cons.injEq, true_and] at h
      exact ⟨rfl, h⟩
    | cons x xs1 =>
      simp only [List.nil_append, List.cons_append, List.cons.injEq] at h
      exact absurd h.1 (fun hx => h1 (by rw [hx]; exact List.mem_cons_self _ _))
  | cons x xs ih =>
    intro xs1 ys ys1 h0 h1 h
    cases xs1 with
    | nil =>
      simp only [List.nil_append, List.cons_append, List.cons.injEq] at h
      exact absurd h.1 (fun hx => h0 (by rw [← hx]; exact List.mem_cons_self _ _))
    | cons x1 xs1 =>
      simp only [List.cons_append, List.cons.injEq] at h
      obtain ⟨hx, hrest⟩ := h
      obtain ⟨h2, h3⟩ := ih (fun hm => h0 (List.mem_cons_of_mem _ hm))
        (fun hm => h1 (List.mem_cons_of_mem _ hm)) hrest
      exact ⟨by rw [hx, h2], h3⟩

theorem makeTradeKey_time_eq {env : Env} {league : JVal} {n n1 : Row} {k : String}
    (h : makeTradeKey env league (some n) = some k)
    (h1 : makeTradeKey env league (some n1) = some k)
    (hid : '|' ∉ (n.itemId.toStr env).data) (hid1 : '|' ∉ (n1.itemId.toStr env).data)
    (hiso : '|' ∉ (n.timeIso.toStr env).data) (hiso1 : '|' ∉ (n1.timeIso.toStr env).data) :
    n.timeIso.toStr env = n1.timeIso.toStr env := by
  unfold makeTradeKey at h h1
  simp only at h h1
  split at h
  · simp at h
  · split at h1
    · simp at h1
    · have heq := congrArg String.data ((Option.some.inj h).trans (Option.some.inj h1).symm)
      have hbar : ("|" : String).data = ['|'] := rfl
      simp only [String.data_append, hbar, List.append_assoc, List.singleton_append,
        List.cons_append] at heq
      have h2 := List.append_cancel_left heq
      simp only [List.cons.injEq, true_and] at h2
      obtain ⟨-, h3⟩ := eq_of_append_sep hid hid1 h2
      obtain ⟨h4, -⟩ := eq_of_append_sep hiso hiso1 h3
      exact String.ext h4

theorem normalizeRow_time {env : Env} {now : Int} {row : RawRow} {norm : Row}
    (h : normalizeRow env now row = some (some norm)) :
    ∃ t : Int, env.dateParse (norm.timeIso.toStr env) = some t ∧ norm.timeMs = JVal.num t := by
  unfold normalizeRow at h
  simp only at h
  split at h
  · simp at h
  · split at h
    · simp at h
    · rename_i t ht
      split at h
      · simp only [Option.some.injEq] at h
        subst h
        exact ⟨t, ht, rfl⟩
      · simp at h

theorem normalizeAndKeyBatch_produced {env : Env} {clock : Nat → Int} {league : JVal}
    {rawRows : List RawRow} {current : Batch}
    (hc : normalizeAndKeyBatch env clock league rawRows = some current) :
    ∀ r ∈ current.rows, ∃ i norm k, Produces env clock league rawRows i norm k
      ∧ r = { norm with tradeKey := JVal.str k } := by
  unfold normalizeAndKeyBatch at hc
  cases hl : keyBatchLoop env clock league 0 { rows := [], keySet := [] } rawRows with
  | none => rw [hl] at hc; simp at hc
  | some b =>
    rw [hl] at hc
    simp only [Option.map, Option.some.injEq] at hc
    have hfirst := keyBatchLoop_first env clock league rawRows rawRows 0 _ b (List.drop_zero _)
      hl ⟨by simp, by intro i norm k hi; omega⟩
    intro r hr
    rw [← hc] at hr
    obtain ⟨i, norm, k, -, hprod, hrk, -⟩ := hfirst.1 r (mem_sortNewestFirst.1 hr)
    exact ⟨i, norm, k, hprod, hrk⟩

theorem timeNum_of_shared_key {env : Env} {clock clock1 : Nat → Int} {league : JVal}
    {rawRows rawRows1 : List RawRow} {current current1 : Batch}
    (hc : normalizeAndKeyBatch env clock league rawRows = some current)
    (hc1 : normalizeAndKeyBatch env clock1 league rawRows1 = some current1)
    (hbar : BarFree env rawRows) (hbar1 : BarFree env rawRows1) {r r1 : Row}
    (hr : r ∈ current.rows) (hr1 : r1 ∈ current1.rows) (hkey : r.tradeKey = r1.tradeKey) :
    timeNum r = timeNum r1 := by
  obtain ⟨i, norm, k, ⟨row, hrow, hn, hk⟩, hrk⟩ := normalizeAndKeyBatch_produced hc r hr
  obtain ⟨i1, norm1, k1, ⟨row1, hrow1, hn1, hk1⟩, hrk1⟩ :=
    normalizeAndKeyBatch_produced hc1 r1 hr1
  subst hrk
  subst hrk1
  simp only [JVal.str.injEq] at hkey
  subst hkey
  obtain ⟨hid, hiso, -⟩ := normalizeRow_some hn
  obtain ⟨hid1, hiso1, -⟩ := normalizeRow_some hn1
  have hmem := hbar row (List.getElem?_mem hrow)
  have hmem1 := hbar1 row1 (List.getElem?_mem hrow1)
  have htext := makeTradeKey_time_eq hk hk1 (by rw [hid]; exact hmem.1)
    (by rw [hid1]; exact hmem1.1) (by rw [hiso]; exact hmem.2) (by rw [hiso1]; exact hmem1.2)
  obtain ⟨t, ht, hms⟩ := normalizeRow_time hn
  obtain ⟨t1, ht1, hms1⟩ := normalizeRow_time hn1
  rw [htext, ht1] at ht
  simp only [Option.some.injEq] at ht
  simp only [timeNum, hms, hms1, ht]

theorem detectGap_of_newer (env : Env) {lastMeta : Meta} {currentRows : List Row}
    {currentKeySet : List String} {w : ℚ} {oldest : Row}
    (hwm : lastMeta.lastFetchNewestMs = JVal.num w) (hold : currentRows.getLast? = some oldest)
    (hms : oldest.timeMs = JVal.num (timeNum oldest)) (hnewer : w < timeNum oldest)
    (hkeys : ∀ k ∈ currentKeySet, k ∉ prevKeysOf lastMeta) :
    (detectGap env lastMeta currentRows currentKeySet).detected = true := by
  have hover : (if (prevKeysOf lastMeta).length ≠ 0 then
      currentKeySet.any (fun k => decide (k ∈ prevKeysOf lastMeta)) else false) = false := by
    cases hb : (if (prevKeysOf lastMeta).length ≠ 0 then
      currentKeySet.any (fun k => decide (k ∈ prevKeysOf lastMeta)) else false) with
    | false => rfl
    | true =>
      obtain ⟨k, hk, hk1⟩ := (keyOverlap_eq_true_iff _ _).1 hb
      exact absurd hk1 (hkeys k hk)
  unfold detectGap
  simp only [hold, hwm]
  rw [hms]
  simp only [not_le.2 hnewer, if_false, hover]
  rfl

theorem storedMeta_after_persist {env : Env} {accepts : Nat → List Row → Bool}
    {clock : Nat → Int} {nowFetch nowGap : Int} {store : Storage} {league : JVal}
    {rawRows : List RawRow} {current : Batch} {res : Persisted} {store1 : Storage}
    (hc : normalizeAndKeyBatch env clock league rawRows = some current)
    (h : persistHistoryBatch env accepts clock nowFetch nowGap store league rawRows
      = some (res, store1))
    (hw : WriteStored accepts res.rows) :
    storedMeta env store1 league
      = (nextMetaOf nowFetch nowGap (storedMeta env store league) current res.gapInfo).json := by
  obtain ⟨-, hstore⟩ := persistHistoryBatch_rows hc h
  rw [hstore]
  exact writeArchive_meta_of_stored env store league res.rows _ hw

theorem mem_keySet_iff {env : Env} {clock : Nat → Int} {league : JVal}
    {rawRows : List RawRow} {current : Batch}
    (hc : normalizeAndKeyBatch env clock league rawRows = some current) (k : String) :
    k ∈ current.keySet ↔ ∃ r ∈ current.rows, r.tradeKey = JVal.str k := by
  obtain ⟨hperm, -⟩ := normalizeAndKeyBatch_spec hc
  rw [← mem_keysOf, hperm.mem_iff]
  simp

/-- C28: let the metadata of a league be stored by one `persistHistoryBatch` call
and let a second call for the league follow, the texts of the item identifiers
and time stamps of both batches being free of `|`.  If the oldest `timeMs` of the
second batch is greater than the stored newest watermark, then no trade key of
the second batch is in the stored key set, and the second call reports a gap. -/
theorem detectGap_overlap_redundant (env : Env) (accepts accepts1 : Nat → List Row → Bool)
    (clock clock1 : Nat → Int) (nowFetch nowGap nowFetch1 nowGap1 : Int) (store : Storage)
    (league : JVal) (rawRows rawRows1 : List RawRow) (res res1 : Persisted)
    (store1 store2 : Storage) (current1 : Batch) (oldest : Row) (w : ℚ)
    (h : persistHistoryBatch env accepts clock nowFetch nowGap store league rawRows
      = some (res, store1))
    (hw : WriteStored accepts res.rows)
    (h1 : persistHistoryBatch env accepts1 clock1 nowFetch1 nowGap1 store1 league rawRows1
      = some (res1, store2))
    (hc1 : normalizeAndKeyBatch env clock1 league rawRows1 = some current1)
    (hbar : BarFree env rawRows) (hbar1 : BarFree env rawRows1)
    (hwm : (storedMeta env store1 league).lastFetchNewestMs = JVal.num w)
    (hold : current1.rows.getLast? = some oldest) (hnewer : w < timeNum oldest) :
    (∀ k ∈ current1.keySet, k ∉ prevKeysOf (storedMeta env store1 league))
      ∧ res1.gapInfo.detected = true := by
  obtain ⟨current, hc⟩ := persistHistoryBatch_some h
  have hmeta := storedMeta_after_persist hc h hw
  obtain ⟨-, -, -, hbatch, hsorted, -⟩ := normalizeAndKeyBatch_spec hc
  obtain ⟨-, -, -, hbatch1, hsorted1, -⟩ := normalizeAndKeyBatch_spec hc1
  have hkeys : ∀ k ∈ current1.keySet, k ∉ prevKeysOf (storedMeta env store1 league) := by
    intro k hk hprev
    have hin : k ∈ current.keySet := by
      rw [mem_prevKeysOf, hmeta] at hprev
      simpa [Meta.json, nextMetaOf, List.map_map, Function.comp_def, JVal.json, JVal.orNull]
        using hprev
    obtain ⟨r, hr, hrk⟩ := (mem_keySet_iff hc k).1 hin
    obtain ⟨r1, hr1, hrk1⟩ := (mem_keySet_iff hc1 k).1 hk
    have htime := timeNum_of_shared_key hc hc1 hbar hbar1 hr hr1 (hrk.trans hrk1.symm)
    cases hhead : current.rows.head? with
    | none =>
      rw [List.head?_eq_none_iff.1 hhead] at hr
      simp at hr
    | some newest =>
      have hnew : newest ∈ current.rows := List.mem_of_mem_head? hhead
      have hnewMs := timeMs_eq_num_timeNum (hbatch newest hnew).2.1
      have hwval : w = timeNum newest := by
        rw [hmeta] at hwm
        simp only [Meta.json, nextMetaOf, hhead] at hwm
        rw [hnewMs] at hwm
        simp only [JVal.json, JVal.num.injEq] at hwm
        exact hwm.symm
      have hle := newest_of_sorted hsorted hhead r hr
      have hge := oldest_of_sorted hsorted1 hold r1 hr1
      rw [hwval] at hnewer
      rw [htime] at hle
      exact absurd (lt_of_lt_of_le hnewer hge) (not_lt.2 hle)
  refine ⟨hkeys, ?_⟩
  rw [persistHistoryBatch_gapInfo hc1 h1]
  have holdmem : oldest ∈ current1.rows := List.mem_of_mem_getLast? hold
  exact detectGap_of_newer env hwm hold (timeMs_eq_num_timeNum (hbatch1 oldest holdmem).2.1)
    hnewer hkeys

theorem barFree_of_sample {rawRows : List RawRow}
    (h : ∀ row ∈ rawRows,
      decide ('|' ∈ (row.item_id.toStr sampleEnv).data) = false
        ∧ decide ('|' ∈ (row.time.toStr sampleEnv).data) = false) :
    BarFree sampleEnv rawRows := by
  intro row hrow
  obtain ⟨h1, h2⟩ := h row hrow
  exact ⟨by simpa using h1, by simpa using h2⟩

/-- C28, witness: after the batch with the sale of `item-a` at T100 the batch with
the sale of `item-c` at T200 shares no key with it and is reported as a gap. -/
theorem detectGap_overlap_redundant_witness :
    ∃ res store1 res1 store2 current1,
      persistHistoryBatch sampleEnv acceptAll sampleClock 1000 1000 emptyStorage sampleLeague
          batchA = some (res, store1)
        ∧ persistHistoryBatch sampleEnv acceptAll sampleClock 2000 2000 store1 sampleLeague
          batchC = some (res1, store2)
        ∧ normalizeAndKeyBatch sampleEnv sampleClock sampleLeague batchC = some current1
        ∧ (∀ k ∈ current1.keySet, k ∉ prevKeysOf (storedMeta sampleEnv store1 sampleLeague))
        ∧ res1.gapInfo.detected = true := by
  have hsome : (persistHistoryBatch sampleEnv acceptAll sampleClock 1000 1000 emptyStorage
      sampleLeague batchA).isSome = true := by decide!
  obtain ⟨p, hp⟩ := Option.isSome_iff_exists.mp hsome
  obtain ⟨res, store1⟩ := p
  obtain ⟨current, hc⟩ := persistHistoryBatch_some hp
  have hsome1 : (normalizeAndKeyBatch sampleEnv sampleClock sampleLeague batchC).isSome = true := by
    decide!
  obtain ⟨current1, hc1⟩ := Option.isSome_iff_exists.mp hsome1
  have hnext := persistHistoryBatch_eq acceptAll 2000 2000 store1 hc1
  have hmeta := storedMeta_after_persist hc hp (writeStored_acceptAll res.rows)
  have hcval : (normalizeAndKeyBatch sampleEnv sampleClock sampleLeague batchA).map
      (fun b => b.rows.head?.map (fun r => r.timeMs)) = some (some (JVal.num 100)) := by decide!
  have hwm : (storedMeta sampleEnv store1 sampleLeague).lastFetchNewestMs = JVal.num 100 := by
    rw [hmeta]
    rw [hc] at hcval
    simp only [Option.map_some', Option.some.injEq] at hcval
    cases hh : current.rows.head? with
    | none => rw [hh] at hcval; simp at hcval
    | some r =>
      rw [hh] at hcval
      simp only [Option.map_some', Option.some.injEq] at hcval
      simp only [Meta.json, nextMetaOf, hh, hcval, JVal.json]
  have hlast : (normalizeAndKeyBatch sampleEnv sampleClock sampleLeague batchC).map
      (fun b => b.rows.getLast?.map timeNum) = some (some 200) := by decide!
  rw [hc1] at hlast
  simp only [Option.map_some', Option.some.injEq] at hlast
  cases hl : current1.rows.getLast? with
  | none => rw [hl] at hlast; simp at hlast
  | some oldest =>
    rw [hl] at hlast
    simp only [Option.map_some', Option.some.injEq] at hlast
    obtain ⟨hkeys, hgap⟩ := detectGap_overlap_redundant sampleEnv acceptAll acceptAll sampleClock
      sampleClock 1000 1000 2000 2000 emptyStorage sampleLeague batchA batchC res _ store1 _
      current1 oldest 100 hp (writeStored_acceptAll res.rows) hnext hc1
      (barFree_of_sample (by decide)) (barFree_of_sample (by decide)) hwm hl
      (by rw [hlast]; norm_num)
    exact ⟨res, store1, _, _, current1, hp, hnext, hc1, hkeys, hgap⟩

/-! ### The two directions of the conversion -/

theorem tryConvert_cases {env : Env} (hlc : env.toLowerCase "chaos" = "chaos")
    (hld : env.toLowerCase "divine" = "divine") (currencyMap : List (String × Num)) {r : ℚ}
    (hr : 0 < r) :
    (tryConvertChaosDivineOnly env currencyMap (JVal.str "chaos") (JVal.num r)
          = some (Num.fin 0)
        ∧ tryConvertChaosDivineOnly env currencyMap (JVal.str "divine") (JVal.num r)
          = some (Num.fin 0))
      ∨ (tryConvertChaosDivineOnly env currencyMap (JVal.str "chaos") (JVal.num r) = none
        ∧ tryConvertChaosDivineOnly env currencyMap (JVal.str "divine") (JVal.num r) = none)
      ∨ (tryConvertChaosDivineOnly env currencyMap (JVal.str "chaos") (JVal.num r)
          = some ((Num.orZero (mapGet currencyMap "chaos")).add
              ((Num.orZero (mapGet currencyMap "divine")).mul (Num.fin r)))
        ∧ tryConvertChaosDivineOnly env currencyMap (JVal.str "divine") (JVal.num r)
          = some ((Num.orZero (mapGet currencyMap "divine")).add
              ((Num.orZero (mapGet currencyMap "chaos")).div (Num.fin r)))) := by
  have hc := normalizeCurrency_chaos hlc
  have hd := normalizeCurrency_divine hld
  have hne : ("divine" : String) ≠ "chaos" := by decide
  unfold tryConvertChaosDivineOnly
  simp only [toPositiveNumberOrNull, hr, if_true, hc, hd]
  generalize ((nonZeroEntries currencyMap).any (fun e =>
    decide (normalizeCurrency env (JVal.str e.1) ≠ "chaos"
      ∧ normalizeCurrency env (JVal.str e.1) ≠ "divine"))) = foreign
  by_cases hlen : (nonZeroEntries currencyMap).length = 0
  · left
    simp [hlen]
  · right
    cases foreign with
    | true =>
      left
      simp [hlen]
    | false =>
      right
      simp [hlen, hne]

/-- Rounding in the two directions: for the single sum 3 chaos and the rate 200
the chaos amount is 3 and the divine amount is the double nearest to 3/200, which
is smaller than 3/200, so the chaos amount is 200 times the divine amount only up
to rounding. -/
theorem tryConvertChaosDivineOnly_directions_round :
    tryConvertChaosDivineOnly sampleEnv [("chaos", Num.fin 3)] (JVal.str "chaos")
        (JVal.num 200) = some (Num.fin 3)
      ∧ tryConvertChaosDivineOnly sampleEnv [("chaos", Num.fin 3)] (JVal.str "divine")
        (JVal.num 200) = some (Num.fin (1080863910568919 / 72057594037927936))
      ∧ (3 : ℚ) ≠ 200 * (1080863910568919 / 72057594037927936) := by
  refine ⟨by decide!, by decide!, by norm_num⟩

/-- C29: for every currency map and every positive rate `r`, in an environment
whose `toLowerCase` leaves `chaos` and `divine` as they are,
`tryConvertChaosDivineOnly` gives an amount for the preferred currency `chaos`
exactly when it gives one for `divine`.  In exact arithmetic, that is when both
amounts are finite and none of the four operations of `chaos + divine * r` and
`divine + chaos / r` rounds, the chaos amount is `r` times the divine amount. -/
theorem tryConvertChaosDivineOnly_directions (env : Env) (currencyMap : List (String × Num))
    (r : ℚ) (hr : 0 < r) (hlc : env.toLowerCase "chaos" = "chaos")
    (hld : env.toLowerCase "divine" = "divine") :
    ((tryConvertChaosDivineOnly env currencyMap (JVal.str "chaos") (JVal.num r)).isSome = true
        ↔ (tryConvertChaosDivineOnly env currencyMap (JVal.str "divine")
            (JVal.num r)).isSome = true)
      ∧ ∀ c d : ℚ,
          tryConvertChaosDivineOnly env currencyMap (JVal.str "chaos") (JVal.num r)
            = some (Num.fin c) →
          tryConvertChaosDivineOnly env currencyMap (JVal.str "divine") (JVal.num r)
            = some (Num.fin d) →
          (∀ x y : ℚ, Num.orZero (mapGet currencyMap "chaos") = Num.fin x →
            Num.orZero (mapGet currencyMap "divine") = Num.fin y →
            fl (y * r) = Num.fin (y * r) ∧ fl (x + y * r) = Num.fin (x + y * r)
              ∧ fl (x / r) = Num.fin (x / r) ∧ fl (y + x / r) = Num.fin (y + x / r)) →
          c = r * d := by
  have hr0 : r ≠ 0 := hr.ne'
  rcases tryConvert_cases hlc hld currencyMap hr with ⟨h1, h2⟩ | ⟨h1, h2⟩ | ⟨h1, h2⟩
  · rw [h1, h2]
    refine ⟨Iff.rfl, ?_⟩
    intro c d hc hd _
    simp only [Option.some.injEq, Num.fin.injEq] at hc hd
    rw [← hc, ← hd]
    ring
  · rw [h1, h2]
    exact ⟨Iff.rfl, fun c d hc => by simp at hc⟩
  · rw [h1, h2]
    refine ⟨by simp, ?_⟩
    intro c d hc hd hexact
    simp only [Option.some.injEq] at hc hd
    have hnc := orZero_ne_nan (mapGet currencyMap "chaos")
    have hnd := orZero_ne_nan (mapGet currencyMap "divine")
    cases hx : Num.orZero (mapGet currencyMap "chaos") with
    | fin x =>
      cases hy : Num.orZero (mapGet currencyMap "divine") with
      | fin y =>
        obtain ⟨e1, e2, e3, e4⟩ := hexact x y hx hy
        rw [hx, hy] at hc hd
        simp only [Num.mul, Num.add, Num.div, if_neg hr0, e1, e2, e3, e4, Num.fin.injEq] at hc hd
        rw [← hc, ← hd]
        field_simp
        ring
      | inf n =>
        rw [hx, hy] at hc
        simp [Num.mul, Num.add, hr0] at hc
      | nan => exact absurd hy hnd
    | inf m =>
      rw [hx] at hc
      cases hy : Num.orZero (mapGet currencyMap "divine") with
      | fin y =>
        rw [hy] at hc
        cases hf : fl (y * r) with
        | fin z => simp [Num.mul, Num.add, hf] at hc
        | inf k =>
          simp only [Num.mul, Num.add, hf] at hc
          split at hc <;> simp at hc
        | nan => exact absurd hf (fl_ne_nan _)
      | inf n =>
        rw [hy] at hc
        simp only [Num.mul, Num.add, if_neg hr0] at hc
        split at hc <;> simp at hc
      | nan => exact absurd hy hnd
    | nan => exact absurd hx hnc

/-- C29, witness: the map `{100 chaos, 1 divine}` at the rate 200 gives 300 chaos
and 1.5 divine, without rounding. -/
theorem tryConvertChaosDivineOnly_directions_witness :
    tryConvertChaosDivineOnly sampleEnv [("chaos", Num.fin 100), ("divine", Num.fin 1)]
        (JVal.str "chaos") (JVal.num 200) = some (Num.fin 300)
      ∧ tryConvertChaosDivineOnly sampleEnv [("chaos", Num.fin 100), ("divine", Num.fin 1)]
        (JVal.str "divine") (JVal.num 200) = some (Num.fin (3 / 2))
      ∧ (300 : ℚ) = 200 * (3 / 2) := by
  have h1 : tryConvertChaosDivineOnly sampleEnv [("chaos", Num.fin 100), ("divine", Num.fin 1)]
      (JVal.str "chaos") (JVal.num 200) = some (Num.fin 300) := by decide!
  have h2 : tryConvertChaosDivineOnly sampleEnv [("chaos", Num.fin 100), ("divine", Num.fin 1)]
      (JVal.str "divine") (JVal.num 200) = some (Num.fin (3 / 2)) := by decide!
  refine ⟨h1, h2, (tryConvertChaosDivineOnly_directions sampleEnv
    [("chaos", Num.fin 100), ("divine", Num.fin 1)] 200 (by norm_num) (by decide)
    (by decide)).2 300 (3 / 2) h1 h2 ?_⟩
  intro x y hx hy
  have hx1 : x = 100 := by
    have : Num.fin 100 = Num.fin x := hx
    simp only [Num.fin.injEq] at this
    exact this.symm
  have hy1 : y = 1 := by
    have : Num.fin 1 = Num.fin y := hy
    simp only [Num.fin.injEq] at this
    exact this.symm
  subst hx1
  subst hy1
  refine ⟨?_, ?_, ?_, ?_⟩ <;> decide!

/-! ### A batch without sellable records -/

/-- C30: when `persistHistoryBatch` is called with a batch that yields no sellable
record and its write is stored, the stored newest and oldest watermarks are
`null` and the stored key set is empty, the returned rows are the archived rows,
and the next `persistHistoryBatch` call for the league reports no gap whatever
its batch is.  When the write is accepted at the first attempt and the archived
records are JSON values, reading the archive gives the same records as before. -/
theorem persistHistoryBatch_unsellable_batch (env : Env) (accepts accepts1 : Nat → List Row → Bool)
    (clock clock1 : Nat → Int) (nowFetch nowGap nowFetch1 nowGap1 : Int) (store : Storage)
    (league : JVal) (rawRows rawRows1 : List RawRow) (current : Batch) (res : Persisted)
    (store1 : Storage)
    (hc : normalizeAndKeyBatch env clock league rawRows = some current)
    (hempty : current.rows = [])
    (h : persistHistoryBatch env accepts clock nowFetch nowGap store league rawRows
      = some (res, store1))
    (hw : WriteStored accepts res.rows) :
    (storedMeta env store1 league).lastFetchNewestMs = JVal.null
      ∧ (storedMeta env store1 league).lastFetchOldestMs = JVal.null
      ∧ (storedMeta env store1 league).lastFetchKeys = some []
      ∧ res.rows = (readArchive env store league).rows
      ∧ (∀ res1 store2,
          persistHistoryBatch env accepts1 clock1 nowFetch1 nowGap1 store1 league rawRows1
            = some (res1, store2) → res1.gapInfo.detected = false)
      ∧ (accepts 0 res.rows = true →
          (∀ r ∈ (readArchive env store league).rows, r.json = r) →
          (readArchive env store1 league).rows = (readArchive env store league).rows) := by
  obtain ⟨hperm, -⟩ := normalizeAndKeyBatch_spec hc
  have hkeys : current.keySet = [] := by
    rw [hempty] at hperm
    have := hperm.length_eq
    simp only [keysOf, List.map_nil, List.length_nil, List.length_map] at this
    exact List.length_eq_zero.1 this.symm
  obtain ⟨hrows, hstore⟩ := persistHistoryBatch_rows hc h
  obtain ⟨hnd, hsorted⟩ : (keysOf (readArchive env store league).rows).Nodup
      ∧ (readArchive env store league).rows.Sorted (fun a b => timeNum b ≤ timeNum a) :=
    ⟨(sanitizeArchiveRows_spec _).1, (sanitizeArchiveRows_spec _).2.2⟩
  have hvalid : ∀ r ∈ (readArchive env store league).rows, validRow r = true :=
    (readArchive_rows_spec env store league).2
  have hmerge : res.rows = (readArchive env store league).rows := by
    rw [hrows, hempty]
    exact mergeRows_nil hnd hsorted
  have hmeta : storedMeta env store1 league
      = (nextMetaOf nowFetch nowGap (storedMeta env store league) current res.gapInfo).json := by
    rw [hstore]
    exact writeArchive_meta_of_stored env store league res.rows _ hw
  have hnewest : (storedMeta env store1 league).lastFetchNewestMs = JVal.null := by
    rw [hmeta]
    simp [Meta.json, nextMetaOf, hempty, JVal.json]
  refine ⟨hnewest, ?_, ?_, hmerge, ?_, ?_⟩
  · rw [hmeta]
    simp [Meta.json, nextMetaOf, hempty, JVal.json]
  · rw [hmeta]
    simp [Meta.json, nextMetaOf, hkeys]
  · intro res1 store2 h1
    obtain ⟨current1, hc1⟩ := persistHistoryBatch_some h1
    rw [persistHistoryBatch_gapInfo hc1 h1]
    exact detectGap_of_no_watermark env hnewest _ _
  · intro hacc hjson
    rw [readArchive_after_persist hc h hacc, hempty, mergeRows_nil hnd hsorted,
      filter_valid_of_all hvalid]
    exact (List.map_congr_left hjson).trans (List.map_id _)

/-- C30, witness: the empty batch persisted into the slot whose previous fetch ended
at T100 erases the watermark, and the batch with sales at T200 and T150 that
follows reports no gap. -/
theorem persistHistoryBatch_unsellable_batch_witness :
    ∃ res store1 res1 store2,
      persistHistoryBatch sampleEnv acceptAll sampleClock 1000 1000 gapStorage sampleLeague []
          = some (res, store1)
        ∧ (storedMeta sampleEnv gapStorage sampleLeague).lastFetchNewestMs = JVal.num 100
        ∧ (storedMeta sampleEnv store1 sampleLeague).lastFetchNewestMs = JVal.null
        ∧ (storedMeta sampleEnv store1 sampleLeague).lastFetchKeys = some []
        ∧ persistHistoryBatch sampleEnv acceptAll sampleClock 2000 2000 store1 sampleLeague
            gapBatch = some (res1, store2)
        ∧ res1.gapInfo.detected = false := by
  have hsome : (persistHistoryBatch sampleEnv acceptAll sampleClock 1000 1000 gapStorage
      sampleLeague []).isSome = true := by decide!
  obtain ⟨p, hp⟩ := Option.isSome_iff_exists.mp hsome
  obtain ⟨res, store1⟩ := p
  obtain ⟨current1, hc1⟩ := normalizeAndKeyBatch_sample_exists
  have hnext := persistHistoryBatch_eq acceptAll 2000 2000 store1 hc1
  obtain ⟨h1, -, h3, -, h5, -⟩ := persistHistoryBatch_unsellable_batch sampleEnv acceptAll
    acceptAll sampleClock sampleClock 1000 1000 2000 2000 gapStorage sampleLeague [] gapBatch
    { rows := [], keySet := [] } res store1 rfl rfl hp (writeStored_acceptAll res.rows)
  exact ⟨res, store1, _, _, hp, by decide!, h1, h3, hnext, h5 _ _ hnext⟩

end PoeTrade
